import Mathlib

/-!
# Shortest-path engine: a shallow embedding of `main.go`

The Go program stores a graph as adjacency lists and answers point-to-point
queries with Dijkstra (binary heap from `container/heap`) or SPFA, and
all-pairs queries with Johnson's algorithm.

Conventions of the embedding.

* Go `int` vertex ids and `int64` weights are `Int`; every `int64` addition
  or subtraction of the source is wrapped by `wrap64` (two's complement).
* Slices are lists; `s[i]` is `s.getD i.toNat d` and `s[i] = x` is
  `s.set i.toNat x`.  All theorems work under `Graph.WF`, where every index
  is in range.
* Loops whose termination is not syntactically evident take a `fuel`
  argument and return `none` when it is exhausted.
* `fmt.Println` calls are not modelled.
* The `index` field of `Item` is written by `Swap`, `Push` and `Pop` and never
  read; it is dropped.
-/

set_option autoImplicit false

namespace ShortestPath

/-! ## Data model -/

/-- Go `type Edge struct { To int; Weight int64 }`. -/
structure Edge where
  To : Int
  Weight : Int
deriving DecidableEq, Repr

/-- Go `type Graph struct { adj [][]Edge; n int; directed bool }`. -/
structure Graph where
  adj : List (List Edge)
  n : Nat
  directed : Bool
deriving DecidableEq, Repr

/-- Two's-complement wrap-around of a signed 64-bit result. -/
def wrap64 (x : Int) : Int := (x + 2 ^ 63) % 2 ^ 64 - 2 ^ 63

/-- Go `const INF int64 = 1e18`. -/
def INF : Int := 1000000000000000000

/-- Go `math.MaxInt64`. -/
def MaxInt64 : Int := 9223372036854775807

/-- Go `g.adj[u]`. -/
def Graph.adjAt (g : Graph) (u : Int) : List Edge := g.adj.getD u.toNat []

/-- Go `NewGraph`. -/
def NewGraph (n : Nat) (directed : Bool) : Graph :=
  { adj := List.replicate (n + 1) [], n := n, directed := directed }

/-- Go `(*Graph).AddEdge`. -/
def AddEdge (g : Graph) (from_ to_ : Int) (weight : Int) : Graph :=
  let adj1 := g.adj.set from_.toNat (g.adj.getD from_.toNat [] ++ [{ To := to_, Weight := weight }])
  if !g.directed then
    { g with adj := adj1.set to_.toNat (adj1.getD to_.toNat [] ++ [{ To := from_, Weight := weight }]) }
  else
    { g with adj := adj1 }

/-- Go `(*Graph).HasNegativeEdge`: scans `adj[1] .. adj[n]`. -/
def HasNegativeEdge (g : Graph) : Bool :=
  (List.range' 1 g.n).any fun i => (g.adj.getD i []).any fun e => decide (e.Weight < 0)

/-! ## Priority queue (`PriorityQueue` with Go's `container/heap`) -/

/-- Go `type Item struct { vertex int; distance int64; index int }` without `index`. -/
structure Item where
  vertex : Int
  distance : Int
deriving DecidableEq, Repr, Inhabited

/-- Go `PriorityQueue.Less`. -/
def pqLess (pq : List Item) (i j : Nat) : Bool :=
  decide ((pq.getD i default).distance < (pq.getD j default).distance)

/-- Go `PriorityQueue.Swap`. -/
def pqSwap (pq : List Item) (i j : Nat) : List Item :=
  (pq.set i (pq.getD j default)).set j (pq.getD i default)

/-- Go `heap.up`: the loop runs at most `j` times, which is the fuel given by the callers. -/
def heapUp : Nat → List Item → Nat → List Item
  | 0, pq, _ => pq
  | fuel + 1, pq, j =>
    let i := (j - 1) / 2
    if i = j ∨ pqLess pq j i = false then pq
    else heapUp fuel (pqSwap pq i j) i

/-- Go `heap.down` on the prefix of length `n`. -/
def heapDown : Nat → List Item → Nat → Nat → List Item
  | 0, pq, _, _ => pq
  | fuel + 1, pq, i, n =>
    let j1 := 2 * i + 1
    if j1 ≥ n then pq
    else
      let j := if j1 + 1 < n ∧ pqLess pq (j1 + 1) j1 = true then j1 + 1 else j1
      if pqLess pq j i = false then pq
      else heapDown fuel (pqSwap pq i j) j n

/-- Go `heap.Init`. -/
def heapInit (pq : List Item) : List Item :=
  (List.range (pq.length / 2)).reverse.foldl (fun h i => heapDown pq.length h i pq.length) pq

/-- Go `heap.Push`: append, then sift up from the last position. -/
def heapPush (pq : List Item) (x : Item) : List Item :=
  let pq1 := pq ++ [x]
  heapUp pq1.length pq1 (pq1.length - 1)

/-- Go `heap.Pop`: swap first and last, sift down on the shorter prefix, remove the last. -/
def heapPop (pq : List Item) : Item × List Item :=
  let n := pq.length - 1
  let pq1 := heapDown n (pqSwap pq 0 n) 0 n
  (pq1.getLastD default, pq1.dropLast)

/-! ## Path reconstruction (shared by SPFA and Dijkstra) -/

/-- Go `for at := end; at != -1; at = parent[at] { path = append(path, at); if at == start { break } }`. -/
def buildPath (parent : List Int) (start : Int) : Nat → Int → List Int → Option (List Int)
  | 0, _, _ => none
  | fuel + 1, at_, path =>
    if at_ = -1 then some path
    else if at_ = start then some (path ++ [at_])
    else buildPath parent start fuel (parent.getD at_.toNat (-1)) (path ++ [at_])

/-! ## SPFA -/

/-- Working state of `SPFA`. -/
structure SPFAState where
  dist : List Int
  parent : List Int
  inQueue : List Bool
  queue : List Int
  pushCount : List Nat
deriving DecidableEq, Repr

/-- Body of `for _, edge := range g.adj[u]` in `SPFA`; `none` is the
"Negative cycle detected" return. -/
def spfaRelax (n : Nat) (u : Int) (st : SPFAState) (edge : Edge) : Option SPFAState :=
  let v := edge.To
  if st.dist.getD u.toNat 0 ≠ INF ∧
      wrap64 (st.dist.getD u.toNat 0 + edge.Weight) < st.dist.getD v.toNat 0 then
    let dist1 := st.dist.set v.toNat (wrap64 (st.dist.getD u.toNat 0 + edge.Weight))
    let parent1 := st.parent.set v.toNat u
    if st.inQueue.getD v.toNat false = false then
      let pushCount1 := st.pushCount.set v.toNat (st.pushCount.getD v.toNat 0 + 1)
      if pushCount1.getD v.toNat 0 > n then none
      else some { dist := dist1, parent := parent1, inQueue := st.inQueue.set v.toNat true,
                  queue := st.queue ++ [v], pushCount := pushCount1 }
    else some { st with dist := dist1, parent := parent1 }
  else some st

/-- The inner `for` loop of `SPFA` over the edges of `u`. -/
def spfaEdges (n : Nat) (u : Int) : SPFAState → List Edge → Option SPFAState
  | st, [] => some st
  | st, e :: es =>
    match spfaRelax n u st e with
    | none => none
    | some st1 => spfaEdges n u st1 es

/-- The `for len(queue) > 0` loop of `SPFA`.  Outer `none`: out of fuel; inner
`none`: negative cycle detected. -/
def spfaLoop (g : Graph) : Nat → SPFAState → Option (Option SPFAState)
  | fuel, st =>
    match st.queue with
    | [] => some (some st)
    | u :: rest =>
      match fuel with
      | 0 => none
      | fuel1 + 1 =>
        match spfaEdges g.n u { st with queue := rest, inQueue := st.inQueue.set u.toNat false }
            (g.adjAt u) with
        | none => some none
        | some st1 => spfaLoop g fuel1 st1

/-- Initial state of `SPFA`. -/
def spfaInit (g : Graph) (start : Int) : SPFAState :=
  { dist := (List.replicate (g.n + 1) INF).set start.toNat 0
    parent := List.replicate (g.n + 1) (-1)
    inQueue := (List.replicate (g.n + 1) false).set start.toNat true
    queue := [start]
    pushCount := (List.replicate (g.n + 1) 0).set start.toNat 1 }

/-- Go `(*Graph).SPFA`.  The result is `(path, distance, ok)`; Go's `nil` path is `[]`. -/
def SPFA (fuel : Nat) (g : Graph) (start end_ : Int) : Option (List Int × Int × Bool) :=
  match spfaLoop g fuel (spfaInit g start) with
  | none => none
  | some none => some ([], -1, false)
  | some (some st) =>
    if st.dist.getD end_.toNat 0 = INF then some ([], -1, false)
    else
      match buildPath st.parent start fuel end_ [] with
      | none => none
      | some path => some (path.reverse, st.dist.getD end_.toNat 0, true)

/-! ## Dijkstra -/

/-- Working state of `Dijkstra`. -/
structure DState where
  dist : List Int
  parent : List Int
  pq : List Item
deriving DecidableEq, Repr

/-- Body of `for _, edge := range g.adj[u.vertex]` in `Dijkstra`. -/
def dijkstraRelax (u : Int) (st : DState) (edge : Edge) : DState :=
  let v := edge.To
  let newDist := wrap64 (st.dist.getD u.toNat 0 + edge.Weight)
  if newDist < st.dist.getD v.toNat 0 then
    { dist := st.dist.set v.toNat newDist
      parent := st.parent.set v.toNat u
      pq := heapPush st.pq { vertex := v, distance := newDist } }
  else st

/-- The `for pq.Len() > 0` loop of `Dijkstra`; `none` is out of fuel. -/
def dijkstraLoop (g : Graph) (end_ : Int) : Nat → DState → Option DState
  | fuel, st =>
    if st.pq.length = 0 then some st
    else
      match fuel with
      | 0 => none
      | fuel1 + 1 =>
        let u := (heapPop st.pq).1
        let st1 : DState := { st with pq := (heapPop st.pq).2 }
        if u.vertex = end_ then some st1
        else if u.distance > st1.dist.getD u.vertex.toNat 0 then dijkstraLoop g end_ fuel1 st1
        else dijkstraLoop g end_ fuel1 ((g.adjAt u.vertex).foldl (dijkstraRelax u.vertex) st1)

/-- Initial state of `Dijkstra`. -/
def dijkstraInit (g : Graph) (start : Int) : DState :=
  { dist := (List.replicate (g.n + 1) INF).set start.toNat 0
    parent := List.replicate (g.n + 1) (-1)
    pq := heapPush (heapInit []) { vertex := start, distance := 0 } }

/-- Go `(*Graph).Dijkstra`. -/
def Dijkstra (fuel : Nat) (g : Graph) (start end_ : Int) : Option (List Int × Int × Bool) :=
  match dijkstraLoop g end_ fuel (dijkstraInit g start) with
  | none => none
  | some st =>
    if st.dist.getD end_.toNat 0 = INF then some ([], -1, false)
    else
      match buildPath st.parent start fuel end_ [] with
      | none => none
      | some path => some (path.reverse, st.dist.getD end_.toNat 0, true)

/-! ## Dispatcher -/

/-- Go `(*Graph).FindShortestPath` with its three callees as parameters. -/
def FindShortestPathWith (hasNeg : Graph → Bool)
    (spfa dijkstra : Graph → Int → Int → Option (List Int × Int × Bool))
    (g : Graph) (start end_ : Int) : Option (List Int × Int × Bool) :=
  if start ≤ 0 ∨ start > g.n ∨ end_ ≤ 0 ∨ end_ > g.n then some ([], -1, false)
  else if hasNeg g = true then spfa g start end_
  else dijkstra g start end_

/-- Go `(*Graph).FindShortestPath`. -/
def FindShortestPath (fuel : Nat) (g : Graph) (start end_ : Int) :
    Option (List Int × Int × Bool) :=
  FindShortestPathWith HasNegativeEdge (SPFA fuel) (Dijkstra fuel) g start end_

/-! ## Johnson -/

/-- Body of the innermost loop of the potential computation of `Johnson`
(`if h[u] != math.MaxInt64 && h[u]+w < h[v] { h[v] = h[u] + w; if i == n+1 { return nil, false } }`);
`last` is `i == n+1` and `none` is the "Negative cycle detected" return, after
which the store to `h[v]` can no longer be observed. -/
def johnsonRelax (last : Bool) (u : Int) (h : List Int) (edge : Edge) : Option (List Int) :=
  let v := edge.To
  let w := edge.Weight
  if h.getD u.toNat 0 ≠ MaxInt64 ∧ wrap64 (h.getD u.toNat 0 + w) < h.getD v.toNat 0 then
    if last = true then none
    else some (h.set v.toNat (wrap64 (h.getD u.toNat 0 + w)))
  else some h

/-- The loop `for _, edge := range tempGraph.adj[u]` of `Johnson`. -/
def johnsonEdges (last : Bool) (u : Int) : List Int → List Edge → Option (List Int)
  | h, [] => some h
  | h, e :: es =>
    match johnsonRelax last u h e with
    | none => none
    | some h1 => johnsonEdges last u h1 es

/-- The loop `for u := 1; u <= n+1; u++` of `Johnson`, over the listed values of `u`. -/
def johnsonRound (tg : Graph) (last : Bool) : List Nat → List Int → Option (List Int)
  | [], h => some h
  | u :: us, h =>
    match johnsonEdges last u h (tg.adjAt u) with
    | none => none
    | some h1 => johnsonRound tg last us h1

/-- The loop `for i := 1; i <= n+1; i++` of `Johnson`, over the listed values of `i`. -/
def johnsonRounds (tg : Graph) (n : Nat) : List Nat → List Int → Option (List Int)
  | [], h => some h
  | i :: is, h =>
    match johnsonRound tg (decide (i = n + 1)) (List.range' 1 (n + 1)) h with
    | none => none
    | some h1 => johnsonRounds tg n is h1

/-- The augmented graph `tempGraph` of `Johnson`: the edges of `adj[1..n]` and
a zero-weight edge from `n+1` to every vertex. -/
def johnsonTemp (g : Graph) : Graph :=
  let t1 := (List.range' 1 g.n).foldl
    (fun t (u : Nat) => (g.adjAt u).foldl (fun t1 e => AddEdge t1 u e.To e.Weight) t)
    (NewGraph (g.n + 1) true)
  (List.range' 1 g.n).foldl (fun t (i : Nat) => AddEdge t (g.n + 1 : Nat) i 0) t1

/-- The potentials `h` of `Johnson`; `none` is the "Negative cycle detected" return. -/
def johnsonPotentials (g : Graph) : Option (List Int) :=
  johnsonRounds (johnsonTemp g) g.n (List.range' 1 (g.n + 1))
    ((List.replicate (g.n + 2) MaxInt64).set (g.n + 1) 0)

/-- The graph `reweightedGraph` of `Johnson`. -/
def johnsonReweighted (g : Graph) (h : List Int) : Graph :=
  (List.range' 1 g.n).foldl
    (fun t (u : Nat) => (g.adjAt u).foldl
      (fun t1 e => AddEdge t1 u e.To
        (wrap64 (wrap64 (e.Weight + h.getD u 0) - h.getD e.To.toNat 0))) t)
    (NewGraph g.n true)

/-- Working state of the Dijkstra loop written out inside `Johnson`. -/
structure JState where
  dist : List Int
  pq : List Item
deriving DecidableEq, Repr

/-- Body of `for _, edge := range reweightedGraph.adj[v]` in `Johnson`. -/
def johnsonDRelax (v : Int) (st : JState) (edge : Edge) : JState :=
  let to_ := edge.To
  let weight := edge.Weight
  if wrap64 (st.dist.getD v.toNat 0 + weight) < st.dist.getD to_.toNat 0 then
    let dist1 := st.dist.set to_.toNat (wrap64 (st.dist.getD v.toNat 0 + weight))
    { dist := dist1, pq := heapPush st.pq { vertex := to_, distance := dist1.getD to_.toNat 0 } }
  else st

/-- The `for pq.Len() > 0` loop inside `Johnson`; `none` is out of fuel. -/
def johnsonDLoop (rg : Graph) : Nat → JState → Option JState
  | fuel, st =>
    if st.pq.length = 0 then some st
    else
      match fuel with
      | 0 => none
      | fuel1 + 1 =>
        let item := (heapPop st.pq).1
        let st1 : JState := { st with pq := (heapPop st.pq).2 }
        if item.distance > st1.dist.getD item.vertex.toNat 0 then johnsonDLoop rg fuel1 st1
        else johnsonDLoop rg fuel1 ((rg.adjAt item.vertex).foldl (johnsonDRelax item.vertex) st1)

/-- The loop `for v := 1; v <= n; v++` of `Johnson` that undoes the reweighting on row `u`. -/
def johnsonRow (n : Nat) (h : List Int) (u : Nat) (dd : List Int) (row : List Int) : List Int :=
  (List.range' 1 n).foldl
    (fun r v => r.set v
      (if dd.getD v 0 ≠ MaxInt64 then wrap64 (wrap64 (dd.getD v 0 - h.getD u 0) + h.getD v 0)
       else MaxInt64))
    row

/-- The loop `for u := 1; u <= n; u++` of `Johnson` that runs Dijkstra from every vertex. -/
def johnsonSources (fuel : Nat) (n : Nat) (h : List Int) (rg : Graph) :
    List Nat → List (List Int) → Option (List (List Int))
  | [], dist => some dist
  | u :: us, dist =>
    match johnsonDLoop rg fuel
        { dist := (List.replicate (n + 1) MaxInt64).set u 0
          pq := heapPush (heapInit []) { vertex := u, distance := 0 } } with
    | none => none
    | some st =>
      johnsonSources fuel n h rg us (dist.set u (johnsonRow n h u st.dist (dist.getD u [])))

/-- Go `(*Graph).Johnson`.  Go's `nil` matrix is `[]`. -/
def Johnson (fuel : Nat) (g : Graph) : Option (List (List Int) × Bool) :=
  match johnsonPotentials g with
  | none => some ([], false)
  | some h =>
    match johnsonSources fuel g.n h (johnsonReweighted g h) (List.range' 1 g.n)
        (List.replicate (g.n + 1) (List.replicate (g.n + 1) MaxInt64)) with
    | none => none
    | some dist => some (dist, true)

/-! ## Specification vocabulary -/

/-- Graph invariant of the data model: `adj` has rows `0..n` and every stored
edge points to a vertex in `[1, n]`. -/
def Graph.WF (g : Graph) : Prop :=
  g.adj.length = g.n + 1 ∧ ∀ l ∈ g.adj, ∀ e ∈ l, 1 ≤ e.To ∧ e.To ≤ (g.n : Int)

instance (g : Graph) : Decidable g.WF := by
  unfold Graph.WF
  infer_instance

/-- The vertex id `v` lies in `[1, n]`. -/
def Graph.IsVertex (g : Graph) (v : Int) : Prop := 1 ≤ v ∧ v ≤ (g.n : Int)

instance (g : Graph) (v : Int) : Decidable (g.IsVertex v) := by
  unfold Graph.IsVertex
  infer_instance

/-- `Walk g s t w k`: some sequence of `k` stored edges leads from `s` to `t`
and its weights add up to `w` (over the integers, without wrap-around). -/
inductive Walk (g : Graph) (s : Int) : Int → Int → Nat → Prop
  | nil : Walk g s s 0 0
  | snoc {v w : Int} {k : Nat} (e : Edge) :
      Walk g s v w k → e ∈ g.adjAt v → Walk g s e.To (w + e.Weight) (k + 1)

/-- `t` can be reached from `s` along stored edges. -/
def Reachable (g : Graph) (s t : Int) : Prop := ∃ w k, Walk g s t w k

/-- `d` is the minimum total weight over all walks from `s` to `t`. -/
def IsShortestDist (g : Graph) (s t d : Int) : Prop :=
  (∃ k, Walk g s t d k) ∧ ∀ w k, Walk g s t w k → d ≤ w

/-- Some closed walk of negative total weight starts at a vertex reachable from `s`. -/
def NegCycleFrom (g : Graph) (s : Int) : Prop :=
  ∃ v w k c m, Walk g s v w k ∧ Walk g v v c m ∧ c < 0

/-- Every edge leaving a vertex of `[1, n]` has weight `≥ 0`. -/
def Graph.NonNeg (g : Graph) : Prop :=
  ∀ u : Int, g.IsVertex u → ∀ e ∈ g.adjAt u, 0 ≤ e.Weight

/-- Every walk from `s` with at most `n` edges weighs less than the sentinel `INF`. -/
def BelowINF (g : Graph) (s : Int) : Prop :=
  ∀ v w k, k ≤ g.n → Walk g s v w k → w < INF

/-- Every walk from `s` with at most `n` edges weighs more than `-INF`. -/
def AboveNegINF (g : Graph) (s : Int) : Prop :=
  ∀ v w k, k ≤ g.n → Walk g s v w k → -INF < w

/-- With enough fuel the computation `f` returns `r`. -/
def Returns {α : Type} (f : Nat → Option α) (r : α) : Prop :=
  ∃ fuel0, ∀ fuel, fuel0 ≤ fuel → f fuel = some r

/-- `WalkV g s t w vs`: a walk from `s` to `t` of weight `w` that visits the
vertices `vs`, most recent first (so `vs` starts with `t` and ends with `s`). -/
inductive WalkV (g : Graph) (s : Int) : Int → Int → List Int → Prop
  | nil : WalkV g s s 0 [s]
  | snoc {v w : Int} {vs : List Int} (e : Edge) :
      WalkV g s v w vs → e ∈ g.adjAt v → WalkV g s e.To (w + e.Weight) (e.To :: vs)

/-- Every stored edge weight lies in `[-W, W]`. -/
def Graph.WeightsWithin (g : Graph) (W : Int) : Prop :=
  ∀ l ∈ g.adj, ∀ e ∈ l, -W ≤ e.Weight ∧ e.Weight ≤ W

instance (g : Graph) (W : Int) : Decidable (g.WeightsWithin W) := by
  unfold Graph.WeightsWithin
  infer_instance

/-- The first graph built in `main`. -/
def mainGraph1 : Graph :=
  AddEdge (AddEdge (AddEdge (AddEdge (AddEdge (AddEdge (AddEdge (AddEdge (NewGraph 5 true)
    1 2 10) 1 3 3) 2 3 1) 2 4 2) 3 2 4) 3 4 8) 3 5 2) 4 5 7

/-- The second graph built in `main` (one negative edge). -/
def mainGraph2 : Graph :=
  AddEdge (AddEdge (AddEdge (AddEdge (NewGraph 4 true) 1 2 3) 2 3 (-8)) 1 3 5) 3 4 2

/-- The third graph built in `main` (a negative cycle). -/
def mainGraph3 : Graph :=
  AddEdge (AddEdge (AddEdge (NewGraph 3 true) 1 2 2) 2 3 3) 3 1 (-6)

/-- `path` is a non-empty vertex sequence whose consecutive vertices are joined
by stored edges that can be chosen with weights adding up to `d`. -/
def IsPathWithWeight (g : Graph) : List Int → Int → Prop
  | [], _ => False
  | [_], d => d = 0
  | u :: v :: rest, d => ∃ e ∈ g.adjAt u, e.To = v ∧ IsPathWithWeight g (v :: rest) (d - e.Weight)

instance instDecidableIsPathWithWeight (g : Graph) :
    (path : List Int) → (d : Int) → Decidable (IsPathWithWeight g path d)
  | [], _ => isFalse (by simp [IsPathWithWeight])
  | [_], d => decidable_of_iff (d = 0) (by simp [IsPathWithWeight])
  | u :: v :: rest, d =>
    have : ∀ e : Edge, Decidable (e.To = v ∧ IsPathWithWeight g (v :: rest) (d - e.Weight)) :=
      fun e => @instDecidableAnd _ _ _ (instDecidableIsPathWithWeight g (v :: rest) (d - e.Weight))
    decidable_of_iff (∃ e ∈ g.adjAt u, e.To = v ∧ IsPathWithWeight g (v :: rest) (d - e.Weight))
      (by simp [IsPathWithWeight])

/-- A graph where the `int64` sum `1 + math.MaxInt64` wraps around on the cycle `1 → 2 → 1`. -/
def overflowGraph : Graph :=
  AddEdge (AddEdge (AddEdge (NewGraph 3 true) 1 2 1) 2 1 9223372036854775807) 1 3 5

/-- A graph whose only edge weighs exactly the sentinel `10^18`. -/
def sentinelGraph : Graph := AddEdge (NewGraph 2 true) 1 2 1000000000000000000

/-- A graph with a negative self-loop behind an edge that weighs the sentinel `10^18`. -/
def hiddenCycleGraph : Graph :=
  AddEdge (AddEdge (NewGraph 2 true) 1 2 1000000000000000000) 2 2 (-1)

/-- A graph whose cycle `1 → 2 → 1` has weights `-1` and `math.MinInt64`, so that
the `int64` sum along it wraps around. -/
def wrapCycleGraph : Graph :=
  AddEdge (AddEdge (NewGraph 2 true) 1 2 (-1)) 2 1 (-9223372036854775808)

/-- The slice `h` is a feasible potential: no edge out of a vertex of `[1, n]`
can lower the value of its target. -/
def Feasible (g : Graph) (h : List Int) : Prop :=
  ∀ u ∈ List.range' 1 g.n, ∀ e ∈ g.adj.getD u [],
    h.getD e.To.toNat 0 ≤ h.getD u 0 + e.Weight

instance (g : Graph) (h : List Int) : Decidable (Feasible g h) := by
  unfold Feasible
  infer_instance

/-- Number of stored edges, counted over all adjacency lists. -/
def Graph.numEdges (g : Graph) : Nat := (g.adj.map List.length).sum

/-! ## Heap order -/

/-- Key of the item at position `i` of the priority queue. -/
def pqKey (pq : List Item) (i : Nat) : Int := (pq.getD i default).distance

/-- The first `n` positions satisfy the binary-heap order: no child is smaller than its parent. -/
def IsHeapUpTo (pq : List Item) (n : Nat) : Prop :=
  ∀ k, 0 < k → k < n → pqKey pq ((k - 1) / 2) ≤ pqKey pq k

/-- The whole queue satisfies the binary-heap order. -/
def IsHeap (pq : List Item) : Prop := IsHeapUpTo pq pq.length

/-- Heap order everywhere except possibly between `j` and its parent (state of `heap.up`). -/
def UpInv (pq : List Item) (j : Nat) : Prop :=
  (∀ k, 0 < k → k < pq.length → k ≠ j → pqKey pq ((k - 1) / 2) ≤ pqKey pq k) ∧
  (∀ c, 0 < c → c < pq.length → (c - 1) / 2 = j → 0 < j →
    pqKey pq ((j - 1) / 2) ≤ pqKey pq c)

/-- Heap order on the first `n` positions except possibly between `i` and its
children (state of `heap.down`). -/
def DownInv (pq : List Item) (i n : Nat) : Prop :=
  (∀ k, 0 < k → k < n → (k - 1) / 2 ≠ i → pqKey pq ((k - 1) / 2) ≤ pqKey pq k) ∧
  (∀ c, 0 < c → c < n → (c - 1) / 2 = i → 0 < i →
    pqKey pq ((i - 1) / 2) ≤ pqKey pq c)

/-! ## Invariants of the Dijkstra loop -/

/-- Shape invariant of the Dijkstra state: slices have `n+1` entries, distances
are `int64` values, queued vertices are in `[1, n]`, and the queue is a heap. -/
def DBase (g : Graph) (st : DState) : Prop :=
  st.dist.length = g.n + 1 ∧ st.parent.length = g.n + 1 ∧
  (∀ x ∈ st.dist, -(2 ^ 63 : Int) ≤ x) ∧
  (∀ it ∈ st.pq, g.IsVertex it.vertex) ∧ IsHeap st.pq

/-- Termination measure of the Dijkstra loop: every iteration pops one item and
every push lowers one distance. -/
def dMeasure (st : DState) : Nat :=
  ((st.pq.length : Int) + 2 * (st.dist.map (fun x => x + 2 ^ 63)).sum).toNat

/-- Integer form of `dMeasure`. -/
def dMeasureZ (st : DState) : Int :=
  (st.pq.length : Int) + 2 * (st.dist.map (fun x => x + 2 ^ 63)).sum

/-- Entry `v` of `dist`. -/
def DState.d (st : DState) (v : Int) : Int := st.dist.getD v.toNat 0

/-- Entry `v` of `parent`. -/
def DState.p (st : DState) (v : Int) : Int := st.parent.getD v.toNat (-1)

/-- `v` is settled: it has been reached and its current distance is no longer queued. -/
def DSettled (inf : Int) (st : DState) (v : Int) : Prop :=
  st.d v ≠ inf ∧ ({ vertex := v, distance := st.d v } : Item) ∉ st.pq

/-- The edges `es` out of `u` are relaxed in `st`. -/
def DEdges (inf : Int) (st : DState) (u : Int) (es : List Edge) : Prop :=
  ∀ e ∈ es, st.d e.To ≤ st.d u + e.Weight ∧ st.d u + e.Weight < inf

/-- Part of the Dijkstra invariant that holds at every point of the loop, also
between two relaxations; `inf` is the sentinel the distances were initialised with. -/
def DCore (g : Graph) (start inf : Int) (st : DState) : Prop :=
  st.pq.Nodup ∧
  st.d start = 0 ∧
  (∀ v, g.IsVertex v → st.d v ≤ inf) ∧
  (∀ it ∈ st.pq, st.d it.vertex ≤ it.distance ∧ it.distance < inf) ∧
  (∀ v, g.IsVertex v → st.d v ≠ inf → ∃ k, Walk g start v (st.d v) k) ∧
  (∀ u, g.IsVertex u → DSettled inf st u → ∀ it ∈ st.pq, st.d u ≤ it.distance) ∧
  (∃ rank : Int → Nat, ∀ v, g.IsVertex v → v ≠ start → st.d v ≠ inf →
    g.IsVertex (st.p v) ∧ DSettled inf st (st.p v) ∧
    (∃ e ∈ g.adjAt (st.p v), e.To = v ∧ st.d v = st.d (st.p v) + e.Weight) ∧
    (DSettled inf st v → rank (st.p v) < rank v))

/-- The Dijkstra invariant at the head of the loop: every settled vertex has
all its edges relaxed. -/
def DInv (g : Graph) (start inf : Int) (st : DState) : Prop :=
  DCore g start inf st ∧
  ∀ u, g.IsVertex u → DSettled inf st u → DEdges inf st u (g.adjAt u)

/-- The Dijkstra invariant inside the relaxation loop of the popped vertex `u`
with key `d`, after the edges `done` have been handled. -/
def DInner (g : Graph) (start inf : Int) (u d : Int) (done : List Edge) (st : DState) : Prop :=
  DCore g start inf st ∧
  (∀ x, g.IsVertex x → DSettled inf st x → x ≠ u → DEdges inf st x (g.adjAt x)) ∧
  DEdges inf st u done ∧
  st.d u = d ∧ DSettled inf st u ∧
  (∀ it ∈ st.pq, d ≤ it.distance) ∧
  (∀ x, g.IsVertex x → DSettled inf st x → st.d x ≤ d) ∧
  (∀ e ∈ g.adjAt u, 0 ≤ e.Weight ∧ d + e.Weight < inf)

/-- What the Dijkstra loop guarantees on exit about the target `end_`. -/
def DPost (g : Graph) (start inf end_ : Int) (st : DState) : Prop :=
  DCore g start inf st ∧
  ∀ w k, Walk g start end_ w k → st.d end_ ≤ w ∧ st.d end_ ≠ inf

/-- Every walk from `s` with at most `n` edges weighs less than `inf`. -/
def BelowBound (g : Graph) (s inf : Int) : Prop :=
  ∀ v w k, k ≤ g.n → Walk g s v w k → w < inf

/-- Initial state of a Dijkstra run from `start` with sentinel `inf` and parent slice `par`. -/
def dInit (n : Nat) (start inf : Int) (par : List Int) : DState :=
  { dist := (List.replicate (n + 1) inf).set start.toNat 0
    parent := par
    pq := heapPush (heapInit []) { vertex := start, distance := 0 } }

/-! ## Invariants of the SPFA loop -/

/-- Entry `v` of `dist`. -/
def SPFAState.d (st : SPFAState) (v : Int) : Int := st.dist.getD v.toNat 0

/-- Entry `v` of `parent`. -/
def SPFAState.p (st : SPFAState) (v : Int) : Int := st.parent.getD v.toNat (-1)

/-- Shape invariant of the SPFA state: slices have `n+1` entries, the queue
holds distinct vertices, `inQueue` mirrors the queue, and no push count exceeds `n`. -/
def SBase (g : Graph) (st : SPFAState) : Prop :=
  st.dist.length = g.n + 1 ∧ st.parent.length = g.n + 1 ∧
  st.inQueue.length = g.n + 1 ∧ st.pushCount.length = g.n + 1 ∧
  (∀ v ∈ st.queue, g.IsVertex v) ∧ st.queue.Nodup ∧
  (∀ v, g.IsVertex v → (st.inQueue.getD v.toNat false = true ↔ v ∈ st.queue)) ∧
  (∀ c ∈ st.pushCount, c ≤ g.n)

/-- Termination measure of the SPFA loop: every iteration dequeues one vertex
and every enqueue uses up one of the `n` pushes a vertex is allowed. -/
def sMeasure (n : Nat) (st : SPFAState) : Nat :=
  2 * (st.pushCount.map (fun c => n - c)).sum + st.queue.length

/-- Part of the SPFA invariant that holds at every point of the loop: distances
are weights of walks, and every parent pointer is an edge that was tight or
better when it was set. -/
def SCore (g : Graph) (start : Int) (st : SPFAState) : Prop :=
  st.d start ≤ 0 ∧
  (∀ v, g.IsVertex v → st.d v ≤ INF) ∧
  (∀ v, g.IsVertex v → st.d v ≠ INF → ∃ k, Walk g start v (st.d v) k) ∧
  (∀ v, g.IsVertex v → st.d v ≠ INF → v = start ∨
    (g.IsVertex (st.p v) ∧ st.d (st.p v) ≠ INF ∧
      ∃ e ∈ g.adjAt (st.p v), e.To = v ∧ st.d (st.p v) + e.Weight ≤ st.d v))

/-- The edges `es` out of the reached vertex `u` cannot be relaxed any further. -/
def SRelaxed (st : SPFAState) (u : Int) (es : List Edge) : Prop :=
  st.d u ≠ INF → ∀ e ∈ es, st.d e.To ≤ st.d u + e.Weight

/-- The SPFA invariant at the head of the loop: a vertex that is not queued has
all its edges relaxed. -/
def SInv (g : Graph) (start : Int) (st : SPFAState) : Prop :=
  SCore g start st ∧ ∀ u, g.IsVertex u → u ∉ st.queue → SRelaxed st u (g.adjAt u)

/-- The SPFA invariant inside the loop over the edges of the dequeued vertex
`u`, after the edges `done` have been handled. -/
def SInner (g : Graph) (start u : Int) (done : List Edge) (st : SPFAState) : Prop :=
  SCore g start st ∧
  (∀ x, g.IsVertex x → x ∉ st.queue → x ≠ u → SRelaxed st x (g.adjAt x)) ∧
  (u ∉ st.queue → SRelaxed st u done)

/-- `st1` results from `st` by the assignments `dist[v] = nd; parent[v] = u`
of a successful relaxation, with `v` queued afterwards. -/
def SUpdated (st st1 : SPFAState) (u v nd : Int) : Prop :=
  st1.dist = st.dist.set v.toNat nd ∧ st1.parent = st.parent.set v.toNat u ∧
  (∀ x ∈ st.queue, x ∈ st1.queue) ∧ v ∈ st1.queue ∧ (∀ x ∈ st1.queue, x = v ∨ x ∈ st.queue)

/-- `Chain start parent v vs`: following the parent pointers from `v` visits
exactly `vs` and ends at `start`. -/
inductive Chain (start : Int) (parent : List Int) : Int → List Int → Prop
  | root : Chain start parent start [start]
  | step {v : Int} {vs : List Int} :
      v ≠ start → Chain start parent (parent.getD v.toNat (-1)) vs → Chain start parent v (v :: vs)

/-- Every reached vertex has a parent chain back to `start`. -/
def SChains (g : Graph) (start : Int) (st : SPFAState) : Prop :=
  ∀ v, g.IsVertex v → st.d v ≠ INF → ∃ vs, Chain start st.parent v vs

/-- Phase bookkeeping of SPFA at the head of the loop.  The queue is `A ++ B`:
`A` holds the entries of the current round `r`, `B` those of round `r+1`;
`snap` is the distance slice at the start of round `r`, when every walk with at
most `r` edges was already accounted for. -/
def SPhase (g : Graph) (start : Int) (st : SPFAState) : Prop :=
  ∃ (r : Nat) (snap : Int → Int) (A B : List Int),
    st.queue = A ++ B ∧
    (∀ v w k, k ≤ r → Walk g start v w k → snap v ≤ w) ∧
    (∀ x, g.IsVertex x → x ∉ A → snap x ≠ INF →
      ∀ e ∈ g.adjAt x, st.d e.To ≤ snap x + e.Weight) ∧
    (∀ v, g.IsVertex v → st.d v ≤ snap v) ∧
    r + 1 ≤ g.n ∧ (B ≠ [] → r + 2 ≤ g.n) ∧
    (∀ v, g.IsVertex v → st.pushCount.getD v.toNat 0 ≤ r + 1 + (if v ∈ B then 1 else 0)) ∧
    (∀ x ∈ st.queue, st.d x ≠ INF)

/-- Phase bookkeeping of SPFA inside the loop over the edges of the dequeued
vertex `u`, after the edges `done` have been handled. -/
def SPhaseInner (g : Graph) (start u : Int) (done : List Edge) (st : SPFAState) : Prop :=
  ∃ (r : Nat) (snap : Int → Int) (A B : List Int),
    st.queue = A ++ B ∧
    (∀ v w k, k ≤ r → Walk g start v w k → snap v ≤ w) ∧
    (∀ x, g.IsVertex x → x ∉ A → x ≠ u → snap x ≠ INF →
      ∀ e ∈ g.adjAt x, st.d e.To ≤ snap x + e.Weight) ∧
    (snap u ≠ INF → ∀ e ∈ done, st.d e.To ≤ snap u + e.Weight) ∧
    (∀ v, g.IsVertex v → st.d v ≤ snap v) ∧
    r + 1 ≤ g.n ∧ (B ≠ [] → r + 2 ≤ g.n) ∧
    (∀ v, g.IsVertex v → st.pushCount.getD v.toNat 0 ≤ r + 1 + (if v ∈ B then 1 else 0)) ∧
    (∀ x ∈ st.queue, st.d x ≠ INF) ∧ st.d u ≠ INF ∧ u ∉ A

/-- The full SPFA invariant on a graph without reachable negative cycle. -/
def SGood (g : Graph) (start : Int) (st : SPFAState) : Prop :=
  SInv g start st ∧ SChains g start st ∧ SPhase g start st

/-- The full SPFA invariant inside the loop over the edges of `u`. -/
def SGoodInner (g : Graph) (start u : Int) (done : List Edge) (st : SPFAState) : Prop :=
  SInner g start u done st ∧ SChains g start st ∧ SPhaseInner g start u done st

/-- Lower bound on the distances at the head of the SPFA loop: after `t`
completed dequeues no distance is below `-(t * numEdges * W)`. -/
def STB (g : Graph) (W : Int) (st : SPFAState) : Prop :=
  ∃ t : Nat, t + st.queue.length = st.pushCount.sum ∧
    ∀ v, g.IsVertex v → -(((t * g.numEdges : Nat) : Int) * W) ≤ st.d v

/-- Lower bound on the distances inside the loop over the edges of a dequeued
vertex, after the edges `done` have been handled. -/
def STBInner (g : Graph) (W : Int) (done : List Edge) (st : SPFAState) : Prop :=
  ∃ t : Nat, t + 1 + st.queue.length = st.pushCount.sum ∧
    ∀ v, g.IsVertex v → -(((t * g.numEdges + done.length : Nat) : Int) * W) ≤ st.d v

/-! ## Invariants of `Johnson` -/

/-- `e` is an edge of the augmented graph out of `u`: a stored edge of a vertex
of `[1, n]`, or the zero-weight edge from the virtual source `n+1` to a vertex. -/
def JEdge (g : Graph) (u : Int) (e : Edge) : Prop :=
  (g.IsVertex u ∧ e ∈ g.adjAt u) ∨ (u = (g.n : Int) + 1 ∧ e.Weight = 0 ∧ g.IsVertex e.To)

/-- Shape invariant of the potentials after at most `c` relaxation tests: `h`
has `n+2` entries, `h[n+1]` is `0`, and every other entry is still the
sentinel or lies in `[-c*W, c*W]`. -/
def JBase (g : Graph) (W : Int) (c : Nat) (h : List Int) : Prop :=
  h.length = g.n + 2 ∧ h.getD (g.n + 1) 0 = 0 ∧
  ∀ v, g.IsVertex v → h.getD v.toNat 0 = MaxInt64 ∨
    (-((c : Int) * W) ≤ h.getD v.toNat 0 ∧ h.getD v.toNat 0 ≤ (c : Int) * W)

/-- Every potential that was set is the weight of a walk that starts at some vertex. -/
def JSound (g : Graph) (h : List Int) : Prop :=
  ∀ v, g.IsVertex v → h.getD v.toNat 0 ≠ MaxInt64 →
    ∃ i k, g.IsVertex i ∧ Walk g i v (h.getD v.toNat 0) k

/-- The potentials are below the weight of every walk with fewer than `r` edges. -/
def JLower (g : Graph) (r : Nat) (h : List Int) : Prop :=
  ∀ i v w k, g.IsVertex i → k < r → Walk g i v w k → h.getD v.toNat 0 ≤ w

/-- Number of relaxation tests `Johnson` can make while computing the potentials
is at most this. -/
def johnsonSteps (g : Graph) : Nat := (g.n + 1) * ((g.n + 1) * (g.numEdges + g.n))

/-- Size condition: all weights lie in `[-W, W]`, and `W` is small against the
number of vertices and edges. -/
def JSmall (g : Graph) (W : Int) : Prop :=
  0 ≤ W ∧ g.WeightsWithin W ∧
    (((g.n + 1) * (g.n + 1) * (g.numEdges + g.n + 1) : Nat) : Int) * W < INF

instance (g : Graph) (W : Int) : Decidable (JSmall g W) := by
  unfold JSmall
  infer_instance

/-- The state of the loop inside `Johnson` that matches a Dijkstra state. -/
def DState.toJ (st : DState) : JState := JState.mk st.dist st.pq

/-- Fuel that is enough for every run of the Dijkstra loop inside `Johnson`. -/
def johnsonFuel (n : Nat) : Nat := 1 + 2 * ((n + 1) * 2 ^ 64)

/-- Go `dist[u][v]` for the matrix returned by `Johnson`. -/
def matAt (m : List (List Int)) (u v : Int) : Int := (m.getD u.toNat []).getD v.toNat 0

/-- What the Dijkstra run from `u` inside `Johnson` leaves in `dijkstraDist`:
for a reachable `v` the reweighted shortest distance, otherwise the sentinel. -/
def JRowOK (g : Graph) (h : List Int) (u : Nat) (dd : List Int) : Prop :=
  ∀ v, g.IsVertex v →
    (Reachable g (u : Nat) v → dd.getD v.toNat 0 ≠ MaxInt64 ∧
      IsShortestDist g (u : Nat) v (dd.getD v.toNat 0 - h.getD u 0 + h.getD v.toNat 0)) ∧
    (¬ Reachable g (u : Nat) v → dd.getD v.toNat 0 = MaxInt64)

/-! ## Graphs built through the constructor, and further example graphs -/

/-- `Built n directed g`: the graph `g` is the result of `NewGraph(n, directed)`
followed by finitely many `AddEdge` calls whose `from` and `to` are in `[1, n]`. -/
inductive Built (n : Nat) (directed : Bool) : Graph → Prop
  | new : Built n directed (NewGraph n directed)
  | add {g : Graph} (from_ to_ w : Int) :
      Built n directed g → 1 ≤ from_ → from_ ≤ (n : Int) → 1 ≤ to_ → to_ ≤ (n : Int) →
      Built n directed (AddEdge g from_ to_ w)

/-- A graph with non-negative weights on which `Dijkstra(1, 3)` stops at its
early exit before the wrapped sum `6 + math.MaxInt64` is ever computed. -/
def earlyExitGraph : Graph :=
  AddEdge (AddEdge (AddEdge (NewGraph 3 true) 1 3 5) 1 2 6) 2 1 9223372036854775807

/-- A graph on which the wrapped sum `1 + math.MaxInt64` makes the parent
pointers of `1` and `2` point at each other while the start vertex is `4`. -/
def pathLoopGraph : Graph :=
  AddEdge (AddEdge (AddEdge (AddEdge (NewGraph 4 true) 4 1 0) 1 2 1) 2 1 9223372036854775807)
    1 3 5

/-- An acyclic graph with an edge of weight `math.MinInt64`. -/
def reweightWrapGraph : Graph :=
  AddEdge (AddEdge (NewGraph 3 true) 1 3 (-9223372036854775808)) 2 3 5

/-- An undirected graph with a negative edge behind an edge that weighs the sentinel `10^18`. -/
def undirectedSentinelGraph : Graph :=
  AddEdge (AddEdge (NewGraph 3 false) 1 2 1000000000000000000) 2 3 (-1)

/-! ## The point-to-point query with every slice access checked

Go panics when a slice is indexed outside `0 .. len-1`.  The definitions of
this section follow `FindShortestPath`, `HasNegativeEdge`, `SPFA`, `Dijkstra`
and the `container/heap` calls statement by statement once more and make that
check at every index expression whose index is computed: `g.adj[i]`,
`dist[..]`, `parent[..]`, `inQueue[..]`, `pushCount[..]`, the heap's `pq[i]`,
and `path[i]`, `path[j]` of the in-place reversal.  The loops
`for i := range s` that fill a fresh slice, and `append`, index nothing that
can be out of range and stay `List.replicate` and `++`; everything else is as
in the definitions above. -/

/-- Go `s[i]` read: `none` when `i` is outside `0 .. len(s)-1`. -/
def readAt {α : Type} (s : List α) (i : Int) : Option α :=
  if 0 ≤ i then s[i.toNat]? else none

/-- Go `s[i] = x`: `none` when `i` is outside `0 .. len(s)-1`. -/
def writeAt {α : Type} (s : List α) (i : Int) (x : α) : Option (List α) :=
  if 0 ≤ i ∧ i.toNat < s.length then some (s.set i.toNat x) else none

/-- Outcome of a checked run. -/
inductive Run (α : Type) where
  | outOfRange : Run α
  | outOfFuel : Run α
  | done : α → Run α
deriving DecidableEq, Repr

/-- The outcome of a run that stayed in range: out of fuel, or a result. -/
def Run.ofFuel {α : Type} : Option α → Run α
  | none => Run.outOfFuel
  | some r => Run.done r

/-- The loop `for i := 1; i <= g.n; i++` of `HasNegativeEdge` over the listed `i`,
with `g.adj[i]` checked. -/
def hasNegativeEdgeRows (g : Graph) : List Nat → Option Bool
  | [] => some false
  | i :: is =>
    (readAt g.adj (i : Nat)).bind fun row =>
      if row.any (fun e => decide (e.Weight < 0)) = true then some true
      else hasNegativeEdgeRows g is

/-- Go `(*Graph).HasNegativeEdge`, checked. -/
def HasNegativeEdgeChecked (g : Graph) : Option Bool :=
  hasNegativeEdgeRows g (List.range' 1 g.n)

/-- Go `PriorityQueue.Less`, checked. -/
def pqLessChecked (pq : List Item) (i j : Nat) : Option Bool :=
  pq[i]?.bind fun a => pq[j]?.bind fun b => some (decide (a.distance < b.distance))

/-- Go `PriorityQueue.Swap`, checked. -/
def pqSwapChecked (pq : List Item) (i j : Nat) : Option (List Item) :=
  pq[i]?.bind fun a => pq[j]?.bind fun b => some ((pq.set i b).set j a)

/-- Go `heap.up`, checked. -/
def heapUpChecked : Nat → List Item → Nat → Option (List Item)
  | 0, pq, _ => some pq
  | fuel + 1, pq, j =>
    let i := (j - 1) / 2
    if i = j then some pq
    else
      (pqLessChecked pq j i).bind fun lt =>
        if lt = false then some pq
        else (pqSwapChecked pq i j).bind fun pq1 => heapUpChecked fuel pq1 i

/-- Go `heap.down`, checked. -/
def heapDownChecked : Nat → List Item → Nat → Nat → Option (List Item)
  | 0, pq, _, _ => some pq
  | fuel + 1, pq, i, n =>
    let j1 := 2 * i + 1
    if j1 ≥ n then some pq
    else
      (if j1 + 1 < n then
          (pqLessChecked pq (j1 + 1) j1).bind fun lt => some (if lt = true then j1 + 1 else j1)
        else some j1).bind fun j =>
        (pqLessChecked pq j i).bind fun lt =>
          if lt = false then some pq
          else (pqSwapChecked pq i j).bind fun pq1 => heapDownChecked fuel pq1 j n

/-- The loop of Go `heap.Init` over the listed positions, checked. -/
def heapInitFrom (n : Nat) : List Nat → List Item → Option (List Item)
  | [], pq => some pq
  | i :: is, pq => (heapDownChecked n pq i n).bind fun pq1 => heapInitFrom n is pq1

/-- Go `heap.Init`, checked. -/
def heapInitChecked (pq : List Item) : Option (List Item) :=
  heapInitFrom pq.length (List.range (pq.length / 2)).reverse pq

/-- Go `heap.Push`, checked. -/
def heapPushChecked (pq : List Item) (x : Item) : Option (List Item) :=
  let pq1 := pq ++ [x]
  heapUpChecked pq1.length pq1 (pq1.length - 1)

/-- Go `heap.Pop`, checked: on an empty queue `n` is `-1` and `Swap(0, n)` is out of range. -/
def heapPopChecked (pq : List Item) : Option (Item × List Item) :=
  if pq.length = 0 then none
  else
    let n := pq.length - 1
    (pqSwapChecked pq 0 n).bind fun pq0 =>
      (heapDownChecked n pq0 0 n).bind fun pq1 =>
        pq1[pq1.length - 1]?.bind fun item => some (item, pq1.dropLast)

/-- The path loop shared by `SPFA` and `Dijkstra`, with `parent[at]` checked. -/
def buildPathChecked (parent : List Int) (start : Int) : Nat → Int → List Int → Run (List Int)
  | 0, _, _ => Run.outOfFuel
  | fuel + 1, at_, path =>
    if at_ = -1 then Run.done path
    else if at_ = start then Run.done (path ++ [at_])
    else
      match readAt parent at_ with
      | none => Run.outOfRange
      | some p => buildPathChecked parent start fuel p (path ++ [at_])

/-- The loop `for i, j := 0, len(path)-1; i < j; i, j = i+1, j-1` with body
`path[i], path[j] = path[j], path[i]`, all four index expressions checked.
Each turn moves `i` and `j` one step towards each other, so `len(path)` turns
are always enough. -/
def reverseLoopChecked : Nat → List Int → Int → Int → Option (List Int)
  | 0, path, _, _ => some path
  | fuel + 1, path, i, j =>
    if i < j then
      (readAt path j).bind fun b =>
        (readAt path i).bind fun a =>
          (writeAt path i b).bind fun path1 =>
            (writeAt path1 j a).bind fun path2 => reverseLoopChecked fuel path2 (i + 1) (j - 1)
    else some path

/-- The in-place reversal of `path` that ends `SPFA` and `Dijkstra`, checked. -/
def reverseChecked (path : List Int) : Option (List Int) :=
  reverseLoopChecked path.length path 0 ((path.length : Int) - 1)

/-- Body of `for _, edge := range g.adj[u]` in `SPFA`, checked; the outer
`none` is an index out of range, the inner `none` the negative-cycle return. -/
def spfaRelaxChecked (n : Nat) (u : Int) (st : SPFAState) (edge : Edge) :
    Option (Option SPFAState) :=
  (readAt st.dist u).bind fun du =>
    if du = INF then some (some st)
    else
      (readAt st.dist edge.To).bind fun dv =>
        if wrap64 (du + edge.Weight) < dv then
          (writeAt st.dist edge.To (wrap64 (du + edge.Weight))).bind fun dist1 =>
            (writeAt st.parent edge.To u).bind fun parent1 =>
              (readAt st.inQueue edge.To).bind fun inq =>
                if inq = false then
                  (writeAt st.inQueue edge.To true).bind fun inQueue1 =>
                    (readAt st.pushCount edge.To).bind fun pc =>
                      (writeAt st.pushCount edge.To (pc + 1)).bind fun pushCount1 =>
                        (readAt pushCount1 edge.To).bind fun pc1 =>
                          if pc1 > n then some none
                          else some (some (SPFAState.mk dist1 parent1 inQueue1
                            (st.queue ++ [edge.To]) pushCount1))
                else some (some (SPFAState.mk dist1 parent1 st.inQueue st.queue st.pushCount))
        else some (some st)

/-- The inner `for` loop of `SPFA`, checked. -/
def spfaEdgesChecked (n : Nat) (u : Int) : SPFAState → List Edge → Option (Option SPFAState)
  | st, [] => some (some st)
  | st, e :: es =>
    match spfaRelaxChecked n u st e with
    | none => none
    | some none => some none
    | some (some st1) => spfaEdgesChecked n u st1 es

/-- The `for len(queue) > 0` loop of `SPFA`, checked: `queue[0]` is read on a
non-empty queue only, `inQueue[u]` and `g.adj[u]` are checked. -/
def spfaLoopChecked (g : Graph) : Nat → SPFAState → Run (Option SPFAState)
  | fuel, st =>
    match st.queue with
    | [] => Run.done (some st)
    | u :: rest =>
      match fuel with
      | 0 => Run.outOfFuel
      | fuel1 + 1 =>
        match writeAt st.inQueue u false, readAt g.adj u with
        | some inQueue1, some row =>
          match spfaEdgesChecked g.n u
              (SPFAState.mk st.dist st.parent inQueue1 rest st.pushCount) row with
          | none => Run.outOfRange
          | some none => Run.done none
          | some (some st1) => spfaLoopChecked g fuel1 st1
        | _, _ => Run.outOfRange

/-- Initial state of `SPFA`, with `dist[start]`, `inQueue[start]` and
`pushCount[start]` checked. -/
def spfaInitChecked (g : Graph) (start : Int) : Option SPFAState :=
  (writeAt (List.replicate (g.n + 1) INF) start 0).bind fun dist =>
    (writeAt (List.replicate (g.n + 1) false) start true).bind fun inQueue =>
      (writeAt (List.replicate (g.n + 1) 0) start 1).bind fun pushCount =>
        some (SPFAState.mk dist (List.replicate (g.n + 1) (-1)) inQueue [start] pushCount)

/-- Go `(*Graph).SPFA`, checked. -/
def SPFAChecked (fuel : Nat) (g : Graph) (start end_ : Int) : Run (List Int × Int × Bool) :=
  match spfaInitChecked g start with
  | none => Run.outOfRange
  | some st0 =>
    match spfaLoopChecked g fuel st0 with
    | Run.outOfRange => Run.outOfRange
    | Run.outOfFuel => Run.outOfFuel
    | Run.done none => Run.done ([], -1, false)
    | Run.done (some st) =>
      match readAt st.dist end_ with
      | none => Run.outOfRange
      | some de =>
        if de = INF then Run.done ([], -1, false)
        else
          match buildPathChecked st.parent start fuel end_ [] with
          | Run.outOfRange => Run.outOfRange
          | Run.outOfFuel => Run.outOfFuel
          | Run.done path =>
            match reverseChecked path with
            | none => Run.outOfRange
            | some rpath => Run.done (rpath, de, true)

/-- Body of `for _, edge := range g.adj[u.vertex]` in `Dijkstra`, checked. -/
def dijkstraRelaxChecked (u : Int) (st : DState) (edge : Edge) : Option DState :=
  (readAt st.dist u).bind fun du =>
    (readAt st.dist edge.To).bind fun dv =>
      if wrap64 (du + edge.Weight) < dv then
        (writeAt st.dist edge.To (wrap64 (du + edge.Weight))).bind fun dist1 =>
          (writeAt st.parent edge.To u).bind fun parent1 =>
            (heapPushChecked st.pq (Item.mk edge.To (wrap64 (du + edge.Weight)))).bind fun pq1 =>
              some (DState.mk dist1 parent1 pq1)
      else some st

/-- The inner `for` loop of `Dijkstra`, checked. -/
def dijkstraEdgesChecked (u : Int) : DState → List Edge → Option DState
  | st, [] => some st
  | st, e :: es => (dijkstraRelaxChecked u st e).bind fun st1 => dijkstraEdgesChecked u st1 es

/-- The `for pq.Len() > 0` loop of `Dijkstra`, checked. -/
def dijkstraLoopChecked (g : Graph) (end_ : Int) : Nat → DState → Run DState
  | fuel, st =>
    if st.pq.length = 0 then Run.done st
    else
      match fuel with
      | 0 => Run.outOfFuel
      | fuel1 + 1 =>
        match heapPopChecked st.pq with
        | none => Run.outOfRange
        | some (u, pq1) =>
          if u.vertex = end_ then Run.done (DState.mk st.dist st.parent pq1)
          else
            match readAt st.dist u.vertex with
            | none => Run.outOfRange
            | some du =>
              if u.distance > du then
                dijkstraLoopChecked g end_ fuel1 (DState.mk st.dist st.parent pq1)
              else
                match readAt g.adj u.vertex with
                | none => Run.outOfRange
                | some row =>
                  match dijkstraEdgesChecked u.vertex (DState.mk st.dist st.parent pq1) row with
                  | none => Run.outOfRange
                  | some st2 => dijkstraLoopChecked g end_ fuel1 st2

/-- Initial state of `Dijkstra`, with `dist[start]` and the heap calls checked. -/
def dijkstraInitChecked (g : Graph) (start : Int) : Option DState :=
  (writeAt (List.replicate (g.n + 1) INF) start 0).bind fun dist =>
    (heapInitChecked []).bind fun pq0 =>
      (heapPushChecked pq0 (Item.mk start 0)).bind fun pq =>
        some (DState.mk dist (List.replicate (g.n + 1) (-1)) pq)

/-- Go `(*Graph).Dijkstra`, checked. -/
def DijkstraChecked (fuel : Nat) (g : Graph) (start end_ : Int) :
    Run (List Int × Int × Bool) :=
  match dijkstraInitChecked g start with
  | none => Run.outOfRange
  | some st0 =>
    match dijkstraLoopChecked g end_ fuel st0 with
    | Run.outOfRange => Run.outOfRange
    | Run.outOfFuel => Run.outOfFuel
    | Run.done st =>
      match readAt st.dist end_ with
      | none => Run.outOfRange
      | some de =>
        if de = INF then Run.done ([], -1, false)
        else
          match buildPathChecked st.parent start fuel end_ [] with
          | Run.outOfRange => Run.outOfRange
          | Run.outOfFuel => Run.outOfFuel
          | Run.done path =>
            match reverseChecked path with
            | none => Run.outOfRange
            | some rpath => Run.done (rpath, de, true)

/-- Go `(*Graph).FindShortestPath`, checked. -/
def FindShortestPathChecked (fuel : Nat) (g : Graph) (start end_ : Int) :
    Run (List Int × Int × Bool) :=
  if start ≤ 0 ∨ start > g.n ∨ end_ ≤ 0 ∨ end_ > g.n then Run.done ([], -1, false)
  else
    match HasNegativeEdgeChecked g with
    | none => Run.outOfRange
    | some true => SPFAChecked fuel g start end_
    | some false => DijkstraChecked fuel g start end_

/-- Every parent pointer is `-1` or a vertex of `[1, n]`. -/
def ParentOK (g : Graph) (parent : List Int) : Prop :=
  parent.length = g.n + 1 ∧ ∀ x ∈ parent, x = -1 ∨ g.IsVertex x

/-! ## SPFA with the enqueues counted

The relaxation loop of `SPFA` once more, with a counter that is incremented at
every `queue = append(queue, ...)`; the state is handled as in `spfaRelax`,
`spfaEdges` and `spfaLoop`. -/

/-- Body of `for _, edge := range g.adj[u]` in `SPFA` with a counter `c` of the
executions of `queue = append(queue, v)`; the first component is as in
`spfaRelax`, and the append before the negative-cycle return is counted. -/
def spfaRelaxEnq (n : Nat) (u : Int) (st : SPFAState) (c : Nat) (edge : Edge) :
    Option SPFAState × Nat :=
  let v := edge.To
  if st.dist.getD u.toNat 0 ≠ INF ∧
      wrap64 (st.dist.getD u.toNat 0 + edge.Weight) < st.dist.getD v.toNat 0 then
    let dist1 := st.dist.set v.toNat (wrap64 (st.dist.getD u.toNat 0 + edge.Weight))
    let parent1 := st.parent.set v.toNat u
    if st.inQueue.getD v.toNat false = false then
      let pushCount1 := st.pushCount.set v.toNat (st.pushCount.getD v.toNat 0 + 1)
      if pushCount1.getD v.toNat 0 > n then (none, c + 1)
      else (some (SPFAState.mk dist1 parent1 (st.inQueue.set v.toNat true) (st.queue ++ [v])
        pushCount1), c + 1)
    else (some (SPFAState.mk dist1 parent1 st.inQueue st.queue st.pushCount), c)
  else (some st, c)

/-- The inner `for` loop of `SPFA` over the edges of `u`, counting enqueues. -/
def spfaEdgesEnq (n : Nat) (u : Int) : SPFAState → Nat → List Edge → Option SPFAState × Nat
  | st, c, [] => (some st, c)
  | st, c, e :: es =>
    match spfaRelaxEnq n u st c e with
    | (none, c1) => (none, c1)
    | (some st1, c1) => spfaEdgesEnq n u st1 c1 es

/-- The `for len(queue) > 0` loop of `SPFA`, counting enqueues.  `none`: out of
fuel; otherwise the outcome of `spfaLoop` and the number of enqueues made. -/
def spfaLoopEnq (g : Graph) : Nat → SPFAState → Nat → Option (Option SPFAState × Nat)
  | fuel, st, c =>
    match st.queue with
    | [] => some (some st, c)
    | u :: rest =>
      match fuel with
      | 0 => none
      | fuel1 + 1 =>
        match spfaEdgesEnq g.n u
            (SPFAState.mk st.dist st.parent (st.inQueue.set u.toNat false) rest st.pushCount) c
            (g.adjAt u) with
        | (none, c1) => some (none, c1)
        | (some st1, c1) => spfaLoopEnq g fuel1 st1 c1

/-- The relaxation loop of `SPFA(start, end)` from its initial state, counting
enqueues; the count starts at `1` for `queue = append(queue, start)`. -/
def spfaEnqueues (fuel : Nat) (g : Graph) (start : Int) : Option (Option SPFAState × Nat) :=
  spfaLoopEnq g fuel (spfaInit g start) 1

/-! ## The dispatcher -/

theorem adjAt_mem_adj {g : Graph} {u : Int} {e : Edge} (h : e ∈ g.adjAt u) :
    ∃ l ∈ g.adj, e ∈ l := by
  unfold Graph.adjAt at h
  rw [List.getD_eq_getElem?_getD] at h
  cases hl : g.adj[u.toNat]? with
  | none => simp [hl] at h
  | some l =>
    simp [hl] at h
    exact ⟨l, List.getElem?_mem hl, h⟩

theorem hasNegativeEdge_false_iff (g : Graph) :
    HasNegativeEdge g = false ↔ g.NonNeg := by
  unfold HasNegativeEdge Graph.NonNeg Graph.IsVertex Graph.adjAt
  rw [Bool.eq_false_iff]
  simp only [ne_eq, List.any_eq_true, decide_eq_true_eq, not_exists, not_and, not_lt,
    List.mem_range'_1]
  constructor
  · intro h u hu e he
    have := h u.toNat ⟨by omega, by omega⟩ e he
    exact this
  · intro h i hi e he
    have := h (i : Int) ⟨by omega, by omega⟩ e (by simpa using he)
    exact this

theorem findShortestPath_eq (fuel : Nat) (g : Graph) (start end_ : Int)
    (hs : g.IsVertex start) (he : g.IsVertex end_) :
    FindShortestPath fuel g start end_ =
      if HasNegativeEdge g = true then SPFA fuel g start end_
      else Dijkstra fuel g start end_ := by
  have hr : ¬ (start ≤ 0 ∨ start > (g.n : Int) ∨ end_ ≤ 0 ∨ end_ > (g.n : Int)) := by
    unfold Graph.IsVertex at hs he
    omega
  unfold FindShortestPath FindShortestPathWith
  rw [if_neg hr]

/-- C6: a `start` or `end` outside `[1, n]` makes `FindShortestPath` return
`(nil, -1, false)` whatever its three callees `HasNegativeEdge`, `SPFA` and
`Dijkstra` would compute, so none of them contributes; with both inside
`[1, n]` the rejection branch is not taken and the result is the one of the
callee chosen by `hasNeg`. -/
theorem findShortestPath_rejects_invalid (hasNeg : Graph → Bool)
    (spfa dijkstra : Graph → Int → Int → Option (List Int × Int × Bool))
    (fuel : Nat) (g : Graph) (start end_ : Int) :
    FindShortestPathWith hasNeg spfa dijkstra g start end_ =
        (if g.IsVertex start ∧ g.IsVertex end_ then
          (if hasNeg g = true then spfa g start end_ else dijkstra g start end_)
         else some ([], -1, false)) ∧
      FindShortestPath fuel g start end_ =
        (if g.IsVertex start ∧ g.IsVertex end_ then
          (if HasNegativeEdge g = true then SPFA fuel g start end_ else Dijkstra fuel g start end_)
         else some ([], -1, false)) := by
  unfold FindShortestPath FindShortestPathWith Graph.IsVertex
  constructor <;>
  · by_cases h : start ≤ 0 ∨ start > (g.n : Int) ∨ end_ ≤ 0 ∨ end_ > (g.n : Int)
    · have h2 : ¬ ((1 ≤ start ∧ start ≤ (g.n : Int)) ∧ (1 ≤ end_ ∧ end_ ≤ (g.n : Int))) := by omega
      rw [if_pos h, if_neg h2]
    · have h2 : (1 ≤ start ∧ start ≤ (g.n : Int)) ∧ (1 ≤ end_ ∧ end_ ≤ (g.n : Int)) := by omega
      rw [if_neg h, if_pos h2]

/-- C7: for `start`, `end` in `[1, n]`, `FindShortestPath` is `SPFA` when
`HasNegativeEdge` is true and `Dijkstra` when it is false, result unmodified;
when `HasNegativeEdge` is true the result does not depend on the Dijkstra
callee at all, and when it is false every edge leaving a vertex of `[1, n]`
has weight `≥ 0`. -/
theorem findShortestPath_dispatch (fuel : Nat) (g : Graph) (start end_ : Int)
    (hs : g.IsVertex start) (he : g.IsVertex end_) :
    (HasNegativeEdge g = true → FindShortestPath fuel g start end_ = SPFA fuel g start end_) ∧
    (HasNegativeEdge g = false →
      FindShortestPath fuel g start end_ = Dijkstra fuel g start end_ ∧ g.NonNeg) ∧
    (HasNegativeEdge g = true →
      ∀ d1 d2 : Graph → Int → Int → Option (List Int × Int × Bool),
        FindShortestPathWith HasNegativeEdge (SPFA fuel) d1 g start end_ =
          FindShortestPathWith HasNegativeEdge (SPFA fuel) d2 g start end_) := by
  have hr : ¬ (start ≤ 0 ∨ start > (g.n : Int) ∨ end_ ≤ 0 ∨ end_ > (g.n : Int)) := by
    unfold Graph.IsVertex at hs he
    omega
  refine ⟨?_, ?_, ?_⟩
  · intro hn
    unfold FindShortestPath FindShortestPathWith
    rw [if_neg hr, if_pos hn]
  · intro hn
    refine ⟨?_, (hasNegativeEdge_false_iff g).1 hn⟩
    unfold FindShortestPath FindShortestPathWith
    rw [if_neg hr, if_neg (by simp [hn])]
  · intro hn d1 d2
    unfold FindShortestPathWith
    rw [if_neg hr, if_pos hn, if_neg hr, if_pos hn]

theorem findShortestPath_dispatch_witness :
    (HasNegativeEdge (AddEdge (NewGraph 2 true) 1 2 (-3)) = true →
      FindShortestPath 5 (AddEdge (NewGraph 2 true) 1 2 (-3)) 1 2 =
        SPFA 5 (AddEdge (NewGraph 2 true) 1 2 (-3)) 1 2) ∧
    (HasNegativeEdge (AddEdge (NewGraph 2 true) 1 2 (-3)) = false →
      FindShortestPath 5 (AddEdge (NewGraph 2 true) 1 2 (-3)) 1 2 =
        Dijkstra 5 (AddEdge (NewGraph 2 true) 1 2 (-3)) 1 2 ∧
      (AddEdge (NewGraph 2 true) 1 2 (-3)).NonNeg) ∧
    (HasNegativeEdge (AddEdge (NewGraph 2 true) 1 2 (-3)) = true →
      ∀ d1 d2 : Graph → Int → Int → Option (List Int × Int × Bool),
        FindShortestPathWith HasNegativeEdge (SPFA 5) d1 (AddEdge (NewGraph 2 true) 1 2 (-3)) 1 2 =
          FindShortestPathWith HasNegativeEdge (SPFA 5) d2 (AddEdge (NewGraph 2 true) 1 2 (-3)) 1 2) :=
  findShortestPath_dispatch 5 (AddEdge (NewGraph 2 true) 1 2 (-3)) 1 2 (by decide) (by decide)

/-! ## Slice access lemmas -/

theorem getD_set_self {α : Type} (l : List α) (i : Nat) (x d : α) (h : i < l.length) :
    (l.set i x).getD i d = x := by
  simp [List.getD_eq_getElem?_getD, h]

theorem getD_set_other {α : Type} (l : List α) (i j : Nat) (x d : α) (h : i ≠ j) :
    (l.set i x).getD j d = l.getD j d := by
  simp [List.getD_eq_getElem?_getD, List.getElem?_set_ne h]

theorem getD_mem {α : Type} (l : List α) (i : Nat) (d : α) (h : i < l.length) :
    l.getD i d ∈ l := by
  rw [List.getD_eq_getElem l d h]
  exact List.getElem_mem h

/-! ## The binary heap -/

theorem length_pqSwap (pq : List Item) (i j : Nat) : (pqSwap pq i j).length = pq.length := by
  simp [pqSwap]

theorem getD_pqSwap (pq : List Item) (i j k : Nat) (hi : i < pq.length) (hj : j < pq.length) :
    (pqSwap pq i j).getD k default =
      if k = j then pq.getD i default else if k = i then pq.getD j default
      else pq.getD k default := by
  unfold pqSwap
  by_cases hkj : k = j
  · subst hkj
    rw [if_pos rfl, getD_set_self _ _ _ _ (by simpa using hj)]
  · rw [if_neg hkj, getD_set_other _ _ _ _ _ (Ne.symm hkj)]
    by_cases hki : k = i
    · subst hki
      rw [if_pos rfl, getD_set_self _ _ _ _ hi]
    · rw [if_neg hki, getD_set_other _ _ _ _ _ (Ne.symm hki)]

theorem perm_pqSwap (pq : List Item) (i j : Nat) (hi : i < pq.length) (hj : j < pq.length) :
    (pqSwap pq i j).Perm pq := by
  rw [List.perm_iff_count]
  intro a
  unfold pqSwap
  rw [List.getD_eq_getElem _ _ hi, List.getD_eq_getElem _ _ hj]
  rw [List.count_set _ _ _ _ (by simpa using hj), List.count_set _ _ _ _ hi]
  have h1 : (pq[i] == a) = true → 0 < pq.count a := by
    intro h
    have : pq[i] = a := by simpa using h
    rw [List.count_pos_iff]
    exact this ▸ List.getElem_mem hi
  have h2 : (pq[j] == a) = true → 0 < pq.count a := by
    intro h
    have : pq[j] = a := by simpa using h
    rw [List.count_pos_iff]
    exact this ▸ List.getElem_mem hj
  by_cases hij : i = j
  · subst hij
    simp only [List.getElem_set_self]
    by_cases hA : (pq[i] == a) = true
    · have := h1 hA
      simp only [hA, if_true]
      omega
    · simp only [hA, if_false, Bool.false_eq_true]
      omega
  · rw [List.getElem_set_ne hij]
    by_cases hA : (pq[i] == a) = true <;> by_cases hB : (pq[j] == a) = true
    · have := h1 hA
      simp only [hA, hB, if_true]
      omega
    · have := h1 hA
      simp only [hA, hB, if_true, if_false, Bool.false_eq_true]
      omega
    · have := h2 hB
      simp only [hA, hB, if_true, if_false, Bool.false_eq_true]
      omega
    · simp only [hA, hB, if_false, Bool.false_eq_true]
      omega

theorem pqKey_pqSwap (pq : List Item) (i j k : Nat) (hi : i < pq.length) (hj : j < pq.length) :
    pqKey (pqSwap pq i j) k =
      if k = j then pqKey pq i else if k = i then pqKey pq j else pqKey pq k := by
  unfold pqKey
  rw [getD_pqSwap pq i j k hi hj]
  split_ifs <;> rfl

theorem pqLess_eq_false (pq : List Item) (i j : Nat) :
    pqLess pq i j = false ↔ pqKey pq j ≤ pqKey pq i := by
  unfold pqLess pqKey
  simp

theorem pqLess_eq_true (pq : List Item) (i j : Nat) :
    pqLess pq i j = true ↔ pqKey pq i < pqKey pq j := by
  unfold pqLess pqKey
  simp

theorem heapUp_perm (fuel : Nat) (pq : List Item) (j : Nat) (hj : j < pq.length) :
    (heapUp fuel pq j).Perm pq := by
  induction fuel generalizing pq j with
  | zero => exact List.Perm.refl _
  | succ fuel ih =>
    unfold heapUp
    simp only
    split_ifs with h
    · exact List.Perm.refl _
    · have hi : (j - 1) / 2 < pq.length := by omega
      exact (ih _ _ (by rw [length_pqSwap]; exact hi)).trans (perm_pqSwap pq _ _ hi hj)

theorem heapUp_isHeap (fuel : Nat) (pq : List Item) (j : Nat) (hj : j < pq.length)
    (hfuel : j ≤ fuel) (hinv : UpInv pq j) : IsHeap (heapUp fuel pq j) := by
  induction fuel generalizing pq j with
  | zero =>
    have hj0 : j = 0 := by omega
    subst hj0
    intro k hk0 hk
    exact hinv.1 k hk0 hk (by omega)
  | succ fuel ih =>
    unfold heapUp
    simp only
    split_ifs with h
    · intro k hk0 hk
      by_cases hkj : k = j
      · subst hkj
        rcases h with h | h
        · omega
        · exact (pqLess_eq_false _ _ _).1 h
      · exact hinv.1 k hk0 hk hkj
    · have hnot : ¬ ((j - 1) / 2 = j) ∧ pqLess pq j ((j - 1) / 2) = true := by
        constructor
        · intro h1; exact h (Or.inl h1)
        · by_contra h2; exact h (Or.inr (by simpa using h2))
      obtain ⟨hne, hlt⟩ := hnot
      rw [pqLess_eq_true] at hlt
      have hj0 : 0 < j := by omega
      have hi : (j - 1) / 2 < pq.length := by omega
      apply ih _ _ (by rw [length_pqSwap]; exact hi) (by omega)
      constructor
      · intro k hk0 hk hki
        rw [length_pqSwap] at hk
        rw [pqKey_pqSwap pq _ _ _ hi hj, pqKey_pqSwap pq _ _ _ hi hj]
        by_cases hkj : k = j
        · subst hkj
          rw [if_pos rfl, if_neg hne, if_pos rfl]
          omega
        · rw [if_neg hkj, if_neg hki]
          by_cases hp1 : (k - 1) / 2 = j
          · rw [if_pos hp1]
            exact hinv.2 k hk0 hk hp1 hj0
          · rw [if_neg hp1]
            by_cases hp2 : (k - 1) / 2 = (j - 1) / 2
            · rw [if_pos hp2]
              have := hinv.1 k hk0 hk hkj
              rw [hp2] at this
              omega
            · rw [if_neg hp2]
              exact hinv.1 k hk0 hk hkj
      · intro c hc0 hc hpc hi0
        rw [length_pqSwap] at hc
        rw [pqKey_pqSwap pq _ _ _ hi hj, pqKey_pqSwap pq _ _ _ hi hj]
        have hpi1 : ((j - 1) / 2 - 1) / 2 ≠ j := by omega
        have hpi2 : ((j - 1) / 2 - 1) / 2 ≠ (j - 1) / 2 := by omega
        rw [if_neg hpi1, if_neg hpi2]
        have hpi := hinv.1 ((j - 1) / 2) hi0 hi (by omega)
        by_cases hcj : c = j
        · subst hcj
          rw [if_pos rfl]
          exact hpi
        · have hci : c ≠ (j - 1) / 2 := by omega
          rw [if_neg hcj, if_neg hci]
          have := hinv.1 c hc0 hc hcj
          rw [hpc] at this
          omega

theorem heapDown_perm (fuel : Nat) (pq : List Item) (i n : Nat) (hn : n ≤ pq.length) :
    (heapDown fuel pq i n).Perm pq := by
  induction fuel generalizing pq i with
  | zero => exact List.Perm.refl _
  | succ fuel ih =>
    unfold heapDown
    simp only
    split_ifs with h1 h2 h3 h4
    · exact List.Perm.refl _
    · exact List.Perm.refl _
    · exact (ih _ _ (by rw [length_pqSwap]; exact hn)).trans
        (perm_pqSwap pq _ _ (by omega) (by omega))
    · exact List.Perm.refl _
    · exact (ih _ _ (by rw [length_pqSwap]; exact hn)).trans
        (perm_pqSwap pq _ _ (by omega) (by omega))

theorem heapDown_getD_ge (fuel : Nat) (pq : List Item) (i n k : Nat) (hn : n ≤ pq.length)
    (hk : n ≤ k) : (heapDown fuel pq i n).getD k default = pq.getD k default := by
  induction fuel generalizing pq i with
  | zero => rfl
  | succ fuel ih =>
    unfold heapDown
    simp only
    split_ifs with h1 h2 h3 h4
    · rfl
    · rfl
    · rw [ih _ _ (by rw [length_pqSwap]; exact hn),
        getD_pqSwap pq _ _ _ (by omega) (by omega), if_neg (by omega), if_neg (by omega)]
    · rfl
    · rw [ih _ _ (by rw [length_pqSwap]; exact hn),
        getD_pqSwap pq _ _ _ (by omega) (by omega), if_neg (by omega), if_neg (by omega)]

theorem heapDown_step_inv (pq : List Item) (i j n : Nat) (hn : n ≤ pq.length)
    (hinv : DownInv pq i n) (hj : j < n) (hpar : (j - 1) / 2 = i) (hji : i < j)
    (hlt : pqKey pq j < pqKey pq i)
    (hsib : ∀ c, 0 < c → c < n → (c - 1) / 2 = i → pqKey pq j ≤ pqKey pq c) :
    DownInv (pqSwap pq i j) j n := by
  have hi' : i < pq.length := by omega
  have hj' : j < pq.length := by omega
  constructor
  · intro k hk0 hk hpk
    rw [pqKey_pqSwap pq _ _ _ hi' hj', pqKey_pqSwap pq _ _ _ hi' hj']
    rw [if_neg hpk]
    by_cases hkj : k = j
    · subst hkj
      rw [if_pos hpar, if_pos rfl]
      omega
    · rw [if_neg hkj]
      by_cases hpi : (k - 1) / 2 = i
      · rw [if_pos hpi]
        have hki : k ≠ i := by omega
        rw [if_neg hki]
        exact hsib k hk0 hk hpi
      · rw [if_neg hpi]
        by_cases hki : k = i
        · subst hki
          rw [if_pos rfl]
          exact hinv.2 j (by omega) hj hpar hk0
        · rw [if_neg hki]
          exact hinv.1 k hk0 hk hpi
  · intro c hc0 hc hpc hj0
    rw [pqKey_pqSwap pq _ _ _ hi' hj', pqKey_pqSwap pq _ _ _ hi' hj']
    rw [if_neg (by omega), if_pos hpar, if_neg (by omega), if_neg (by omega)]
    have := hinv.1 c hc0 hc (by omega)
    rw [hpc] at this
    exact this

theorem heapDown_isHeap (fuel : Nat) (pq : List Item) (i n : Nat) (hn : n ≤ pq.length)
    (hfuel : n ≤ fuel + i) (hinv : DownInv pq i n) :
    IsHeapUpTo (heapDown fuel pq i n) n := by
  induction fuel generalizing pq i with
  | zero =>
    intro k hk0 hk
    exact hinv.1 k hk0 hk (by omega)
  | succ fuel ih =>
    unfold heapDown
    simp only
    split_ifs with h1 h2 h3 h4
    · intro k hk0 hk
      exact hinv.1 k hk0 hk (by omega)
    · -- right child is the smaller one and is not smaller than i
      rw [pqLess_eq_false] at h3
      rw [pqLess_eq_true] at h2
      intro k hk0 hk
      by_cases hp : (k - 1) / 2 = i
      · rw [hp]
        have hk12 : k = 2 * i + 1 ∨ k = 2 * i + 1 + 1 := by omega
        rcases hk12 with hk1 | hk1 <;> subst hk1 <;> omega
      · exact hinv.1 k hk0 hk hp
    · rw [pqLess_eq_true] at h2
      have h3' : pqKey pq (2 * i + 1 + 1) < pqKey pq i := by
        rw [← pqLess_eq_true]; simpa using h3
      apply ih _ _ (by rw [length_pqSwap]; exact hn) (by omega)
      apply heapDown_step_inv pq i _ n hn hinv (by omega) (by omega) (by omega) h3'
      intro c hc0 hc hpc
      have hk12 : c = 2 * i + 1 ∨ c = 2 * i + 1 + 1 := by omega
      rcases hk12 with hk1 | hk1 <;> subst hk1 <;> omega
    · rw [pqLess_eq_false] at h4
      intro k hk0 hk
      by_cases hp : (k - 1) / 2 = i
      · rw [hp]
        have hk12 : k = 2 * i + 1 ∨ k = 2 * i + 1 + 1 := by omega
        rcases hk12 with hk1 | hk1
        · subst hk1; exact h4
        · subst hk1
          have : ¬ pqLess pq (2 * i + 1 + 1) (2 * i + 1) = true := fun hc => h2 ⟨hk, hc⟩
          have h5 : pqKey pq (2 * i + 1) ≤ pqKey pq (2 * i + 1 + 1) := by
            rw [← pqLess_eq_false]; simpa using this
          omega
      · exact hinv.1 k hk0 hk hp
    · have h4' : pqKey pq (2 * i + 1) < pqKey pq i := by
        rw [← pqLess_eq_true]; simpa using h4
      apply ih _ _ (by rw [length_pqSwap]; exact hn) (by omega)
      apply heapDown_step_inv pq i _ n hn hinv (by omega) (by omega) (by omega) h4'
      intro c hc0 hc hpc
      have hk12 : c = 2 * i + 1 ∨ c = 2 * i + 1 + 1 := by omega
      rcases hk12 with hk1 | hk1
      · subst hk1; exact le_refl _
      · subst hk1
        have : ¬ pqLess pq (2 * i + 1 + 1) (2 * i + 1) = true := fun hc' => h2 ⟨hc, hc'⟩
        rw [← pqLess_eq_false]; simpa using this

theorem heapInit_nil : heapInit [] = [] := rfl

theorem heapPush_perm (pq : List Item) (x : Item) : (heapPush pq x).Perm (x :: pq) := by
  unfold heapPush
  simp only
  exact (heapUp_perm _ _ _ (by simp)).trans (List.perm_append_singleton x pq)

theorem isHeap_root_le (pq : List Item) (h : IsHeap pq) (k : Nat) (hk : k < pq.length) :
    pqKey pq 0 ≤ pqKey pq k := by
  induction k using Nat.strong_induction_on with
  | _ k ih =>
    by_cases hk0 : k = 0
    · subst hk0; exact le_refl _
    · have h1 := h k (by omega) hk
      have h2 := ih ((k - 1) / 2) (by omega) (by omega)
      omega

theorem isHeap_root_min (pq : List Item) (h : IsHeap pq) (x : Item) (hx : x ∈ pq) :
    pqKey pq 0 ≤ x.distance := by
  obtain ⟨k, hk, rfl⟩ := List.mem_iff_getElem.1 hx
  have := isHeap_root_le pq h k hk
  unfold pqKey at this
  rw [List.getD_eq_getElem _ _ hk] at this
  exact this

theorem heapPush_isHeap (pq : List Item) (x : Item) (h : IsHeap pq) : IsHeap (heapPush pq x) := by
  unfold heapPush
  simp only
  apply heapUp_isHeap _ _ _ (by simp) (by simp)
  constructor
  · intro k hk0 hk hkj
    simp only [List.length_append, List.length_singleton, Nat.add_sub_cancel] at hk hkj
    have hk' : k < pq.length := by omega
    have := h k hk0 hk'
    unfold pqKey at this ⊢
    rw [List.getD_append _ _ _ _ hk', List.getD_append _ _ _ _ (by omega)]
    exact this
  · intro c hc0 hc hpc hj0
    simp only [List.length_append, List.length_singleton, Nat.add_sub_cancel] at hc hpc
    omega

theorem heapPop_fst (pq : List Item) (hne : pq ≠ []) :
    (heapPop pq).1 = pq.getD 0 default := by
  have hlen : 0 < pq.length := List.length_pos.2 hne
  unfold heapPop
  simp only
  have hl : (heapDown (pq.length - 1) (pqSwap pq 0 (pq.length - 1)) 0 (pq.length - 1)).length
      = pq.length := by
    rw [(heapDown_perm _ _ _ _ (by rw [length_pqSwap]; omega)).length_eq, length_pqSwap]
  rw [List.getLastD_eq_getLast?, List.getLast?_eq_getElem?, hl, ← List.getD_eq_getElem?_getD,
    heapDown_getD_ge _ _ _ _ _ (by rw [length_pqSwap]; omega) (le_refl _),
    getD_pqSwap pq _ _ _ hlen (by omega), if_pos rfl]

theorem heapPop_perm (pq : List Item) (hne : pq ≠ []) :
    pq.Perm ((heapPop pq).1 :: (heapPop pq).2) := by
  have hlen : 0 < pq.length := List.length_pos.2 hne
  have hp : (heapDown (pq.length - 1) (pqSwap pq 0 (pq.length - 1)) 0 (pq.length - 1)).Perm pq :=
    (heapDown_perm _ _ _ _ (by rw [length_pqSwap]; omega)).trans
      (perm_pqSwap pq _ _ hlen (by omega))
  have hne1 : heapDown (pq.length - 1) (pqSwap pq 0 (pq.length - 1)) 0 (pq.length - 1) ≠ [] := by
    intro h
    rw [h] at hp
    exact hne (List.Perm.eq_nil hp.symm)
  have h1 : (heapPop pq).1 =
      (heapDown (pq.length - 1) (pqSwap pq 0 (pq.length - 1)) 0 (pq.length - 1)).getLast hne1 := by
    unfold heapPop
    simp only
    rw [List.getLastD_eq_getLast?, List.getLast?_eq_getLast _ hne1]
    rfl
  have h2 : (heapPop pq).2 =
      (heapDown (pq.length - 1) (pqSwap pq 0 (pq.length - 1)) 0 (pq.length - 1)).dropLast := rfl
  rw [h1, h2]
  refine hp.symm.trans ?_
  conv_lhs => rw [← List.dropLast_append_getLast hne1]
  exact List.perm_append_singleton _ _

theorem heapPop_isHeap (pq : List Item) (hne : pq ≠ []) (h : IsHeap pq) :
    IsHeap (heapPop pq).2 := by
  have hlen : 0 < pq.length := List.length_pos.2 hne
  have hl : (heapDown (pq.length - 1) (pqSwap pq 0 (pq.length - 1)) 0 (pq.length - 1)).length
      = pq.length := by
    rw [(heapDown_perm _ _ _ _ (by rw [length_pqSwap]; omega)).length_eq, length_pqSwap]
  have hd : IsHeapUpTo (heapDown (pq.length - 1) (pqSwap pq 0 (pq.length - 1)) 0 (pq.length - 1))
      (pq.length - 1) := by
    apply heapDown_isHeap _ _ _ _ (by rw [length_pqSwap]; omega) (by omega)
    constructor
    · intro k hk0 hk hpk
      rw [pqKey_pqSwap pq _ _ _ hlen (by omega), pqKey_pqSwap pq _ _ _ hlen (by omega),
        if_neg (by omega), if_neg hpk, if_neg (by omega), if_neg (by omega)]
      exact h k hk0 (by omega)
    · intro c _ _ _ h0
      omega
  unfold heapPop
  simp only
  intro k hk0 hk
  rw [List.length_dropLast, hl] at hk
  have := hd k hk0 hk
  unfold pqKey at this ⊢
  rw [List.dropLast_eq_take, hl]
  rw [List.getD_eq_getElem?_getD, List.getD_eq_getElem?_getD, List.getElem?_take_of_lt hk,
    List.getElem?_take_of_lt (by omega)]
  rw [List.getD_eq_getElem?_getD, List.getD_eq_getElem?_getD] at this
  exact this

theorem heapPop_min (pq : List Item) (hne : pq ≠ []) (h : IsHeap pq) (x : Item) (hx : x ∈ pq) :
    (heapPop pq).1.distance ≤ x.distance := by
  rw [heapPop_fst pq hne]
  exact isHeap_root_min pq h x hx

theorem isHeap_nil : IsHeap [] := by
  intro k _ hk
  simp at hk

/-! ## Walks -/

theorem adjAt_isVertex {g : Graph} (hwf : g.WF) {u : Int} {e : Edge} (h : e ∈ g.adjAt u) :
    g.IsVertex e.To := by
  obtain ⟨l, hl, he⟩ := adjAt_mem_adj h
  exact hwf.2 l hl e he

theorem walk_isVertex {g : Graph} (hwf : g.WF) {s t w : Int} {k : Nat} (hs : g.IsVertex s)
    (h : Walk g s t w k) : g.IsVertex t := by
  induction h with
  | nil => exact hs
  | snoc e _ he _ => exact adjAt_isVertex hwf he

theorem walk_trans {g : Graph} {s v t w1 w2 : Int} {k1 k2 : Nat} (h1 : Walk g s v w1 k1)
    (h2 : Walk g v t w2 k2) : Walk g s t (w1 + w2) (k1 + k2) := by
  induction h2 with
  | nil => simpa using h1
  | snoc e _ he ih =>
    have := Walk.snoc e ih he
    rw [add_assoc] at this
    exact this

theorem walk_nonneg {g : Graph} (hwf : g.WF) (hnn : g.NonNeg) {s t w : Int} {k : Nat}
    (hs : g.IsVertex s) (h : Walk g s t w k) : 0 ≤ w := by
  induction h with
  | nil => exact le_refl _
  | snoc e hw he ih =>
    have := hnn _ (walk_isVertex hwf hs hw) e he
    omega

theorem not_negCycleFrom_of_nonNeg {g : Graph} (hwf : g.WF) (hnn : g.NonNeg) {s : Int}
    (hs : g.IsVertex s) : ¬ NegCycleFrom g s := by
  rintro ⟨v, w, k, c, m, h1, h2, hc⟩
  have := walk_nonneg hwf hnn (walk_isVertex hwf hs h1) h2
  omega

theorem walkV_of_walk {g : Graph} {s t w : Int} {k : Nat} (h : Walk g s t w k) :
    ∃ vs, WalkV g s t w vs ∧ vs.length = k + 1 := by
  induction h with
  | nil => exact ⟨[s], WalkV.nil, rfl⟩
  | snoc e _ he ih =>
    obtain ⟨vs, hv, hl⟩ := ih
    exact ⟨_, WalkV.snoc e hv he, by simp [hl]⟩

theorem walk_of_walkV {g : Graph} {s t w : Int} {vs : List Int} (h : WalkV g s t w vs) :
    ∃ k, Walk g s t w k ∧ vs.length = k + 1 := by
  induction h with
  | nil => exact ⟨0, Walk.nil, rfl⟩
  | snoc e _ he ih =>
    obtain ⟨k, hv, hl⟩ := ih
    exact ⟨_, Walk.snoc e hv he, by simp [hl]⟩

theorem walkV_head_mem {g : Graph} {s t w : Int} {vs : List Int} (h : WalkV g s t w vs) :
    t ∈ vs := by
  cases h <;> simp

theorem walkV_isVertex {g : Graph} (hwf : g.WF) {s t w : Int} {vs : List Int}
    (hs : g.IsVertex s) (h : WalkV g s t w vs) : ∀ x ∈ vs, g.IsVertex x := by
  induction h with
  | nil => intro x hx; simp at hx; rw [hx]; exact hs
  | snoc e _ he ih =>
    intro x hx
    rcases List.mem_cons.1 hx with hx | hx
    · rw [hx]; exact adjAt_isVertex hwf he
    · exact ih x hx

/-- A walk can be cut at any vertex it visits. -/
theorem walkV_split {g : Graph} {s t w : Int} {vs : List Int} (h : WalkV g s t w vs)
    (x : Int) (hx : x ∈ vs) :
    ∃ w1 w2 vs1 k2, WalkV g s x w1 vs1 ∧ Walk g x t w2 k2 ∧ w = w1 + w2 ∧ vs1.Sublist vs := by
  induction h with
  | nil =>
    simp at hx
    subst hx
    exact ⟨0, 0, [x], 0, WalkV.nil, Walk.nil, by simp, List.Sublist.refl _⟩
  | @snoc v w vs e hw he ih =>
    by_cases hxe : x = e.To
    · subst hxe
      exact ⟨_, 0, _, 0, WalkV.snoc e hw he, Walk.nil, by simp, List.Sublist.refl _⟩
    · have hx' : x ∈ vs := by
        rcases List.mem_cons.1 hx with h1 | h1
        · exact absurd h1 hxe
        · exact h1
      obtain ⟨w1, w2, vs1, k2, h1, h2, hw12, hsub⟩ := ih hx'
      exact ⟨w1, w2 + e.Weight, vs1, k2 + 1, h1, Walk.snoc e h2 he, by omega,
        hsub.trans (List.sublist_cons_self _ _)⟩

/-- Cycle removal: without a negative cycle reachable from `s`, every walk from
`s` can be replaced by one that is no heavier and repeats no vertex. -/
theorem walkV_simple {g : Graph} {s : Int} (hnc : ¬ NegCycleFrom g s) {t w : Int}
    {vs : List Int} (h : WalkV g s t w vs) :
    ∃ w1 vs1, WalkV g s t w1 vs1 ∧ w1 ≤ w ∧ vs1.Nodup := by
  induction h with
  | nil => exact ⟨0, [s], WalkV.nil, le_refl _, by simp⟩
  | @snoc v w vs e hw he ih =>
    obtain ⟨w1, vs1, h1, hle, hnd⟩ := ih
    by_cases hmem : e.To ∈ vs1
    · obtain ⟨wa, wb, vsa, kb, ha, hb, hab, hsub⟩ := walkV_split h1 e.To hmem
      refine ⟨wa, vsa, ha, ?_, hnd.sublist hsub⟩
      have hcyc : 0 ≤ wb + e.Weight := by
        by_contra hneg
        obtain ⟨ka, hka, _⟩ := walk_of_walkV ha
        exact hnc ⟨e.To, wa, ka, wb + e.Weight, kb + 1, hka, Walk.snoc e hb he, by omega⟩
      omega
    · exact ⟨w1 + e.Weight, e.To :: vs1, WalkV.snoc e h1 he, by omega,
        List.nodup_cons.2 ⟨hmem, hnd⟩⟩

theorem nodup_vertices_length {g : Graph} (vs : List Int) (hnd : vs.Nodup)
    (hv : ∀ x ∈ vs, g.IsVertex x) : vs.length ≤ g.n := by
  have h1 : vs.toFinset ⊆ Finset.Icc (1 : Int) g.n := by
    intro x hx
    rw [List.mem_toFinset] at hx
    rw [Finset.mem_Icc]
    exact hv x hx
  have h2 := Finset.card_le_card h1
  rw [List.toFinset_card_of_nodup hnd, Int.card_Icc] at h2
  omega

/-- Without a negative cycle reachable from `s`, every walk from `s` can be
replaced by one that is no heavier and has fewer than `n` edges. -/
theorem walk_short {g : Graph} (hwf : g.WF) {s : Int} (hs : g.IsVertex s)
    (hnc : ¬ NegCycleFrom g s) {t w : Int} {k : Nat} (h : Walk g s t w k) :
    ∃ w1 k1, Walk g s t w1 k1 ∧ w1 ≤ w ∧ k1 < g.n := by
  obtain ⟨vs, hv, _⟩ := walkV_of_walk h
  obtain ⟨w1, vs1, h1, hle, hnd⟩ := walkV_simple hnc hv
  obtain ⟨k1, hk1, hl⟩ := walk_of_walkV h1
  have := nodup_vertices_length (g := g) vs1 hnd (walkV_isVertex hwf hs h1)
  exact ⟨w1, k1, hk1, hle, by omega⟩

theorem walk_eq_of_no_edges {g : Graph} {s t w : Int} {k : Nat} (h0 : g.adjAt s = [])
    (h : Walk g s t w k) : t = s := by
  induction h with
  | nil => rfl
  | snoc e _ he ih =>
    rw [ih, h0] at he
    simp at he

/-! ## 64-bit arithmetic -/

theorem wrap64_ge (x : Int) : -(2 ^ 63 : Int) ≤ wrap64 x := by
  unfold wrap64
  omega

theorem wrap64_lt (x : Int) : wrap64 x < (2 ^ 63 : Int) := by
  unfold wrap64
  omega

theorem wrap64_eq (x : Int) (h1 : -(2 ^ 63 : Int) ≤ x) (h2 : x < (2 ^ 63 : Int)) :
    wrap64 x = x := by
  unfold wrap64
  omega

/-! ## More slice lemmas -/

theorem mem_set_imp {α : Type} (l : List α) (i : Nat) (x y : α) (h : y ∈ l.set i x) :
    y = x ∨ y ∈ l := by
  rcases List.mem_or_eq_of_mem_set h with h | h
  · exact Or.inr h
  · exact Or.inl h

theorem sum_map_set (l : List Int) (i : Nat) (x c : Int) (h : i < l.length) :
    ((l.set i x).map (fun y => y + c)).sum =
      (l.map (fun y => y + c)).sum - l.getD i 0 + x := by
  induction l generalizing i with
  | nil => simp at h
  | cons a l ih =>
    cases i with
    | zero => simp; omega
    | succ i =>
      simp only [List.length_cons, Nat.add_lt_add_iff_right] at h
      simp only [List.set_cons_succ, List.map_cons, List.sum_cons, ih i h]
      simp only [List.getD_eq_getElem?_getD, List.getElem?_cons_succ]
      omega

theorem toNat_lt_length {α : Type} {g : Graph} {l : List α} (hl : l.length = g.n + 1) {v : Int}
    (hv : g.IsVertex v) : v.toNat < l.length := by
  unfold Graph.IsVertex at hv
  omega

/-! ## Termination of the Dijkstra loop -/

theorem dMeasureZ_nonneg {g : Graph} {st : DState} (hb : DBase g st) : 0 ≤ dMeasureZ st := by
  unfold dMeasureZ
  have : 0 ≤ (st.dist.map (fun x => x + 2 ^ 63)).sum := by
    apply List.sum_nonneg
    intro y hy
    obtain ⟨x, hx, rfl⟩ := List.mem_map.1 hy
    have := hb.2.2.1 x hx
    omega
  omega

theorem dMeasure_eq {g : Graph} {st : DState} (hb : DBase g st) :
    (dMeasure st : Int) = dMeasureZ st := by
  unfold dMeasure
  exact Int.toNat_of_nonneg (dMeasureZ_nonneg hb)

theorem dijkstraRelax_base {g : Graph} (u : Int) (st : DState) (e : Edge)
    (he : g.IsVertex e.To) (hb : DBase g st) :
    DBase g (dijkstraRelax u st e) ∧ dMeasureZ (dijkstraRelax u st e) ≤ dMeasureZ st := by
  unfold dijkstraRelax
  simp only
  split_ifs with h
  · obtain ⟨h1, h2, h3, h4, h5⟩ := hb
    refine ⟨⟨by simpa using h1, by simpa using h2, ?_, ?_, heapPush_isHeap _ _ h5⟩, ?_⟩
    · intro x hx
      rcases mem_set_imp _ _ _ _ hx with hx | hx
      · rw [hx]; exact wrap64_ge _
      · exact h3 x hx
    · intro it hit
      rcases List.mem_cons.1 ((heapPush_perm _ _).mem_iff.1 hit) with hit | hit
      · rw [hit]; exact he
      · exact h4 it hit
    · unfold dMeasureZ
      simp only
      rw [sum_map_set _ _ _ _ (toNat_lt_length h1 he), (heapPush_perm _ _).length_eq]
      simp only [List.length_cons, Nat.cast_add, Nat.cast_one]
      omega
  · exact ⟨hb, le_refl _⟩

theorem dijkstraRelax_foldl_base {g : Graph} (u : Int) (es : List Edge) (st : DState)
    (he : ∀ e ∈ es, g.IsVertex e.To) (hb : DBase g st) :
    DBase g (es.foldl (dijkstraRelax u) st) ∧
      dMeasureZ (es.foldl (dijkstraRelax u) st) ≤ dMeasureZ st := by
  induction es generalizing st with
  | nil => exact ⟨hb, le_refl _⟩
  | cons e es ih =>
    simp only [List.foldl_cons]
    have h1 := dijkstraRelax_base u st e (he e (List.mem_cons_self _ _)) hb
    have h2 := ih (dijkstraRelax u st e) (fun x hx => he x (List.mem_cons_of_mem _ hx)) h1.1
    exact ⟨h2.1, le_trans h2.2 h1.2⟩

theorem heapPop_base {g : Graph} (st : DState) (hne : st.pq ≠ []) (hb : DBase g st) :
    DBase g { st with pq := (heapPop st.pq).2 } ∧
      dMeasureZ { st with pq := (heapPop st.pq).2 } = dMeasureZ st - 1 ∧
      g.IsVertex (heapPop st.pq).1.vertex := by
  obtain ⟨h1, h2, h3, h4, h5⟩ := hb
  have hp := heapPop_perm st.pq hne
  refine ⟨⟨h1, h2, h3, ?_, heapPop_isHeap _ hne h5⟩, ?_, ?_⟩
  · intro it hit
    exact h4 it (hp.mem_iff.2 (List.mem_cons_of_mem _ hit))
  · unfold dMeasureZ
    simp only
    have := hp.length_eq
    simp only [List.length_cons] at this
    omega
  · exact h4 _ (hp.mem_iff.2 (List.mem_cons_self _ _))

/-- Generic total-correctness rule for the Dijkstra loop: an invariant that
holds initially and is kept by the stale-pop and the relaxing iteration holds,
with enough fuel, in the state the loop returns. -/
theorem dijkstraLoop_total (g : Graph) (hwf : g.WF) (end_ : Int) (Inv Post : DState → Prop)
    (hempty : ∀ st, DBase g st → Inv st → st.pq = [] → Post st)
    (hend : ∀ st, DBase g st → Inv st → st.pq ≠ [] → (heapPop st.pq).1.vertex = end_ →
      Post { st with pq := (heapPop st.pq).2 })
    (hstale : ∀ st, DBase g st → Inv st → st.pq ≠ [] → (heapPop st.pq).1.vertex ≠ end_ →
      (heapPop st.pq).1.distance > st.dist.getD (heapPop st.pq).1.vertex.toNat 0 →
      Inv { st with pq := (heapPop st.pq).2 })
    (hproc : ∀ st, DBase g st → Inv st → st.pq ≠ [] → (heapPop st.pq).1.vertex ≠ end_ →
      ¬ (heapPop st.pq).1.distance > st.dist.getD (heapPop st.pq).1.vertex.toNat 0 →
      Inv ((g.adjAt (heapPop st.pq).1.vertex).foldl (dijkstraRelax (heapPop st.pq).1.vertex)
        { st with pq := (heapPop st.pq).2 })) :
    ∀ fuel st, DBase g st → Inv st → dMeasure st ≤ fuel →
      ∃ st1, dijkstraLoop g end_ fuel st = some st1 ∧ Post st1 := by
  intro fuel
  induction fuel with
  | zero =>
    intro st hb hi hm
    have hz : dMeasureZ st = 0 := by
      have := dMeasure_eq hb
      have := dMeasureZ_nonneg hb
      omega
    have hlen : st.pq.length = 0 := by
      unfold dMeasureZ at hz
      have : 0 ≤ (st.dist.map (fun x => x + 2 ^ 63)).sum := by
        apply List.sum_nonneg
        intro y hy
        obtain ⟨x, hx, rfl⟩ := List.mem_map.1 hy
        have := hb.2.2.1 x hx
        omega
      omega
    unfold dijkstraLoop
    rw [if_pos hlen]
    exact ⟨st, rfl, hempty st hb hi (List.length_eq_zero.1 hlen)⟩
  | succ fuel ih =>
    intro st hb hi hm
    unfold dijkstraLoop
    by_cases hlen : st.pq.length = 0
    · rw [if_pos hlen]
      exact ⟨st, rfl, hempty st hb hi (List.length_eq_zero.1 hlen)⟩
    · rw [if_neg hlen]
      have hne : st.pq ≠ [] := fun h => hlen (by rw [h]; rfl)
      obtain ⟨hb1, hm1, hv⟩ := heapPop_base st hne hb
      simp only
      by_cases hend' : (heapPop st.pq).1.vertex = end_
      · rw [if_pos hend']
        exact ⟨_, rfl, hend st hb hi hne hend'⟩
      · rw [if_neg hend']
        have hmst := dMeasure_eq hb
        by_cases hst : (heapPop st.pq).1.distance >
            st.dist.getD (heapPop st.pq).1.vertex.toNat 0
        · rw [if_pos hst]
          apply ih _ hb1 (hstale st hb hi hne hend' hst)
          have := dMeasure_eq hb1
          omega
        · rw [if_neg hst]
          have hes : ∀ e ∈ g.adjAt (heapPop st.pq).1.vertex, g.IsVertex e.To :=
            fun e he => adjAt_isVertex hwf he
          obtain ⟨hb2, hm2⟩ := dijkstraRelax_foldl_base (heapPop st.pq).1.vertex _ _ hes hb1
          apply ih _ hb2 (hproc st hb hi hne hend' hst)
          have := dMeasure_eq hb2
          omega

theorem dijkstraLoop_mono (g : Graph) (end_ : Int) (fuel : Nat) (st st1 : DState)
    (h : dijkstraLoop g end_ fuel st = some st1) (fuel2 : Nat) (hle : fuel ≤ fuel2) :
    dijkstraLoop g end_ fuel2 st = some st1 := by
  induction fuel generalizing st fuel2 with
  | zero =>
    unfold dijkstraLoop at h ⊢
    by_cases hlen : st.pq.length = 0
    · rw [if_pos hlen] at h ⊢; exact h
    · rw [if_neg hlen] at h; simp at h
  | succ fuel ih =>
    obtain ⟨f2, rfl⟩ : ∃ f2, fuel2 = f2 + 1 := ⟨fuel2 - 1, by omega⟩
    unfold dijkstraLoop at h ⊢
    by_cases hlen : st.pq.length = 0
    · rw [if_pos hlen] at h ⊢; exact h
    · rw [if_neg hlen] at h ⊢
      simp only at h ⊢
      split_ifs at h ⊢ with h1 h2
      · exact h
      · exact ih _ h _ (by omega)
      · exact ih _ h _ (by omega)

/-! ## The Dijkstra invariant -/

theorem isVertex_toNat_inj {g : Graph} {x v : Int} (hx : g.IsVertex x) (hv : g.IsVertex v) :
    x.toNat = v.toNat ↔ x = v := by
  unfold Graph.IsVertex at hx hv
  omega

theorem getD_set_vertex {α : Type} {g : Graph} (l : List α) (hl : l.length = g.n + 1) (a d : α)
    {x v : Int} (hx : g.IsVertex x) (hv : g.IsVertex v) :
    (l.set v.toNat a).getD x.toNat d = if x = v then a else l.getD x.toNat d := by
  by_cases h : x = v
  · subst h
    rw [if_pos rfl, getD_set_self _ _ _ _ (toNat_lt_length hl hx)]
  · rw [if_neg h, getD_set_other]
    intro h2
    exact h ((isVertex_toNat_inj hx hv).1 h2.symm)

theorem dsettled_of_pop {inf : Int} {st : DState} {q : List Item} {x : Int}
    (hsub : ∀ it, it ∈ q → it ∈ st.pq) (h : DSettled inf st x) :
    DSettled inf { st with pq := q } x :=
  ⟨h.1, fun hm => h.2 (hsub _ hm)⟩

/-- Frontier lemma: every walk from `start` either ends in a settled vertex whose
distance is no larger than the walk, or some queued key is no larger than the walk. -/
theorem dijkstra_frontier {g : Graph} {start inf : Int} {st : DState} (hwf : g.WF)
    (hnn : g.NonNeg) (hs : g.IsVertex start) (hinf : 0 < inf) (hinv : DInv g start inf st)
    {v w : Int} {k : Nat} (h : Walk g start v w k) :
    (DSettled inf st v ∧ st.d v ≤ w) ∨ ∃ it ∈ st.pq, it.distance ≤ w := by
  induction h with
  | nil =>
    have h0 : st.d start = 0 := hinv.1.2.1
    by_cases hm : ({ vertex := start, distance := st.d start } : Item) ∈ st.pq
    · right
      exact ⟨_, hm, by simp [h0]⟩
    · left
      exact ⟨⟨by omega, hm⟩, by omega⟩
  | @snoc x w k e hw he ih =>
    have hx := walk_isVertex hwf hs hw
    have hew := hnn x hx e he
    rcases ih with ⟨hset, hd⟩ | ⟨it, hit, hk⟩
    · obtain ⟨h1, h2⟩ := hinv.2 x hx hset e he
      by_cases hm : ({ vertex := e.To, distance := st.d e.To } : Item) ∈ st.pq
      · right
        exact ⟨_, hm, by simp only; omega⟩
      · left
        exact ⟨⟨by omega, hm⟩, by omega⟩
    · right
      exact ⟨it, hit, by omega⟩

/-- Popping the minimum keeps the core invariant. -/
theorem dcore_pop {g : Graph} {start inf : Int} {st : DState} (hne : st.pq ≠ [])
    (hheap : IsHeap st.pq) (hc : DCore g start inf st) :
    DCore g start inf { st with pq := (heapPop st.pq).2 } := by
  obtain ⟨c1, c2, c3, c4, c5, c6, rank, c7⟩ := hc
  have hp := heapPop_perm st.pq hne
  have hsub : ∀ it, it ∈ (heapPop st.pq).2 → it ∈ st.pq :=
    fun it hit => hp.mem_iff.2 (List.mem_cons_of_mem _ hit)
  have hnd : ((heapPop st.pq).1 :: (heapPop st.pq).2).Nodup := hp.nodup_iff.1 c1
  -- a vertex settled after the pop was settled before or is the popped item
  have hnew : ∀ x, DSettled inf { st with pq := (heapPop st.pq).2 } x →
      DSettled inf st x ∨ (heapPop st.pq).1 = { vertex := x, distance := st.d x } := by
    intro x hx
    by_cases hm : ({ vertex := x, distance := st.d x } : Item) ∈ st.pq
    · right
      rcases List.mem_cons.1 (hp.mem_iff.1 hm) with h | h
      · exact h.symm
      · exact absurd h hx.2
    · left
      exact ⟨hx.1, hm⟩
  refine ⟨(List.nodup_cons.1 hnd).2, c2, c3, fun it hit => c4 it (hsub it hit), c5, ?_, ?_⟩
  · intro u hu hset it hit
    rcases hnew u hset with h | h
    · exact c6 u hu h it (hsub it hit)
    · have := heapPop_min st.pq hne hheap it (hsub it hit)
      rw [h] at this
      exact this
  · by_cases hold : DSettled inf st (heapPop st.pq).1.vertex
    · refine ⟨rank, fun v hv hvs hvd => ?_⟩
      obtain ⟨p1, p2, p3, p4⟩ := c7 v hv hvs hvd
      refine ⟨p1, dsettled_of_pop hsub p2, p3, fun hset => ?_⟩
      rcases hnew v hset with h | h
      · exact p4 h
      · rw [h] at hold
        exact p4 hold
    · refine ⟨Function.update rank (heapPop st.pq).1.vertex
        (rank (st.p (heapPop st.pq).1.vertex) + 1), fun v hv hvs hvd => ?_⟩
      obtain ⟨p1, p2, p3, p4⟩ := c7 v hv hvs hvd
      refine ⟨p1, dsettled_of_pop hsub p2, p3, fun hset => ?_⟩
      have hpne : st.p v ≠ (heapPop st.pq).1.vertex := by
        intro h
        rw [h] at p2
        exact hold p2
      show Function.update rank _ _ (st.p v) < Function.update rank _ _ v
      rw [Function.update_noteq hpne]
      rcases hnew v hset with h | h
      · have hvne : v ≠ (heapPop st.pq).1.vertex := by
          intro h2
          rw [← h2] at hold
          exact hold h
        rw [Function.update_noteq hvne]
        exact p4 h
      · have hv2 : (heapPop st.pq).1.vertex = v := by rw [h]
        rw [hv2, Function.update_same]
        omega

theorem dsettled_after_pop {inf : Int} {st : DState} (hne : st.pq ≠ []) {x : Int}
    (hx : DSettled inf { st with pq := (heapPop st.pq).2 } x) :
    DSettled inf st x ∨ (heapPop st.pq).1 = { vertex := x, distance := st.d x } := by
  have hp := heapPop_perm st.pq hne
  by_cases hm : ({ vertex := x, distance := st.d x } : Item) ∈ st.pq
  · right
    rcases List.mem_cons.1 (hp.mem_iff.1 hm) with h | h
    · exact h.symm
    · exact absurd h hx.2
  · left
    exact ⟨hx.1, hm⟩

theorem dinv_stale {g : Graph} {start inf : Int} {st : DState} (hne : st.pq ≠ [])
    (hheap : IsHeap st.pq) (hinv : DInv g start inf st)
    (hst : (heapPop st.pq).1.distance > st.dist.getD (heapPop st.pq).1.vertex.toNat 0) :
    DInv g start inf { st with pq := (heapPop st.pq).2 } := by
  refine ⟨dcore_pop hne hheap hinv.1, fun u hu hset => ?_⟩
  rcases dsettled_after_pop hne hset with h | h
  · exact hinv.2 u hu h
  · rw [h] at hst
    simp only [DState.d] at hst
    omega

theorem dpost_empty {g : Graph} {start inf end_ : Int} {st : DState} (hwf : g.WF)
    (hnn : g.NonNeg) (hs : g.IsVertex start) (hinf : 0 < inf) (hinv : DInv g start inf st)
    (hemp : st.pq = []) : DPost g start inf end_ st := by
  refine ⟨hinv.1, fun w k hw => ?_⟩
  rcases dijkstra_frontier hwf hnn hs hinf hinv hw with ⟨hset, hd⟩ | ⟨it, hit, _⟩
  · exact ⟨hd, hset.1⟩
  · rw [hemp] at hit
    simp at hit

theorem dpost_end {g : Graph} {start inf end_ : Int} {st : DState} (hwf : g.WF)
    (hnn : g.NonNeg) (hs : g.IsVertex start) (hinf : 0 < inf) (hne : st.pq ≠ [])
    (hheap : IsHeap st.pq) (hinv : DInv g start inf st)
    (hend : (heapPop st.pq).1.vertex = end_) :
    DPost g start inf end_ { st with pq := (heapPop st.pq).2 } := by
  refine ⟨dcore_pop hne hheap hinv.1, fun w k hw => ?_⟩
  have hp := heapPop_perm st.pq hne
  have hmem : (heapPop st.pq).1 ∈ st.pq := hp.mem_iff.2 (List.mem_cons_self _ _)
  have h4 := hinv.1.2.2.2.1 _ hmem
  rw [hend] at h4
  show st.d end_ ≤ w ∧ st.d end_ ≠ inf
  rcases dijkstra_frontier hwf hnn hs hinf hinv hw with ⟨hset, hd⟩ | ⟨it, hit, hk⟩
  · exact ⟨hd, hset.1⟩
  · have := heapPop_min st.pq hne hheap it hit
    exact ⟨by omega, by omega⟩

theorem dinner_entry {g : Graph} {start inf : Int} {st : DState} (hwf : g.WF)
    (hnn : g.NonNeg) (hs : g.IsVertex start) (hinf : 0 < inf)
    (hbound : BelowBound g start inf) (hne : st.pq ≠ [])
    (hb : DBase g st) (hinv : DInv g start inf st)
    (hst : ¬ (heapPop st.pq).1.distance > st.dist.getD (heapPop st.pq).1.vertex.toNat 0) :
    DInner g start inf (heapPop st.pq).1.vertex (heapPop st.pq).1.distance []
      { st with pq := (heapPop st.pq).2 } := by
  have hheap : IsHeap st.pq := hb.2.2.2.2
  have hp := heapPop_perm st.pq hne
  have hmem : (heapPop st.pq).1 ∈ st.pq := hp.mem_iff.2 (List.mem_cons_self _ _)
  have hu : g.IsVertex (heapPop st.pq).1.vertex := hb.2.2.2.1 _ hmem
  have h4 := hinv.1.2.2.2.1 _ hmem
  have hd : st.d (heapPop st.pq).1.vertex = (heapPop st.pq).1.distance := by
    simp only [DState.d] at h4 ⊢
    omega
  have hitem : (⟨(heapPop st.pq).1.vertex, st.d (heapPop st.pq).1.vertex⟩ : Item) =
      (heapPop st.pq).1 := by
    rw [hd]
  have hnd : ((heapPop st.pq).1 :: (heapPop st.pq).2).Nodup := hp.nodup_iff.1 hinv.1.1
  have hsetu : DSettled inf { st with pq := (heapPop st.pq).2 } (heapPop st.pq).1.vertex := by
    refine ⟨?_, ?_⟩
    · show st.d _ ≠ inf
      omega
    · show (⟨_, st.d (heapPop st.pq).1.vertex⟩ : Item) ∉ _
      rw [hitem]
      exact (List.nodup_cons.1 hnd).1
  have hnotold : ¬ DSettled inf st (heapPop st.pq).1.vertex := by
    intro h
    apply h.2
    rw [hitem]
    exact hmem
  -- the popped distance is minimal over all walks
  have hmin : ∀ w k, Walk g start (heapPop st.pq).1.vertex w k →
      (heapPop st.pq).1.distance ≤ w := by
    intro w k hw
    rcases dijkstra_frontier hwf hnn hs hinf hinv hw with ⟨hset, _⟩ | ⟨it, hit, hk⟩
    · exact absurd hset hnotold
    · have := heapPop_min st.pq hne hheap it hit
      omega
  obtain ⟨k0, hw0⟩ := hinv.1.2.2.2.2.1 _ hu (by omega)
  rw [hd] at hw0
  obtain ⟨w1, k1, hw1, hle1, hk1⟩ :=
    walk_short hwf hs (not_negCycleFrom_of_nonNeg hwf hnn hs) hw0
  have hw1eq : w1 = (heapPop st.pq).1.distance := by
    have := hmin w1 k1 hw1
    omega
  subst hw1eq
  refine ⟨dcore_pop hne hheap hinv.1, ?_, ?_, hd, hsetu, ?_, ?_, ?_⟩
  · intro x hx hset hxu
    rcases dsettled_after_pop hne hset with h | h
    · exact hinv.2 x hx h
    · exact absurd (by rw [h]) hxu
  · intro e he
    simp at he
  · intro it hit
    exact heapPop_min st.pq hne hheap it (hp.mem_iff.2 (List.mem_cons_of_mem _ hit))
  · intro x hx hset
    show st.d x ≤ _
    rcases dsettled_after_pop hne hset with h | h
    · exact hinv.1.2.2.2.2.2.1 x hx h _ hmem
    · rw [h]
  · intro e he
    exact ⟨hnn _ hu e he, hbound _ _ _ (by omega) (Walk.snoc e hw1 he)⟩

theorem dinner_relax {g : Graph} {start inf u d : Int} {done : List Edge} {st : DState}
    (hwf : g.WF) (hnn : g.NonNeg) (hs : g.IsVertex start) (hinf2 : inf ≤ 2 ^ 63)
    (hu : g.IsVertex u) (hb : DBase g st) (hin : DInner g start inf u d done st)
    (hdone : ∀ e1 ∈ done, e1 ∈ g.adjAt u) (e : Edge) (he : e ∈ g.adjAt u) :
    DInner g start inf u d (done ++ [e]) (dijkstraRelax u st e) := by
  obtain ⟨⟨c1, c2, c3, c4, c5, c6, rank, c7⟩, i2, i3, i4, i5, i6, i7, i8⟩ := hin
  obtain ⟨b1, b2, b3, b4, b5⟩ := hb
  have hv : g.IsVertex e.To := adjAt_isVertex hwf he
  obtain ⟨hew, hlt_inf⟩ := i8 e he
  have hdu : st.dist.getD u.toNat 0 = d := i4
  have hdmem : -(2 ^ 63 : Int) ≤ d := by
    rw [← hdu]
    exact b3 _ (getD_mem _ _ _ (toNat_lt_length b1 hu))
  have hnd : wrap64 (st.dist.getD u.toNat 0 + e.Weight) = d + e.Weight := by
    rw [hdu]
    exact wrap64_eq _ (by omega) (by omega)
  unfold dijkstraRelax
  simp only
  rw [hnd]
  split_ifs with hlt
  · -- the edge improves `e.To`
    have hlt' : d + e.Weight < st.d e.To := hlt
    have hd' : ∀ x, g.IsVertex x →
        (st.dist.set e.To.toNat (d + e.Weight)).getD x.toNat 0 =
          if x = e.To then d + e.Weight else st.d x :=
      fun x hx => getD_set_vertex _ b1 _ _ hx hv
    have hp' : ∀ x, g.IsVertex x →
        (st.parent.set e.To.toNat u).getD x.toNat (-1) = if x = e.To then u else st.p x :=
      fun x hx => getD_set_vertex _ b2 _ _ hx hv
    have hmem' : ∀ it, it ∈ heapPush st.pq { vertex := e.To, distance := d + e.Weight } ↔
        it = { vertex := e.To, distance := d + e.Weight } ∨ it ∈ st.pq := by
      intro it
      rw [(heapPush_perm _ _).mem_iff, List.mem_cons]
    have hvu : e.To ≠ u := by
      intro h
      rw [h, i4] at hlt'
      omega
    have hd0 : 0 ≤ d := by
      obtain ⟨k, hk⟩ := c5 u hu (by rw [i4]; rw [← i4]; exact i5.1)
      rw [i4] at hk
      exact walk_nonneg hwf hnn hs hk
    have hvs : e.To ≠ start := by
      intro h
      rw [h, c2] at hlt'
      omega
    have hvns : ¬ DSettled inf st e.To := by
      intro h
      have := i7 _ hv h
      omega
    -- settledness is unchanged
    have hset : ∀ x, g.IsVertex x →
        (DSettled inf { dist := st.dist.set e.To.toNat (d + e.Weight),
                        parent := st.parent.set e.To.toNat u,
                        pq := heapPush st.pq { vertex := e.To, distance := d + e.Weight } } x ↔
          DSettled inf st x) := by
      intro x hx
      unfold DSettled DState.d
      simp only
      rw [hd' x hx]
      by_cases hxv : x = e.To
      · subst hxv
        rw [if_pos rfl]
        constructor
        · intro h
          exact absurd ((hmem' _).2 (Or.inl rfl)) h.2
        · intro h
          exact absurd h hvns
      · rw [if_neg hxv, hmem']
        constructor
        · intro h
          exact ⟨h.1, fun hm => h.2 (Or.inr hm)⟩
        · intro h
          refine ⟨h.1, ?_⟩
          rintro (h1 | h1)
          · have : x = e.To := congrArg Item.vertex h1
            exact hxv this
          · exact h.2 h1
    have hle : ∀ x, g.IsVertex x →
        (st.dist.set e.To.toNat (d + e.Weight)).getD x.toNat 0 ≤ st.d x := by
      intro x hx
      rw [hd' x hx]
      split_ifs with h
      · rw [h]; omega
      · exact le_refl _
    have hsame : ∀ x, g.IsVertex x → DSettled inf st x →
        (st.dist.set e.To.toNat (d + e.Weight)).getD x.toNat 0 = st.d x := by
      intro x hx hsx
      rw [hd' x hx, if_neg]
      intro h
      rw [h] at hsx
      exact hvns hsx
    refine ⟨⟨?_, ?_, ?_, ?_, ?_, ?_, rank, ?_⟩, ?_, ?_, ?_, ?_, ?_, ?_, i8⟩
    · -- Nodup
      refine (heapPush_perm _ _).nodup_iff.2 (List.nodup_cons.2 ⟨?_, c1⟩)
      intro hm
      have := (c4 _ hm).1
      simp only at this
      omega
    · show (st.dist.set e.To.toNat (d + e.Weight)).getD start.toNat 0 = 0
      rw [hd' start hs, if_neg (Ne.symm hvs)]
      exact c2
    · intro x hx
      have := hle x hx
      have := c3 x hx
      show (st.dist.set e.To.toNat (d + e.Weight)).getD x.toNat 0 ≤ inf
      omega
    · intro it hit
      show (st.dist.set e.To.toNat (d + e.Weight)).getD it.vertex.toNat 0 ≤ it.distance ∧ _
      rcases (hmem' it).1 hit with h | h
      · rw [h]
        simp only
        rw [hd' _ hv, if_pos rfl]
        exact ⟨le_refl _, hlt_inf⟩
      · have := hle _ (b4 it h)
        have := c4 it h
        exact ⟨by omega, this.2⟩
    · intro x hx hxd
      show ∃ k, Walk g start x ((st.dist.set e.To.toNat (d + e.Weight)).getD x.toNat 0) k
      have hxd' : (st.dist.set e.To.toNat (d + e.Weight)).getD x.toNat 0 ≠ inf := hxd
      rw [hd' x hx] at hxd' ⊢
      by_cases hxv : x = e.To
      · rw [if_pos hxv, hxv]
        obtain ⟨k, hk⟩ := c5 u hu i5.1
        rw [i4] at hk
        exact ⟨k + 1, Walk.snoc e hk he⟩
      · rw [if_neg hxv] at hxd' ⊢
        exact c5 x hx hxd'
    · intro x hx hsx it hit
      have hsx' := (hset x hx).1 hsx
      show (st.dist.set e.To.toNat (d + e.Weight)).getD x.toNat 0 ≤ it.distance
      rw [hsame x hx hsx']
      rcases (hmem' it).1 hit with h | h
      · rw [h]
        have := i7 x hx hsx'
        simp only
        omega
      · exact c6 x hx hsx' it h
    · intro x hx hxs hxd
      have hxd' : (st.dist.set e.To.toNat (d + e.Weight)).getD x.toNat 0 ≠ inf := hxd
      show g.IsVertex ((st.parent.set e.To.toNat u).getD x.toNat (-1)) ∧
        DSettled inf _ ((st.parent.set e.To.toNat u).getD x.toNat (-1)) ∧
        (∃ e1 ∈ g.adjAt ((st.parent.set e.To.toNat u).getD x.toNat (-1)), e1.To = x ∧
          (st.dist.set e.To.toNat (d + e.Weight)).getD x.toNat 0 =
            (st.dist.set e.To.toNat (d + e.Weight)).getD
              ((st.parent.set e.To.toNat u).getD x.toNat (-1)).toNat 0 + e1.Weight) ∧
        (DSettled inf _ x → rank ((st.parent.set e.To.toNat u).getD x.toNat (-1)) < rank x)
      rw [hp' x hx]
      by_cases hxv : x = e.To
      · rw [if_pos hxv]
        refine ⟨hu, (hset u hu).2 i5, ⟨e, he, hxv.symm, ?_⟩, ?_⟩
        · rw [hsame u hu i5, i4, hd' x hx, if_pos hxv]
        · intro h
          rw [hxv] at h
          exact absurd ((hset _ hv).1 h) hvns
      · rw [if_neg hxv]
        rw [hd' x hx, if_neg hxv] at hxd'
        obtain ⟨p1, p2, ⟨e1, he1, hto1, hd1⟩, p4⟩ := c7 x hx hxs hxd'
        refine ⟨p1, (hset _ p1).2 p2, ⟨e1, he1, hto1, ?_⟩, fun h => p4 ((hset x hx).1 h)⟩
        rw [hsame _ p1 p2, hd' x hx, if_neg hxv]
        exact hd1
    · intro x hx hsx hxu e1 he1
      have hsx' := (hset x hx).1 hsx
      have := i2 x hx hsx' hxu e1 he1
      have h1 := hle _ (adjAt_isVertex hwf he1)
      show (st.dist.set e.To.toNat (d + e.Weight)).getD e1.To.toNat 0 ≤
        (st.dist.set e.To.toNat (d + e.Weight)).getD x.toNat 0 + e1.Weight ∧
        (st.dist.set e.To.toNat (d + e.Weight)).getD x.toNat 0 + e1.Weight < inf
      rw [hsame x hx hsx']
      exact ⟨by omega, this.2⟩
    · intro e1 he1
      show (st.dist.set e.To.toNat (d + e.Weight)).getD e1.To.toNat 0 ≤
        (st.dist.set e.To.toNat (d + e.Weight)).getD u.toNat 0 + e1.Weight ∧
        (st.dist.set e.To.toNat (d + e.Weight)).getD u.toNat 0 + e1.Weight < inf
      rw [hsame u hu i5, i4]
      rcases List.mem_append.1 he1 with h | h
      · have := i3 e1 h
        rw [i4] at this
        have h1 := hle _ (adjAt_isVertex hwf (hdone e1 h))
        exact ⟨by omega, this.2⟩
      · simp only [List.mem_singleton] at h
        subst h
        rw [hd' _ hv, if_pos rfl]
        exact ⟨le_refl _, hlt_inf⟩
    · show (st.dist.set e.To.toNat (d + e.Weight)).getD u.toNat 0 = d
      rw [hsame u hu i5, i4]
    · exact (hset u hu).2 i5
    · intro it hit
      rcases (hmem' it).1 hit with h | h
      · rw [h]
        simp only
        omega
      · exact i6 it h
    · intro x hx hsx
      have hsx' := (hset x hx).1 hsx
      show (st.dist.set e.To.toNat (d + e.Weight)).getD x.toNat 0 ≤ d
      rw [hsame x hx hsx']
      exact i7 x hx hsx'
  · refine ⟨⟨c1, c2, c3, c4, c5, c6, rank, c7⟩, i2, ?_, i4, i5, i6, i7, i8⟩
    intro e1 he1
    rcases List.mem_append.1 he1 with h | h
    · exact i3 e1 h
    · simp only [List.mem_singleton] at h
      subst h
      rw [i4]
      have : ¬ d + e1.Weight < st.d e1.To := hlt
      exact ⟨by omega, hlt_inf⟩

theorem dinner_foldl {g : Graph} {start inf u d : Int} (hwf : g.WF) (hnn : g.NonNeg)
    (hs : g.IsVertex start) (hinf2 : inf ≤ 2 ^ 63) (hu : g.IsVertex u) :
    ∀ (rest done : List Edge) (st : DState), g.adjAt u = done ++ rest → DBase g st →
      DInner g start inf u d done st →
      DInner g start inf u d (g.adjAt u) (rest.foldl (dijkstraRelax u) st) := by
  intro rest
  induction rest with
  | nil =>
    intro done st hsplit _ hin
    rw [hsplit, List.append_nil]
    exact hin
  | cons e rest ih =>
    intro done st hsplit hb hin
    have he : e ∈ g.adjAt u := by rw [hsplit]; simp
    have hdone : ∀ e1 ∈ done, e1 ∈ g.adjAt u := by
      intro e1 h1; rw [hsplit]; exact List.mem_append_left _ h1
    simp only [List.foldl_cons]
    apply ih (done ++ [e]) _ (by rw [hsplit]; simp)
    · exact (dijkstraRelax_base u st e (adjAt_isVertex hwf he) hb).1
    · exact dinner_relax hwf hnn hs hinf2 hu hb hin hdone e he

theorem dinv_of_dinner {g : Graph} {start inf u d : Int} {st : DState}
    (hin : DInner g start inf u d (g.adjAt u) st) : DInv g start inf st := by
  refine ⟨hin.1, fun x hx hsx => ?_⟩
  by_cases hxu : x = u
  · rw [hxu]; exact hin.2.2.1
  · exact hin.2.1 x hx hsx hxu

theorem dinv_process {g : Graph} {start inf : Int} {st : DState} (hwf : g.WF)
    (hnn : g.NonNeg) (hs : g.IsVertex start) (hinf : 0 < inf) (hinf2 : inf ≤ 2 ^ 63)
    (hbound : BelowBound g start inf) (hne : st.pq ≠ [])
    (hb : DBase g st) (hinv : DInv g start inf st)
    (hst : ¬ (heapPop st.pq).1.distance > st.dist.getD (heapPop st.pq).1.vertex.toNat 0) :
    DInv g start inf ((g.adjAt (heapPop st.pq).1.vertex).foldl
      (dijkstraRelax (heapPop st.pq).1.vertex) { st with pq := (heapPop st.pq).2 }) := by
  obtain ⟨hb1, _, hu⟩ := heapPop_base st hne hb
  exact dinv_of_dinner (dinner_foldl hwf hnn hs hinf2 hu _ [] _ rfl hb1
    (dinner_entry hwf hnn hs hinf hbound hne hb hinv hst))

/-- Initial state of a Dijkstra run with sentinel `inf`. -/
theorem dinv_init {g : Graph} {start inf : Int} (hs : g.IsVertex start) (hinf : 0 < inf)
    (hinf2 : inf ≤ 2 ^ 63) (par : List Int) (hpar : par.length = g.n + 1) :
    DBase g (dInit g.n start inf par) ∧ DInv g start inf (dInit g.n start inf par) := by
  have hpq : heapPush (heapInit []) { vertex := start, distance := 0 } =
      [{ vertex := start, distance := 0 }] := by
    simp [heapPush, heapInit, heapUp]
  unfold dInit
  rw [hpq]
  have hlen : (List.replicate (g.n + 1) inf).length = g.n + 1 := by simp
  have hd : ∀ x, g.IsVertex x →
      ((List.replicate (g.n + 1) inf).set start.toNat 0).getD x.toNat 0 =
        if x = start then 0 else inf := by
    intro x hx
    rw [getD_set_vertex _ hlen _ _ hx hs]
    split_ifs
    · rfl
    · rw [List.getD_eq_getElem _ _ (toNat_lt_length hlen hx)]
      simp
  constructor
  · refine ⟨by simp, hpar, ?_, ?_, ?_⟩
    · intro x hx
      rcases mem_set_imp _ _ _ _ hx with h | h
      · rw [h]; omega
      · rw [List.eq_of_mem_replicate h]; omega
    · intro it hit
      simp only [List.mem_singleton] at hit
      rw [hit]; exact hs
    · intro k hk0 hk
      simp at hk
      omega
  · have hns : ∀ x, g.IsVertex x → ¬ DSettled inf
        { dist := (List.replicate (g.n + 1) inf).set start.toNat 0, parent := par,
          pq := [{ vertex := start, distance := 0 }] } x := by
      intro x hx hsx
      obtain ⟨h1, h2⟩ := hsx
      simp only [DState.d] at h1 h2
      rw [hd x hx] at h1 h2
      by_cases hxs : x = start
      · subst hxs
        simp at h2
      · rw [if_neg hxs] at h1
        exact h1 rfl
    refine ⟨⟨by simp, ?_, ?_, ?_, ?_, ?_, fun _ => 0, ?_⟩, ?_⟩
    · show ((List.replicate (g.n + 1) inf).set start.toNat 0).getD start.toNat 0 = 0
      rw [hd start hs, if_pos rfl]
    · intro x hx
      show ((List.replicate (g.n + 1) inf).set start.toNat 0).getD x.toNat 0 ≤ inf
      rw [hd x hx]
      split_ifs <;> omega
    · intro it hit
      simp only [List.mem_singleton] at hit
      rw [hit]
      show ((List.replicate (g.n + 1) inf).set start.toNat 0).getD start.toNat 0 ≤ 0 ∧ 0 < inf
      rw [hd start hs, if_pos rfl]
      exact ⟨le_refl _, hinf⟩
    · intro x hx hxd
      have hxd' : ((List.replicate (g.n + 1) inf).set start.toNat 0).getD x.toNat 0 ≠ inf := hxd
      show ∃ k, Walk g start x (((List.replicate (g.n + 1) inf).set start.toNat 0).getD x.toNat 0) k
      rw [hd x hx] at hxd' ⊢
      by_cases hxs : x = start
      · rw [if_pos hxs, hxs]
        exact ⟨0, Walk.nil⟩
      · rw [if_neg hxs] at hxd'
        exact absurd rfl hxd'
    · intro x hx hsx
      exact absurd hsx (hns x hx)
    · intro x hx hxs hxd
      have hxd' : ((List.replicate (g.n + 1) inf).set start.toNat 0).getD x.toNat 0 ≠ inf := hxd
      rw [hd x hx, if_neg hxs] at hxd'
      exact absurd rfl hxd'
    · intro x hx hsx
      exact absurd hsx (hns x hx)

/-- Total correctness of the Dijkstra loop. -/
theorem dijkstraLoop_correct {g : Graph} {start inf : Int} (hwf : g.WF) (hnn : g.NonNeg)
    (hs : g.IsVertex start) (hinf : 0 < inf) (hinf2 : inf ≤ 2 ^ 63)
    (hbound : BelowBound g start inf) (end_ : Int) (fuel : Nat) (st : DState)
    (hb : DBase g st) (hinv : DInv g start inf st) (hfuel : dMeasure st ≤ fuel) :
    ∃ st1, dijkstraLoop g end_ fuel st = some st1 ∧ DPost g start inf end_ st1 ∧
      st1.dist.length = g.n + 1 ∧ st1.parent.length = g.n + 1 := by
  have := dijkstraLoop_total g hwf end_
    (fun s => DInv g start inf s)
    (fun s => DPost g start inf end_ s ∧ s.dist.length = g.n + 1 ∧ s.parent.length = g.n + 1)
    (fun s hbs his hemp => ⟨dpost_empty hwf hnn hs hinf his hemp, hbs.1, hbs.2.1⟩)
    (fun s hbs his hne hend =>
      ⟨dpost_end hwf hnn hs hinf hne hbs.2.2.2.2 his hend, hbs.1, hbs.2.1⟩)
    (fun s hbs his hne _ hst => dinv_stale hne hbs.2.2.2.2 his hst)
    (fun s hbs his hne _ hst => dinv_process hwf hnn hs hinf hinf2 hbound hne hbs his hst)
    fuel st hb hinv hfuel
  exact this

/-! ## Path reconstruction after Dijkstra -/

theorem buildPath_step (parent : List Int) (start : Int) (fuel : Nat) (x : Int) (acc : List Int)
    (h1 : x ≠ -1) (h2 : x ≠ start) :
    buildPath parent start (fuel + 1) x acc =
      buildPath parent start fuel (parent.getD x.toNat (-1)) (acc ++ [x]) := by
  rw [buildPath, if_neg h1, if_neg h2]

theorem buildPath_start (parent : List Int) (start : Int) (fuel : Nat) (acc : List Int)
    (h1 : start ≠ -1) :
    buildPath parent start (fuel + 1) start acc = some (acc ++ [start]) := by
  rw [buildPath, if_neg h1, if_pos rfl]

theorem dcore_buildPath_settled {g : Graph} {start inf : Int} {st : DState}
    (hs : g.IsVertex start)
    (rank : Int → Nat)
    (c2 : st.d start = 0)
    (c7 : ∀ v, g.IsVertex v → v ≠ start → st.d v ≠ inf →
      g.IsVertex (st.p v) ∧ DSettled inf st (st.p v) ∧
      (∃ e ∈ g.adjAt (st.p v), e.To = v ∧ st.d v = st.d (st.p v) + e.Weight) ∧
      (DSettled inf st v → rank (st.p v) < rank v)) :
    ∀ (r : Nat) (x : Int), rank x ≤ r → g.IsVertex x → DSettled inf st x →
      ∀ (fuel : Nat) (acc : List Int), r + 1 ≤ fuel →
        ∃ vs, buildPath st.parent start fuel x acc = some (acc ++ vs) ∧
          WalkV g start x (st.d x) vs := by
  intro r
  induction r with
  | zero =>
    intro x hr hx hsx fuel acc hfuel
    obtain ⟨f, rfl⟩ : ∃ f, fuel = f + 1 := ⟨fuel - 1, by omega⟩
    have hx1 : x ≠ -1 := by unfold Graph.IsVertex at hx; omega
    by_cases hxs : x = start
    · subst hxs
      rw [buildPath_start _ _ _ _ hx1, c2]
      exact ⟨[x], rfl, WalkV.nil⟩
    · have := (c7 x hx hxs hsx.1).2.2.2 hsx
      omega
  | succ r ih =>
    intro x hr hx hsx fuel acc hfuel
    obtain ⟨f, rfl⟩ : ∃ f, fuel = f + 1 := ⟨fuel - 1, by omega⟩
    have hx1 : x ≠ -1 := by unfold Graph.IsVertex at hx; omega
    by_cases hxs : x = start
    · subst hxs
      rw [buildPath_start _ _ _ _ hx1, c2]
      exact ⟨[x], rfl, WalkV.nil⟩
    · obtain ⟨p1, p2, ⟨e, he, hto, hd⟩, p4⟩ := c7 x hx hxs hsx.1
      have hlt := p4 hsx
      obtain ⟨vs, hvs, hw⟩ := ih (st.p x) (by omega) p1 p2 f (acc ++ [x]) (by omega)
      rw [buildPath_step _ _ _ _ _ hx1 hxs]
      refine ⟨x :: vs, ?_, ?_⟩
      · show buildPath st.parent start f (st.p x) (acc ++ [x]) = _
        rw [hvs]
        simp
      · have := WalkV.snoc e hw he
        rw [hto, ← hd] at this
        exact this

theorem buildPath_mono (parent : List Int) (start : Int) (fuel : Nat) (x : Int)
    (acc r : List Int) (h : buildPath parent start fuel x acc = some r) (fuel2 : Nat)
    (hle : fuel ≤ fuel2) : buildPath parent start fuel2 x acc = some r := by
  induction fuel generalizing x acc fuel2 with
  | zero => simp [buildPath] at h
  | succ fuel ih =>
    obtain ⟨f2, rfl⟩ : ∃ f2, fuel2 = f2 + 1 := ⟨fuel2 - 1, by omega⟩
    rw [buildPath] at h ⊢
    split_ifs at h ⊢ with h1 h2
    · exact h
    · exact h
    · exact ih _ _ h _ (by omega)

theorem dcore_buildPath {g : Graph} {start inf : Int} {st : DState}
    (hs : g.IsVertex start) (hc : DCore g start inf st) (x : Int) (hx : g.IsVertex x)
    (hxd : st.d x ≠ inf) :
    ∃ N vs, WalkV g start x (st.d x) vs ∧
      ∀ fuel, N ≤ fuel → buildPath st.parent start fuel x [] = some vs := by
  obtain ⟨_, c2, _, _, _, _, rank, c7⟩ := hc
  have hx1 : x ≠ -1 := by unfold Graph.IsVertex at hx; omega
  have hs1 : start ≠ -1 := by unfold Graph.IsVertex at hs; omega
  by_cases hxs : x = start
  · subst hxs
    refine ⟨1, [x], ?_, ?_⟩
    · rw [c2]; exact WalkV.nil
    · intro fuel hfuel
      obtain ⟨f, rfl⟩ : ∃ f, fuel = f + 1 := ⟨fuel - 1, by omega⟩
      rw [buildPath_start _ _ _ _ hs1]
      rfl
  · obtain ⟨p1, p2, ⟨e, he, hto, hd⟩, _⟩ := c7 x hx hxs hxd
    obtain ⟨vs, hvs, hw⟩ := dcore_buildPath_settled hs rank c2 c7 (rank (st.p x)) (st.p x)
      (le_refl _) p1 p2 (rank (st.p x) + 1) ([] ++ [x]) (le_refl _)
    refine ⟨rank (st.p x) + 2, x :: vs, ?_, ?_⟩
    · have := WalkV.snoc e hw he
      rw [hto, ← hd] at this
      exact this
    · intro fuel hfuel
      apply buildPath_mono _ _ (rank (st.p x) + 2) _ _ _ _ _ hfuel
      rw [buildPath_step _ _ _ _ _ hx1 hxs]
      show buildPath st.parent start _ (st.p x) ([] ++ [x]) = _
      rw [hvs]
      simp

/-! ## Dijkstra: the result -/

theorem dijkstraInit_eq (g : Graph) (start : Int) :
    dijkstraInit g start = dInit g.n start INF (List.replicate (g.n + 1) (-1)) := rfl

theorem INF_pos : 0 < INF := by unfold INF; omega

theorem INF_le : INF ≤ 2 ^ 63 := by unfold INF; omega

/-- With non-negative weights below the sentinel, `Dijkstra` returns a genuine
walk of minimum weight when the target is reachable. -/
theorem dijkstra_returns_reachable {g : Graph} {start end_ : Int} (hwf : g.WF)
    (hnn : g.NonNeg) (hs : g.IsVertex start) (he : g.IsVertex end_)
    (hsmall : BelowINF g start) (hreach : Reachable g start end_) :
    ∃ vs d, Returns (fun fuel => Dijkstra fuel g start end_) (vs.reverse, d, true) ∧
      WalkV g start end_ d vs ∧ ∀ w k, Walk g start end_ w k → d ≤ w := by
  obtain ⟨hb0, hi0⟩ := dinv_init (g := g) hs INF_pos INF_le (List.replicate (g.n + 1) (-1))
    (by simp)
  obtain ⟨st1, hloop, ⟨hcore, hmin⟩, hl1, hl2⟩ :=
    dijkstraLoop_correct hwf hnn hs INF_pos INF_le hsmall end_ _ _ hb0 hi0 (le_refl _)
  obtain ⟨w0, k0, hw0⟩ := hreach
  obtain ⟨hle0, hne0⟩ := hmin w0 k0 hw0
  obtain ⟨N, vs, hwalk, hbuild⟩ := dcore_buildPath hs hcore end_ he hne0
  refine ⟨vs, st1.d end_, ⟨max (dMeasure (dInit g.n start INF (List.replicate (g.n + 1) (-1)))) N,
    fun fuel hfuel => ?_⟩, hwalk, fun w k hw => (hmin w k hw).1⟩
  show Dijkstra fuel g start end_ = _
  unfold Dijkstra
  rw [dijkstraInit_eq, dijkstraLoop_mono _ _ _ _ _ hloop fuel (by omega)]
  simp only
  have hne1 : ¬ st1.dist.getD end_.toNat 0 = INF := hne0
  rw [if_neg hne1, hbuild fuel (by omega)]
  rfl

/-- With non-negative weights below the sentinel, `Dijkstra` reports
"no path" exactly when the target is unreachable. -/
theorem dijkstra_returns_unreachable {g : Graph} {start end_ : Int} (hwf : g.WF)
    (hnn : g.NonNeg) (hs : g.IsVertex start) (he : g.IsVertex end_)
    (hsmall : BelowINF g start) (hreach : ¬ Reachable g start end_) :
    Returns (fun fuel => Dijkstra fuel g start end_) ([], -1, false) := by
  obtain ⟨hb0, hi0⟩ := dinv_init (g := g) hs INF_pos INF_le (List.replicate (g.n + 1) (-1))
    (by simp)
  obtain ⟨st1, hloop, ⟨hcore, hmin⟩, hl1, hl2⟩ :=
    dijkstraLoop_correct hwf hnn hs INF_pos INF_le hsmall end_ _ _ hb0 hi0 (le_refl _)
  have hinf : st1.d end_ = INF := by
    by_contra hne
    obtain ⟨k, hk⟩ := hcore.2.2.2.2.1 end_ he hne
    exact hreach ⟨_, k, hk⟩
  refine ⟨dMeasure (dInit g.n start INF (List.replicate (g.n + 1) (-1))), fun fuel hfuel => ?_⟩
  show Dijkstra fuel g start end_ = _
  unfold Dijkstra
  rw [dijkstraInit_eq, dijkstraLoop_mono _ _ _ _ _ hloop fuel (by omega)]
  simp only
  have hinf1 : st1.dist.getD end_.toNat 0 = INF := hinf
  rw [if_pos hinf1]

/-! ## Weight bounds -/

theorem walk_weight_bounds {g : Graph} {W : Int} (hW : g.WeightsWithin W) {s t w : Int}
    {k : Nat} (h : Walk g s t w k) : -(k * W) ≤ w ∧ w ≤ k * W := by
  induction h with
  | nil => simp
  | snoc e _ he ih =>
    obtain ⟨l, hl, hel⟩ := adjAt_mem_adj he
    have := hW l hl e hel
    push_cast
    constructor <;> nlinarith [ih.1, ih.2, this.1, this.2]

theorem weightsWithin_nonneg {g : Graph} {W : Int} (hW : g.WeightsWithin W) {s t w : Int}
    {k : Nat} (h : Walk g s t w (k + 1)) : 0 ≤ W := by
  cases h with
  | snoc e _ he =>
    obtain ⟨l, hl, hel⟩ := adjAt_mem_adj he
    have := hW l hl e hel
    omega

theorem belowINF_of_weightsWithin {g : Graph} {W : Int} (hW : g.WeightsWithin W)
    (hn : g.n * W < INF) (s : Int) : BelowINF g s := by
  intro v w k hk hw
  have hb := (walk_weight_bounds hW hw).2
  cases k with
  | zero => simp at hb; have := INF_pos; omega
  | succ k =>
    have h0 := weightsWithin_nonneg hW hw
    have : ((k + 1 : Nat) : Int) * W ≤ g.n * W := by
      apply mul_le_mul_of_nonneg_right _ h0
      exact_mod_cast hk
    omega

theorem aboveNegINF_of_weightsWithin {g : Graph} {W : Int} (hW : g.WeightsWithin W)
    (hn : g.n * W < INF) (s : Int) : AboveNegINF g s := by
  intro v w k hk hw
  have hb := (walk_weight_bounds hW hw).1
  cases k with
  | zero => simp at hb; have := INF_pos; omega
  | succ k =>
    have h0 := weightsWithin_nonneg hW hw
    have : ((k + 1 : Nat) : Int) * W ≤ g.n * W := by
      apply mul_le_mul_of_nonneg_right _ h0
      exact_mod_cast hk
    omega

/-! ## Termination of the SPFA loop -/

theorem sum_map_set_nat (l : List Nat) (i : Nat) (x : Nat) (f : Nat → Nat)
    (h : i < l.length) :
    ((l.set i x).map f).sum + f (l.getD i 0) = (l.map f).sum + f x := by
  induction l generalizing i with
  | nil => simp at h
  | cons a l ih =>
    cases i with
    | zero => simp; omega
    | succ i =>
      simp only [List.length_cons, Nat.add_lt_add_iff_right] at h
      have := ih i h
      simp only [List.set_cons_succ, List.map_cons, List.sum_cons, List.getD_eq_getElem?_getD,
        List.getElem?_cons_succ] at this ⊢
      omega

theorem spfaRelax_base {g : Graph} (u : Int) (st : SPFAState) (e : Edge)
    (he : g.IsVertex e.To) (hb : SBase g st) :
    match spfaRelax g.n u st e with
    | none => True
    | some st1 => SBase g st1 ∧ sMeasure g.n st1 ≤ sMeasure g.n st := by
  obtain ⟨b1, b2, b3, b4, b5, b6, b7, b8⟩ := hb
  unfold spfaRelax
  simp only
  split_ifs with h1 h2 h3
  · trivial
  · -- enqueue
    simp only
    have hvq : e.To ∉ st.queue := by
      intro hm
      have := (b7 e.To he).2 hm
      rw [h2] at this
      exact absurd this (by simp)
    have hlt : e.To.toNat < st.pushCount.length := toNat_lt_length b4 he
    have hc : st.pushCount.getD e.To.toNat 0 + 1 ≤ g.n := by
      rw [getD_set_self _ _ _ _ hlt] at h3
      omega
    refine ⟨⟨by simpa using b1, by simpa using b2, by simpa using b3, by simpa using b4,
      ?_, ?_, ?_, ?_⟩, ?_⟩
    · intro v hv
      rcases List.mem_append.1 hv with h | h
      · exact b5 v h
      · simp only [List.mem_singleton] at h
        rw [h]; exact he
    · rw [List.nodup_append]
      refine ⟨b6, by simp, ?_⟩
      intro a ha hb'
      simp only [List.mem_singleton] at hb'
      rw [hb'] at ha
      exact hvq ha
    · intro v hv
      rw [getD_set_vertex _ b3 _ _ hv he, List.mem_append, List.mem_singleton]
      by_cases hve : v = e.To
      · simp [hve]
      · rw [if_neg hve, b7 v hv]
        simp [hve]
    · intro c hc'
      rcases mem_set_imp _ _ _ _ hc' with h | h
      · rw [h]; exact hc
      · exact b8 c h
    · unfold sMeasure
      simp only [List.length_append, List.length_singleton]
      have := sum_map_set_nat st.pushCount e.To.toNat (st.pushCount.getD e.To.toNat 0 + 1)
        (fun c => g.n - c) hlt
      simp only at this
      omega
  · exact ⟨⟨by simpa using b1, by simpa using b2, b3, b4, b5, b6, b7, b8⟩, le_refl _⟩
  · exact ⟨⟨b1, b2, b3, b4, b5, b6, b7, b8⟩, le_refl _⟩

theorem spfaEdges_base {g : Graph} (u : Int) (es : List Edge) (st : SPFAState)
    (he : ∀ e ∈ es, g.IsVertex e.To) (hb : SBase g st) :
    match spfaEdges g.n u st es with
    | none => True
    | some st1 => SBase g st1 ∧ sMeasure g.n st1 ≤ sMeasure g.n st := by
  induction es generalizing st with
  | nil => exact ⟨hb, le_refl _⟩
  | cons e es ih =>
    unfold spfaEdges
    have h1 := spfaRelax_base u st e (he e (List.mem_cons_self _ _)) hb
    cases hr : spfaRelax g.n u st e with
    | none => trivial
    | some st1 =>
      rw [hr] at h1
      simp only at h1 ⊢
      have h2 := ih st1 (fun x hx => he x (List.mem_cons_of_mem _ hx)) h1.1
      cases hr2 : spfaEdges g.n u st1 es with
      | none => trivial
      | some st2 =>
        rw [hr2] at h2
        exact ⟨h2.1, le_trans h2.2 h1.2⟩

theorem spfaDequeue_base {g : Graph} (st : SPFAState) (u : Int) (rest : List Int)
    (hq : st.queue = u :: rest) (hb : SBase g st) :
    SBase g { st with queue := rest, inQueue := st.inQueue.set u.toNat false } ∧
      sMeasure g.n { st with queue := rest, inQueue := st.inQueue.set u.toNat false } + 1 =
        sMeasure g.n st ∧ g.IsVertex u := by
  obtain ⟨b1, b2, b3, b4, b5, b6, b7, b8⟩ := hb
  rw [hq] at b5 b6 b7
  have hu : g.IsVertex u := b5 u (List.mem_cons_self _ _)
  refine ⟨⟨b1, b2, by simpa using b3, b4, fun v hv => b5 v (List.mem_cons_of_mem _ hv),
    (List.nodup_cons.1 b6).2, ?_, b8⟩, ?_, hu⟩
  · intro v hv
    show (st.inQueue.set u.toNat false).getD v.toNat false = true ↔ v ∈ rest
    rw [getD_set_vertex _ b3 _ _ hv hu]
    by_cases hvu : v = u
    · rw [if_pos hvu, hvu]
      simp only [Bool.false_eq_true, false_iff]
      exact (List.nodup_cons.1 b6).1
    · rw [if_neg hvu, b7 v hv, List.mem_cons]
      simp [hvu]
  · unfold sMeasure
    simp only [hq, List.length_cons]
    omega

/-- Generic total-correctness rule for the SPFA loop: whatever invariant the
processing of one dequeued vertex keeps holds, with enough fuel, when the loop
ends, and the loop does end. -/
theorem spfaLoop_total (g : Graph) (hwf : g.WF) (Inv PostDone : SPFAState → Prop)
    (PostCycle : Prop)
    (hdone : ∀ st, SBase g st → Inv st → st.queue = [] → PostDone st)
    (hstep : ∀ st u rest, SBase g st → Inv st → st.queue = u :: rest →
      match spfaEdges g.n u { st with queue := rest, inQueue := st.inQueue.set u.toNat false }
          (g.adjAt u) with
      | none => PostCycle
      | some st1 => Inv st1) :
    ∀ fuel st, SBase g st → Inv st → sMeasure g.n st ≤ fuel →
      ∃ r, spfaLoop g fuel st = some r ∧
        match r with
        | none => PostCycle
        | some st1 => PostDone st1 := by
  intro fuel
  induction fuel with
  | zero =>
    intro st hb hi hm
    have hq : st.queue = [] := by
      unfold sMeasure at hm
      exact List.length_eq_zero.1 (by omega)
    unfold spfaLoop
    rw [hq]
    exact ⟨some st, rfl, hdone st hb hi hq⟩
  | succ fuel ih =>
    intro st hb hi hm
    unfold spfaLoop
    cases hq : st.queue with
    | nil => exact ⟨some st, rfl, hdone st hb hi hq⟩
    | cons u rest =>
      simp only
      obtain ⟨hb1, hm1, hu⟩ := spfaDequeue_base st u rest hq hb
      have h1 := spfaEdges_base u (g.adjAt u) _ (fun e he => adjAt_isVertex hwf he) hb1
      have h2 := hstep st u rest hb hi hq
      cases hr : spfaEdges g.n u
          { st with queue := rest, inQueue := st.inQueue.set u.toNat false } (g.adjAt u) with
      | none =>
        rw [hr] at h2
        exact ⟨none, rfl, h2⟩
      | some st1 =>
        rw [hr] at h1 h2
        simp only at h1 h2 ⊢
        exact ih st1 h1.1 h2 (by omega)

theorem spfaLoop_mono (g : Graph) (fuel : Nat) (st : SPFAState) (r : Option SPFAState)
    (h : spfaLoop g fuel st = some r) (fuel2 : Nat) (hle : fuel ≤ fuel2) :
    spfaLoop g fuel2 st = some r := by
  induction fuel generalizing st fuel2 with
  | zero =>
    unfold spfaLoop at h ⊢
    cases hq : st.queue with
    | nil => rw [hq] at h; exact h
    | cons u rest => rw [hq] at h; simp at h
  | succ fuel ih =>
    obtain ⟨f2, rfl⟩ : ∃ f2, fuel2 = f2 + 1 := ⟨fuel2 - 1, by omega⟩
    unfold spfaLoop at h ⊢
    cases hq : st.queue with
    | nil => rw [hq] at h; exact h
    | cons u rest =>
      rw [hq] at h
      simp only at h ⊢
      cases hr : spfaEdges g.n u
          { st with queue := rest, inQueue := st.inQueue.set u.toNat false } (g.adjAt u) with
      | none => rw [hr] at h; exact h
      | some st1 =>
        rw [hr] at h
        exact ih _ h _ (by omega)

/-- Generic rule for the inner loop of SPFA: an invariant indexed by the edges
already handled, kept by every relaxation that does not report a cycle. -/
theorem spfaEdges_rule (g : Graph) (u : Int) (all : List Edge)
    (Inner : List Edge → SPFAState → Prop) (PostCycle : Prop)
    (hall : ∀ e ∈ all, g.IsVertex e.To)
    (hrelax : ∀ done e rest st, all = done ++ e :: rest → SBase g st → Inner done st →
      match spfaRelax g.n u st e with
      | none => PostCycle
      | some st1 => Inner (done ++ [e]) st1) :
    ∀ rest done st, all = done ++ rest → SBase g st → Inner done st →
      match spfaEdges g.n u st rest with
      | none => PostCycle
      | some st1 => Inner all st1 := by
  intro rest
  induction rest with
  | nil =>
    intro done st hsplit _ hin
    rw [hsplit, List.append_nil]
    exact hin
  | cons e rest ih =>
    intro done st hsplit hb hin
    unfold spfaEdges
    have h1 := hrelax done e rest st hsplit hb hin
    have h2 := spfaRelax_base u st e (hall e (by rw [hsplit]; simp)) hb
    cases hr : spfaRelax g.n u st e with
    | none => rw [hr] at h1; exact h1
    | some st1 =>
      rw [hr] at h1 h2
      simp only at h1 h2 ⊢
      exact ih (done ++ [e]) st1 (by rw [hsplit]; simp) h2.1 h1

/-! ## Unreachable targets -/

/-- Reachability-soundness of the Dijkstra state. -/
theorem dijkstraRelax_sound {g : Graph} {start inf : Int} (hwf : g.WF) (u : Int) (st : DState)
    (e : Edge) (he : e ∈ g.adjAt u) (hu : Reachable g start u) (hb : DBase g st)
    (h : (∀ v, g.IsVertex v → st.d v ≤ inf) ∧
      (∀ v, g.IsVertex v → st.d v ≠ inf → Reachable g start v) ∧
      (∀ it ∈ st.pq, Reachable g start it.vertex)) :
    (∀ v, g.IsVertex v → (dijkstraRelax u st e).d v ≤ inf) ∧
    (∀ v, g.IsVertex v → (dijkstraRelax u st e).d v ≠ inf → Reachable g start v) ∧
      (∀ it ∈ (dijkstraRelax u st e).pq, Reachable g start it.vertex) := by
  have hv : g.IsVertex e.To := adjAt_isVertex hwf he
  have hr : Reachable g start e.To := by
    obtain ⟨w, k, hk⟩ := hu
    exact ⟨_, _, Walk.snoc e hk he⟩
  unfold dijkstraRelax
  simp only
  split_ifs with hlt
  · refine ⟨?_, ?_, ?_⟩
    · intro v hvv
      show (st.dist.set e.To.toNat _).getD v.toNat 0 ≤ inf
      rw [getD_set_vertex _ hb.1 _ _ hvv hv]
      split_ifs with hve
      · have := h.1 e.To hv
        simp only [DState.d] at this
        omega
      · exact h.1 v hvv
    · intro v hvv hd
      have hd' : (st.dist.set e.To.toNat
          (wrap64 (st.dist.getD u.toNat 0 + e.Weight))).getD v.toNat 0 ≠ inf := hd
      rw [getD_set_vertex _ hb.1 _ _ hvv hv] at hd'
      by_cases hve : v = e.To
      · rw [hve]; exact hr
      · rw [if_neg hve] at hd'
        exact h.2.1 v hvv hd'
    · intro it hit
      rcases List.mem_cons.1 ((heapPush_perm _ _).mem_iff.1 hit) with h1 | h1
      · rw [h1]; exact hr
      · exact h.2.2 it h1
  · exact h

theorem dijkstraRelax_foldl_sound {g : Graph} {start inf : Int} (hwf : g.WF) (u : Int)
    (hu : Reachable g start u) (es : List Edge) (hes : ∀ e ∈ es, e ∈ g.adjAt u) (st : DState)
    (hb : DBase g st)
    (h : (∀ v, g.IsVertex v → st.d v ≤ inf) ∧
      (∀ v, g.IsVertex v → st.d v ≠ inf → Reachable g start v) ∧
      (∀ it ∈ st.pq, Reachable g start it.vertex)) :
    (∀ v, g.IsVertex v → (es.foldl (dijkstraRelax u) st).d v ≤ inf) ∧
    (∀ v, g.IsVertex v → (es.foldl (dijkstraRelax u) st).d v ≠ inf → Reachable g start v) ∧
      (∀ it ∈ (es.foldl (dijkstraRelax u) st).pq, Reachable g start it.vertex) := by
  induction es generalizing st with
  | nil => exact h
  | cons e es ih =>
    simp only [List.foldl_cons]
    have he := hes e (List.mem_cons_self _ _)
    exact ih (fun x hx => hes x (List.mem_cons_of_mem _ hx)) _
      (dijkstraRelax_base u st e (adjAt_isVertex hwf he) hb).1
      (dijkstraRelax_sound hwf u st e he hu hb h)

/-- Whatever the weights, `Dijkstra` answers `(nil, -1, false)` for an unreachable target. -/
theorem dijkstra_unreachable {g : Graph} {start end_ : Int} (hwf : g.WF)
    (hs : g.IsVertex start) (he : g.IsVertex end_) (hnp : ¬ Reachable g start end_) :
    Returns (fun fuel => Dijkstra fuel g start end_) ([], -1, false) := by
  have hb0 : DBase g (dInit g.n start INF (List.replicate (g.n + 1) (-1))) :=
    (dinv_init (g := g) hs INF_pos INF_le (List.replicate (g.n + 1) (-1)) (by simp)).1
  have hi0 := (dinv_init (g := g) hs INF_pos INF_le (List.replicate (g.n + 1) (-1))
    (by simp)).2.1
  have hInv0 : (∀ v, g.IsVertex v → (dInit g.n start INF (List.replicate (g.n + 1) (-1))).d v
        ≤ INF) ∧
      (∀ v, g.IsVertex v → (dInit g.n start INF (List.replicate (g.n + 1) (-1))).d v ≠ INF →
        Reachable g start v) ∧
      (∀ it ∈ (dInit g.n start INF (List.replicate (g.n + 1) (-1))).pq,
        Reachable g start it.vertex) := by
    refine ⟨hi0.2.2.1, ?_, ?_⟩
    · intro v hv hd
      obtain ⟨k, hk⟩ := hi0.2.2.2.2.1 v hv hd
      exact ⟨_, k, hk⟩
    · intro it hit
      have hpq : (dInit g.n start INF (List.replicate (g.n + 1) (-1))).pq =
          [{ vertex := start, distance := 0 }] := by
        simp [dInit, heapPush, heapInit, heapUp]
      rw [hpq] at hit
      simp only [List.mem_singleton] at hit
      rw [hit]
      exact ⟨0, 0, Walk.nil⟩
  obtain ⟨st1, hloop, hpost⟩ := dijkstraLoop_total g hwf end_
    (fun s => (∀ v, g.IsVertex v → s.d v ≤ INF) ∧
      (∀ v, g.IsVertex v → s.d v ≠ INF → Reachable g start v) ∧
      (∀ it ∈ s.pq, Reachable g start it.vertex))
    (fun s => ∀ v, g.IsVertex v → s.d v ≠ INF → Reachable g start v)
    (fun s _ his _ => his.2.1)
    (fun s _ his _ _ => his.2.1)
    (fun s _ his hne _ _ => ⟨his.1, his.2.1, fun it hit =>
      his.2.2 it ((heapPop_perm s.pq hne).mem_iff.2 (List.mem_cons_of_mem _ hit))⟩)
    (fun s hbs his hne _ _ => by
      have hmem : (heapPop s.pq).1 ∈ s.pq :=
        (heapPop_perm s.pq hne).mem_iff.2 (List.mem_cons_self _ _)
      exact dijkstraRelax_foldl_sound hwf _ (his.2.2 _ hmem) _ (fun e he => he) _
        (heapPop_base s hne hbs).1
        ⟨his.1, his.2.1, fun it hit =>
          his.2.2 it ((heapPop_perm s.pq hne).mem_iff.2 (List.mem_cons_of_mem _ hit))⟩)
    _ _ hb0 hInv0 (le_refl _)
  have hinf : st1.dist.getD end_.toNat 0 = INF := by
    by_contra hne
    exact hnp (hpost end_ he hne)
  refine ⟨dMeasure (dInit g.n start INF (List.replicate (g.n + 1) (-1))), fun fuel hfuel => ?_⟩
  show Dijkstra fuel g start end_ = _
  unfold Dijkstra
  rw [dijkstraInit_eq, dijkstraLoop_mono _ _ _ _ _ hloop fuel (by omega)]
  simp only
  rw [if_pos hinf]

theorem spfaInit_base {g : Graph} {start : Int} (hs : g.IsVertex start) :
    SBase g (spfaInit g start) := by
  unfold spfaInit
  have hn : 1 ≤ g.n := by unfold Graph.IsVertex at hs; omega
  refine ⟨by simp, by simp, by simp, by simp, ?_, by simp, ?_, ?_⟩
  · intro v hv
    simp only [List.mem_singleton] at hv
    rw [hv]; exact hs
  · intro v hv
    simp only [List.mem_singleton]
    rw [getD_set_vertex _ (by simp) _ _ hv hs]
    by_cases hvs : v = start
    · simp [hvs]
    · rw [if_neg hvs, List.getD_eq_getElem _ _ (toNat_lt_length (by simp) hv)]
      simp [hvs]
  · intro c hc
    rcases mem_set_imp _ _ _ _ hc with h | h
    · omega
    · rw [List.eq_of_mem_replicate h]; omega

theorem spfaInit_d {g : Graph} {start : Int} (hs : g.IsVertex start) (v : Int)
    (hv : g.IsVertex v) : (spfaInit g start).d v = if v = start then 0 else INF := by
  unfold spfaInit SPFAState.d
  simp only
  rw [getD_set_vertex _ (by simp) _ _ hv hs]
  split_ifs
  · rfl
  · rw [List.getD_eq_getElem _ _ (toNat_lt_length (by simp) hv)]
    simp

theorem spfaRelax_sound {g : Graph} {start : Int} (hwf : g.WF) (u : Int) (hu : g.IsVertex u)
    (st : SPFAState) (e : Edge) (he : e ∈ g.adjAt u) (hb : SBase g st)
    (h : ∀ v, g.IsVertex v → st.d v ≠ INF → Reachable g start v) :
    match spfaRelax g.n u st e with
    | none => True
    | some st1 => ∀ v, g.IsVertex v → st1.d v ≠ INF → Reachable g start v := by
  have hv : g.IsVertex e.To := adjAt_isVertex hwf he
  unfold spfaRelax
  simp only
  split_ifs with h1 h2 h3
  · trivial
  · intro v hvv hd
    have hd' : (st.dist.set e.To.toNat
        (wrap64 (st.dist.getD u.toNat 0 + e.Weight))).getD v.toNat 0 ≠ INF := hd
    rw [getD_set_vertex _ hb.1 _ _ hvv hv] at hd'
    by_cases hve : v = e.To
    · obtain ⟨w, k, hk⟩ := h u hu h1.1
      rw [hve]
      exact ⟨_, _, Walk.snoc e hk he⟩
    · rw [if_neg hve] at hd'
      exact h v hvv hd'
  · intro v hvv hd
    have hd' : (st.dist.set e.To.toNat
        (wrap64 (st.dist.getD u.toNat 0 + e.Weight))).getD v.toNat 0 ≠ INF := hd
    rw [getD_set_vertex _ hb.1 _ _ hvv hv] at hd'
    by_cases hve : v = e.To
    · obtain ⟨w, k, hk⟩ := h u hu h1.1
      rw [hve]
      exact ⟨_, _, Walk.snoc e hk he⟩
    · rw [if_neg hve] at hd'
      exact h v hvv hd'
  · exact h

/-- Whatever the weights, `SPFA` answers `(nil, -1, false)` for an unreachable target. -/
theorem spfa_unreachable {g : Graph} {start end_ : Int} (hwf : g.WF)
    (hs : g.IsVertex start) (he : g.IsVertex end_) (hnp : ¬ Reachable g start end_) :
    Returns (fun fuel => SPFA fuel g start end_) ([], -1, false) := by
  have hInv0 : ∀ v, g.IsVertex v → (spfaInit g start).d v ≠ INF → Reachable g start v := by
    intro v hv hd
    rw [spfaInit_d hs v hv] at hd
    by_cases hvs : v = start
    · rw [hvs]; exact ⟨0, 0, Walk.nil⟩
    · rw [if_neg hvs] at hd
      exact absurd rfl hd
  obtain ⟨r, hloop, hpost⟩ := spfaLoop_total g hwf
    (fun s => ∀ v, g.IsVertex v → s.d v ≠ INF → Reachable g start v)
    (fun s => ∀ v, g.IsVertex v → s.d v ≠ INF → Reachable g start v)
    True
    (fun s _ his _ => his)
    (fun s u rest hbs his hq => by
      obtain ⟨hb1, _, hu⟩ := spfaDequeue_base s u rest hq hbs
      have := spfaEdges_rule g u (g.adjAt u)
        (fun _ s1 => ∀ v, g.IsVertex v → s1.d v ≠ INF → Reachable g start v) True
        (fun e he => adjAt_isVertex hwf he)
        (fun done e rest1 s1 hsplit hbs1 hin =>
          spfaRelax_sound hwf u hu s1 e (by rw [hsplit]; simp) hbs1 hin)
        (g.adjAt u) [] _ rfl hb1 his
      exact this)
    _ _ (spfaInit_base hs) hInv0 (le_refl _)
  refine ⟨sMeasure g.n (spfaInit g start), fun fuel hfuel => ?_⟩
  show SPFA fuel g start end_ = _
  unfold SPFA
  rw [spfaLoop_mono _ _ _ _ hloop fuel hfuel]
  cases r with
  | none => rfl
  | some st1 =>
    simp only at hpost ⊢
    have hinf : st1.dist.getD end_.toNat 0 = INF := by
      by_contra hne
      exact hnp (hpost end_ he hne)
    rw [if_pos hinf]

/-! ## The SPFA invariant -/

theorem supdated_d {g : Graph} {st st1 : SPFAState} {u v nd : Int} (hb : SBase g st)
    (hv : g.IsVertex v) (hup : SUpdated st st1 u v nd) (x : Int) (hx : g.IsVertex x) :
    st1.d x = if x = v then nd else st.d x := by
  unfold SPFAState.d
  rw [hup.1]
  exact getD_set_vertex _ hb.1 _ _ hx hv

theorem supdated_p {g : Graph} {st st1 : SPFAState} {u v nd : Int} (hb : SBase g st)
    (hv : g.IsVertex v) (hup : SUpdated st st1 u v nd) (x : Int) (hx : g.IsVertex x) :
    st1.p x = if x = v then u else st.p x := by
  unfold SPFAState.p
  rw [hup.2.1]
  exact getD_set_vertex _ hb.2.1 _ _ hx hv

theorem supdated_le {g : Graph} {st st1 : SPFAState} {u v nd : Int} (hb : SBase g st)
    (hv : g.IsVertex v) (hup : SUpdated st st1 u v nd) (hlt : nd < st.d v) (x : Int)
    (hx : g.IsVertex x) : st1.d x ≤ st.d x := by
  rw [supdated_d hb hv hup x hx]
  split_ifs with h
  · rw [h]; omega
  · exact le_refl _

/-- A successful relaxation of the edge `e` out of `u` keeps the inner invariant. -/
theorem sinner_update {g : Graph} {start u : Int} {done : List Edge} {st st1 : SPFAState}
    (hwf : g.WF) (hs : g.IsVertex start) (hu : g.IsVertex u) (hb : SBase g st) (e : Edge)
    (he : e ∈ g.adjAt u) (hdone : ∀ e1 ∈ done, e1 ∈ g.adjAt u)
    (hdu : st.d u ≠ INF) (hlt : st.d u + e.Weight < st.d e.To)
    (hup : SUpdated st st1 u e.To (st.d u + e.Weight))
    (hin : SInner g start u done st) : SInner g start u (done ++ [e]) st1 := by
  obtain ⟨⟨c1, c2, c3, c5⟩, i2, i3⟩ := hin
  have hv : g.IsVertex e.To := adjAt_isVertex hwf he
  have hd := supdated_d hb hv hup
  have hp := supdated_p hb hv hup
  have hle := supdated_le hb hv hup hlt
  have hne : ∀ x, g.IsVertex x → st.d x ≠ INF → st1.d x ≠ INF := by
    intro x hx hxd
    have := hle x hx
    have := c2 x hx
    omega
  have hnq : ∀ x, x ∉ st1.queue → x ∉ st.queue ∧ x ≠ e.To := by
    intro x hx
    exact ⟨fun h => hx (hup.2.2.1 x h), fun h => hx (h ▸ hup.2.2.2.1)⟩
  refine ⟨⟨le_trans (hle start hs) c1, ?_, ?_, ?_⟩, ?_, ?_⟩
  · intro x hx
    exact le_trans (hle x hx) (c2 x hx)
  · intro x hx hxd
    rw [hd x hx] at hxd ⊢
    by_cases hxv : x = e.To
    · rw [if_pos hxv, hxv]
      obtain ⟨k, hk⟩ := c3 u hu hdu
      exact ⟨k + 1, Walk.snoc e hk he⟩
    · rw [if_neg hxv] at hxd ⊢
      exact c3 x hx hxd
  · intro x hx hxd
    by_cases hxv : x = e.To
    · right
      rw [hp x hx, if_pos hxv]
      refine ⟨hu, hne u hu hdu, e, he, hxv.symm, ?_⟩
      rw [hd x hx, if_pos hxv]
      have := hle u hu
      omega
    · rw [hd x hx, if_neg hxv] at hxd
      rcases c5 x hx hxd with h | ⟨p1, p2, e1, he1, hto1, hsl⟩
      · exact Or.inl h
      · right
        rw [hp x hx, if_neg hxv]
        refine ⟨p1, hne _ p1 p2, e1, he1, hto1, ?_⟩
        rw [hd x hx, if_neg hxv]
        have := hle _ p1
        omega
  · intro x hx hxq hxu hxd e1 he1
    obtain ⟨hxq0, hxv⟩ := hnq x hxq
    rw [hd x hx, if_neg hxv] at hxd ⊢
    have := i2 x hx hxq0 hxu hxd e1 he1
    have := hle _ (adjAt_isVertex hwf he1)
    omega
  · intro huq hud e1 he1
    obtain ⟨huq0, huv⟩ := hnq u huq
    rw [hd u hu, if_neg huv] at hud ⊢
    rcases List.mem_append.1 he1 with h | h
    · have := i3 huq0 hud e1 h
      have := hle _ (adjAt_isVertex hwf (hdone e1 h))
      omega
    · simp only [List.mem_singleton] at h
      subst h
      rw [hd _ hv, if_pos rfl]

/-- An edge that does not relax keeps the inner invariant. -/
theorem sinner_skip {g : Graph} {start u : Int} {done : List Edge} {st : SPFAState}
    (e : Edge) (hno : st.d u ≠ INF → st.d e.To ≤ st.d u + e.Weight)
    (hin : SInner g start u done st) : SInner g start u (done ++ [e]) st := by
  refine ⟨hin.1, hin.2.1, fun huq hud e1 he1 => ?_⟩
  rcases List.mem_append.1 he1 with h | h
  · exact hin.2.2 huq hud e1 h
  · simp only [List.mem_singleton] at h
    subst h
    exact hno hud

/-- Case analysis of `spfaRelax`: it reports a cycle, or updates `e.To`, or leaves the state. -/
theorem spfaRelax_cases {g : Graph} (u : Int) (st : SPFAState) (e : Edge)
    (he : g.IsVertex e.To) (hb : SBase g st) :
    (spfaRelax g.n u st e = none ∧ st.d u ≠ INF ∧
        wrap64 (st.d u + e.Weight) < st.d e.To ∧ e.To ∉ st.queue ∧
        st.pushCount.getD e.To.toNat 0 = g.n) ∨
    (∃ st1, spfaRelax g.n u st e = some st1 ∧ st.d u ≠ INF ∧
        wrap64 (st.d u + e.Weight) < st.d e.To ∧
        SUpdated st st1 u e.To (wrap64 (st.d u + e.Weight)) ∧
        ((e.To ∉ st.queue ∧ st1.queue = st.queue ++ [e.To] ∧
            st1.pushCount = st.pushCount.set e.To.toNat (st.pushCount.getD e.To.toNat 0 + 1) ∧
            st.pushCount.getD e.To.toNat 0 < g.n) ∨
          (e.To ∈ st.queue ∧ st1.queue = st.queue ∧ st1.pushCount = st.pushCount))) ∨
    (spfaRelax g.n u st e = some st ∧
        ¬ (st.d u ≠ INF ∧ wrap64 (st.d u + e.Weight) < st.d e.To)) := by
  obtain ⟨b1, b2, b3, b4, b5, b6, b7, b8⟩ := hb
  have hlt : e.To.toNat < st.pushCount.length := toNat_lt_length b4 he
  unfold spfaRelax
  simp only
  split_ifs with h1 h2 h3
  · left
    have hvq : e.To ∉ st.queue := by
      intro hm
      have := (b7 e.To he).2 hm
      rw [h2] at this
      exact absurd this (by simp)
    rw [getD_set_self _ _ _ _ hlt] at h3
    have := b8 _ (getD_mem st.pushCount e.To.toNat 0 hlt)
    exact ⟨rfl, h1.1, h1.2, hvq, by omega⟩
  · right; left
    have hvq : e.To ∉ st.queue := by
      intro hm
      have := (b7 e.To he).2 hm
      rw [h2] at this
      exact absurd this (by simp)
    rw [getD_set_self _ _ _ _ hlt] at h3
    refine ⟨_, rfl, h1.1, h1.2, ⟨rfl, rfl, ?_, ?_, ?_⟩, Or.inl ⟨hvq, rfl, rfl, by omega⟩⟩
    · intro x hx
      exact List.mem_append_left _ hx
    · simp
    · intro x hx
      rcases List.mem_append.1 hx with h | h
      · exact Or.inr h
      · simp only [List.mem_singleton] at h
        exact Or.inl h
  · right; left
    have hvq : e.To ∈ st.queue := by
      apply (b7 e.To he).1
      simpa using h2
    exact ⟨_, rfl, h1.1, h1.2, ⟨rfl, rfl, fun x hx => hx, hvq, fun x hx => Or.inr hx⟩,
      Or.inr ⟨hvq, rfl, rfl⟩⟩
  · right; right
    exact ⟨rfl, h1⟩

theorem sinner_of_dequeue {g : Graph} {start u : Int} {rest : List Int} {st : SPFAState}
    (hq : st.queue = u :: rest) (hinv : SInv g start st) :
    SInner g start u [] { st with queue := rest, inQueue := st.inQueue.set u.toNat false } := by
  refine ⟨hinv.1, fun x hx hxq hxu => ?_, fun _ _ e he => by simp at he⟩
  apply hinv.2 x hx
  rw [hq]
  intro h
  rcases List.mem_cons.1 h with h1 | h1
  · exact hxu h1
  · exact hxq h1

theorem sinv_of_sinner {g : Graph} {start u : Int} {st : SPFAState}
    (hin : SInner g start u (g.adjAt u) st) : SInv g start st := by
  refine ⟨hin.1, fun x hx hxq => ?_⟩
  by_cases hxu : x = u
  · rw [hxu] at hxq ⊢
    exact hin.2.2 hxq
  · exact hin.2.1 x hx hxq hxu

theorem spfaInit_sinv {g : Graph} {start : Int} (hs : g.IsVertex start) :
    SInv g start (spfaInit g start) := by
  have hd := spfaInit_d (g := g) hs
  refine ⟨⟨?_, ?_, ?_, ?_⟩, ?_⟩
  · rw [hd start hs, if_pos rfl]
  · intro v hv
    rw [hd v hv]
    have := INF_pos
    split_ifs <;> omega
  · intro v hv hvd
    rw [hd v hv] at hvd ⊢
    by_cases hvs : v = start
    · rw [if_pos hvs, hvs]; exact ⟨0, Walk.nil⟩
    · rw [if_neg hvs] at hvd; exact absurd rfl hvd
  · intro v hv hvd
    rw [hd v hv] at hvd
    by_cases hvs : v = start
    · exact Or.inl hvs
    · rw [if_neg hvs] at hvd; exact absurd rfl hvd
  · intro u hu huq hud
    rw [hd u hu] at hud
    by_cases hus : u = start
    · exact absurd (by rw [hus]; simp [spfaInit]) huq
    · rw [if_neg hus] at hud; exact absurd rfl hud

/-! ## Parent chains of SPFA -/

/-- Along a parent chain every vertex is reached, and the chain is a walk that
is no heavier than the difference of the distances. -/
theorem chain_walk {g : Graph} {start : Int} {st : SPFAState} (hc : SCore g start st)
    {x : Int} {vs : List Int} (hch : Chain start st.parent x vs) (hx : g.IsVertex x)
    (hxd : st.d x ≠ INF) :
    ∀ y ∈ vs, g.IsVertex y ∧ st.d y ≠ INF ∧ ∃ c k, Walk g y x c k ∧ st.d y + c ≤ st.d x := by
  induction hch with
  | root =>
    intro y hy
    simp only [List.mem_singleton] at hy
    subst hy
    exact ⟨hx, hxd, 0, 0, Walk.nil, by omega⟩
  | @step v vs hvs hch ih =>
    intro y hy
    rcases hc.2.2.2 v hx hxd with h | ⟨p1, p2, e1, he1, hto1, hsl⟩
    · exact absurd h hvs
    · rcases List.mem_cons.1 hy with h | h
      · subst h
        exact ⟨hx, hxd, 0, 0, Walk.nil, by omega⟩
      · have hpe : st.p v = st.parent.getD v.toNat (-1) := rfl
        rw [hpe] at p1 p2 he1 hsl
        obtain ⟨q1, q2, c, k, hw, hle⟩ := ih p1 p2 y h
        have hw2 := Walk.snoc e1 hw he1
        rw [hto1] at hw2
        exact ⟨q1, q2, _, _, hw2, by omega⟩

theorem chain_frame {start : Int} {par par1 : List Int} {v : Int}
    (hpar : ∀ y, y ≠ v → par1.getD y.toNat (-1) = par.getD y.toNat (-1))
    {x : Int} {vs : List Int} (hch : Chain start par x vs) (hv : v ∉ vs) :
    Chain start par1 x vs := by
  induction hch with
  | root => exact Chain.root
  | @step y vs hys hch ih =>
    have hyv : y ≠ v := fun h => hv (by rw [h]; exact List.mem_cons_self _ _)
    apply Chain.step hys
    rw [hpar y hyv]
    exact ih (fun h => hv (List.mem_cons_of_mem _ h))

theorem chain_rebuild {start : Int} {par par1 : List Int} {u v : Int} {vsu : List Int}
    (hpar : ∀ y, y ≠ v → par1.getD y.toNat (-1) = par.getD y.toNat (-1))
    (hpv : par1.getD v.toNat (-1) = u) (hvs : v ≠ start)
    (hu : Chain start par1 u vsu)
    {x : Int} {vs : List Int} (hch : Chain start par x vs) :
    ∃ vs1, Chain start par1 x vs1 := by
  induction hch with
  | root => exact ⟨_, Chain.root⟩
  | @step y vs hys hch ih =>
    by_cases hyv : y = v
    · subst hyv
      exact ⟨_, Chain.step hys (by rw [hpv]; exact hu)⟩
    · obtain ⟨vs1, h1⟩ := ih
      exact ⟨_, Chain.step hys (by rw [hpar y hyv]; exact h1)⟩

/-- A successful relaxation keeps all parent chains when no negative cycle is reachable. -/
theorem schains_update {g : Graph} {start u : Int} {st st1 : SPFAState}
    (hwf : g.WF) (hnc : ¬ NegCycleFrom g start)
    (hu : g.IsVertex u) (hb : SBase g st) (e : Edge) (he : e ∈ g.adjAt u)
    (hdu : st.d u ≠ INF) (hlt : st.d u + e.Weight < st.d e.To)
    (hup : SUpdated st st1 u e.To (st.d u + e.Weight))
    (hc : SCore g start st) (hch : SChains g start st) : SChains g start st1 := by
  have hv : g.IsVertex e.To := adjAt_isVertex hwf he
  have hd := supdated_d hb hv hup
  obtain ⟨ku, hwu⟩ := hc.2.2.1 u hu hdu
  -- the updated vertex is not `start`
  have hvs : e.To ≠ start := by
    intro h
    apply hnc
    have hw2 := Walk.snoc e hwu he
    rw [h] at hw2 hlt
    exact ⟨start, 0, 0, _, _, Walk.nil, hw2, by have := hc.1; omega⟩
  obtain ⟨vsu, hchu⟩ := hch u hu hdu
  -- the chain of `u` avoids the updated vertex
  have hvu : e.To ∉ vsu := by
    intro hmem
    obtain ⟨_, hvd, c, k, hw, hle⟩ := chain_walk hc hchu hu hdu e.To hmem
    obtain ⟨kv, hwv⟩ := hc.2.2.1 e.To hv hvd
    apply hnc
    exact ⟨e.To, _, _, _, _, hwv, Walk.snoc e hw he, by omega⟩
  have hpar : ∀ y, y ≠ e.To → st1.parent.getD y.toNat (-1) = st.parent.getD y.toNat (-1) := by
    intro y hy
    rw [hup.2.1]
    by_cases hyn : y.toNat = e.To.toNat
    · -- only possible for a non-positive `y`, which shares slot 0 with nothing in range
      unfold Graph.IsVertex at hv
      omega
    · exact getD_set_other _ _ _ _ _ (Ne.symm hyn)
  have hpv : st1.parent.getD e.To.toNat (-1) = u := by
    rw [hup.2.1]
    exact getD_set_self _ _ _ _ (toNat_lt_length hb.2.1 hv)
  have hchu1 : Chain start st1.parent u vsu := chain_frame hpar hchu hvu
  intro x hx hxd
  by_cases hxv : x = e.To
  · rw [hxv]
    exact ⟨_, Chain.step hvs (by rw [hpv]; exact hchu1)⟩
  · rw [hd x hx, if_neg hxv] at hxd
    obtain ⟨vs, hvs1⟩ := hch x hx hxd
    exact chain_rebuild hpar hpv hvs hchu1 hvs1

/-! ## Rounds of SPFA -/

theorem sphase_dequeue {g : Graph} {start u : Int} {rest : List Int} {st : SPFAState}
    (hwf : g.WF) (hs : g.IsVertex start) (hbelow : BelowINF g start)
    (hb : SBase g st) (hq : st.queue = u :: rest) (hinv : SInv g start st)
    (hph : SPhase g start st) :
    SPhaseInner g start u []
      { st with queue := rest, inQueue := st.inQueue.set u.toNat false } := by
  obtain ⟨r, snap, A, B, p0, p1, p2, p3, p4, p4', p5, p6⟩ := hph
  have hnd : (u :: rest).Nodup := hq ▸ hb.2.2.2.2.2.1
  have hur : u ∉ rest := (List.nodup_cons.1 hnd).1
  have hud : st.d u ≠ INF := p6 u (by rw [hq]; exact List.mem_cons_self _ _)
  cases A with
  | cons a A1 =>
    rw [hq] at p0
    simp only [List.cons_append, List.cons.injEq] at p0
    obtain ⟨hua, hrest⟩ := p0
    subst hua
    refine ⟨r, snap, A1, B, hrest, p1, ?_, fun _ e he => by simp at he, p3, p4, p4', p5, ?_,
      hud, ?_⟩
    · intro x hx hxA hxu
      apply p2 x hx
      intro h
      rcases List.mem_cons.1 h with h1 | h1
      · exact hxu h1
      · exact hxA h1
    · intro x hx
      exact p6 x (by rw [hq]; exact List.mem_cons_of_mem _ hx)
    · intro h
      exact hur (by rw [hrest]; exact List.mem_append_left _ h)
  | nil =>
    rw [hq] at p0
    simp only [List.nil_append] at p0
    have hBne : B ≠ [] := by rw [← p0]; simp
    refine ⟨r + 1, fun v => st.d v, rest, [], by simp, ?_, ?_, fun _ e he => by simp at he,
      fun v _ => le_refl _, by have := p4' hBne; omega, fun h => absurd rfl h, ?_, ?_, hud, hur⟩
    · intro v w k hk hw
      cases hw with
      | nil => exact hinv.1.1
      | @snoc x w1 k1 e hw1 he =>
        have hx := walk_isVertex hwf hs hw1
        have h1 := p1 x w1 k1 (by omega) hw1
        have h2 := hbelow x w1 k1 (by omega) hw1
        have h3 := p2 x hx (by simp) (by omega) e he
        show st.d e.To ≤ w1 + e.Weight
        omega
    · intro x hx hxr hxu hxd e he
      have hxq : x ∉ st.queue := by
        rw [hq]
        intro h
        rcases List.mem_cons.1 h with h1 | h1
        · exact hxu h1
        · exact hxr h1
      exact hinv.2 x hx hxq hxd e he
    · intro v hv
      have := p5 v hv
      simp only [List.not_mem_nil, if_false]
      show st.pushCount.getD v.toNat 0 ≤ _
      split_ifs at this <;> omega
    · intro x hx
      exact p6 x (by rw [hq]; exact List.mem_cons_of_mem _ hx)

theorem sphase_of_inner {g : Graph} {start u : Int} {st : SPFAState}
    (hph : SPhaseInner g start u (g.adjAt u) st) : SPhase g start st := by
  obtain ⟨r, snap, A, B, p0, p1, p2, p2u, p3, p4, p4', p5, p6, _, _⟩ := hph
  refine ⟨r, snap, A, B, p0, p1, ?_, p3, p4, p4', p5, p6⟩
  intro x hx hxA hxs
  by_cases hxu : x = u
  · rw [hxu] at hxs ⊢
    exact p2u hxs
  · exact p2 x hx hxA hxu hxs

theorem sphase_skip {g : Graph} {start u : Int} {done : List Edge} {st : SPFAState}
    (hu : g.IsVertex u) (e : Edge) (hno : st.d e.To ≤ st.d u + e.Weight)
    (hph : SPhaseInner g start u done st) : SPhaseInner g start u (done ++ [e]) st := by
  obtain ⟨r, snap, A, B, p0, p1, p2, p2u, p3, p4, p4', p5, p6, p7, p8⟩ := hph
  refine ⟨r, snap, A, B, p0, p1, p2, ?_, p3, p4, p4', p5, p6, p7, p8⟩
  intro hsu e1 he1
  rcases List.mem_append.1 he1 with h | h
  · exact p2u hsu e1 h
  · simp only [List.mem_singleton] at h
    subst h
    have := p3 u hu
    omega

theorem spfaInit_sphase {g : Graph} {start : Int} (hs : g.IsVertex start) :
    SPhase g start (spfaInit g start) := by
  have hd := spfaInit_d (g := g) hs
  have hn : 1 ≤ g.n := by unfold Graph.IsVertex at hs; omega
  refine ⟨0, fun v => (spfaInit g start).d v, [start], [], rfl, ?_, ?_, fun _ _ => le_refl _,
    by omega, fun h => absurd rfl h, ?_, ?_⟩
  · intro v w k hk hw
    have hk0 : k = 0 := by omega
    subst hk0
    cases hw
    show (spfaInit g start).d start ≤ 0
    rw [hd start hs, if_pos rfl]
  · intro x hx hxA hxs
    simp only [List.mem_singleton] at hxA
    have hxs' : (spfaInit g start).d x ≠ INF := hxs
    rw [hd x hx, if_neg hxA] at hxs'
    exact absurd rfl hxs'
  · intro v hv
    simp only [List.not_mem_nil, if_false]
    show ((List.replicate (g.n + 1) 0).set start.toNat 1).getD v.toNat 0 ≤ _
    rw [getD_set_vertex _ (by simp) _ _ hv hs]
    split_ifs
    · omega
    · rw [List.getD_eq_getElem _ _ (toNat_lt_length (by simp) hv)]
      simp
  · intro x hx
    have hx' : x = start := by simpa [spfaInit] using hx
    rw [hx', hd start hs, if_pos rfl]
    have := INF_pos
    omega

/-- While some edge can still be relaxed, the current round is not the last one. -/
theorem sphase_round_bound {g : Graph} {start u : Int} {st : SPFAState}
    (hwf : g.WF) (hs : g.IsVertex start) (hnc : ¬ NegCycleFrom g start)
    (hu : g.IsVertex u) (e : Edge) (he : e ∈ g.adjAt u)
    (hdu : st.d u ≠ INF) (hlt : st.d u + e.Weight < st.d e.To)
    (hc : SCore g start st)
    {r : Nat} {snap : Int → Int}
    (p1 : ∀ v w k, k ≤ r → Walk g start v w k → snap v ≤ w)
    (p3 : ∀ v, g.IsVertex v → st.d v ≤ snap v) : r + 2 ≤ g.n := by
  by_contra hcon
  obtain ⟨ku, hwu⟩ := hc.2.2.1 u hu hdu
  obtain ⟨w1, k1, hw1, hle1, hk1⟩ := walk_short hwf hs hnc (Walk.snoc e hwu he)
  have h1 := p1 e.To w1 k1 (by omega) hw1
  have h2 := p3 e.To (adjAt_isVertex hwf he)
  omega

theorem sphase_update {g : Graph} {start u : Int} {done : List Edge} {st st1 : SPFAState}
    (hwf : g.WF) (hs : g.IsVertex start) (hnc : ¬ NegCycleFrom g start)
    (hu : g.IsVertex u) (hb : SBase g st) (e : Edge) (he : e ∈ g.adjAt u)
    (hdone : ∀ e1 ∈ done, e1 ∈ g.adjAt u)
    (hlt : st.d u + e.Weight < st.d e.To)
    (hup : SUpdated st st1 u e.To (st.d u + e.Weight))
    (hq : (e.To ∉ st.queue ∧ st1.queue = st.queue ++ [e.To] ∧
            st1.pushCount = st.pushCount.set e.To.toNat (st.pushCount.getD e.To.toNat 0 + 1)) ∨
          (e.To ∈ st.queue ∧ st1.queue = st.queue ∧ st1.pushCount = st.pushCount))
    (hc : SCore g start st) (hph : SPhaseInner g start u done st) :
    SPhaseInner g start u (done ++ [e]) st1 := by
  obtain ⟨r, snap, A, B, p0, p1, p2, p2u, p3, p4, p4', p5, p6, p7, p8⟩ := hph
  have hv : g.IsVertex e.To := adjAt_isVertex hwf he
  have hd := supdated_d hb hv hup
  have hle := supdated_le hb hv hup hlt
  have hK := sphase_round_bound hwf hs hnc hu e he p7 hlt hc p1 p3
  have hne : ∀ x, g.IsVertex x → st.d x ≠ INF → st1.d x ≠ INF := by
    intro x hx hxd
    have := hle x hx
    have := hc.2.1 x hx
    omega
  have hp2u : snap u ≠ INF → ∀ e1 ∈ done ++ [e], st1.d e1.To ≤ snap u + e1.Weight := by
    intro hsu e1 he1
    rcases List.mem_append.1 he1 with h | h
    · have := p2u hsu e1 h
      have := hle _ (adjAt_isVertex hwf (hdone e1 h))
      omega
    · simp only [List.mem_singleton] at h
      subst h
      rw [hd _ hv, if_pos rfl]
      have := p3 u hu
      omega
  have hp2 : ∀ x, g.IsVertex x → x ∉ A → x ≠ u → snap x ≠ INF →
      ∀ e1 ∈ g.adjAt x, st1.d e1.To ≤ snap x + e1.Weight := by
    intro x hx hxA hxu hxs e1 he1
    have := p2 x hx hxA hxu hxs e1 he1
    have := hle _ (adjAt_isVertex hwf he1)
    omega
  have hp6 : ∀ x ∈ st1.queue, st1.d x ≠ INF := by
    intro x hx
    rcases hup.2.2.2.2 x hx with h | h
    · rw [h, hd _ hv, if_pos rfl]
      have := hc.2.1 _ hv
      omega
    · exact hne x (hb.2.2.2.2.1 x h) (p6 x h)
  rcases hq with ⟨hvq, hq1, hpc⟩ | ⟨hvq, hq1, hpc⟩
  · refine ⟨r, snap, A, B ++ [e.To], by rw [hq1, p0, List.append_assoc], p1, hp2, hp2u,
      fun v hv' => le_trans (hle v hv') (p3 v hv'), p4, fun _ => hK, ?_, hp6, hne u hu p7, p8⟩
    intro x hx
    rw [hpc, getD_set_vertex _ hb.2.2.2.1 _ _ hx hv]
    have hvB : e.To ∉ B := fun h => hvq (by rw [p0]; exact List.mem_append_right _ h)
    by_cases hxv : x = e.To
    · rw [if_pos hxv, hxv]
      have := p5 e.To hv
      rw [if_neg hvB] at this
      simp only [List.mem_append, List.mem_singleton, or_true, if_true]
      omega
    · rw [if_neg hxv]
      have := p5 x hx
      by_cases hxB : x ∈ B
      · rw [if_pos hxB] at this
        rw [if_pos (List.mem_append_left _ hxB)]
        exact this
      · rw [if_neg hxB] at this
        split_ifs <;> omega
  · refine ⟨r, snap, A, B, by rw [hq1, p0], p1, hp2, hp2u,
      fun v hv' => le_trans (hle v hv') (p3 v hv'), p4, p4', ?_, hp6, hne u hu p7, p8⟩
    intro x hx
    rw [hpc]
    exact p5 x hx

/-- Without a reachable negative cycle the push count of a vertex about to be
enqueued is below `n`, so the negative-cycle exit is not taken. -/
theorem sphase_no_exit {g : Graph} {start u : Int} {done : List Edge} {st : SPFAState}
    (hwf : g.WF) (hs : g.IsVertex start) (hnc : ¬ NegCycleFrom g start)
    (hu : g.IsVertex u) (e : Edge) (he : e ∈ g.adjAt u)
    (hlt : st.d u + e.Weight < st.d e.To) (hvq : e.To ∉ st.queue)
    (hc : SCore g start st) (hph : SPhaseInner g start u done st) :
    st.pushCount.getD e.To.toNat 0 < g.n := by
  obtain ⟨r, snap, A, B, p0, p1, p2, p2u, p3, p4, p4', p5, p6, p7, p8⟩ := hph
  have hK := sphase_round_bound hwf hs hnc hu e he p7 hlt hc p1 p3
  have hvB : e.To ∉ B := fun h => hvq (by rw [p0]; exact List.mem_append_right _ h)
  have := p5 e.To (adjAt_isVertex hwf he)
  rw [if_neg hvB] at this
  omega

/-! ## SPFA without negative cycles -/

theorem INF_val : INF = 1000000000000000000 := rfl

/-- With walks of at most `n` edges inside `(-INF, INF)` and no reachable
negative cycle, the sum computed by a relaxation does not wrap around. -/
theorem spfa_nowrap_good {g : Graph} {start u : Int} {st : SPFAState}
    (hwf : g.WF) (hs : g.IsVertex start) (hnc : ¬ NegCycleFrom g start)
    (hbelow : BelowINF g start) (habove : AboveNegINF g start)
    (hc : SCore g start st) (hu : g.IsVertex u) (hdu : st.d u ≠ INF)
    (e : Edge) (he : e ∈ g.adjAt u) :
    wrap64 (st.d u + e.Weight) = st.d u + e.Weight := by
  obtain ⟨ku, hwu⟩ := hc.2.2.1 u hu hdu
  obtain ⟨w1, k1, hw1, hle1, hk1⟩ := walk_short hwf hs hnc hwu
  have h1 := habove u w1 k1 (by omega) hw1
  have h2 := hbelow e.To _ _ (by omega) (Walk.snoc e hw1 he)
  have h3 := habove e.To _ _ (by omega) (Walk.snoc e hw1 he)
  have h4 := hc.2.1 u hu
  have h5 := hbelow u w1 k1 (by omega) hw1
  have hI := INF_val
  apply wrap64_eq <;> omega

theorem sgood_relax {g : Graph} {start u : Int} {done : List Edge} {st : SPFAState}
    (hwf : g.WF) (hs : g.IsVertex start) (hnc : ¬ NegCycleFrom g start)
    (hbelow : BelowINF g start) (habove : AboveNegINF g start)
    (hu : g.IsVertex u) (hb : SBase g st) (e : Edge) (he : e ∈ g.adjAt u)
    (hdone : ∀ e1 ∈ done, e1 ∈ g.adjAt u) (hin : SGoodInner g start u done st) :
    match spfaRelax g.n u st e with
    | none => False
    | some st1 => SGoodInner g start u (done ++ [e]) st1 := by
  obtain ⟨hi, hch, hph⟩ := hin
  have hv : g.IsVertex e.To := adjAt_isVertex hwf he
  have hdu : st.d u ≠ INF := by
    obtain ⟨r, snap, A, B, p0, p1, p2, p2u, p3, p4, p4', p5, p6, p7, p8⟩ := hph
    exact p7
  have hnw := spfa_nowrap_good hwf hs hnc hbelow habove hi.1 hu hdu e he
  rcases spfaRelax_cases u st e hv hb with ⟨hr, _, hlt, hvq, hpc⟩ | ⟨st1, hr, _, hlt, hup, hq⟩ |
      ⟨hr, hno⟩
  · rw [hnw] at hlt
    have := sphase_no_exit hwf hs hnc hu e he hlt hvq hi.1 hph
    omega
  · rw [hr]
    rw [hnw] at hlt hup
    refine ⟨sinner_update hwf hs hu hb e he hdone hdu hlt hup hi,
      schains_update hwf hnc hu hb e he hdu hlt hup hi.1 hch,
      sphase_update hwf hs hnc hu hb e he hdone hlt hup ?_ hi.1 hph⟩
    rcases hq with ⟨h1, h2, h3, _⟩ | h
    · exact Or.inl ⟨h1, h2, h3⟩
    · exact Or.inr h
  · rw [hr]
    rw [hnw] at hno
    have hle : st.d e.To ≤ st.d u + e.Weight := by
      by_contra hc
      exact hno ⟨hdu, by omega⟩
    exact ⟨sinner_skip e (fun _ => hle) hi, hch, sphase_skip hu e hle hph⟩

theorem sgood_step {g : Graph} {start : Int} (hwf : g.WF) (hs : g.IsVertex start)
    (hnc : ¬ NegCycleFrom g start) (hbelow : BelowINF g start) (habove : AboveNegINF g start)
    (st : SPFAState) (u : Int) (rest : List Int) (hb : SBase g st) (hg : SGood g start st)
    (hq : st.queue = u :: rest) :
    match spfaEdges g.n u { st with queue := rest, inQueue := st.inQueue.set u.toNat false }
        (g.adjAt u) with
    | none => False
    | some st1 => SGood g start st1 := by
  obtain ⟨hb1, _, hu⟩ := spfaDequeue_base st u rest hq hb
  have h := spfaEdges_rule g u (g.adjAt u) (fun done s => SGoodInner g start u done s) False
    (fun e he => adjAt_isVertex hwf he)
    (fun done e rest1 s hsplit hbs hin =>
      sgood_relax hwf hs hnc hbelow habove hu hbs e (by rw [hsplit]; simp)
        (fun e1 he1 => by rw [hsplit]; exact List.mem_append_left _ he1) hin)
    (g.adjAt u) [] _ rfl hb1
    ⟨sinner_of_dequeue hq hg.1, hg.2.1, sphase_dequeue hwf hs hbelow hb hq hg.1 hg.2.2⟩
  cases hr : spfaEdges g.n u
      { st with queue := rest, inQueue := st.inQueue.set u.toNat false } (g.adjAt u) with
  | none => rw [hr] at h; exact h
  | some st1 =>
    rw [hr] at h
    exact ⟨sinv_of_sinner h.1, h.2.1, sphase_of_inner h.2.2⟩

theorem spfaInit_sgood {g : Graph} {start : Int} (hs : g.IsVertex start) :
    SGood g start (spfaInit g start) := by
  refine ⟨spfaInit_sinv hs, ?_, spfaInit_sphase hs⟩
  intro v hv hvd
  rw [spfaInit_d hs v hv] at hvd
  by_cases hvs : v = start
  · rw [hvs]; exact ⟨_, Chain.root⟩
  · rw [if_neg hvs] at hvd; exact absurd rfl hvd

/-- Without a reachable negative cycle and with small weights the SPFA loop
runs until the queue is empty and never takes the negative-cycle exit. -/
theorem spfaLoop_good {g : Graph} {start : Int} (hwf : g.WF) (hs : g.IsVertex start)
    (hnc : ¬ NegCycleFrom g start) (hbelow : BelowINF g start) (habove : AboveNegINF g start) :
    ∃ st, Returns (fun fuel => spfaLoop g fuel (spfaInit g start)) (some st) ∧
      SGood g start st ∧ st.queue = [] ∧ SBase g st := by
  obtain ⟨r, hloop, hpost⟩ := spfaLoop_total g hwf (fun s => SGood g start s)
    (fun s => SGood g start s ∧ s.queue = [] ∧ SBase g s) False
    (fun s hbs hgs hq => ⟨hgs, hq, hbs⟩)
    (fun s u rest hbs hgs hq => sgood_step hwf hs hnc hbelow habove s u rest hbs hgs hq)
    _ _ (spfaInit_base hs) (spfaInit_sgood hs) (le_refl _)
  cases r with
  | none => exact absurd hpost id
  | some st1 =>
    exact ⟨st1, ⟨_, fun fuel hfuel => spfaLoop_mono _ _ _ _ hloop fuel hfuel⟩, hpost⟩

/-! ## SPFA: the result -/

/-- When the queue is empty, the distance of every vertex is at most the weight
of every short walk leading to it. -/
theorem sinv_final_le_short {g : Graph} {start : Int} {st : SPFAState} (hwf : g.WF)
    (hs : g.IsVertex start) (hbelow : BelowINF g start) (hinv : SInv g start st)
    (hq : st.queue = []) {v w : Int} {k : Nat} (hw : Walk g start v w k) (hk : k ≤ g.n) :
    st.d v ≤ w := by
  induction hw with
  | nil => exact hinv.1.1
  | @snoc x w1 k1 e hw1 he ih =>
    have hx := walk_isVertex hwf hs hw1
    have h1 := ih (by omega)
    have h2 := hbelow x w1 k1 (by omega) hw1
    have h3 := hinv.2 x hx (by rw [hq]; simp) (by omega) e he
    omega

theorem sinv_final_le {g : Graph} {start : Int} {st : SPFAState} (hwf : g.WF)
    (hs : g.IsVertex start) (hnc : ¬ NegCycleFrom g start) (hbelow : BelowINF g start)
    (hinv : SInv g start st) (hq : st.queue = []) {v w : Int} {k : Nat}
    (hw : Walk g start v w k) : st.d v ≤ w ∧ st.d v ≠ INF := by
  obtain ⟨w1, k1, hw1, hle1, hk1⟩ := walk_short hwf hs hnc hw
  have h1 := sinv_final_le_short hwf hs hbelow hinv hq hw1 (by omega)
  have h2 := hbelow v w1 k1 (by omega) hw1
  exact ⟨by omega, by omega⟩

theorem chain_walkV {g : Graph} {start : Int} {st : SPFAState}
    (hinv : SInv g start st) (hq : st.queue = []) (h0 : st.d start = 0)
    {x : Int} {vs : List Int} (hch : Chain start st.parent x vs) (hx : g.IsVertex x)
    (hxd : st.d x ≠ INF) : WalkV g start x (st.d x) vs := by
  induction hch with
  | root => rw [h0]; exact WalkV.nil
  | @step v vs hvs hch ih =>
    rcases hinv.1.2.2.2 v hx hxd with h | ⟨p1, p2, e1, he1, hto1, hsl⟩
    · exact absurd h hvs
    · have hrel := hinv.2 _ p1 (by rw [hq]; simp) p2 e1 he1
      rw [hto1] at hrel
      have hpe : st.p v = st.parent.getD v.toNat (-1) := rfl
      rw [hpe] at p1 p2 he1 hsl hrel
      have hw := WalkV.snoc e1 (ih p1 p2) he1
      rw [hto1] at hw
      have heq : st.d (st.parent.getD v.toNat (-1)) + e1.Weight = st.d v := by omega
      rw [heq] at hw
      exact hw

theorem chain_buildPath {start : Int} {par : List Int} {x : Int} {vs : List Int}
    (hch : Chain start par x vs) (hne : ∀ y ∈ vs, y ≠ -1) :
    ∀ (fuel : Nat) (acc : List Int), vs.length ≤ fuel →
      buildPath par start fuel x acc = some (acc ++ vs) := by
  induction hch with
  | root =>
    intro fuel acc hfuel
    obtain ⟨f, rfl⟩ : ∃ f, fuel = f + 1 := ⟨fuel - 1, by simp at hfuel; omega⟩
    exact buildPath_start _ _ _ _ (hne start (List.mem_singleton.2 rfl))
  | @step v vs hvs hch ih =>
    intro fuel acc hfuel
    obtain ⟨f, rfl⟩ : ∃ f, fuel = f + 1 := ⟨fuel - 1, by simp at hfuel; omega⟩
    rw [buildPath_step _ _ _ _ _ (hne v (List.mem_cons_self _ _)) hvs,
      ih (fun y hy => hne y (List.mem_cons_of_mem _ hy)) f (acc ++ [v])
        (by simp at hfuel; omega)]
    simp

theorem spfaLoop_returns_mono {g : Graph} {st0 : SPFAState} {r : Option SPFAState}
    (h : Returns (fun fuel => spfaLoop g fuel st0) r) :
    ∃ f0, ∀ fuel, f0 ≤ fuel → spfaLoop g fuel st0 = some r := h

/-- Without a reachable negative cycle and with small weights, `SPFA` returns a
genuine walk of minimum weight to a reachable target, and its loop ends with
every push count at most `n`. -/
theorem spfa_returns_reachable {g : Graph} {start end_ : Int} (hwf : g.WF)
    (hs : g.IsVertex start) (he : g.IsVertex end_) (hnc : ¬ NegCycleFrom g start)
    (hbelow : BelowINF g start) (habove : AboveNegINF g start)
    (hreach : Reachable g start end_) :
    ∃ vs d, Returns (fun fuel => SPFA fuel g start end_) (vs.reverse, d, true) ∧
      WalkV g start end_ d vs ∧ (∀ w k, Walk g start end_ w k → d ≤ w) ∧
      ∃ st, Returns (fun fuel => spfaLoop g fuel (spfaInit g start)) (some st) ∧
        ∀ c ∈ st.pushCount, c ≤ g.n := by
  obtain ⟨st, ⟨f0, hloop⟩, hgood, hq, hb⟩ := spfaLoop_good hwf hs hnc hbelow habove
  obtain ⟨w0, k0, hw0⟩ := hreach
  obtain ⟨_, hne0⟩ := sinv_final_le hwf hs hnc hbelow hgood.1 hq hw0
  have h0 : st.d start = 0 := by
    have h1 := hgood.1.1.1
    have h2 : st.d start ≠ INF := by have := INF_pos; omega
    obtain ⟨k, hk⟩ := hgood.1.1.2.2.1 start hs h2
    by_contra hne
    exact hnc ⟨start, 0, 0, _, _, Walk.nil, hk, by omega⟩
  obtain ⟨vs, hch⟩ := hgood.2.1 end_ he hne0
  have hwalk := chain_walkV hgood.1 hq h0 hch he hne0
  have hvne : ∀ y ∈ vs, y ≠ -1 := by
    intro y hy
    have := (chain_walk hgood.1.1 hch he hne0 y hy).1
    unfold Graph.IsVertex at this
    omega
  refine ⟨vs, st.d end_, ⟨max f0 vs.length, fun fuel hfuel => ?_⟩, hwalk,
    fun w k hw => (sinv_final_le hwf hs hnc hbelow hgood.1 hq hw).1,
    st, ⟨f0, hloop⟩, hb.2.2.2.2.2.2.2⟩
  show SPFA fuel g start end_ = _
  unfold SPFA
  have hl : spfaLoop g fuel (spfaInit g start) = some (some st) := hloop fuel (by omega)
  rw [hl]
  simp only
  have hne1 : ¬ st.dist.getD end_.toNat 0 = INF := hne0
  rw [if_neg hne1, chain_buildPath hch hvne fuel [] (by omega)]
  rfl

/-- Without a reachable negative cycle and with small weights, `SPFA` reports
"no path" for an unreachable target through the `dist[end] == INF` test. -/
theorem spfaLoop_good_unreachable {g : Graph} {start end_ : Int} (hwf : g.WF)
    (hs : g.IsVertex start) (he : g.IsVertex end_) (hnc : ¬ NegCycleFrom g start)
    (hbelow : BelowINF g start) (habove : AboveNegINF g start)
    (hreach : ¬ Reachable g start end_) :
    ∃ st, Returns (fun fuel => spfaLoop g fuel (spfaInit g start)) (some st) ∧
      st.d end_ = INF := by
  obtain ⟨st, hloop, hgood, hq, hb⟩ := spfaLoop_good hwf hs hnc hbelow habove
  refine ⟨st, hloop, ?_⟩
  by_contra hne
  obtain ⟨k, hk⟩ := hgood.1.1.2.2.1 end_ he hne
  exact hreach ⟨_, k, hk⟩

/-! ## Fuel monotonicity of the entry points -/

theorem SPFA_mono (g : Graph) (start end_ : Int) (fuel : Nat) (r : List Int × Int × Bool)
    (h : SPFA fuel g start end_ = some r) (fuel2 : Nat) (hle : fuel ≤ fuel2) :
    SPFA fuel2 g start end_ = some r := by
  unfold SPFA at h ⊢
  cases hl : spfaLoop g fuel (spfaInit g start) with
  | none => rw [hl] at h; simp at h
  | some x =>
    rw [hl] at h
    rw [spfaLoop_mono _ _ _ _ hl fuel2 hle]
    cases x with
    | none => exact h
    | some st =>
      simp only at h ⊢
      split_ifs at h ⊢ with h1
      · exact h
      · cases hb : buildPath st.parent start fuel end_ [] with
        | none => rw [hb] at h; simp at h
        | some p =>
          rw [hb] at h
          rw [buildPath_mono _ _ _ _ _ _ hb fuel2 hle]
          exact h

theorem Dijkstra_mono (g : Graph) (start end_ : Int) (fuel : Nat) (r : List Int × Int × Bool)
    (h : Dijkstra fuel g start end_ = some r) (fuel2 : Nat) (hle : fuel ≤ fuel2) :
    Dijkstra fuel2 g start end_ = some r := by
  unfold Dijkstra at h ⊢
  cases hl : dijkstraLoop g end_ fuel (dijkstraInit g start) with
  | none => rw [hl] at h; simp at h
  | some st =>
    rw [hl] at h
    rw [dijkstraLoop_mono _ _ _ _ _ hl fuel2 hle]
    simp only at h ⊢
    split_ifs at h ⊢ with h1
    · exact h
    · cases hb : buildPath st.parent start fuel end_ [] with
      | none => rw [hb] at h; simp at h
      | some p =>
        rw [hb] at h
        rw [buildPath_mono _ _ _ _ _ _ hb fuel2 hle]
        exact h

theorem FindShortestPath_mono (g : Graph) (start end_ : Int) (fuel : Nat)
    (r : List Int × Int × Bool) (h : FindShortestPath fuel g start end_ = some r)
    (fuel2 : Nat) (hle : fuel ≤ fuel2) : FindShortestPath fuel2 g start end_ = some r := by
  unfold FindShortestPath FindShortestPathWith at h ⊢
  split_ifs at h ⊢ with h1 h2
  · exact h
  · exact SPFA_mono _ _ _ _ _ h _ hle
  · exact Dijkstra_mono _ _ _ _ _ h _ hle

theorem returns_of_mono {α : Type} (f : Nat → Option α)
    (hmono : ∀ fuel r, f fuel = some r → ∀ fuel2, fuel ≤ fuel2 → f fuel2 = some r)
    (fuel : Nat) (r : α) (h : f fuel = some r) : Returns f r :=
  ⟨fuel, fun fuel2 hle => hmono fuel r h fuel2 hle⟩

theorem returns_unique {α : Type} (f : Nat → Option α) (r1 r2 : α)
    (h1 : Returns f r1) (h2 : Returns f r2) : r1 = r2 := by
  obtain ⟨f1, hf1⟩ := h1
  obtain ⟨f2, hf2⟩ := h2
  have a := hf1 (max f1 f2) (by omega)
  have b := hf2 (max f1 f2) (by omega)
  rw [a] at b
  exact Option.some.inj b

/-! ## Potentials -/

theorem feasible_edge {g : Graph} {h : List Int} (hf : Feasible g h) {u : Int}
    (hu : g.IsVertex u) {e : Edge} (he : e ∈ g.adjAt u) :
    h.getD e.To.toNat 0 ≤ h.getD u.toNat 0 + e.Weight := by
  unfold Graph.IsVertex at hu
  exact hf u.toNat (by rw [List.mem_range'_1]; omega) e he

/-- Along any walk a feasible potential drops by at most the weight of the walk. -/
theorem walk_potential {g : Graph} {h : List Int} (hwf : g.WF) (hf : Feasible g h)
    {s t w : Int} {k : Nat} (hs : g.IsVertex s) (hw : Walk g s t w k) :
    h.getD t.toNat 0 ≤ h.getD s.toNat 0 + w := by
  induction hw with
  | nil => omega
  | snoc e hw1 he ih =>
    have := feasible_edge hf (walk_isVertex hwf hs hw1) he
    omega

theorem not_negCycleFrom_of_feasible {g : Graph} {h : List Int} (hwf : g.WF)
    (hf : Feasible g h) {s : Int} (hs : g.IsVertex s) : ¬ NegCycleFrom g s := by
  rintro ⟨v, w, k, c, m, h1, h2, hc⟩
  have := walk_potential hwf hf (walk_isVertex hwf hs h1) h2
  omega

/-! ## SPFA with a reachable negative cycle -/

theorem adjAt_length_le (g : Graph) (u : Int) : (g.adjAt u).length ≤ g.numEdges := by
  unfold Graph.adjAt Graph.numEdges
  by_cases h : u.toNat < g.adj.length
  · rw [List.getD_eq_getElem _ _ h]
    exact List.le_sum_of_mem (List.mem_map.2 ⟨_, List.getElem_mem h, rfl⟩)
  · rw [List.getD_eq_default _ _ (by omega)]
    simp

theorem pushCount_sum_le {g : Graph} {st : SPFAState} (hb : SBase g st) :
    st.pushCount.sum ≤ (g.n + 1) * g.n := by
  have := List.sum_le_card_nsmul st.pushCount g.n hb.2.2.2.2.2.2.2
  rw [hb.2.2.2.1] at this
  simpa using this

theorem weightsWithin_edge {g : Graph} {W : Int} (hW : g.WeightsWithin W) {u : Int} {e : Edge}
    (he : e ∈ g.adjAt u) : -W ≤ e.Weight ∧ e.Weight ≤ W := by
  obtain ⟨l, hl, hel⟩ := adjAt_mem_adj he
  exact hW l hl e hel

/-- With all weights in `[-W, W]` and `W` small against the number of steps SPFA
can take, the sum computed by a relaxation does not wrap around. -/
theorem spfa_nowrap_tb {g : Graph} {W : Int} {u : Int} {done rest : List Edge}
    {st : SPFAState} (hW : g.WeightsWithin W)
    (hbig : ((((g.n + 1) * g.n * g.numEdges + 1 : Nat) : Int)) * W < 2 ^ 63 - INF)
    (hb : SBase g st) (hu : g.IsVertex u) (hle : st.d u ≤ INF)
    (e : Edge) (hsplit : g.adjAt u = done ++ e :: rest) (htb : STBInner g W done st) :
    wrap64 (st.d u + e.Weight) = st.d u + e.Weight := by
  obtain ⟨t, ht, hlow⟩ := htb
  have he : e ∈ g.adjAt u := by rw [hsplit]; simp
  obtain ⟨hw1, hw2⟩ := weightsWithin_edge hW he
  have hW0 : 0 ≤ W := by omega
  have hlen : done.length + 1 ≤ g.numEdges := by
    have := adjAt_length_le g u
    rw [hsplit] at this
    simp at this
    omega
  have hsum := pushCount_sum_le hb
  have hcnt : t * g.numEdges + done.length + 1 ≤ (g.n + 1) * g.n * g.numEdges := by
    have h1 : t + 1 ≤ (g.n + 1) * g.n := by omega
    calc t * g.numEdges + done.length + 1 ≤ t * g.numEdges + g.numEdges := by omega
      _ = (t + 1) * g.numEdges := by ring
      _ ≤ (g.n + 1) * g.n * g.numEdges := Nat.mul_le_mul_right _ h1
  have hlow_u := hlow u hu
  have hI := INF_val
  have h2 : (((t * g.numEdges + done.length : Nat) : Int) + 1) * W ≤
      ((((g.n + 1) * g.n * g.numEdges + 1 : Nat) : Int)) * W := by
    apply mul_le_mul_of_nonneg_right _ hW0
    push_cast
    have : ((t * g.numEdges + done.length + 1 : Nat) : Int) ≤
        (((g.n + 1) * g.n * g.numEdges : Nat) : Int) := by exact_mod_cast hcnt
    push_cast at this
    omega
  have h3 : (((t * g.numEdges + done.length : Nat) : Int) + 1) * W =
      ((t * g.numEdges + done.length : Nat) : Int) * W + W := by ring
  have hW1 : W ≤ ((((g.n + 1) * g.n * g.numEdges + 1 : Nat) : Int)) * W := by
    have h1 : (1 : Nat) ≤ (g.n + 1) * g.n * g.numEdges + 1 := Nat.le_add_left _ _
    have : (1 : Int) ≤ ((((g.n + 1) * g.n * g.numEdges + 1 : Nat) : Int)) := by
      exact_mod_cast h1
    nlinarith
  apply wrap64_eq <;> omega

theorem sum_set_succ (l : List Nat) (i : Nat) (h : i < l.length) :
    (l.set i (l.getD i 0 + 1)).sum = l.sum + 1 := by
  have := sum_map_set_nat l i (l.getD i 0 + 1) id h
  simp only [List.map_id, id] at this
  omega

theorem stb_dequeue {g : Graph} {W : Int} {u : Int} {rest : List Int} {st : SPFAState}
    (hq : st.queue = u :: rest) (htb : STB g W st) :
    STBInner g W [] { st with queue := rest, inQueue := st.inQueue.set u.toNat false } := by
  obtain ⟨t, ht, hlow⟩ := htb
  refine ⟨t, ?_, fun v hv => by simpa using hlow v hv⟩
  rw [hq] at ht
  simp only [List.length_cons] at ht
  show t + 1 + rest.length = st.pushCount.sum
  omega

theorem stb_of_inner {g : Graph} {W : Int} (hW0 : 0 ≤ W) {u : Int} {st : SPFAState}
    (htb : STBInner g W (g.adjAt u) st) : STB g W st := by
  obtain ⟨t, ht, hlow⟩ := htb
  refine ⟨t + 1, by omega, fun v hv => ?_⟩
  have h1 := hlow v hv
  have h2 : (((t * g.numEdges + (g.adjAt u).length : Nat) : Int)) ≤
      (((t + 1) * g.numEdges : Nat) : Int) := by
    have := adjAt_length_le g u
    have h3 : t * g.numEdges + (g.adjAt u).length ≤ (t + 1) * g.numEdges := by
      rw [Nat.add_mul]; omega
    exact_mod_cast h3
  have h4 := mul_le_mul_of_nonneg_right h2 hW0
  omega

theorem stb_skip {g : Graph} {W : Int} (hW0 : 0 ≤ W) {done : List Edge} {st : SPFAState}
    (e : Edge) (htb : STBInner g W done st) : STBInner g W (done ++ [e]) st := by
  obtain ⟨t, ht, hlow⟩ := htb
  refine ⟨t, ht, fun v hv => ?_⟩
  have h1 := hlow v hv
  simp only [List.length_append, List.length_singleton]
  have h2 : (((t * g.numEdges + done.length : Nat) : Int)) ≤
      (((t * g.numEdges + (done.length + 1) : Nat) : Int)) := by
    exact_mod_cast (by omega : t * g.numEdges + done.length ≤ t * g.numEdges + (done.length + 1))
  have h4 := mul_le_mul_of_nonneg_right h2 hW0
  omega

theorem stb_update {g : Graph} {W : Int} {u : Int} {done : List Edge} {st st1 : SPFAState}
    (hwf : g.WF) (hW : g.WeightsWithin W) (hu : g.IsVertex u) (hb : SBase g st) (e : Edge)
    (he : e ∈ g.adjAt u)
    (hup : SUpdated st st1 u e.To (st.d u + e.Weight))
    (hq : (e.To ∉ st.queue ∧ st1.queue = st.queue ++ [e.To] ∧
            st1.pushCount = st.pushCount.set e.To.toNat (st.pushCount.getD e.To.toNat 0 + 1)) ∨
          (e.To ∈ st.queue ∧ st1.queue = st.queue ∧ st1.pushCount = st.pushCount))
    (htb : STBInner g W done st) : STBInner g W (done ++ [e]) st1 := by
  obtain ⟨t, ht, hlow⟩ := htb
  have hv : g.IsVertex e.To := adjAt_isVertex hwf he
  obtain ⟨hw1, hw2⟩ := weightsWithin_edge hW he
  have hW0 : 0 ≤ W := by omega
  have hd := supdated_d hb hv hup
  refine ⟨t, ?_, fun x hx => ?_⟩
  · rcases hq with ⟨_, hq1, hpc⟩ | ⟨_, hq1, hpc⟩
    · rw [hq1, hpc, sum_set_succ _ _ (toNat_lt_length hb.2.2.2.1 hv)]
      simp only [List.length_append, List.length_singleton]
      omega
    · rw [hq1, hpc]; exact ht
  · simp only [List.length_append, List.length_singleton]
    have h5 : (((t * g.numEdges + (done.length + 1) : Nat) : Int)) * W =
        (((t * g.numEdges + done.length : Nat) : Int)) * W + W := by
      push_cast; ring
    rw [hd x hx]
    split_ifs with hxv
    · have := hlow u hu
      omega
    · have := hlow x hx
      omega

theorem spfaInit_stb {g : Graph} {W : Int} {start : Int} (hs : g.IsVertex start) :
    STB g W (spfaInit g start) := by
  refine ⟨0, ?_, fun v hv => ?_⟩
  · show 0 + 1 = ((List.replicate (g.n + 1) 0).set start.toNat 1).sum
    have h := sum_set_succ (List.replicate (g.n + 1) 0) start.toNat
      (toNat_lt_length (by simp) hs)
    rw [List.getD_eq_getElem _ _ (toNat_lt_length (by simp) hs)] at h
    simp only [List.getElem_replicate, zero_add, List.sum_replicate, smul_eq_mul, mul_zero] at h
    omega
  · rw [spfaInit_d hs v hv]
    have := INF_pos
    simp only [Nat.zero_mul, Nat.cast_zero, zero_mul, neg_zero]
    split_ifs <;> omega

theorem sbad_relax {g : Graph} {W : Int} {start u : Int} {done rest : List Edge}
    {st : SPFAState} (hwf : g.WF) (hs : g.IsVertex start) (hW : g.WeightsWithin W)
    (hbig : ((((g.n + 1) * g.n * g.numEdges + 1 : Nat) : Int)) * W < 2 ^ 63 - INF)
    (hu : g.IsVertex u) (hb : SBase g st) (e : Edge) (hsplit : g.adjAt u = done ++ e :: rest)
    (hin : SInner g start u done st ∧ STBInner g W done st) :
    match spfaRelax g.n u st e with
    | none => True
    | some st1 => SInner g start u (done ++ [e]) st1 ∧ STBInner g W (done ++ [e]) st1 := by
  obtain ⟨hi, htb⟩ := hin
  have he : e ∈ g.adjAt u := by rw [hsplit]; simp
  have hdone : ∀ e1 ∈ done, e1 ∈ g.adjAt u := by
    intro e1 h1; rw [hsplit]; exact List.mem_append_left _ h1
  have hv : g.IsVertex e.To := adjAt_isVertex hwf he
  have hW0 : 0 ≤ W := by have := weightsWithin_edge hW he; omega
  have hnw := spfa_nowrap_tb hW hbig hb hu (hi.1.2.1 u hu) e hsplit htb
  rcases spfaRelax_cases u st e hv hb with ⟨hr, _⟩ | ⟨st1, hr, hdu, hlt, hup, hq⟩ | ⟨hr, hno⟩
  · rw [hr]; trivial
  · rw [hr]
    rw [hnw] at hlt hup
    refine ⟨sinner_update hwf hs hu hb e he hdone hdu hlt hup hi,
      stb_update hwf hW hu hb e he hup ?_ htb⟩
    rcases hq with ⟨h1, h2, h3, _⟩ | h
    · exact Or.inl ⟨h1, h2, h3⟩
    · exact Or.inr h
  · rw [hr]
    rw [hnw] at hno
    refine ⟨sinner_skip e (fun hdu => ?_) hi, stb_skip hW0 e htb⟩
    by_contra hc
    exact hno ⟨hdu, by omega⟩

theorem walkV_simple_any {g : Graph} {s t w : Int} {vs : List Int} (h : WalkV g s t w vs) :
    ∃ w1 vs1, WalkV g s t w1 vs1 ∧ vs1.Nodup := by
  induction h with
  | nil => exact ⟨0, [s], WalkV.nil, by simp⟩
  | @snoc v w vs e hw he ih =>
    obtain ⟨w1, vs1, h1, hnd⟩ := ih
    by_cases hmem : e.To ∈ vs1
    · obtain ⟨wa, wb, vsa, kb, ha, _, _, hsub⟩ := walkV_split h1 e.To hmem
      exact ⟨wa, vsa, ha, hnd.sublist hsub⟩
    · exact ⟨w1 + e.Weight, e.To :: vs1, WalkV.snoc e h1 he, List.nodup_cons.2 ⟨hmem, hnd⟩⟩

/-- Every reachable vertex is reachable by a walk with fewer than `n` edges. -/
theorem walk_short_any {g : Graph} (hwf : g.WF) {s : Int} (hs : g.IsVertex s) {t w : Int}
    {k : Nat} (h : Walk g s t w k) : ∃ w1 k1, Walk g s t w1 k1 ∧ k1 < g.n := by
  obtain ⟨vs, hv, _⟩ := walkV_of_walk h
  obtain ⟨w1, vs1, h1, hnd⟩ := walkV_simple_any hv
  obtain ⟨k1, hk1, hl⟩ := walk_of_walkV h1
  have := nodup_vertices_length (g := g) vs1 hnd (walkV_isVertex hwf hs h1)
  exact ⟨w1, k1, hk1, by omega⟩

theorem sinv_final_reached {g : Graph} {start : Int} {st : SPFAState} (hwf : g.WF)
    (hs : g.IsVertex start) (hbelow : BelowINF g start) (hinv : SInv g start st)
    (hq : st.queue = []) {v : Int} (hr : Reachable g start v) : st.d v ≠ INF := by
  obtain ⟨w, k, hw⟩ := hr
  obtain ⟨w1, k1, hw1, hk1⟩ := walk_short_any hwf hs hw
  have h1 := sinv_final_le_short hwf hs hbelow hinv hq hw1 (by omega)
  have h2 := hbelow v w1 k1 (by omega) hw1
  omega

/-- When the SPFA queue is empty no negative cycle is reachable from `start`. -/
theorem sinv_final_no_negCycle {g : Graph} {start : Int} {st : SPFAState} (hwf : g.WF)
    (hs : g.IsVertex start) (hbelow : BelowINF g start) (hinv : SInv g start st)
    (hq : st.queue = []) : ¬ NegCycleFrom g start := by
  rintro ⟨v, w, k, c, m, hwv, hcyc, hc⟩
  have hpot : ∀ {t c1 : Int} {m1 : Nat}, Walk g v t c1 m1 → st.d t ≤ st.d v + c1 := by
    intro t c1 m1 h
    induction h with
    | nil => omega
    | @snoc x c2 m2 e hx he ih =>
      have hsx := walk_trans hwv hx
      have hxv := walk_isVertex hwf hs hsx
      have hxd := sinv_final_reached hwf hs hbelow hinv hq ⟨_, _, hsx⟩
      have := hinv.2 x hxv (by rw [hq]; simp) hxd e he
      omega
  have := hpot hcyc
  omega

/-- With bounded weights the SPFA loop takes the negative-cycle exit whenever a
negative cycle is reachable from `start`. -/
theorem spfaLoop_detects {g : Graph} {W : Int} {start : Int} (hwf : g.WF)
    (hs : g.IsVertex start) (hW : g.WeightsWithin W) (hnW : g.n * W < INF)
    (hbig : ((((g.n + 1) * g.n * g.numEdges + 1 : Nat) : Int)) * W < 2 ^ 63 - INF)
    (hcyc : NegCycleFrom g start) :
    Returns (fun fuel => spfaLoop g fuel (spfaInit g start)) none := by
  have hbelow : BelowINF g start := belowINF_of_weightsWithin hW hnW start
  have hW0 : 0 ≤ W := by
    obtain ⟨v, w, k, c, m, _, h2, hc⟩ := hcyc
    cases h2 with
    | nil => omega
    | snoc e _ he => have := weightsWithin_edge hW he; omega
  obtain ⟨r, hloop, hpost⟩ := spfaLoop_total g hwf
    (fun s => SInv g start s ∧ STB g W s)
    (fun s => SInv g start s ∧ s.queue = []) True
    (fun s _ hi hq => ⟨hi.1, hq⟩)
    (fun s u rest hbs hi hq => by
      obtain ⟨hb1, _, hu⟩ := spfaDequeue_base s u rest hq hbs
      have h := spfaEdges_rule g u (g.adjAt u)
        (fun done s1 => SInner g start u done s1 ∧ STBInner g W done s1) True
        (fun e he => adjAt_isVertex hwf he)
        (fun done e rest1 s1 hsplit hbs1 hin =>
          sbad_relax hwf hs hW hbig hu hbs1 e hsplit hin)
        (g.adjAt u) [] _ rfl hb1 ⟨sinner_of_dequeue hq hi.1, stb_dequeue hq hi.2⟩
      cases hr : spfaEdges g.n u
          { s with queue := rest, inQueue := s.inQueue.set u.toNat false } (g.adjAt u) with
      | none => trivial
      | some st1 =>
        rw [hr] at h
        exact ⟨sinv_of_sinner h.1, stb_of_inner hW0 h.2⟩)
    _ _ (spfaInit_base hs) ⟨spfaInit_sinv hs, spfaInit_stb hs⟩ (le_refl _)
  cases r with
  | none => exact ⟨_, fun fuel hfuel => spfaLoop_mono _ _ _ _ hloop fuel hfuel⟩
  | some st1 => exact absurd hcyc (sinv_final_no_negCycle hwf hs hbelow hpost.1 hpost.2)

theorem spfa_detects {g : Graph} {W : Int} {start : Int} (end_ : Int) (hwf : g.WF)
    (hs : g.IsVertex start) (hW : g.WeightsWithin W) (hnW : g.n * W < INF)
    (hbig : ((((g.n + 1) * g.n * g.numEdges + 1 : Nat) : Int)) * W < 2 ^ 63 - INF)
    (hcyc : NegCycleFrom g start) :
    Returns (fun fuel => SPFA fuel g start end_) ([], -1, false) := by
  obtain ⟨f0, hf0⟩ := spfaLoop_detects hwf hs hW hnW hbig hcyc
  refine ⟨f0, fun fuel hfuel => ?_⟩
  show SPFA fuel g start end_ = _
  unfold SPFA
  have hl : spfaLoop g fuel (spfaInit g start) = some none := hf0 fuel hfuel
  rw [hl]

/-! ## Returned paths -/

theorem isPathWithWeight_snoc {g : Graph} (p : List Int) (v x d : Int) (e : Edge)
    (hp : IsPathWithWeight g (p ++ [v]) d) (he : e ∈ g.adjAt v) (hto : e.To = x) :
    IsPathWithWeight g (p ++ [v] ++ [x]) (d + e.Weight) := by
  induction p generalizing d with
  | nil =>
    simp only [List.nil_append, IsPathWithWeight] at hp ⊢
    refine ⟨e, he, hto, ?_⟩
    omega
  | cons a p ih =>
    cases p with
    | nil =>
      simp only [List.cons_append, List.nil_append, IsPathWithWeight] at hp ih ⊢
      obtain ⟨e1, he1, hto1, hrest⟩ := hp
      refine ⟨e1, he1, hto1, ?_⟩
      have := ih (d - e1.Weight) hrest
      refine ⟨e, he, hto, ?_⟩
      omega
    | cons b p =>
      simp only [List.cons_append, IsPathWithWeight] at hp ih ⊢
      obtain ⟨e1, he1, hto1, hrest⟩ := hp
      refine ⟨e1, he1, hto1, ?_⟩
      have := ih (d - e1.Weight) hrest
      have heq : d + e.Weight - e1.Weight = d - e1.Weight + e.Weight := by ring
      rw [heq]
      exact this

/-- The vertices of a walk, read from `start` to the target, form a path with
the weight of the walk. -/
theorem walkV_path {g : Graph} {s t d : Int} {vs : List Int} (h : WalkV g s t d vs) :
    vs.reverse.head? = some s ∧ vs.reverse.getLast? = some t ∧
      IsPathWithWeight g vs.reverse d := by
  induction h with
  | nil => simp [IsPathWithWeight]
  | @snoc v w vs e hw he ih =>
    obtain ⟨h1, h2, h3⟩ := ih
    have hne : vs.reverse ≠ [] := by
      intro h; rw [h] at h1; simp at h1
    obtain ⟨p, hp⟩ : ∃ p, vs.reverse = p ++ [v] := by
      refine ⟨vs.reverse.dropLast, ?_⟩
      have := List.dropLast_append_getLast? v (by rw [h2]; simp)
      exact this.symm
    refine ⟨?_, ?_, ?_⟩
    · rw [List.reverse_cons, List.head?_append_of_ne_nil _ hne]
      exact h1
    · simp
    · rw [List.reverse_cons, hp]
      rw [hp] at h3
      exact isPathWithWeight_snoc p v e.To w e h3 he rfl

/-! ## The point-to-point query under bounded weights -/

theorem returns_congr {α : Type} {f f1 : Nat → Option α} (h : ∀ fuel, f fuel = f1 fuel)
    {r : α} (hr : Returns f1 r) : Returns f r := by
  obtain ⟨f0, hf0⟩ := hr
  exact ⟨f0, fun fuel hfuel => by rw [h fuel]; exact hf0 fuel hfuel⟩

/-- With bounded weights `FindShortestPath` either reports failure or returns a
genuine walk of minimum weight. -/
theorem findShortestPath_classify {g : Graph} {W : Int} {start end_ : Int} (hwf : g.WF)
    (hs : g.IsVertex start) (he : g.IsVertex end_) (hW : g.WeightsWithin W)
    (hnW : g.n * W < INF)
    (hbig : ((((g.n + 1) * g.n * g.numEdges + 1 : Nat) : Int)) * W < 2 ^ 63 - INF) :
    (Returns (fun fuel => FindShortestPath fuel g start end_) ([], -1, false) ∧
      (NegCycleFrom g start ∨ ¬ Reachable g start end_)) ∨
    (∃ vs d, Returns (fun fuel => FindShortestPath fuel g start end_) (vs.reverse, d, true) ∧
      WalkV g start end_ d vs ∧ (∀ w k, Walk g start end_ w k → d ≤ w) ∧
      ¬ NegCycleFrom g start) := by
  have hbelow := belowINF_of_weightsWithin hW hnW start
  have habove := aboveNegINF_of_weightsWithin hW hnW start
  by_cases hneg : HasNegativeEdge g = true
  · have heq : ∀ fuel, FindShortestPath fuel g start end_ = SPFA fuel g start end_ := by
      intro fuel
      rw [findShortestPath_eq fuel g start end_ hs he, if_pos hneg]
    by_cases hcyc : NegCycleFrom g start
    · exact Or.inl ⟨returns_congr heq (spfa_detects end_ hwf hs hW hnW hbig hcyc), Or.inl hcyc⟩
    · by_cases hreach : Reachable g start end_
      · obtain ⟨vs, d, hret, hwalk, hmin, _⟩ :=
          spfa_returns_reachable hwf hs he hcyc hbelow habove hreach
        exact Or.inr ⟨vs, d, returns_congr heq hret, hwalk, hmin, hcyc⟩
      · exact Or.inl ⟨returns_congr heq (spfa_unreachable hwf hs he hreach), Or.inr hreach⟩
  · have heq : ∀ fuel, FindShortestPath fuel g start end_ = Dijkstra fuel g start end_ := by
      intro fuel
      rw [findShortestPath_eq fuel g start end_ hs he, if_neg hneg]
    have hnn : g.NonNeg := (hasNegativeEdge_false_iff g).1 (by simpa using hneg)
    by_cases hreach : Reachable g start end_
    · obtain ⟨vs, d, hret, hwalk, hmin⟩ :=
        dijkstra_returns_reachable hwf hnn hs he hbelow hreach
      exact Or.inr ⟨vs, d, returns_congr heq hret, hwalk, hmin,
        not_negCycleFrom_of_nonNeg hwf hnn hs⟩
    · exact Or.inl ⟨returns_congr heq (dijkstra_unreachable hwf hs he hreach), Or.inr hreach⟩

theorem findShortestPath_invalid (fuel : Nat) (g : Graph) (start end_ : Int)
    (h : ¬ (g.IsVertex start ∧ g.IsVertex end_)) :
    FindShortestPath fuel g start end_ = some ([], -1, false) := by
  have hr : start ≤ 0 ∨ start > (g.n : Int) ∨ end_ ≤ 0 ∨ end_ > (g.n : Int) := by
    unfold Graph.IsVertex at h
    omega
  unfold FindShortestPath FindShortestPathWith
  rw [if_pos hr]

/-! ## Graph construction -/

theorem addEdge_directed (t : Graph) (hd : t.directed = true) (u v w : Int) :
    AddEdge t u v w =
      Graph.mk (t.adj.set u.toNat (t.adj.getD u.toNat [] ++ [{ To := v, Weight := w }]))
        t.n t.directed := by
  unfold AddEdge
  simp [hd]

theorem addEdges_directed (f : Edge → Int) (u : Int) (es : List Edge) (t : Graph)
    (hd : t.directed = true) (hu : u.toNat < t.adj.length) :
    es.foldl (fun t1 e => AddEdge t1 u e.To (f e)) t =
      Graph.mk (t.adj.set u.toNat
          (t.adj.getD u.toNat [] ++ es.map (fun e => { To := e.To, Weight := f e })))
        t.n t.directed := by
  induction es generalizing t with
  | nil =>
    simp only [List.foldl_nil, List.map_nil, List.append_nil]
    rw [List.getD_eq_getElem _ _ hu]
    have : t.adj.set u.toNat t.adj[u.toNat] = t.adj := by
      apply List.ext_getElem (by simp)
      intro i h1 h2
      by_cases hi : u.toNat = i
      · subst hi; simp
      · simp [List.getElem_set_ne hi]
    rw [this]
  | cons e es ih =>
    simp only [List.foldl_cons, List.map_cons]
    rw [addEdge_directed t hd]
    have h1 := ih (Graph.mk (t.adj.set u.toNat (t.adj.getD u.toNat [] ++ [Edge.mk e.To (f e)]))
      t.n t.directed) hd (by simpa using hu)
    simp only at h1
    rw [h1]
    simp only [List.set_set]
    rw [getD_set_self _ _ _ _ hu]
    simp

/-- Adding, for every vertex `u` of a list, the edges `E u` to row `u` of a
directed graph appends them to that row and touches no other row. -/
theorem addRows_directed (E : Nat → List Edge) (us : List Nat) (hnd : us.Nodup) (t : Graph)
    (hd : t.directed = true) (hus : ∀ u ∈ us, u < t.adj.length) :
    let r := us.foldl (fun t1 (u : Nat) =>
      Graph.mk (t1.adj.set u (t1.adj.getD u [] ++ E u)) t1.n t1.directed) t
    r.n = t.n ∧ r.directed = true ∧ r.adj.length = t.adj.length ∧
      ∀ i, r.adj.getD i [] = if i ∈ us then t.adj.getD i [] ++ E i else t.adj.getD i [] := by
  induction us generalizing t with
  | nil => simp [hd]
  | cons u us ih =>
    simp only [List.foldl_cons]
    have hnd' := List.nodup_cons.1 hnd
    obtain ⟨h1, h2, h3, h4⟩ := ih hnd'.2
      (Graph.mk (t.adj.set u (t.adj.getD u [] ++ E u)) t.n t.directed) hd
      (fun x hx => by simpa using hus x (List.mem_cons_of_mem _ hx))
    refine ⟨h1, h2, by simpa using h3, fun i => ?_⟩
    rw [h4 i]
    by_cases hiu : i = u
    · subst hiu
      rw [if_neg hnd'.1, if_pos (List.mem_cons_self _ _)]
      exact getD_set_self _ _ _ _ (hus i (List.mem_cons_self _ _))
    · have hmem : i ∈ u :: us ↔ i ∈ us := by simp [hiu]
      simp only [hmem]
      rw [getD_set_other _ _ _ _ _ (Ne.symm hiu)]

theorem addRowsEdges_directed (f : Nat → Edge → Int) (E : Nat → List Edge) (us : List Nat)
    (hnd : us.Nodup) (t : Graph) (hd : t.directed = true) (hus : ∀ u ∈ us, u < t.adj.length) :
    let r := us.foldl (fun t1 (u : Nat) =>
      (E u).foldl (fun t2 e => AddEdge t2 u e.To (f u e)) t1) t
    r.n = t.n ∧ r.directed = true ∧ r.adj.length = t.adj.length ∧
      ∀ i, r.adj.getD i [] =
        if i ∈ us then t.adj.getD i [] ++ (E i).map (fun e => { To := e.To, Weight := f i e })
        else t.adj.getD i [] := by
  induction us generalizing t with
  | nil => simp [hd]
  | cons u us ih =>
    simp only [List.foldl_cons]
    have hnd' := List.nodup_cons.1 hnd
    have hu : ((u : Int)).toNat < t.adj.length := by
      simpa using hus u (List.mem_cons_self _ _)
    rw [addEdges_directed (f u) u (E u) t hd hu]
    simp only [Int.toNat_ofNat] at hu ⊢
    have hih := ih hnd'.2 (Graph.mk (t.adj.set u (t.adj.getD u [] ++
      (E u).map (fun e => { To := e.To, Weight := f u e }))) t.n t.directed) hd
      (fun x hx => by simpa using hus x (List.mem_cons_of_mem _ hx))
    simp only at hih
    obtain ⟨h1, h2, h3, h4⟩ := hih
    refine ⟨h1, h2, by rw [h3, List.length_set], fun i => ?_⟩
    rw [h4 i]
    by_cases hiu : i = u
    · subst hiu
      rw [if_neg hnd'.1, if_pos (List.mem_cons_self _ _)]
      exact getD_set_self _ _ _ _ hu
    · have hmem : i ∈ u :: us ↔ i ∈ us := by simp [hiu]
      simp only [hmem]
      rw [getD_set_other _ _ _ _ _ (Ne.symm hiu)]

theorem newGraph_getD (n : Nat) (d : Bool) (i : Nat) : (NewGraph n d).adj.getD i [] = [] := by
  unfold NewGraph
  simp only
  by_cases h : i < n + 1
  · rw [List.getD_eq_getElem _ _ (by simpa using h)]
    simp
  · rw [List.getD_eq_default _ _ (by simpa using h)]

theorem map_edge_id (es : List Edge) :
    es.map (fun e => ({ To := e.To, Weight := e.Weight } : Edge)) = es := by
  induction es with
  | nil => rfl
  | cons e es ih => simp [ih]

/-- Adjacency of the augmented graph of `Johnson`. -/
theorem johnsonTemp_spec (g : Graph) :
    (johnsonTemp g).n = g.n + 1 ∧ (johnsonTemp g).adj.length = g.n + 2 ∧
    (∀ i, 1 ≤ i → i ≤ g.n → (johnsonTemp g).adj.getD i [] = g.adj.getD i []) ∧
    (johnsonTemp g).adj.getD (g.n + 1) [] =
      (List.range' 1 g.n).map (fun (i : Nat) => ({ To := i, Weight := 0 } : Edge)) := by
  unfold johnsonTemp
  obtain ⟨h1, h2, h3, h4⟩ := addRowsEdges_directed (fun _ e => e.Weight)
    (fun u => g.adjAt u) (List.range' 1 g.n) (List.nodup_range' 1 g.n) (NewGraph (g.n + 1) true)
    rfl (fun u hu => by
      rw [List.mem_range'_1] at hu
      simp [NewGraph]; omega)
  have hfold : ∀ t : Graph,
      (List.range' 1 g.n).foldl (fun t (i : Nat) => AddEdge t (g.n + 1 : Nat) i 0) t =
      ((List.range' 1 g.n).map (fun (i : Nat) => ({ To := i, Weight := 0 } : Edge))).foldl
        (fun t e => AddEdge t (g.n + 1 : Nat) e.To ((fun _ => (0 : Int)) e)) t := by
    intro t
    rw [List.foldl_map]
  rw [hfold]
  have hlen : ((g.n + 1 : Nat) : Int).toNat < ((List.range' 1 g.n).foldl (fun t1 (u : Nat) =>
      (g.adjAt u).foldl (fun t2 e => AddEdge t2 u e.To e.Weight) t1)
      (NewGraph (g.n + 1) true)).adj.length := by
    rw [h3]; simp [NewGraph]
  rw [addEdges_directed (fun _ => 0) (g.n + 1 : Nat) _ _ h2 hlen]
  simp only [Int.toNat_ofNat]
  refine ⟨h1, by rw [List.length_set, h3]; simp [NewGraph], ?_, ?_⟩
  · intro i hi1 hi2
    rw [getD_set_other _ _ _ _ _ (by omega), h4 i,
      if_pos (by rw [List.mem_range'_1]; omega), newGraph_getD, List.nil_append, map_edge_id]
    simp [Graph.adjAt]
  · rw [getD_set_self _ _ _ _ (by rw [h3]; simp [NewGraph]), h4 (g.n + 1),
      if_neg (by rw [List.mem_range'_1]; omega), newGraph_getD, List.nil_append,
      List.map_map]
    rfl

/-- Adjacency of the reweighted graph of `Johnson`. -/
theorem johnsonReweighted_spec (g : Graph) (h : List Int) :
    (johnsonReweighted g h).n = g.n ∧ (johnsonReweighted g h).adj.length = g.n + 1 ∧
    (∀ i, 1 ≤ i → i ≤ g.n → (johnsonReweighted g h).adj.getD i [] =
      (g.adj.getD i []).map (fun e => Edge.mk e.To
        (wrap64 (wrap64 (e.Weight + h.getD i 0) - h.getD e.To.toNat 0)))) ∧
    (johnsonReweighted g h).adj.getD 0 [] = [] := by
  unfold johnsonReweighted
  obtain ⟨h1, h2, h3, h4⟩ := addRowsEdges_directed
    (fun u e => wrap64 (wrap64 (e.Weight + h.getD u 0) - h.getD e.To.toNat 0))
    (fun u => g.adjAt u) (List.range' 1 g.n) (List.nodup_range' 1 g.n) (NewGraph g.n true)
    rfl (fun u hu => by
      rw [List.mem_range'_1] at hu
      simp [NewGraph]; omega)
  refine ⟨h1, by rw [h3]; simp [NewGraph], ?_, ?_⟩
  · intro i hi1 hi2
    rw [h4 i, if_pos (by rw [List.mem_range'_1]; omega), newGraph_getD, List.nil_append]
    simp [Graph.adjAt]
  · rw [h4 0, if_neg (by rw [List.mem_range'_1]; omega), newGraph_getD]

/-! ## Potentials of `Johnson`: one relaxation test -/

theorem MaxInt64_val : MaxInt64 = 9223372036854775807 := rfl

theorem jedge_facts {g : Graph} {W : Int} (hwf : g.WF) (hW0 : 0 ≤ W) (hW : g.WeightsWithin W)
    {u : Int} {e : Edge} (he : JEdge g u e) :
    g.IsVertex e.To ∧ -W ≤ e.Weight ∧ e.Weight ≤ W := by
  rcases he with ⟨_, he⟩ | ⟨_, h0, hto⟩
  · exact ⟨adjAt_isVertex hwf he, weightsWithin_edge hW he⟩
  · exact ⟨hto, by omega, by omega⟩

theorem jbase_mono {g : Graph} {W : Int} {c c1 : Nat} {h : List Int} (hW0 : 0 ≤ W)
    (hle : c ≤ c1) (hb : JBase g W c h) : JBase g W c1 h := by
  refine ⟨hb.1, hb.2.1, fun v hv => ?_⟩
  have hcc : (c : Int) * W ≤ (c1 : Int) * W :=
    mul_le_mul_of_nonneg_right (by exact_mod_cast hle) hW0
  rcases hb.2.2 v hv with h1 | ⟨h1, h2⟩
  · exact Or.inl h1
  · exact Or.inr ⟨by omega, by omega⟩

theorem jbase_src {g : Graph} {W : Int} {c : Nat} {h : List Int} (hW0 : 0 ≤ W)
    (hb : JBase g W c h) {u : Int} {e : Edge} (he : JEdge g u e) :
    h.getD u.toNat 0 = MaxInt64 ∨
      (-((c : Int) * W) ≤ h.getD u.toNat 0 ∧ h.getD u.toNat 0 ≤ (c : Int) * W) := by
  rcases he with ⟨hu, _⟩ | ⟨hu, _, _⟩
  · exact hb.2.2 u hu
  · have h1 : u.toNat = g.n + 1 := by omega
    rw [h1, hb.2.1]
    have : 0 ≤ (c : Int) * W := mul_nonneg (by exact_mod_cast Nat.zero_le c) hW0
    exact Or.inr ⟨by omega, by omega⟩

theorem johnsonRelax_step {g : Graph} {W : Int} {c : Nat} {h : List Int} {u : Int} {e : Edge}
    (last : Bool) (hwf : g.WF) (hW0 : 0 ≤ W) (hW : g.WeightsWithin W)
    (hc : ((c + 1 : Nat) : Int) * W < MaxInt64)
    (hb : JBase g W c h) (hs : JSound g h) (he : JEdge g u e) (h1 : List Int)
    (hr : johnsonRelax last u h e = some h1) :
    JBase g W (c + 1) h1 ∧ JSound g h1 ∧
      (∀ v : Int, h1.getD v.toNat 0 ≤ h.getD v.toNat 0) ∧
      (h.getD u.toNat 0 ≠ MaxInt64 → h1.getD e.To.toNat 0 ≤ h.getD u.toNat 0 + e.Weight) := by
  obtain ⟨hto, hw1, hw2⟩ := jedge_facts hwf hW0 hW he
  have hsrc := jbase_src hW0 hb he
  have hM := MaxInt64_val
  have hcW : ((c + 1 : Nat) : Int) * W = (c : Int) * W + W := by push_cast; ring
  have hnowrap : h.getD u.toNat 0 ≠ MaxInt64 →
      wrap64 (h.getD u.toNat 0 + e.Weight) = h.getD u.toNat 0 + e.Weight := by
    intro hne
    rcases hsrc with h0 | ⟨h2, h3⟩
    · exact absurd h0 hne
    · exact wrap64_eq _ (by omega) (by omega)
  unfold johnsonRelax at hr
  simp only at hr
  split at hr
  · rename_i htest
    obtain ⟨hne, hlt⟩ := htest
    rw [hnowrap hne] at hlt hr
    cases last with
    | true => simp at hr
    | false =>
      simp only [Bool.false_eq_true, if_false, Option.some.injEq] at hr
      subst hr
      have hlen : e.To.toNat < h.length := by
        rw [hb.1]; unfold Graph.IsVertex at hto; omega
      have hval : -(((c + 1 : Nat) : Int) * W) ≤ h.getD u.toNat 0 + e.Weight ∧
          h.getD u.toNat 0 + e.Weight ≤ ((c + 1 : Nat) : Int) * W := by
        rcases hsrc with h0 | ⟨h2, h3⟩
        · exact absurd h0 hne
        · omega
      have hget : ∀ v : Int, (h.set e.To.toNat (h.getD u.toNat 0 + e.Weight)).getD v.toNat 0 =
          if v.toNat = e.To.toNat then h.getD u.toNat 0 + e.Weight else h.getD v.toNat 0 := by
        intro v
        by_cases hv : v.toNat = e.To.toNat
        · rw [if_pos hv, hv, getD_set_self _ _ _ _ hlen]
        · rw [if_neg hv, getD_set_other _ _ _ _ _ (Ne.symm hv)]
      refine ⟨⟨by rw [List.length_set, hb.1], ?_, ?_⟩, ?_, ?_, ?_⟩
      · rw [getD_set_other _ _ _ _ _ (by unfold Graph.IsVertex at hto; omega)]
        exact hb.2.1
      · intro v hv
        have := hget v
        rw [this]
        by_cases hv1 : v.toNat = e.To.toNat
        · rw [if_pos hv1]
          exact Or.inr hval
        · rw [if_neg hv1]
          rcases (jbase_mono hW0 (Nat.le_succ c) hb).2.2 v hv with h0 | h0
          · exact Or.inl h0
          · exact Or.inr h0
      · intro v hv hvne
        rw [hget v] at hvne ⊢
        by_cases hv1 : v.toNat = e.To.toNat
        · rw [if_pos hv1]
          have hveq : v = e.To := (isVertex_toNat_inj hv hto).1 hv1
          subst hveq
          rcases he with ⟨hu, hmem⟩ | ⟨hu, h0, _⟩
          · obtain ⟨i, k, hi, hwalk⟩ := hs u hu hne
            exact ⟨i, k + 1, hi, Walk.snoc e hwalk hmem⟩
          · have h1 : u.toNat = g.n + 1 := by omega
            rw [h1, hb.2.1, h0]
            exact ⟨e.To, 0, hto, Walk.nil⟩
        · rw [if_neg hv1] at hvne ⊢
          exact hs v hv hvne
      · intro v
        rw [hget v]
        by_cases hv1 : v.toNat = e.To.toNat
        · rw [if_pos hv1, hv1]; omega
        · rw [if_neg hv1]
      · intro _
        rw [hget e.To, if_pos rfl]
  · rename_i htest
    simp only [Option.some.injEq] at hr
    subst hr
    refine ⟨jbase_mono hW0 (Nat.le_succ c) hb, hs, fun v => le_refl _, fun hne => ?_⟩
    have := hnowrap hne
    rw [this] at htest
    by_contra hcon
    exact htest ⟨hne, by omega⟩

/-- A relaxation test outside the last round never ends the run. -/
theorem johnsonRelax_false (u : Int) (h : List Int) (e : Edge) :
    ∃ h1, johnsonRelax false u h e = some h1 := by
  unfold johnsonRelax
  simp only
  split
  · exact ⟨_, rfl⟩
  · exact ⟨_, rfl⟩

/-- A relaxation test of the last round that does not end the run leaves `h` unchanged. -/
theorem johnsonRelax_true {u : Int} {h h1 : List Int} {e : Edge}
    (hr : johnsonRelax true u h e = some h1) : h1 = h := by
  unfold johnsonRelax at hr
  simp only at hr
  split at hr
  · simp at hr
  · simpa using hr.symm

/-! ## Potentials of `Johnson`: the scan of one vertex and one round -/

theorem jbase_lt {g : Graph} {W : Int} {c : Nat} {h : List Int} (hW0 : 0 ≤ W)
    (hc : (c : Int) * W < MaxInt64) (hb : JBase g W c h) {u : Int} {e : Edge}
    (he : JEdge g u e) (hne : h.getD u.toNat 0 ≠ MaxInt64) {h1 : List Int}
    (hmono : ∀ v : Int, h1.getD v.toNat 0 ≤ h.getD v.toNat 0) :
    h1.getD u.toNat 0 ≠ MaxInt64 := by
  rcases jbase_src hW0 hb he with h0 | ⟨_, h3⟩
  · exact absurd h0 hne
  · have := hmono u
    omega

theorem johnsonEdges_step {g : Graph} {W : Int} (last : Bool) (hwf : g.WF) (hW0 : 0 ≤ W)
    (hW : g.WeightsWithin W) {u : Int} :
    ∀ (es : List Edge) (c : Nat) (h h1 : List Int), (∀ e ∈ es, JEdge g u e) →
      ((c + es.length : Nat) : Int) * W < MaxInt64 →
      JBase g W c h → JSound g h → johnsonEdges last u h es = some h1 →
      JBase g W (c + es.length) h1 ∧ JSound g h1 ∧
        (∀ v : Int, h1.getD v.toNat 0 ≤ h.getD v.toNat 0) ∧
        (h.getD u.toNat 0 ≠ MaxInt64 →
          ∀ e ∈ es, h1.getD e.To.toNat 0 ≤ h.getD u.toNat 0 + e.Weight) := by
  intro es
  induction es with
  | nil =>
    intro c h h1 _ _ hb hs hr
    simp only [johnsonEdges, Option.some.injEq] at hr
    subst hr
    exact ⟨hb, hs, fun _ => le_refl _, fun _ e he => by simp at he⟩
  | cons e es ih =>
    intro c h h1 hes hc hb hs hr
    have he : JEdge g u e := hes e (List.mem_cons_self _ _)
    have hlen : c + (e :: es).length = (c + 1) + es.length := by simp; omega
    rw [hlen] at hc ⊢
    have hc1 : ((c + 1 : Nat) : Int) * W < MaxInt64 := by
      have : ((c + 1 : Nat) : Int) * W ≤ ((c + 1 + es.length : Nat) : Int) * W :=
        mul_le_mul_of_nonneg_right (by exact_mod_cast Nat.le_add_right _ _) hW0
      omega
    have hc0 : (c : Int) * W < MaxInt64 := by
      have : (c : Int) * W ≤ ((c + 1 : Nat) : Int) * W :=
        mul_le_mul_of_nonneg_right (by exact_mod_cast Nat.le_succ c) hW0
      omega
    simp only [johnsonEdges] at hr
    cases hrel : johnsonRelax last u h e with
    | none => rw [hrel] at hr; simp at hr
    | some h2 =>
      rw [hrel] at hr
      simp only at hr
      obtain ⟨b1, s1, m1, e1⟩ := johnsonRelax_step last hwf hW0 hW hc1 hb hs he h2 hrel
      obtain ⟨b2, s2, m2, e2⟩ := ih (c + 1) h2 h1
        (fun x hx => hes x (List.mem_cons_of_mem _ hx)) hc b1 s1 hr
      refine ⟨b2, s2, fun v => le_trans (m2 v) (m1 v), fun hne x hx => ?_⟩
      rcases List.mem_cons.1 hx with rfl | hx
      · exact le_trans (m2 _) (e1 hne)
      · have hne2 := jbase_lt hW0 hc0 hb he hne m1
        have := e2 hne2 x hx
        have := m1 u
        omega

theorem johnsonEdges_false (u : Int) : ∀ (es : List Edge) (h : List Int),
    ∃ h1, johnsonEdges false u h es = some h1 := by
  intro es
  induction es with
  | nil => intro h; exact ⟨h, rfl⟩
  | cons e es ih =>
    intro h
    obtain ⟨h2, hrel⟩ := johnsonRelax_false u h e
    obtain ⟨h1, hr⟩ := ih h2
    exact ⟨h1, by simp only [johnsonEdges, hrel, hr]⟩

theorem johnsonEdges_true {u : Int} : ∀ (es : List Edge) (h h1 : List Int),
    johnsonEdges true u h es = some h1 → h1 = h := by
  intro es
  induction es with
  | nil => intro h h1 hr; simpa [johnsonEdges] using hr.symm
  | cons e es ih =>
    intro h h1 hr
    simp only [johnsonEdges] at hr
    cases hrel : johnsonRelax true u h e with
    | none => rw [hrel] at hr; simp at hr
    | some h2 =>
      rw [hrel] at hr
      simp only at hr
      have := johnsonRelax_true hrel
      subst this
      exact ih _ _ hr

theorem johnsonRound_step {g : Graph} {W : Int} (tg : Graph) (last : Bool) (M : Nat)
    (hwf : g.WF) (hW0 : 0 ≤ W) (hW : g.WeightsWithin W) :
    ∀ (us : List Nat) (c : Nat) (h h1 : List Int),
      (∀ u ∈ us, (∀ e ∈ tg.adjAt (u : Nat), JEdge g (u : Nat) e) ∧
        (tg.adjAt (u : Nat)).length ≤ M) →
      ((c + us.length * M : Nat) : Int) * W < MaxInt64 →
      JBase g W c h → JSound g h → johnsonRound tg last us h = some h1 →
      JBase g W (c + us.length * M) h1 ∧ JSound g h1 ∧
        (∀ v : Int, h1.getD v.toNat 0 ≤ h.getD v.toNat 0) ∧
        (∀ u ∈ us, h.getD ((u : Nat) : Int).toNat 0 ≠ MaxInt64 →
          ∀ e ∈ tg.adjAt (u : Nat),
            h1.getD e.To.toNat 0 ≤ h.getD ((u : Nat) : Int).toNat 0 + e.Weight) := by
  intro us
  induction us with
  | nil =>
    intro c h h1 _ _ hb hs hr
    simp only [johnsonRound, Option.some.injEq] at hr
    subst hr
    simpa using ⟨hb, hs⟩
  | cons u us ih =>
    intro c h h1 hus hc hb hs hr
    obtain ⟨hue, hul⟩ := hus u (List.mem_cons_self _ _)
    have hlen : c + (u :: us).length * M = (c + M) + us.length * M := by
      simp only [List.length_cons]; ring
    rw [hlen] at hc ⊢
    have hcM : ((c + M : Nat) : Int) * W < MaxInt64 := by
      have : ((c + M : Nat) : Int) * W ≤ ((c + M + us.length * M : Nat) : Int) * W :=
        mul_le_mul_of_nonneg_right (by exact_mod_cast Nat.le_add_right _ _) hW0
      omega
    have hcl : ((c + (tg.adjAt (u : Nat)).length : Nat) : Int) * W < MaxInt64 := by
      have : ((c + (tg.adjAt (u : Nat)).length : Nat) : Int) * W ≤ ((c + M : Nat) : Int) * W :=
        mul_le_mul_of_nonneg_right (by exact_mod_cast Nat.add_le_add_left hul c) hW0
      omega
    have hc0 : (c : Int) * W < MaxInt64 := by
      have : (c : Int) * W ≤ ((c + M : Nat) : Int) * W :=
        mul_le_mul_of_nonneg_right (by exact_mod_cast Nat.le_add_right _ _) hW0
      omega
    simp only [johnsonRound] at hr
    cases hed : johnsonEdges last (u : Nat) h (tg.adjAt (u : Nat)) with
    | none => rw [hed] at hr; simp at hr
    | some h2 =>
      rw [hed] at hr
      simp only at hr
      obtain ⟨b1, s1, m1, e1⟩ := johnsonEdges_step last hwf hW0 hW _ c h h2 hue hcl hb hs hed
      have b1M := jbase_mono hW0 (Nat.add_le_add_left hul c) b1
      obtain ⟨b2, s2, m2, e2⟩ := ih (c + M) h2 h1
        (fun x hx => hus x (List.mem_cons_of_mem _ hx)) hc b1M s1 hr
      refine ⟨b2, s2, fun v => le_trans (m2 v) (m1 v), fun x hx hne e he => ?_⟩
      rcases List.mem_cons.1 hx with rfl | hx
      · exact le_trans (m2 _) (e1 hne e he)
      · have hxe := (hus x (List.mem_cons_of_mem _ hx)).1 e he
        have hne2 := jbase_lt hW0 hc0 hb hxe hne m1
        have := e2 x hx hne2 e he
        have := m1 (x : Nat)
        omega

theorem johnsonRound_false (tg : Graph) : ∀ (us : List Nat) (h : List Int),
    ∃ h1, johnsonRound tg false us h = some h1 := by
  intro us
  induction us with
  | nil => intro h; exact ⟨h, rfl⟩
  | cons u us ih =>
    intro h
    obtain ⟨h2, hed⟩ := johnsonEdges_false (u : Nat) (tg.adjAt (u : Nat)) h
    obtain ⟨h1, hr⟩ := ih h2
    exact ⟨h1, by simp only [johnsonRound, hed, hr]⟩

theorem johnsonRound_true (tg : Graph) : ∀ (us : List Nat) (h h1 : List Int),
    johnsonRound tg true us h = some h1 → h1 = h := by
  intro us
  induction us with
  | nil => intro h h1 hr; simpa [johnsonRound] using hr.symm
  | cons u us ih =>
    intro h h1 hr
    simp only [johnsonRound] at hr
    cases hed : johnsonEdges true (u : Nat) h (tg.adjAt (u : Nat)) with
    | none => rw [hed] at hr; simp at hr
    | some h2 =>
      rw [hed] at hr
      simp only at hr
      have := johnsonEdges_true _ _ _ hed
      subst this
      exact ih _ _ hr

/-! ## Potentials of `Johnson`: the augmented graph -/

theorem johnsonTemp_real (g : Graph) {u : Int} (hu : g.IsVertex u) :
    (johnsonTemp g).adjAt u = g.adjAt u := by
  unfold Graph.adjAt
  unfold Graph.IsVertex at hu
  exact (johnsonTemp_spec g).2.2.1 u.toNat (by omega) (by omega)

theorem johnsonTemp_virtual (g : Graph) :
    (johnsonTemp g).adjAt ((g.n : Int) + 1) =
      (List.range' 1 g.n).map (fun (i : Nat) => Edge.mk i 0) := by
  unfold Graph.adjAt
  have h1 : ((g.n : Int) + 1).toNat = g.n + 1 := by omega
  rw [h1]
  exact (johnsonTemp_spec g).2.2.2

theorem numEdges_adjAt_le (g : Graph) (u : Int) : (g.adjAt u).length ≤ g.numEdges + g.n :=
  le_trans (adjAt_length_le g u) (Nat.le_add_right _ _)

theorem johnsonTemp_edges (g : Graph) (u : Nat) (hu : u ∈ List.range' 1 (g.n + 1)) :
    (∀ e ∈ (johnsonTemp g).adjAt (u : Nat), JEdge g (u : Nat) e) ∧
      ((johnsonTemp g).adjAt (u : Nat)).length ≤ g.numEdges + g.n := by
  rw [List.mem_range'_1] at hu
  by_cases hun : u ≤ g.n
  · have hv : g.IsVertex (u : Nat) := by unfold Graph.IsVertex; omega
    rw [johnsonTemp_real g hv]
    exact ⟨fun e he => Or.inl ⟨hv, he⟩, numEdges_adjAt_le g _⟩
  · have hu1 : u = g.n + 1 := by omega
    subst hu1
    have hcast : (((g.n + 1 : Nat)) : Int) = (g.n : Int) + 1 := by push_cast; rfl
    rw [hcast, johnsonTemp_virtual]
    refine ⟨fun e he => Or.inr ⟨rfl, ?_⟩, by simp⟩
    rw [List.mem_map] at he
    obtain ⟨i, hi, rfl⟩ := he
    rw [List.mem_range'_1] at hi
    refine ⟨rfl, ?_⟩
    unfold Graph.IsVertex
    simp only
    omega

/-- Every edge of the augmented graph is scanned in a round. -/
theorem jedge_scanned (g : Graph) {u : Int} {e : Edge} (he : JEdge g u e) :
    ∃ x ∈ List.range' 1 (g.n + 1), ((x : Nat) : Int) = u ∧ e ∈ (johnsonTemp g).adjAt (x : Nat) := by
  rcases he with ⟨hu, he⟩ | ⟨hu, h0, hto⟩
  · have hu1 := hu
    unfold Graph.IsVertex at hu1
    refine ⟨u.toNat, by rw [List.mem_range'_1]; omega, by omega, ?_⟩
    have : ((u.toNat : Nat) : Int) = u := by omega
    rw [this, johnsonTemp_real g hu]
    exact he
  · unfold Graph.IsVertex at hto
    refine ⟨g.n + 1, by rw [List.mem_range'_1]; omega, by omega, ?_⟩
    have hcast : (((g.n + 1 : Nat)) : Int) = (g.n : Int) + 1 := by push_cast; rfl
    rw [hcast, johnsonTemp_virtual, List.mem_map]
    refine ⟨e.To.toNat, by rw [List.mem_range'_1]; omega, ?_⟩
    have : ((e.To.toNat : Nat) : Int) = e.To := by omega
    rw [this, ← h0]

/-- A round that relaxes every edge of the augmented graph against the values
at its start extends the lower-bound property by one edge. -/
theorem jlower_round {g : Graph} {W : Int} {c r : Nat} {h h1 : List Int} (hwf : g.WF)
    (hW : g.WeightsWithin W) (hb : JBase g W c h) (hrW : (r : Int) * W < MaxInt64)
    (hlow : JLower g r h)
    (hedge : ∀ (u : Int) (e : Edge), JEdge g u e → h.getD u.toNat 0 ≠ MaxInt64 →
      h1.getD e.To.toNat 0 ≤ h.getD u.toNat 0 + e.Weight) :
    JLower g (r + 1) h1 := by
  intro i v w k hi hk hwalk
  cases hwalk with
  | nil =>
    have he : JEdge g ((g.n : Int) + 1) (Edge.mk i 0) := Or.inr ⟨rfl, rfl, hi⟩
    have h1n : ((g.n : Int) + 1).toNat = g.n + 1 := by omega
    have := hedge _ _ he (by rw [h1n, hb.2.1]; unfold MaxInt64; omega)
    rw [h1n, hb.2.1] at this
    simpa using this
  | snoc e hw he =>
    rename_i x w1 k1
    have hx : g.IsVertex x := walk_isVertex hwf hi hw
    have hk1 : k1 < r := by omega
    have hle := hlow i x w1 k1 hi hk1 hw
    obtain ⟨_, hwb⟩ := walk_weight_bounds hW hw
    have hW0 : 0 ≤ W := by
      have := weightsWithin_edge hW he
      omega
    have hkr : (k1 : Int) * W ≤ (r : Int) * W :=
      mul_le_mul_of_nonneg_right (by exact_mod_cast hk1.le) hW0
    have := hedge x e (Or.inl ⟨hx, he⟩) (by omega)
    omega

/-! ## Potentials of `Johnson`: all rounds -/

theorem jsmall_steps {g : Graph} {W : Int} (hsm : JSmall g W) :
    ((johnsonSteps g + 1 : Nat) : Int) * W < INF := by
  obtain ⟨hW0, _, hlt⟩ := hsm
  have h1 : johnsonSteps g + 1 ≤ (g.n + 1) * (g.n + 1) * (g.numEdges + g.n + 1) := by
    unfold johnsonSteps
    have : 1 ≤ (g.n + 1) * (g.n + 1) := Nat.one_le_iff_ne_zero.2 (by positivity)
    calc (g.n + 1) * ((g.n + 1) * (g.numEdges + g.n)) + 1
        ≤ (g.n + 1) * (g.n + 1) * (g.numEdges + g.n) + (g.n + 1) * (g.n + 1) := by
          rw [Nat.mul_assoc]; omega
      _ = (g.n + 1) * (g.n + 1) * (g.numEdges + g.n + 1) := by ring
  have : ((johnsonSteps g + 1 : Nat) : Int) * W ≤
      (((g.n + 1) * (g.n + 1) * (g.numEdges + g.n + 1) : Nat) : Int) * W :=
    mul_le_mul_of_nonneg_right (by exact_mod_cast h1) hW0
  omega

theorem jsmall_le {g : Graph} {W : Int} (hsm : JSmall g W) {c : Nat}
    (hc : c ≤ johnsonSteps g + 1) : (c : Int) * W < INF := by
  have := jsmall_steps hsm
  have : (c : Int) * W ≤ ((johnsonSteps g + 1 : Nat) : Int) * W :=
    mul_le_mul_of_nonneg_right (by exact_mod_cast hc) hsm.1
  omega

theorem INF_lt_MaxInt64 : INF < MaxInt64 := by unfold INF MaxInt64; omega

theorem jsmall_n {g : Graph} {W : Int} (hsm : JSmall g W) {r : Nat} (hr : r ≤ g.n + 1) :
    (r : Int) * W < INF := by
  apply jsmall_le hsm
  unfold johnsonSteps
  by_cases hn : g.n = 0
  · omega
  · have h1 : 1 ≤ (g.n + 1) * (g.numEdges + g.n) := Nat.one_le_iff_ne_zero.2 (by positivity)
    have h2 : (g.n + 1) * 1 ≤ (g.n + 1) * ((g.n + 1) * (g.numEdges + g.n)) :=
      Nat.mul_le_mul_left _ h1
    omega

theorem johnsonRound_full {g : Graph} {W : Int} (hwf : g.WF) (hsm : JSmall g W) {c r : Nat}
    {h : List Int} (hc : c + (g.n + 1) * (g.numEdges + g.n) ≤ johnsonSteps g) (hr : r ≤ g.n)
    (last : Bool) (hb : JBase g W c h) (hs : JSound g h) (hlow : JLower g r h) (h1 : List Int)
    (hrun : johnsonRound (johnsonTemp g) last (List.range' 1 (g.n + 1)) h = some h1) :
    JBase g W (c + (g.n + 1) * (g.numEdges + g.n)) h1 ∧ JSound g h1 ∧ JLower g (r + 1) h1 ∧
      (∀ v : Int, h1.getD v.toNat 0 ≤ h.getD v.toNat 0) ∧
      (∀ (u : Int) (e : Edge), JEdge g u e → h.getD u.toNat 0 ≠ MaxInt64 →
        h1.getD e.To.toNat 0 ≤ h.getD u.toNat 0 + e.Weight) := by
  have hlen : (List.range' 1 (g.n + 1)).length = g.n + 1 := List.length_range' _ _ _
  have hcW : ((c + (List.range' 1 (g.n + 1)).length * (g.numEdges + g.n) : Nat) : Int) * W
      < MaxInt64 := by
    rw [hlen]
    have := jsmall_le hsm (Nat.le_succ_of_le hc)
    have := INF_lt_MaxInt64
    omega
  obtain ⟨b1, s1, m1, e1⟩ := johnsonRound_step (johnsonTemp g) last (g.numEdges + g.n) hwf
    hsm.1 hsm.2.1 _ c h h1 (fun u hu => johnsonTemp_edges g u hu) hcW hb hs hrun
  rw [hlen] at b1
  have hedge : ∀ (u : Int) (e : Edge), JEdge g u e → h.getD u.toNat 0 ≠ MaxInt64 →
      h1.getD e.To.toNat 0 ≤ h.getD u.toNat 0 + e.Weight := by
    intro u e he hne
    obtain ⟨x, hx, hxu, hmem⟩ := jedge_scanned g he
    subst hxu
    exact e1 x hx hne e hmem
  have hrW : (r : Int) * W < MaxInt64 := by
    have := jsmall_n hsm (Nat.le_succ_of_le hr)
    have := INF_lt_MaxInt64
    omega
  exact ⟨b1, s1, jlower_round hwf hsm.2.1 hb hrW hlow hedge, m1, hedge⟩

theorem johnsonRounds_inv {g : Graph} {W : Int} (hwf : g.WF) (hsm : JSmall g W) :
    ∀ (is : List Nat) (c r : Nat) (h : List Int), (∀ i ∈ is, i ≠ g.n + 1) →
      c + is.length * ((g.n + 1) * (g.numEdges + g.n)) ≤ johnsonSteps g →
      r + is.length ≤ g.n + 1 → JBase g W c h → JSound g h → JLower g r h →
      ∃ h1, johnsonRounds (johnsonTemp g) g.n is h = some h1 ∧
        JBase g W (c + is.length * ((g.n + 1) * (g.numEdges + g.n))) h1 ∧ JSound g h1 ∧
        JLower g (r + is.length) h1 := by
  intro is
  induction is with
  | nil =>
    intro c r h _ _ _ hb hs hlow
    exact ⟨h, rfl, by simpa using hb, hs, by simpa using hlow⟩
  | cons i is ih =>
    intro c r h hne hc hr hb hs hlow
    have hi : decide (i = g.n + 1) = false := by
      simpa using hne i (List.mem_cons_self _ _)
    simp only [List.length_cons] at hc hr
    have hc1 : c + (g.n + 1) * (g.numEdges + g.n) ≤ johnsonSteps g := by
      have : (is.length + 1) * ((g.n + 1) * (g.numEdges + g.n)) =
          is.length * ((g.n + 1) * (g.numEdges + g.n)) + (g.n + 1) * (g.numEdges + g.n) := by
        ring
      omega
    obtain ⟨h2, hrun⟩ := johnsonRound_false (johnsonTemp g) (List.range' 1 (g.n + 1)) h
    obtain ⟨b1, s1, l1, _, _⟩ := johnsonRound_full hwf hsm hc1 (by omega) false hb hs hlow h2 hrun
    obtain ⟨h1, hrs, b2, s2, l2⟩ := ih (c + (g.n + 1) * (g.numEdges + g.n)) (r + 1) h2
      (fun x hx => hne x (List.mem_cons_of_mem _ hx))
      (by
        have : (is.length + 1) * ((g.n + 1) * (g.numEdges + g.n)) =
          is.length * ((g.n + 1) * (g.numEdges + g.n)) + (g.n + 1) * (g.numEdges + g.n) := by
          ring
        omega) (by omega) b1 s1 l1
    refine ⟨h1, by simp only [johnsonRounds, hi, hrun, hrs], ?_, s2, ?_⟩
    · have : c + (is.length + 1) * ((g.n + 1) * (g.numEdges + g.n)) =
          c + (g.n + 1) * (g.numEdges + g.n) + is.length * ((g.n + 1) * (g.numEdges + g.n)) := by
        ring
      simp only [List.length_cons]
      rw [this]
      exact b2
    · have : r + (i :: is).length = r + 1 + is.length := by simp; omega
      rw [this]
      exact l2

theorem johnsonRounds_append (tg : Graph) (n : Nat) : ∀ (is js : List Nat) (h : List Int),
    johnsonRounds tg n (is ++ js) h =
      match johnsonRounds tg n is h with
      | none => none
      | some h1 => johnsonRounds tg n js h1 := by
  intro is
  induction is with
  | nil => intro js h; rfl
  | cons i is ih =>
    intro js h
    simp only [List.cons_append, johnsonRounds]
    cases johnsonRound tg (decide (i = n + 1)) (List.range' 1 (n + 1)) h with
    | none => rfl
    | some h2 => exact ih js h2

theorem johnsonInit_inv (g : Graph) (W : Int) :
    JBase g W 0 ((List.replicate (g.n + 2) MaxInt64).set (g.n + 1) 0) ∧
      JSound g ((List.replicate (g.n + 2) MaxInt64).set (g.n + 1) 0) ∧
      JLower g 0 ((List.replicate (g.n + 2) MaxInt64).set (g.n + 1) 0) := by
  have hget : ∀ v, g.IsVertex v →
      ((List.replicate (g.n + 2) MaxInt64).set (g.n + 1) 0).getD v.toNat 0 = MaxInt64 := by
    intro v hv
    unfold Graph.IsVertex at hv
    rw [getD_set_other _ _ _ _ _ (by omega), List.getD_eq_getElem _ _ (by simp; omega)]
    simp
  refine ⟨⟨by simp, getD_set_self _ _ _ _ (by simp), fun v hv => Or.inl (hget v hv)⟩, ?_, ?_⟩
  · intro v hv hne
    exact absurd (hget v hv) hne
  · intro i v w k _ hk
    omega

/-- The first `n` rounds always complete; what is left of the potentials run is
round `n+1`, from a state that satisfies the invariants. -/
theorem johnsonPotentials_eq {g : Graph} {W : Int} (hwf : g.WF) (hsm : JSmall g W) :
    ∃ hn, johnsonRounds (johnsonTemp g) g.n (List.range' 1 g.n)
        ((List.replicate (g.n + 2) MaxInt64).set (g.n + 1) 0) = some hn ∧
      JBase g W (g.n * ((g.n + 1) * (g.numEdges + g.n))) hn ∧ JSound g hn ∧ JLower g g.n hn ∧
      johnsonPotentials g = johnsonRound (johnsonTemp g) true (List.range' 1 (g.n + 1)) hn := by
  obtain ⟨b0, s0, l0⟩ := johnsonInit_inv g W
  have hlen : (List.range' 1 g.n).length = g.n := List.length_range' _ _ _
  obtain ⟨hn, hrun, b1, s1, l1⟩ := johnsonRounds_inv hwf hsm (List.range' 1 g.n) 0 0 _
    (fun i hi => by rw [List.mem_range'_1] at hi; omega)
    (by
      rw [hlen]
      unfold johnsonSteps
      have : g.n * ((g.n + 1) * (g.numEdges + g.n)) ≤
          (g.n + 1) * ((g.n + 1) * (g.numEdges + g.n)) :=
        Nat.mul_le_mul_right _ (Nat.le_succ _)
      omega)
    (by rw [hlen]; omega) b0 s0 l0
  rw [hlen] at b1 l1
  simp only [Nat.zero_add] at b1 l1
  refine ⟨hn, hrun, b1, s1, l1, ?_⟩
  unfold johnsonPotentials
  have hsplit : List.range' 1 (g.n + 1) = List.range' 1 g.n ++ [g.n + 1] := by
    rw [List.range'_concat]
    simp [Nat.add_comm]
  conv_lhs => rw [hsplit]
  rw [johnsonRounds_append, hrun]
  simp only [johnsonRounds, decide_True]
  cases johnsonRound (johnsonTemp g) true (List.range' 1 (g.n + 1)) hn with
  | none => rfl
  | some h1 => rfl

/-! ## Potentials of `Johnson`: the last round -/

theorem johnsonEdges_true_some {u : Int} : ∀ (es : List Edge) (h : List Int),
    (∀ e ∈ es, ¬ (h.getD u.toNat 0 ≠ MaxInt64 ∧
      wrap64 (h.getD u.toNat 0 + e.Weight) < h.getD e.To.toNat 0)) →
    johnsonEdges true u h es = some h := by
  intro es
  induction es with
  | nil => intro h _; rfl
  | cons e es ih =>
    intro h hes
    have hrel : johnsonRelax true u h e = some h := by
      unfold johnsonRelax
      simp only
      rw [if_neg (hes e (List.mem_cons_self _ _))]
    simp only [johnsonEdges, hrel]
    exact ih h (fun x hx => hes x (List.mem_cons_of_mem _ hx))

theorem johnsonRound_true_some (tg : Graph) : ∀ (us : List Nat) (h : List Int),
    (∀ u ∈ us, ∀ e ∈ tg.adjAt (u : Nat), ¬ (h.getD ((u : Nat) : Int).toNat 0 ≠ MaxInt64 ∧
      wrap64 (h.getD ((u : Nat) : Int).toNat 0 + e.Weight) < h.getD e.To.toNat 0)) →
    johnsonRound tg true us h = some h := by
  intro us
  induction us with
  | nil => intro h _; rfl
  | cons u us ih =>
    intro h hus
    have hed := johnsonEdges_true_some (tg.adjAt (u : Nat)) h (hus u (List.mem_cons_self _ _))
    simp only [johnsonRound, hed]
    exact ih h (fun x hx => hus x (List.mem_cons_of_mem _ hx))

theorem jlower_zero {g : Graph} {r : Nat} {h : List Int} (hlow : JLower g r h) (hr : 0 < r)
    {v : Int} (hv : g.IsVertex v) : h.getD v.toNat 0 ≤ 0 :=
  hlow v v 0 0 hv hr Walk.nil

theorem isVertex_pos {g : Graph} {v : Int} (hv : g.IsVertex v) : 0 < g.n := by
  unfold Graph.IsVertex at hv
  omega

/-- Potentials returned by the Bellman-Ford rounds of `Johnson` are feasible,
non-positive and bounded below. -/
theorem johnsonPotentials_some {g : Graph} {W : Int} (hwf : g.WF) (hsm : JSmall g W)
    {h : List Int} (hp : johnsonPotentials g = some h) :
    h.length = g.n + 2 ∧ Feasible g h ∧
      ∀ v, g.IsVertex v → -((johnsonSteps g : Int) * W) ≤ h.getD v.toNat 0 ∧
        h.getD v.toNat 0 ≤ 0 := by
  obtain ⟨hn, _, b1, s1, l1, heq⟩ := johnsonPotentials_eq hwf hsm
  rw [heq] at hp
  have hh := johnsonRound_true _ _ _ _ hp
  subst hh
  have hsteps : g.n * ((g.n + 1) * (g.numEdges + g.n)) + (g.n + 1) * (g.numEdges + g.n) =
      johnsonSteps g := by
    unfold johnsonSteps; ring
  obtain ⟨_, _, _, _, hedge⟩ := johnsonRound_full hwf hsm (le_of_eq hsteps) (le_refl _) true
    b1 s1 l1 h hp
  have hle0 : ∀ v, g.IsVertex v → h.getD v.toNat 0 ≤ 0 :=
    fun v hv => jlower_zero l1 (isVertex_pos hv) hv
  have hM := MaxInt64_val
  refine ⟨b1.1, ?_, fun v hv => ⟨?_, hle0 v hv⟩⟩
  · intro u hu e he
    rw [List.mem_range'_1] at hu
    have hv : g.IsVertex (u : Nat) := by unfold Graph.IsVertex; omega
    have hmem : e ∈ g.adjAt (u : Nat) := by
      unfold Graph.adjAt
      simpa using he
    have := hedge (u : Nat) e (Or.inl ⟨hv, hmem⟩) (by have := hle0 _ hv; omega)
    simpa using this
  · rcases b1.2.2 v hv with h0 | ⟨h1, _⟩
    · have := hle0 v hv; omega
    · have hcc : ((g.n * ((g.n + 1) * (g.numEdges + g.n)) : Nat) : Int) * W ≤
          (johnsonSteps g : Int) * W :=
        mul_le_mul_of_nonneg_right (by exact_mod_cast (by omega : _ ≤ johnsonSteps g)) hsm.1
      omega

/-- Without a negative cycle the last Bellman-Ford round of `Johnson` relaxes nothing. -/
theorem johnsonPotentials_total {g : Graph} {W : Int} (hwf : g.WF) (hsm : JSmall g W)
    (hnc : ∀ s, g.IsVertex s → ¬ NegCycleFrom g s) : ∃ h, johnsonPotentials g = some h := by
  obtain ⟨hn, _, b1, s1, l1, heq⟩ := johnsonPotentials_eq hwf hsm
  refine ⟨hn, ?_⟩
  rw [heq]
  apply johnsonRound_true_some
  intro u hu e he
  rintro ⟨hne, hlt⟩
  have hje := (johnsonTemp_edges g u hu).1 e he
  obtain ⟨hto, hw1, hw2⟩ := jedge_facts hwf hsm.1 hsm.2.1 hje
  have hM := MaxInt64_val
  have hI := INF_val
  have hsteps : g.n * ((g.n + 1) * (g.numEdges + g.n)) + 1 ≤ johnsonSteps g + 1 := by
    unfold johnsonSteps
    have : g.n * ((g.n + 1) * (g.numEdges + g.n)) ≤
        (g.n + 1) * ((g.n + 1) * (g.numEdges + g.n)) := Nat.mul_le_mul_right _ (Nat.le_succ _)
    omega
  have hcW := jsmall_le hsm hsteps
  have hcW1 : ((g.n * ((g.n + 1) * (g.numEdges + g.n)) + 1 : Nat) : Int) * W =
      ((g.n * ((g.n + 1) * (g.numEdges + g.n)) : Nat) : Int) * W + W := by
    push_cast; ring
  rw [hcW1] at hcW
  have hall : ∀ i v w k, g.IsVertex i → Walk g i v w k → hn.getD v.toNat 0 ≤ w := by
    intro i v w k hi hw
    obtain ⟨w1, k1, hw1, hle, hk1⟩ := walk_short hwf hi (hnc i hi) hw
    have := l1 i v w1 k1 hi hk1 hw1
    omega
  rcases jbase_src hsm.1 b1 hje with h0 | ⟨h2, h3⟩
  · exact hne h0
  · rw [wrap64_eq _ (by omega) (by omega)] at hlt
    rcases hje with ⟨hu1, hmem⟩ | ⟨hu1, h0, _⟩
    · obtain ⟨i, k, hi, hwalk⟩ := s1 _ hu1 hne
      have := hall i e.To _ _ hi (Walk.snoc e hwalk hmem)
      omega
    · have h1 : ((u : Nat) : Int).toNat = g.n + 1 := by omega
      rw [h1, b1.2.1, h0] at hlt
      have := hall e.To e.To 0 0 hto Walk.nil
      omega

/-- The Bellman-Ford rounds of `Johnson` report a negative cycle exactly when
the graph has one. -/
theorem johnsonPotentials_none_iff {g : Graph} {W : Int} (hwf : g.WF) (hsm : JSmall g W) :
    johnsonPotentials g = none ↔ ∃ s, g.IsVertex s ∧ NegCycleFrom g s := by
  constructor
  · intro hnone
    by_contra hcon
    push_neg at hcon
    obtain ⟨h, hp⟩ := johnsonPotentials_total hwf hsm hcon
    rw [hp] at hnone
    simp at hnone
  · rintro ⟨s, hs, hcyc⟩
    cases hp : johnsonPotentials g with
    | none => rfl
    | some h =>
      exact absurd hcyc (not_negCycleFrom_of_feasible hwf (johnsonPotentials_some hwf hsm hp).2.1 hs)

/-! ## The Dijkstra loop written out inside `Johnson` -/

theorem johnsonDRelax_sim {g : Graph} (v : Int) (st : DState) (e : Edge)
    (he : g.IsVertex e.To) (hb : DBase g st) :
    johnsonDRelax v st.toJ e = (dijkstraRelax v st e).toJ := by
  unfold johnsonDRelax dijkstraRelax DState.toJ
  simp only
  split
  · rw [getD_set_self _ _ _ _ (toNat_lt_length hb.1 he)]
  · rfl

theorem johnsonDRelax_foldl_sim {g : Graph} (v : Int) (es : List Edge) (st : DState)
    (he : ∀ e ∈ es, g.IsVertex e.To) (hb : DBase g st) :
    es.foldl (johnsonDRelax v) st.toJ = (es.foldl (dijkstraRelax v) st).toJ := by
  induction es generalizing st with
  | nil => rfl
  | cons e es ih =>
    simp only [List.foldl_cons]
    rw [johnsonDRelax_sim v st e (he e (List.mem_cons_self _ _)) hb]
    exact ih _ (fun x hx => he x (List.mem_cons_of_mem _ hx))
      (dijkstraRelax_base v st e (he e (List.mem_cons_self _ _)) hb).1

/-- The loop inside `Johnson` runs like the loop of `Dijkstra` with a target
that is no vertex, so that the early exit is never taken. -/
theorem johnsonDLoop_sim {g : Graph} (hwf : g.WF) (fuel : Nat) (st : DState) (hb : DBase g st) :
    johnsonDLoop g fuel st.toJ = (dijkstraLoop g 0 fuel st).map DState.toJ := by
  induction fuel generalizing st with
  | zero =>
    unfold johnsonDLoop dijkstraLoop
    by_cases hlen : st.pq.length = 0
    · have : st.toJ.pq.length = 0 := hlen
      rw [if_pos hlen, if_pos this]; rfl
    · have : ¬ st.toJ.pq.length = 0 := hlen
      rw [if_neg hlen, if_neg this]; rfl
  | succ fuel ih =>
    unfold johnsonDLoop dijkstraLoop
    by_cases hlen : st.pq.length = 0
    · have : st.toJ.pq.length = 0 := hlen
      rw [if_pos hlen, if_pos this]; rfl
    · have hlen2 : ¬ st.toJ.pq.length = 0 := hlen
      rw [if_neg hlen, if_neg hlen2]
      have hne : st.pq ≠ [] := fun h => hlen (by rw [h]; rfl)
      obtain ⟨hb1, _, hv⟩ := heapPop_base st hne hb
      have hv0 : ¬ (heapPop st.pq).1.vertex = 0 := by
        intro h0
        rw [h0] at hv
        unfold Graph.IsVertex at hv
        omega
      simp only
      rw [if_neg hv0]
      have hpq : st.toJ.pq = st.pq := rfl
      have hdist : st.toJ.dist = st.dist := rfl
      rw [hpq, hdist]
      by_cases hst : (heapPop st.pq).1.distance >
          st.dist.getD (heapPop st.pq).1.vertex.toNat 0
      · rw [if_pos hst, if_pos hst]
        exact ih _ hb1
      · rw [if_neg hst, if_neg hst]
        have hes : ∀ e ∈ g.adjAt (heapPop st.pq).1.vertex, g.IsVertex e.To :=
          fun e he => adjAt_isVertex hwf he
        have hsim := johnsonDRelax_foldl_sim (heapPop st.pq).1.vertex _ _ hes hb1
        have hsim1 : List.foldl (johnsonDRelax (heapPop st.pq).1.vertex)
            (JState.mk st.dist (heapPop st.pq).2) (g.adjAt (heapPop st.pq).1.vertex) =
            (List.foldl (dijkstraRelax (heapPop st.pq).1.vertex)
              (DState.mk st.dist st.parent (heapPop st.pq).2)
              (g.adjAt (heapPop st.pq).1.vertex)).toJ := hsim
        rw [hsim1]
        exact ih _ (dijkstraRelax_foldl_base (heapPop st.pq).1.vertex _ _ hes hb1).1

theorem johnsonDLoop_mono (g : Graph) (fuel : Nat) (st st1 : JState)
    (h : johnsonDLoop g fuel st = some st1) (fuel2 : Nat) (hle : fuel ≤ fuel2) :
    johnsonDLoop g fuel2 st = some st1 := by
  induction fuel generalizing st fuel2 with
  | zero =>
    unfold johnsonDLoop at h ⊢
    by_cases hlen : st.pq.length = 0
    · rw [if_pos hlen] at h ⊢; exact h
    · rw [if_neg hlen] at h; simp at h
  | succ fuel ih =>
    obtain ⟨f2, rfl⟩ : ∃ f2, fuel2 = f2 + 1 := ⟨fuel2 - 1, by omega⟩
    unfold johnsonDLoop at h ⊢
    by_cases hlen : st.pq.length = 0
    · rw [if_pos hlen] at h ⊢; exact h
    · rw [if_neg hlen] at h ⊢
      simp only at h ⊢
      split_ifs at h ⊢ with h1
      · exact ih _ h _ (by omega)
      · exact ih _ h _ (by omega)

theorem johnsonSources_mono (n : Nat) (h : List Int) (rg : Graph) (fuel : Nat) :
    ∀ (us : List Nat) (dist m : List (List Int)),
      johnsonSources fuel n h rg us dist = some m → ∀ fuel2, fuel ≤ fuel2 →
      johnsonSources fuel2 n h rg us dist = some m := by
  intro us
  induction us with
  | nil => intro dist m hr fuel2 _; exact hr
  | cons u us ih =>
    intro dist m hr fuel2 hle
    simp only [johnsonSources] at hr ⊢
    cases hl : johnsonDLoop rg fuel
        (JState.mk ((List.replicate (n + 1) MaxInt64).set u 0)
          (heapPush (heapInit []) (Item.mk u 0))) with
    | none => rw [hl] at hr; simp at hr
    | some st =>
      rw [hl] at hr
      rw [johnsonDLoop_mono rg fuel _ st hl fuel2 hle]
      exact ih _ _ hr fuel2 hle

theorem Johnson_mono (g : Graph) (fuel : Nat) (r : List (List Int) × Bool)
    (h : Johnson fuel g = some r) (fuel2 : Nat) (hle : fuel ≤ fuel2) :
    Johnson fuel2 g = some r := by
  unfold Johnson at h ⊢
  cases hp : johnsonPotentials g with
  | none => rw [hp] at h; exact h
  | some pot =>
    rw [hp] at h
    simp only at h ⊢
    cases hs : johnsonSources fuel g.n pot (johnsonReweighted g pot) (List.range' 1 g.n)
        (List.replicate (g.n + 1) (List.replicate (g.n + 1) MaxInt64)) with
    | none => rw [hs] at h; simp at h
    | some m =>
      rw [hs] at h
      rw [johnsonSources_mono _ _ _ _ _ _ _ hs fuel2 hle]
      exact h

/-! ## What the Dijkstra loop inside `Johnson` computes -/

theorem dMeasure_le_fuel {n : Nat} {st : DState} (hlen : st.dist.length = n + 1)
    (hle : ∀ x ∈ st.dist, x ≤ MaxInt64) (hpq : st.pq.length = 1) :
    dMeasure st ≤ johnsonFuel n := by
  unfold dMeasure johnsonFuel
  have hsum : (st.dist.map (fun x => x + 2 ^ 63)).sum ≤ ((n + 1 : Nat) : Int) * 2 ^ 64 := by
    have := List.sum_le_card_nsmul (st.dist.map (fun x => x + 2 ^ 63)) ((2 : Int) ^ 64)
      (by
        intro y hy
        obtain ⟨x, hx, rfl⟩ := List.mem_map.1 hy
        have := hle x hx
        unfold MaxInt64 at this
        omega)
    rw [List.length_map, hlen, nsmul_eq_mul] at this
    exact this
  rw [hpq]
  have h2 : ((1 + 2 * ((n + 1) * 2 ^ 64) : Nat) : Int) =
      1 + 2 * (((n + 1 : Nat) : Int) * 2 ^ 64) := by push_cast; ring
  omega

theorem johnsonDLoop_correct {rg : Graph} (hwf : rg.WF) (hnn : rg.NonNeg) {u : Nat}
    (hu : rg.IsVertex (u : Nat)) (hbound : BelowBound rg (u : Nat) MaxInt64) (fuel : Nat)
    (hfuel : johnsonFuel rg.n ≤ fuel) :
    ∃ st, johnsonDLoop rg fuel (JState.mk ((List.replicate (rg.n + 1) MaxInt64).set u 0)
        (heapPush (heapInit []) (Item.mk u 0))) = some st ∧
      ∀ v, rg.IsVertex v →
        (st.dist.getD v.toNat 0 ≠ MaxInt64 → ∃ k, Walk rg (u : Nat) v (st.dist.getD v.toNat 0) k) ∧
        (∀ w k, Walk rg (u : Nat) v w k →
          st.dist.getD v.toNat 0 ≤ w ∧ st.dist.getD v.toNat 0 ≠ MaxInt64) := by
  have hinf : (0 : Int) < MaxInt64 := by unfold MaxInt64; omega
  have hinf2 : MaxInt64 ≤ 2 ^ 63 := by unfold MaxInt64; omega
  obtain ⟨hb, hinv⟩ := dinv_init (g := rg) hu hinf hinf2 (List.replicate (rg.n + 1) (-1))
    (by simp)
  have hj : (dInit rg.n (u : Nat) MaxInt64 (List.replicate (rg.n + 1) (-1))).toJ =
      JState.mk ((List.replicate (rg.n + 1) MaxInt64).set u 0)
        (heapPush (heapInit []) (Item.mk u 0)) := by
    simp [dInit, DState.toJ]
  have hm : dMeasure (dInit rg.n (u : Nat) MaxInt64 (List.replicate (rg.n + 1) (-1))) ≤ fuel := by
    refine le_trans (dMeasure_le_fuel hb.1 ?_ ?_) hfuel
    · intro x hx
      simp only [dInit] at hx
      rcases mem_set_imp _ _ _ _ hx with h | h
      · rw [h]; unfold MaxInt64; omega
      · rw [List.eq_of_mem_replicate h]
    · simp [dInit, heapPush, heapInit, heapUp]
  obtain ⟨st1, hrun, hpost, hemp⟩ := dijkstraLoop_total rg hwf 0
    (fun s => DInv rg (u : Nat) MaxInt64 s)
    (fun s => DInv rg (u : Nat) MaxInt64 s ∧ s.pq = [])
    (fun s _ his hemp => ⟨his, hemp⟩)
    (fun s hbs _ hne hend => by
      have := (heapPop_base s hne hbs).2.2
      rw [hend] at this
      unfold Graph.IsVertex at this
      omega)
    (fun s hbs his hne _ hst => dinv_stale hne hbs.2.2.2.2 his hst)
    (fun s hbs his hne _ hst => dinv_process hwf hnn hu hinf hinf2 hbound hne hbs his hst)
    fuel _ hb hinv hm
  refine ⟨st1.toJ, ?_, fun v hv => ?_⟩
  · rw [← hj, johnsonDLoop_sim hwf fuel _ hb, hrun]
    rfl
  · have hp : DPost rg (u : Nat) MaxInt64 v st1 := dpost_empty hwf hnn hu hinf hpost hemp
    exact ⟨fun hne => hp.1.2.2.2.2.1 v hv hne, fun w k hw => hp.2 w k hw⟩

/-! ## The reweighted graph of `Johnson` -/

theorem johnsonReweighted_isVertex (g : Graph) (h : List Int) (v : Int) :
    (johnsonReweighted g h).IsVertex v ↔ g.IsVertex v := by
  unfold Graph.IsVertex
  rw [(johnsonReweighted_spec g h).1]

theorem jsmall_steps_w {g : Graph} {W : Int} (hsm : JSmall g W) :
    (johnsonSteps g : Int) * W + W < INF := by
  have := jsmall_steps hsm
  have h1 : ((johnsonSteps g + 1 : Nat) : Int) * W = (johnsonSteps g : Int) * W + W := by
    push_cast; ring
  omega

theorem johnsonReweighted_adjAt {g : Graph} {W : Int} {h : List Int} (hwf : g.WF)
    (hsm : JSmall g W)
    (hhb : ∀ v, g.IsVertex v → -((johnsonSteps g : Int) * W) ≤ h.getD v.toNat 0 ∧
      h.getD v.toNat 0 ≤ 0)
    {u : Int} (hu : g.IsVertex u) :
    (johnsonReweighted g h).adjAt u =
      (g.adjAt u).map (fun e => Edge.mk e.To (e.Weight + h.getD u.toNat 0 - h.getD e.To.toNat 0)) := by
  have hu1 := hu
  unfold Graph.IsVertex at hu1
  unfold Graph.adjAt
  rw [(johnsonReweighted_spec g h).2.2.1 u.toNat (by omega) (by omega)]
  apply List.map_congr_left
  intro e he
  have hto : g.IsVertex e.To := adjAt_isVertex hwf (u := u) he
  obtain ⟨hw1, hw2⟩ := weightsWithin_edge hsm.2.1 (u := u) he
  obtain ⟨a1, a2⟩ := hhb u hu
  obtain ⟨b1, b2⟩ := hhb e.To hto
  have hS := jsmall_steps_w hsm
  have hI := INF_val
  rw [wrap64_eq (e.Weight + h.getD u.toNat 0) (by omega) (by omega),
    wrap64_eq _ (by omega) (by omega)]

theorem johnsonReweighted_wf {g : Graph} (hwf : g.WF) (h : List Int) :
    (johnsonReweighted g h).WF := by
  obtain ⟨h1, h2, h3, h4⟩ := johnsonReweighted_spec g h
  refine ⟨by rw [h2, h1], fun l hl e he => ?_⟩
  rw [h1]
  obtain ⟨i, hi, rfl⟩ := List.getElem_of_mem hl
  have hgd : (johnsonReweighted g h).adj[i] = (johnsonReweighted g h).adj.getD i [] :=
    (List.getD_eq_getElem _ _ hi).symm
  rw [hgd] at he
  by_cases hi0 : i = 0
  · subst hi0
    rw [h4] at he
    simp at he
  · rw [h3 i (by omega) (by omega), List.mem_map] at he
    obtain ⟨e0, he0, rfl⟩ := he
    have : g.IsVertex e0.To := adjAt_isVertex hwf (u := (i : Nat)) (by
      unfold Graph.adjAt
      simpa using he0)
    exact this

theorem johnsonReweighted_nonNeg {g : Graph} {W : Int} {h : List Int} (hwf : g.WF)
    (hsm : JSmall g W) (hf : Feasible g h)
    (hhb : ∀ v, g.IsVertex v → -((johnsonSteps g : Int) * W) ≤ h.getD v.toNat 0 ∧
      h.getD v.toNat 0 ≤ 0) :
    (johnsonReweighted g h).NonNeg := by
  intro u hu e he
  rw [johnsonReweighted_isVertex] at hu
  rw [johnsonReweighted_adjAt hwf hsm hhb hu, List.mem_map] at he
  obtain ⟨e0, he0, rfl⟩ := he
  have := feasible_edge hf hu he0
  simp only
  omega

/-- A walk of the reweighted graph is a walk of the graph; the weights differ by
the potentials of the two end points. -/
theorem johnsonReweighted_walk {g : Graph} {W : Int} {h : List Int} (hwf : g.WF)
    (hsm : JSmall g W)
    (hhb : ∀ v, g.IsVertex v → -((johnsonSteps g : Int) * W) ≤ h.getD v.toNat 0 ∧
      h.getD v.toNat 0 ≤ 0)
    {s : Int} (hs : g.IsVertex s) {t w : Int} {k : Nat}
    (hw : Walk (johnsonReweighted g h) s t w k) :
    Walk g s t (w - h.getD s.toNat 0 + h.getD t.toNat 0) k := by
  induction hw with
  | nil =>
    have : (0 : Int) - h.getD s.toNat 0 + h.getD s.toNat 0 = 0 := by ring
    rw [this]
    exact Walk.nil
  | @snoc v w1 k1 e _ he ih =>
    have hv : g.IsVertex v := walk_isVertex hwf hs ih
    rw [johnsonReweighted_adjAt hwf hsm hhb hv, List.mem_map] at he
    obtain ⟨e0, he0, rfl⟩ := he
    have := Walk.snoc e0 ih he0
    simp only
    have heq : w1 + (e0.Weight + h.getD v.toNat 0 - h.getD e0.To.toNat 0) - h.getD s.toNat 0 +
        h.getD e0.To.toNat 0 = w1 - h.getD s.toNat 0 + h.getD v.toNat 0 + e0.Weight := by ring
    rw [heq]
    exact this

theorem walk_johnsonReweighted {g : Graph} {W : Int} {h : List Int} (hwf : g.WF)
    (hsm : JSmall g W)
    (hhb : ∀ v, g.IsVertex v → -((johnsonSteps g : Int) * W) ≤ h.getD v.toNat 0 ∧
      h.getD v.toNat 0 ≤ 0)
    {s : Int} (hs : g.IsVertex s) {t w : Int} {k : Nat} (hw : Walk g s t w k) :
    Walk (johnsonReweighted g h) s t (w + h.getD s.toNat 0 - h.getD t.toNat 0) k := by
  induction hw with
  | nil =>
    have : (0 : Int) + h.getD s.toNat 0 - h.getD s.toNat 0 = 0 := by ring
    rw [this]
    exact Walk.nil
  | @snoc v w1 k1 e hw1 he ih =>
    have hv : g.IsVertex v := walk_isVertex hwf hs hw1
    have hmem : Edge.mk e.To (e.Weight + h.getD v.toNat 0 - h.getD e.To.toNat 0) ∈
        (johnsonReweighted g h).adjAt v := by
      rw [johnsonReweighted_adjAt hwf hsm hhb hv, List.mem_map]
      exact ⟨e, he, rfl⟩
    have := Walk.snoc _ ih hmem
    simp only at this
    have heq : w1 + e.Weight + h.getD s.toNat 0 - h.getD e.To.toNat 0 =
        w1 + h.getD s.toNat 0 - h.getD v.toNat 0 +
          (e.Weight + h.getD v.toNat 0 - h.getD e.To.toNat 0) := by ring
    rw [heq]
    exact this

theorem johnsonReweighted_below {g : Graph} {W : Int} {h : List Int} (hwf : g.WF)
    (hsm : JSmall g W)
    (hhb : ∀ v, g.IsVertex v → -((johnsonSteps g : Int) * W) ≤ h.getD v.toNat 0 ∧
      h.getD v.toNat 0 ≤ 0)
    {s : Int} (hs : g.IsVertex s) : BelowBound (johnsonReweighted g h) s MaxInt64 := by
  intro v w k hk hw
  rw [(johnsonReweighted_spec g h).1] at hk
  have hwg := johnsonReweighted_walk hwf hsm hhb hs hw
  obtain ⟨_, hub⟩ := walk_weight_bounds hsm.2.1 hwg
  have hv : g.IsVertex v := walk_isVertex hwf hs hwg
  obtain ⟨a1, a2⟩ := hhb s hs
  obtain ⟨b1, b2⟩ := hhb v hv
  have hS := jsmall_steps_w hsm
  have hn := jsmall_n hsm (Nat.le_succ_of_le hk)
  have hI := INF_val
  have hM := MaxInt64_val
  have hW0 := hsm.1
  have : (k : Int) * W ≤ (g.n : Int) * W :=
    mul_le_mul_of_nonneg_right (by exact_mod_cast hk) hW0
  omega

/-! ## Rows of the matrix of `Johnson` -/

theorem johnson_source {g : Graph} {W : Int} {h : List Int} (hwf : g.WF) (hsm : JSmall g W)
    (hf : Feasible g h)
    (hhb : ∀ v, g.IsVertex v → -((johnsonSteps g : Int) * W) ≤ h.getD v.toNat 0 ∧
      h.getD v.toNat 0 ≤ 0)
    {u : Nat} (hu : g.IsVertex (u : Nat)) (fuel : Nat) (hfuel : johnsonFuel g.n ≤ fuel) :
    ∃ st, johnsonDLoop (johnsonReweighted g h) fuel
        (JState.mk ((List.replicate (g.n + 1) MaxInt64).set u 0)
          (heapPush (heapInit []) (Item.mk u 0))) = some st ∧ JRowOK g h u st.dist := by
  have hn : (johnsonReweighted g h).n = g.n := (johnsonReweighted_spec g h).1
  have hu2 : (johnsonReweighted g h).IsVertex (u : Nat) :=
    (johnsonReweighted_isVertex g h _).2 hu
  obtain ⟨st, hrun, hprop⟩ := johnsonDLoop_correct (johnsonReweighted_wf hwf h)
    (johnsonReweighted_nonNeg hwf hsm hf hhb) hu2 (johnsonReweighted_below hwf hsm hhb hu)
    fuel (by rw [hn]; exact hfuel)
  rw [hn] at hrun
  refine ⟨st, hrun, fun v hv => ?_⟩
  obtain ⟨hsound, hmin⟩ := hprop v ((johnsonReweighted_isVertex g h _).2 hv)
  have hcast : h.getD ((u : Nat) : Int).toNat 0 = h.getD u 0 := by simp
  constructor
  · rintro ⟨w, k, hw⟩
    obtain ⟨_, hne⟩ := hmin _ _ (walk_johnsonReweighted hwf hsm hhb hu hw)
    refine ⟨hne, ?_, ?_⟩
    · obtain ⟨k1, hk1⟩ := hsound hne
      have := johnsonReweighted_walk hwf hsm hhb hu hk1
      rw [hcast] at this
      exact ⟨k1, this⟩
    · intro w2 k2 hw2
      have := (hmin _ _ (walk_johnsonReweighted hwf hsm hhb hu hw2)).1
      rw [hcast] at this
      omega
  · intro hnr
    by_contra hne
    obtain ⟨k1, hk1⟩ := hsound hne
    exact hnr ⟨_, k1, johnsonReweighted_walk hwf hsm hhb hu hk1⟩

theorem foldl_set_getD {α : Type} (f : Nat → α) (d : α) :
    ∀ (vs : List Nat) (row : List α) (i : Nat),
      (vs.foldl (fun r v => r.set v (f v)) row).getD i d =
        if i ∈ vs ∧ i < row.length then f i else row.getD i d := by
  intro vs
  induction vs with
  | nil => intro row i; simp
  | cons v vs ih =>
    intro row i
    simp only [List.foldl_cons]
    rw [ih, List.length_set]
    by_cases h1 : i ∈ vs ∧ i < row.length
    · rw [if_pos h1, if_pos ⟨List.mem_cons_of_mem _ h1.1, h1.2⟩]
    · rw [if_neg h1]
      by_cases hiv : i = v
      · subst hiv
        by_cases hlen : i < row.length
        · rw [getD_set_self _ _ _ _ hlen, if_pos ⟨List.mem_cons_self _ _, hlen⟩]
        · rw [if_neg (fun hc => hlen hc.2), List.getD_eq_default _ _ (by simpa using hlen),
            List.getD_eq_default _ _ (by omega)]
      · rw [getD_set_other _ _ _ _ _ (Ne.symm hiv)]
        have : ¬ (i ∈ v :: vs ∧ i < row.length) := by
          intro hc
          rcases List.mem_cons.1 hc.1 with h | h
          · exact hiv h
          · exact h1 ⟨h, hc.2⟩
        rw [if_neg this]

/-- Undoing the reweighting on row `u` stores the shortest distance for a
reachable vertex and the sentinel for an unreachable one. -/
theorem johnsonRow_spec {g : Graph} {W : Int} {h : List Int} (hwf : g.WF) (hsm : JSmall g W)
    (hf : Feasible g h)
    (hhb : ∀ v, g.IsVertex v → -((johnsonSteps g : Int) * W) ≤ h.getD v.toNat 0 ∧
      h.getD v.toNat 0 ≤ 0)
    {u : Nat} (hu : g.IsVertex (u : Nat)) {dd : List Int} (hdd : JRowOK g h u dd)
    (row : List Int) (hrow : row.length = g.n + 1) {v : Int} (hv : g.IsVertex v) :
    (Reachable g (u : Nat) v →
      IsShortestDist g (u : Nat) v ((johnsonRow g.n h u dd row).getD v.toNat 0)) ∧
    ((johnsonRow g.n h u dd row).getD v.toNat 0 = MaxInt64 ↔ ¬ Reachable g (u : Nat) v) := by
  have hv1 := hv
  unfold Graph.IsVertex at hv1
  have hval : (johnsonRow g.n h u dd row).getD v.toNat 0 =
      if dd.getD v.toNat 0 ≠ MaxInt64 then
        wrap64 (wrap64 (dd.getD v.toNat 0 - h.getD u 0) + h.getD v.toNat 0)
      else MaxInt64 := by
    unfold johnsonRow
    rw [foldl_set_getD (fun v => if dd.getD v 0 ≠ MaxInt64 then
        wrap64 (wrap64 (dd.getD v 0 - h.getD u 0) + h.getD v 0) else MaxInt64) 0,
      if_pos ⟨by rw [List.mem_range'_1]; omega, by omega⟩]
  obtain ⟨hr, hnr⟩ := hdd v hv
  have hM := MaxInt64_val
  have hI := INF_val
  have hreach : Reachable g (u : Nat) v →
      (johnsonRow g.n h u dd row).getD v.toNat 0 =
        dd.getD v.toNat 0 - h.getD u 0 + h.getD v.toNat 0 ∧
      IsShortestDist g (u : Nat) v (dd.getD v.toNat 0 - h.getD u 0 + h.getD v.toNat 0) ∧
      dd.getD v.toNat 0 - h.getD u 0 + h.getD v.toNat 0 ≠ MaxInt64 := by
    intro hre
    obtain ⟨hne, hsd⟩ := hr hre
    obtain ⟨⟨k, hwk⟩, hmin⟩ := hsd
    obtain ⟨w1, k1, hw1, hk1⟩ := walk_short_any hwf hu hwk
    have hle := hmin w1 k1 hw1
    obtain ⟨_, hub⟩ := walk_weight_bounds hsm.2.1 hw1
    have hkn : (k1 : Int) * W ≤ (g.n : Int) * W :=
      mul_le_mul_of_nonneg_right (by exact_mod_cast hk1.le) hsm.1
    have hnW := jsmall_n hsm (Nat.le_succ g.n)
    have hpot := walk_potential hwf hf hu hwk
    have hcast : h.getD ((u : Nat) : Int).toNat 0 = h.getD u 0 := by simp
    rw [hcast] at hpot
    obtain ⟨a1, a2⟩ := hhb _ hu
    rw [hcast] at a1 a2
    obtain ⟨b1, b2⟩ := hhb v hv
    have hS := jsmall_steps_w hsm
    have hW0 := hsm.1
    refine ⟨?_, ⟨⟨k, hwk⟩, hmin⟩, by omega⟩
    rw [hval, if_pos hne, wrap64_eq (dd.getD v.toNat 0 - h.getD u 0) (by omega) (by omega),
      wrap64_eq _ (by omega) (by omega)]
  constructor
  · intro hre
    obtain ⟨h1, h2, _⟩ := hreach hre
    rw [h1]
    exact h2
  · constructor
    · intro heq hre
      obtain ⟨h1, _, h3⟩ := hreach hre
      rw [h1] at heq
      exact h3 heq
    · intro hnre
      rw [hval, if_neg (by rw [hnr hnre]; simp)]

/-! ## The matrix of `Johnson` -/

theorem johnsonSources_spec (fuel n : Nat) (h : List Int) (rg : Graph)
    (P : Nat → List Int → Prop) :
    ∀ (us : List Nat) (dist : List (List Int)), us.Nodup →
      (∀ u ∈ us, ∃ st, johnsonDLoop rg fuel
        (JState.mk ((List.replicate (n + 1) MaxInt64).set u 0)
          (heapPush (heapInit []) (Item.mk u 0))) = some st ∧ P u st.dist) →
      ∃ m, johnsonSources fuel n h rg us dist = some m ∧
        (∀ u ∈ us, u < dist.length →
          ∃ dd, P u dd ∧ m.getD u [] = johnsonRow n h u dd (dist.getD u [])) ∧
        (∀ i, i ∉ us → m.getD i [] = dist.getD i []) := by
  intro us
  induction us with
  | nil =>
    intro dist _ _
    exact ⟨dist, rfl, fun u hu => by simp at hu, fun _ _ => rfl⟩
  | cons u us ih =>
    intro dist hnd hruns
    obtain ⟨hu, hnd1⟩ := List.nodup_cons.1 hnd
    obtain ⟨st, hrun, hP⟩ := hruns u (List.mem_cons_self _ _)
    obtain ⟨m, hm, hrows, hframe⟩ := ih (dist.set u (johnsonRow n h u st.dist (dist.getD u [])))
      hnd1 (fun x hx => hruns x (List.mem_cons_of_mem _ hx))
    refine ⟨m, by simp only [johnsonSources, hrun, hm], ?_, ?_⟩
    · intro x hx hlen
      rcases List.mem_cons.1 hx with rfl | hx
      · refine ⟨st.dist, hP, ?_⟩
        rw [hframe x hu, getD_set_self _ _ _ _ hlen]
      · have hxu : x ≠ u := fun h => hu (h ▸ hx)
        obtain ⟨dd, hdd, hrow⟩ := hrows x hx (by rw [List.length_set]; exact hlen)
        rw [getD_set_other _ _ _ _ _ (Ne.symm hxu)] at hrow
        exact ⟨dd, hdd, hrow⟩
    · intro i hi
      have hiu : i ≠ u := fun h => hi (h ▸ List.mem_cons_self _ _)
      rw [hframe i (fun h => hi (List.mem_cons_of_mem _ h)),
        getD_set_other _ _ _ _ _ (Ne.symm hiu)]

/-- The run of `Johnson` returns `(nil, false)` exactly when its Bellman-Ford
rounds end in the negative-cycle exit. -/
theorem johnson_fails_iff (g : Graph) :
    Returns (fun fuel => Johnson fuel g) ([], false) ↔ johnsonPotentials g = none := by
  constructor
  · rintro ⟨f0, hf0⟩
    have := hf0 f0 (le_refl _)
    unfold Johnson at this
    cases hp : johnsonPotentials g with
    | none => rfl
    | some h =>
      rw [hp] at this
      simp only at this
      split at this
      · simp at this
      · simp at this
  · intro hp
    refine ⟨0, fun fuel _ => ?_⟩
    show Johnson fuel g = some ([], false)
    unfold Johnson
    rw [hp]

/-- Total correctness of `Johnson` on a graph without negative cycle. -/
theorem johnson_correct {g : Graph} {W : Int} (hwf : g.WF) (hsm : JSmall g W)
    (hnc : ∀ s, g.IsVertex s → ¬ NegCycleFrom g s) :
    ∃ m, Returns (fun fuel => Johnson fuel g) (m, true) ∧
      ∀ u v, g.IsVertex u → g.IsVertex v →
        (Reachable g u v → IsShortestDist g u v (matAt m u v)) ∧
        (matAt m u v = MaxInt64 ↔ ¬ Reachable g u v) := by
  obtain ⟨h, hp⟩ := johnsonPotentials_total hwf hsm hnc
  obtain ⟨_, hf, hhb⟩ := johnsonPotentials_some hwf hsm hp
  obtain ⟨m, hm, hrows, _⟩ := johnsonSources_spec (johnsonFuel g.n) g.n h
    (johnsonReweighted g h) (JRowOK g h) (List.range' 1 g.n)
    (List.replicate (g.n + 1) (List.replicate (g.n + 1) MaxInt64)) (List.nodup_range' 1 g.n)
    (fun u hu => by
      rw [List.mem_range'_1] at hu
      have hv : g.IsVertex (u : Nat) := by unfold Graph.IsVertex; omega
      exact johnson_source hwf hsm hf hhb hv _ (le_refl _))
  have hJ : Johnson (johnsonFuel g.n) g = some (m, true) := by
    unfold Johnson
    rw [hp]
    simp only [hm]
  refine ⟨m, returns_of_mono _ (Johnson_mono g) _ _ hJ, fun u v hu hv => ?_⟩
  have hu1 := hu
  unfold Graph.IsVertex at hu1
  obtain ⟨dd, hdd, hrow⟩ := hrows u.toNat (by rw [List.mem_range'_1]; omega) (by simp; omega)
  have hcast : ((u.toNat : Nat) : Int) = u := by omega
  have hv' : g.IsVertex ((u.toNat : Nat) : Int) := by rw [hcast]; exact hu
  have := johnsonRow_spec hwf hsm hf hhb hv' hdd
    ((List.replicate (g.n + 1) (List.replicate (g.n + 1) MaxInt64)).getD u.toNat [])
    (by
      rw [List.getD_eq_getElem _ _ (by simp; omega)]
      simp) hv
  rw [hcast] at this
  unfold matAt
  rw [hrow]
  exact this

/-! ## Shape of the Bellman-Ford rounds of `Johnson` -/

theorem johnsonRounds_false (tg : Graph) (n : Nat) : ∀ (is : List Nat) (h : List Int),
    (∀ i ∈ is, i ≠ n + 1) → ∃ h1, johnsonRounds tg n is h = some h1 := by
  intro is
  induction is with
  | nil => intro h _; exact ⟨h, rfl⟩
  | cons i is ih =>
    intro h hne
    have hi : decide (i = n + 1) = false := by simpa using hne i (List.mem_cons_self _ _)
    obtain ⟨h2, hrun⟩ := johnsonRound_false tg (List.range' 1 (n + 1)) h
    obtain ⟨h1, hrs⟩ := ih h2 (fun x hx => hne x (List.mem_cons_of_mem _ hx))
    exact ⟨h1, by simp only [johnsonRounds, hi, hrun, hrs]⟩

/-- The rounds `1..n` always complete, and the potentials run is round `n+1`
applied to their result. -/
theorem johnsonPotentials_last (g : Graph) :
    ∃ hn, johnsonRounds (johnsonTemp g) g.n (List.range' 1 g.n)
        ((List.replicate (g.n + 2) MaxInt64).set (g.n + 1) 0) = some hn ∧
      johnsonPotentials g = johnsonRound (johnsonTemp g) true (List.range' 1 (g.n + 1)) hn := by
  obtain ⟨hn, hrun⟩ := johnsonRounds_false (johnsonTemp g) g.n (List.range' 1 g.n)
    ((List.replicate (g.n + 2) MaxInt64).set (g.n + 1) 0)
    (fun i hi => by rw [List.mem_range'_1] at hi; omega)
  refine ⟨hn, hrun, ?_⟩
  unfold johnsonPotentials
  have hsplit : List.range' 1 (g.n + 1) = List.range' 1 g.n ++ [g.n + 1] := by
    rw [List.range'_concat]
    simp [Nat.add_comm]
  conv_lhs => rw [hsplit]
  rw [johnsonRounds_append, hrun]
  simp only [johnsonRounds, decide_True]
  cases johnsonRound (johnsonTemp g) true (List.range' 1 (g.n + 1)) hn with
  | none => rfl
  | some h1 => rfl

theorem johnsonEdges_true_fail {u : Int} : ∀ (es : List Edge) (h h1 : List Int),
    johnsonEdges true u h es = some h1 →
    ∀ e ∈ es, ¬ (h.getD u.toNat 0 ≠ MaxInt64 ∧
      wrap64 (h.getD u.toNat 0 + e.Weight) < h.getD e.To.toNat 0) := by
  intro es
  induction es with
  | nil => intro h h1 _ e he; simp at he
  | cons e es ih =>
    intro h h1 hr x hx
    simp only [johnsonEdges] at hr
    cases hrel : johnsonRelax true u h e with
    | none => rw [hrel] at hr; simp at hr
    | some h2 =>
      rw [hrel] at hr
      simp only at hr
      have h2eq := johnsonRelax_true hrel
      subst h2eq
      rcases List.mem_cons.1 hx with rfl | hx
      · intro htest
        unfold johnsonRelax at hrel
        simp only at hrel
        rw [if_pos htest] at hrel
        simp at hrel
      · exact ih _ _ hr x hx

theorem johnsonRound_true_fail (tg : Graph) : ∀ (us : List Nat) (h h1 : List Int),
    johnsonRound tg true us h = some h1 →
    ∀ u ∈ us, ∀ e ∈ tg.adjAt (u : Nat), ¬ (h.getD ((u : Nat) : Int).toNat 0 ≠ MaxInt64 ∧
      wrap64 (h.getD ((u : Nat) : Int).toNat 0 + e.Weight) < h.getD e.To.toNat 0) := by
  intro us
  induction us with
  | nil => intro h h1 _ u hu; simp at hu
  | cons u us ih =>
    intro h h1 hr x hx
    simp only [johnsonRound] at hr
    cases hed : johnsonEdges true (u : Nat) h (tg.adjAt (u : Nat)) with
    | none => rw [hed] at hr; simp at hr
    | some h2 =>
      rw [hed] at hr
      simp only at hr
      have h2eq := johnsonEdges_true _ _ _ hed
      subst h2eq
      rcases List.mem_cons.1 hx with rfl | hx
      · exact johnsonEdges_true_fail _ _ _ hed
      · exact ih _ _ hr x hx

/-- The last round ends the run exactly when some edge of the augmented graph
still relaxes. -/
theorem johnsonRound_true_none_iff (tg : Graph) (us : List Nat) (h : List Int) :
    johnsonRound tg true us h = none ↔
      ∃ u ∈ us, ∃ e ∈ tg.adjAt (u : Nat), h.getD u 0 ≠ MaxInt64 ∧
        wrap64 (h.getD u 0 + e.Weight) < h.getD e.To.toNat 0 := by
  constructor
  · intro hnone
    by_contra hcon
    push_neg at hcon
    have := johnsonRound_true_some tg us h (fun u hu e he => by
      have := hcon u hu e he
      simp only [Int.toNat_ofNat]
      push_neg
      exact this)
    rw [this] at hnone
    simp at hnone
  · rintro ⟨u, hu, e, he, hne, hlt⟩
    cases hr : johnsonRound tg true us h with
    | none => rfl
    | some h1 =>
      have := johnsonRound_true_fail tg us h h1 hr u hu e he
      simp only [Int.toNat_ofNat] at this
      exact absurd ⟨hne, hlt⟩ this

theorem johnsonRound_append (tg : Graph) (last : Bool) : ∀ (us vs : List Nat) (h : List Int),
    johnsonRound tg last (us ++ vs) h =
      match johnsonRound tg last us h with
      | none => none
      | some h1 => johnsonRound tg last vs h1 := by
  intro us
  induction us with
  | nil => intro vs h; rfl
  | cons u us ih =>
    intro vs h
    simp only [List.cons_append, johnsonRound]
    cases johnsonEdges last (u : Nat) h (tg.adjAt (u : Nat)) with
    | none => rfl
    | some h2 => exact ih vs h2

/-- Every round scans the vertices `1..n` and then the virtual source `n+1`. -/
theorem johnsonRound_order (tg : Graph) (last : Bool) (n : Nat) (h : List Int) :
    johnsonRound tg last (List.range' 1 (n + 1)) h =
      match johnsonRound tg last (List.range' 1 n) h with
      | none => none
      | some h1 => johnsonEdges last ((n + 1 : Nat) : Int) h1 (tg.adjAt ((n + 1 : Nat) : Int)) := by
  have hsplit : List.range' 1 (n + 1) = List.range' 1 n ++ [n + 1] := by
    rw [List.range'_concat]
    simp [Nat.add_comm]
  rw [hsplit, johnsonRound_append]
  cases johnsonRound tg last (List.range' 1 n) h with
  | none => rfl
  | some h1 =>
    simp only [johnsonRound]
    cases johnsonEdges last ((n + 1 : Nat) : Int) h1 (tg.adjAt ((n + 1 : Nat) : Int)) with
    | none => rfl
    | some h2 => rfl

theorem jsmall_spfa {g : Graph} {W : Int} (hsm : JSmall g W) :
    g.n * W < INF ∧
      ((((g.n + 1) * g.n * g.numEdges + 1 : Nat) : Int)) * W < 2 ^ 63 - INF := by
  have hI := INF_val
  refine ⟨jsmall_n hsm (Nat.le_succ _), ?_⟩
  obtain ⟨hW0, _, hlt⟩ := hsm
  have h1 : (g.n + 1) * g.n * g.numEdges + 1 ≤
      (g.n + 1) * (g.n + 1) * (g.numEdges + g.n + 1) := by
    have ha : (g.n + 1) * g.n ≤ (g.n + 1) * (g.n + 1) := Nat.mul_le_mul_left _ (Nat.le_succ _)
    have hb : (g.n + 1) * g.n * g.numEdges ≤ (g.n + 1) * (g.n + 1) * g.numEdges :=
      Nat.mul_le_mul_right _ ha
    have hc : 1 ≤ (g.n + 1) * (g.n + 1) := Nat.one_le_iff_ne_zero.2 (by positivity)
    calc (g.n + 1) * g.n * g.numEdges + 1
        ≤ (g.n + 1) * (g.n + 1) * g.numEdges + (g.n + 1) * (g.n + 1) * (g.n + 1) := by
          have : (g.n + 1) * (g.n + 1) * 1 ≤ (g.n + 1) * (g.n + 1) * (g.n + 1) :=
            Nat.mul_le_mul_left _ (by omega)
          omega
      _ = (g.n + 1) * (g.n + 1) * (g.numEdges + g.n + 1) := by ring
  have : ((((g.n + 1) * g.n * g.numEdges + 1 : Nat) : Int)) * W ≤
      (((g.n + 1) * (g.n + 1) * (g.numEdges + g.n + 1) : Nat) : Int) * W :=
    mul_le_mul_of_nonneg_right (by exact_mod_cast h1) hW0
  omega

theorem isShortestDist_unique {g : Graph} {s t d1 d2 : Int} (h1 : IsShortestDist g s t d1)
    (h2 : IsShortestDist g s t d2) : d1 = d2 := by
  obtain ⟨⟨k1, w1⟩, m1⟩ := h1
  obtain ⟨⟨k2, w2⟩, m2⟩ := h2
  have := m1 _ _ w2
  have := m2 _ _ w1
  omega

/-- On a graph without negative cycle and with bounded weights the matrix of
`Johnson` and the point-to-point query tell the same distances. -/
theorem johnson_agrees {g : Graph} {W : Int} (hwf : g.WF) (hsm : JSmall g W)
    (hnc : ∀ s, g.IsVertex s → ¬ NegCycleFrom g s) :
    ∃ m, Returns (fun fuel => Johnson fuel g) (m, true) ∧
      ∀ u v, g.IsVertex u → g.IsVertex v →
        (Reachable g u v →
          ∃ path, Returns (fun fuel => FindShortestPath fuel g u v) (path, matAt m u v, true)) ∧
        (¬ Reachable g u v → matAt m u v = MaxInt64 ∧
          Returns (fun fuel => FindShortestPath fuel g u v) ([], -1, false)) := by
  obtain ⟨m, hret, hm⟩ := johnson_correct hwf hsm hnc
  refine ⟨m, hret, fun u v hu hv => ?_⟩
  obtain ⟨hr, hiff⟩ := hm u v hu hv
  obtain ⟨hnW, hbig⟩ := jsmall_spfa hsm
  rcases findShortestPath_classify hwf hu hv hsm.2.1 hnW hbig with ⟨hfail, hwhy⟩ |
      ⟨vs, d, hok, hwalk, hmin, _⟩
  · have hnr : ¬ Reachable g u v := by
      rcases hwhy with h | h
      · exact absurd h (hnc u hu)
      · exact h
    exact ⟨fun hre => absurd hre hnr, fun _ => ⟨hiff.2 hnr, hfail⟩⟩
  · obtain ⟨k, hk, _⟩ := walk_of_walkV hwalk
    have hre : Reachable g u v := ⟨d, k, hk⟩
    have heq : matAt m u v = d := isShortestDist_unique (hr hre) ⟨⟨k, hk⟩, hmin⟩
    refine ⟨fun _ => ⟨vs.reverse, ?_⟩, fun hnr => absurd hre hnr⟩
    rw [heq]
    exact hok

/-! ## Graph construction and inspection -/

theorem hasNegativeEdge_true_iff (g : Graph) :
    HasNegativeEdge g = true ↔ ∃ u, g.IsVertex u ∧ ∃ e ∈ g.adjAt u, e.Weight < 0 := by
  constructor
  · intro h
    by_contra hcon
    have hnn : g.NonNeg := by
      intro u hu e he
      by_contra hlt
      exact hcon ⟨u, hu, e, he, by omega⟩
    rw [(hasNegativeEdge_false_iff g).2 hnn] at h
    simp at h
  · rintro ⟨u, hu, e, he, hlt⟩
    by_contra hcon
    have hf : HasNegativeEdge g = false := by simpa using hcon
    have := (hasNegativeEdge_false_iff g).1 hf u hu e he
    omega

theorem mem_adj_row0 {g : Graph} (h0 : g.adj.getD 0 [] = []) (hlen : g.adj.length = g.n + 1)
    {l : List Edge} (hl : l ∈ g.adj) {e : Edge} (he : e ∈ l) :
    ∃ u, g.IsVertex u ∧ e ∈ g.adjAt u := by
  obtain ⟨i, hi, rfl⟩ := List.getElem_of_mem hl
  have hgd : g.adj[i] = g.adj.getD i [] := (List.getD_eq_getElem _ _ hi).symm
  by_cases hi0 : i = 0
  · subst hi0
    rw [hgd, h0] at he
    simp at he
  · refine ⟨(i : Nat), ?_, ?_⟩
    · unfold Graph.IsVertex; omega
    · unfold Graph.adjAt
      simpa [hgd] using he

theorem addEdge_n (g : Graph) (a b w : Int) : (AddEdge g a b w).n = g.n := by
  unfold AddEdge
  simp only
  split <;> rfl

theorem addEdge_isDirected (g : Graph) (a b w : Int) :
    (AddEdge g a b w).directed = g.directed := by
  unfold AddEdge
  simp only
  split <;> rfl

theorem addEdge_length (g : Graph) (a b w : Int) :
    (AddEdge g a b w).adj.length = g.adj.length := by
  unfold AddEdge
  simp only
  split <;> simp

theorem addEdge_undirected (t : Graph) (hd : t.directed = false) (u v w : Int) :
    AddEdge t u v w =
      Graph.mk ((t.adj.set u.toNat (t.adj.getD u.toNat [] ++ [Edge.mk v w])).set v.toNat
        ((t.adj.set u.toNat (t.adj.getD u.toNat [] ++ [Edge.mk v w])).getD v.toNat [] ++
          [Edge.mk u w])) t.n t.directed := by
  unfold AddEdge
  simp [hd]

/-! ## Graphs built by `NewGraph` and `AddEdge` -/

theorem mem_set_append {P : Edge → Prop} (adj : List (List Edge)) (i : Nat) (x : Edge)
    (hadj : ∀ l ∈ adj, ∀ e ∈ l, P e) (hx : P x) :
    ∀ l ∈ adj.set i (adj.getD i [] ++ [x]), ∀ e ∈ l, P e := by
  intro l hl e he
  rcases mem_set_imp _ _ _ _ hl with h | h
  · rw [h, List.mem_append] at he
    rcases he with he | he
    · by_cases hi : i < adj.length
      · exact hadj _ (getD_mem adj i [] hi) e he
      · rw [List.getD_eq_default _ _ (by omega)] at he
        simp at he
    · simp only [List.mem_singleton] at he
      rw [he]; exact hx
  · exact hadj l h e he

/-- Row `x` of the graph after `AddEdge(a, b, w)`, for vertices of `[1, n]`. -/
theorem addEdge_adjAt (g : Graph) (a b w : Int) (hlen : g.adj.length = g.n + 1)
    (ha : g.IsVertex a) (hb : g.IsVertex b) {x : Int} (hx : g.IsVertex x) :
    (AddEdge g a b w).adjAt x =
      g.adjAt x ++ (if x = a then [Edge.mk b w] else []) ++
        (if g.directed = false ∧ x = b then [Edge.mk a w] else []) := by
  have hal : a.toNat < g.adj.length := by unfold Graph.IsVertex at ha; omega
  have hbl : b.toNat < g.adj.length := by unfold Graph.IsVertex at hb; omega
  cases hd : g.directed with
  | true =>
    rw [addEdge_directed g hd]
    unfold Graph.adjAt
    simp only [Bool.true_eq_false, false_and, if_false, List.append_nil]
    rw [getD_set_vertex (g := g) _ hlen _ _ hx ha]
    by_cases hxa : x = a
    · rw [if_pos hxa, if_pos hxa, hxa]
    · rw [if_neg hxa, if_neg hxa, List.append_nil]
  | false =>
    rw [addEdge_undirected g hd]
    unfold Graph.adjAt
    simp only [true_and]
    rw [getD_set_vertex (g := g) _ (by rw [List.length_set]; exact hlen) _ _ hx hb,
      getD_set_vertex (g := g) _ hlen _ _ hb ha,
      getD_set_vertex (g := g) _ hlen _ _ hx ha]
    by_cases hxb : x = b
    · subst hxb
      rw [if_pos rfl, if_pos rfl]
      by_cases hxa : x = a
      · rw [if_pos hxa, if_pos hxa, hxa]
      · rw [if_neg hxa, if_neg hxa, List.append_nil]
    · rw [if_neg hxb, if_neg hxb, List.append_nil]
      by_cases hxa : x = a
      · rw [if_pos hxa, if_pos hxa, hxa]
      · rw [if_neg hxa, if_neg hxa, List.append_nil]

theorem addEdge_row0 (g : Graph) (a b w : Int) (ha : 1 ≤ a) (hb : 1 ≤ b) :
    (AddEdge g a b w).adj.getD 0 [] = g.adj.getD 0 [] := by
  unfold AddEdge
  simp only
  split
  · simp only
    rw [getD_set_other _ _ _ _ _ (by omega), getD_set_other _ _ _ _ _ (by omega)]
  · simp only
    rw [getD_set_other _ _ _ _ _ (by omega)]

theorem addEdge_wf (g : Graph) (a b w : Int) (hwf : g.WF) (ha : g.IsVertex a)
    (hb : g.IsVertex b) : (AddEdge g a b w).WF := by
  refine ⟨by rw [addEdge_length, addEdge_n]; exact hwf.1, ?_⟩
  rw [addEdge_n]
  intro l hl e he
  unfold AddEdge at hl
  simp only at hl
  unfold Graph.IsVertex at ha hb
  split at hl
  · exact mem_set_append (P := fun e => 1 ≤ e.To ∧ e.To ≤ (g.n : Int)) _ _ _
      (mem_set_append (P := fun e => 1 ≤ e.To ∧ e.To ≤ (g.n : Int)) _ _ _ hwf.2 hb) ha l hl e he
  · exact mem_set_append (P := fun e => 1 ≤ e.To ∧ e.To ≤ (g.n : Int)) _ _ _ hwf.2 hb l hl e he

theorem newGraph_wf (n : Nat) (d : Bool) : (NewGraph n d).WF := by
  refine ⟨by simp [NewGraph], fun l hl e he => ?_⟩
  unfold NewGraph at hl
  rw [List.eq_of_mem_replicate hl] at he
  simp at he

/-- A built graph satisfies the graph invariant, and its row `0` is empty. -/
theorem built_wf {n : Nat} {d : Bool} {g : Graph} (hb : Built n d g) :
    g.n = n ∧ g.directed = d ∧ g.WF ∧ g.adj.getD 0 [] = [] := by
  induction hb with
  | new => exact ⟨rfl, rfl, newGraph_wf n d, newGraph_getD n d 0⟩
  | @add g a b w _ ha1 ha2 hb1 hb2 ih =>
    obtain ⟨hn, hd, hwf, h0⟩ := ih
    have hva : g.IsVertex a := by unfold Graph.IsVertex; rw [hn]; exact ⟨ha1, ha2⟩
    have hvb : g.IsVertex b := by unfold Graph.IsVertex; rw [hn]; exact ⟨hb1, hb2⟩
    refine ⟨by rw [addEdge_n, hn], by rw [addEdge_isDirected, hd],
      addEdge_wf g a b w hwf hva hvb, ?_⟩
    rw [addEdge_row0 g a b w ha1 hb1, h0]

/-- In a built undirected graph every stored edge has its mirror image stored. -/
theorem built_symmetric {n : Nat} {g : Graph} (hb : Built n false g) :
    ∀ x, g.IsVertex x → ∀ e ∈ g.adjAt x, Edge.mk x e.Weight ∈ g.adjAt e.To := by
  induction hb with
  | new =>
    intro x _ e he
    unfold Graph.adjAt at he
    rw [newGraph_getD] at he
    simp at he
  | @add g a b w hbg ha1 ha2 hb1 hb2 ih =>
    obtain ⟨hn, hd, hwf, _⟩ := built_wf hbg
    have hva : g.IsVertex a := by unfold Graph.IsVertex; rw [hn]; exact ⟨ha1, ha2⟩
    have hvb : g.IsVertex b := by unfold Graph.IsVertex; rw [hn]; exact ⟨hb1, hb2⟩
    intro x hx e he
    have hx1 : g.IsVertex x := by
      unfold Graph.IsVertex at hx ⊢
      rw [addEdge_n] at hx
      exact hx
    have hto1 : g.IsVertex e.To := by
      have := adjAt_isVertex (addEdge_wf g a b w hwf hva hvb) he
      unfold Graph.IsVertex at this ⊢
      rw [addEdge_n] at this
      exact this
    rw [addEdge_adjAt g a b w hwf.1 hva hvb hx1] at he
    rw [addEdge_adjAt g a b w hwf.1 hva hvb hto1]
    simp only [hd, true_and, List.mem_append] at he ⊢
    rcases he with (he | he) | he
    · exact Or.inl (Or.inl (ih x hx1 e he))
    · by_cases hxa : x = a
      · rw [if_pos hxa] at he
        simp only [List.mem_singleton] at he
        subst he
        simp only
        right
        rw [hxa]
        simp
      · rw [if_neg hxa] at he
        simp at he
    · by_cases hxb : x = b
      · rw [if_pos hxb] at he
        simp only [List.mem_singleton] at he
        subst he
        simp only
        left; right
        rw [hxb]
        simp
      · rw [if_neg hxb] at he
        simp at he

/-- A negative edge of a built undirected graph is a negative cycle with its mirror image. -/
theorem built_negative_edge_cycle {n : Nat} {g : Graph} (hb : Built n false g) {start a : Int}
    (hs : g.IsVertex start) {e : Edge} (he : e ∈ g.adjAt a) (hneg : e.Weight < 0)
    (hreach : Reachable g start a) : NegCycleFrom g start := by
  obtain ⟨_, _, hwf, _⟩ := built_wf hb
  obtain ⟨w, k, hw⟩ := hreach
  have ha : g.IsVertex a := walk_isVertex hwf hs hw
  have hmirror := built_symmetric hb a ha e he
  have hcyc : Walk g a a (0 + e.Weight + e.Weight) (0 + 1 + 1) :=
    Walk.snoc (Edge.mk a e.Weight) (Walk.snoc e Walk.nil he) hmirror
  exact ⟨a, w, k, _, _, hw, hcyc, by omega⟩

/-! ## Termination of SPFA -/

theorem sum_le_sq (l : List Nat) (n : Nat) (hlen : l.length = n + 1) (h0 : l.getD 0 0 = 0)
    (hle : ∀ c ∈ l, c ≤ n) : l.sum ≤ n * n := by
  cases l with
  | nil => simp at hlen
  | cons c rest =>
    simp only [List.getD_cons_zero] at h0
    subst h0
    simp only [List.length_cons, Nat.add_right_cancel_iff] at hlen
    have := List.sum_le_card_nsmul rest n (fun x hx => hle x (List.mem_cons_of_mem _ hx))
    rw [hlen] at this
    simpa using this

/-- An enqueue and an increment of `pushCount` always come together, and the
negative-cycle exit is taken exactly when the increment leads above `n`. -/
theorem spfaRelax_enqueue {g : Graph} (u : Int) (st : SPFAState) (e : Edge)
    (he : g.IsVertex e.To) (hb : SBase g st) :
    (spfaRelax g.n u st e = none ∧ st.pushCount.getD e.To.toNat 0 + 1 > g.n) ∨
    (∃ st1, spfaRelax g.n u st e = some st1 ∧
      ((st1.queue = st.queue ++ [e.To] ∧
          st1.pushCount = st.pushCount.set e.To.toNat (st.pushCount.getD e.To.toNat 0 + 1) ∧
          st.pushCount.getD e.To.toNat 0 + 1 ≤ g.n) ∨
        (st1.queue = st.queue ∧ st1.pushCount = st.pushCount))) := by
  rcases spfaRelax_cases u st e he hb with ⟨h1, _, _, _, h5⟩ |
      ⟨st1, h1, _, _, _, h5⟩ | ⟨h1, _⟩
  · exact Or.inl ⟨h1, by omega⟩
  · refine Or.inr ⟨st1, h1, ?_⟩
    rcases h5 with ⟨_, hq, hp, hlt⟩ | ⟨_, hq, hp⟩
    · exact Or.inl ⟨hq, hp, by omega⟩
    · exact Or.inr ⟨hq, hp⟩
  · exact Or.inr ⟨st, h1, Or.inr ⟨rfl, rfl⟩⟩

/-- Whatever the weights, the relaxation loop of SPFA stops; when it stops with
an empty queue no push count exceeds `n` and there were at most `n * n` enqueues. -/
theorem spfaLoop_terminates {g : Graph} {start : Int} (hwf : g.WF) (hs : g.IsVertex start) :
    ∃ r, Returns (fun fuel => spfaLoop g fuel (spfaInit g start)) r ∧
      ∀ st, r = some st → st.queue = [] ∧ (∀ c ∈ st.pushCount, c ≤ g.n) ∧
        st.pushCount.sum ≤ g.n * g.n := by
  have hs1 := hs
  unfold Graph.IsVertex at hs1
  have h0 : (spfaInit g start).pushCount.getD 0 0 = 0 := by
    unfold spfaInit
    simp only
    rw [getD_set_other _ _ _ _ _ (by omega), List.getD_eq_getElem _ _ (by simp)]
    simp
  obtain ⟨r, hloop, hpost⟩ := spfaLoop_total g hwf
    (fun s => s.pushCount.getD 0 0 = 0)
    (fun s => s.queue = [] ∧ (∀ c ∈ s.pushCount, c ≤ g.n) ∧ s.pushCount.sum ≤ g.n * g.n)
    True
    (fun s hbs his hq => ⟨hq, hbs.2.2.2.2.2.2.2,
      sum_le_sq _ _ hbs.2.2.2.1 his hbs.2.2.2.2.2.2.2⟩)
    (fun s u rest hbs his hq => by
      obtain ⟨hb1, _, hu⟩ := spfaDequeue_base s u rest hq hbs
      exact spfaEdges_rule g u (g.adjAt u)
        (fun _ s1 => s1.pushCount.getD 0 0 = 0) True
        (fun e he => adjAt_isVertex hwf he)
        (fun done e rest1 s1 hsplit hbs1 hin => by
          have hto : g.IsVertex e.To := adjAt_isVertex hwf (u := u) (by rw [hsplit]; simp)
          rcases spfaRelax_enqueue u s1 e hto hbs1 with ⟨h1, _⟩ | ⟨st1, h1, h2⟩
          · rw [h1]; trivial
          · rw [h1]
            simp only
            rcases h2 with ⟨_, hp, _⟩ | ⟨_, hp⟩
            · rw [hp, getD_set_other _ _ _ _ _ (by unfold Graph.IsVertex at hto; omega)]
              exact hin
            · rw [hp]; exact hin)
        (g.adjAt u) [] _ rfl hb1 his)
    _ _ (spfaInit_base hs) h0 (le_refl _)
  refine ⟨r, ⟨sMeasure g.n (spfaInit g start), fun fuel hfuel =>
    spfaLoop_mono _ _ _ _ hloop fuel hfuel⟩, fun st hst => ?_⟩
  subst hst
  exact hpost

/-- With bounded weights every call of `SPFA` returns. -/
theorem spfa_returns {g : Graph} {W : Int} {start end_ : Int} (hwf : g.WF)
    (hs : g.IsVertex start) (he : g.IsVertex end_) (hW : g.WeightsWithin W)
    (hnW : g.n * W < INF)
    (hbig : ((((g.n + 1) * g.n * g.numEdges + 1 : Nat) : Int)) * W < 2 ^ 63 - INF) :
    ∃ r, Returns (fun fuel => SPFA fuel g start end_) r := by
  by_cases hcyc : NegCycleFrom g start
  · exact ⟨_, spfa_detects end_ hwf hs hW hnW hbig hcyc⟩
  · by_cases hreach : Reachable g start end_
    · obtain ⟨vs, d, hret, _⟩ := spfa_returns_reachable hwf hs he hcyc
        (belowINF_of_weightsWithin hW hnW start) (aboveNegINF_of_weightsWithin hW hnW start)
        hreach
      exact ⟨_, hret⟩
    · exact ⟨_, spfa_unreachable hwf hs he hreach⟩

/-- A parent slice whose entries `1` and `2` point at each other is never left
by the path loop when the start vertex is `4`. -/
theorem buildPath_loops (par : List Int) (h1 : par.getD 1 (-1) = 2) (h2 : par.getD 2 (-1) = 1) :
    ∀ (fuel : Nat) (acc : List Int),
      buildPath par 4 fuel 1 acc = none ∧ buildPath par 4 fuel 2 acc = none := by
  intro fuel
  induction fuel with
  | zero => intro acc; exact ⟨rfl, rfl⟩
  | succ fuel ih =>
    intro acc
    constructor
    · unfold buildPath
      rw [if_neg (by decide), if_neg (by decide)]
      have : (1 : Int).toNat = 1 := rfl
      rw [this, h1]
      exact (ih _).2
    · unfold buildPath
      rw [if_neg (by decide), if_neg (by decide)]
      have : (2 : Int).toNat = 2 := rfl
      rw [this, h2]
      exact (ih _).1

/-! ## Checked slice accesses and the checked heap -/

theorem getElem?_eq_getD {α : Type} (l : List α) (i : Nat) (d : α) (h : i < l.length) :
    l[i]? = some (l.getD i d) := by
  rw [List.getD_eq_getElem _ _ h, List.getElem?_eq_getElem h]

theorem readAt_eq {α : Type} (s : List α) (i : Int) (d : α) (h0 : 0 ≤ i)
    (h : i.toNat < s.length) : readAt s i = some (s.getD i.toNat d) := by
  unfold readAt
  rw [if_pos h0, getElem?_eq_getD s _ d h]

theorem writeAt_eq {α : Type} (s : List α) (i : Int) (x : α) (h0 : 0 ≤ i)
    (h : i.toNat < s.length) : writeAt s i x = some (s.set i.toNat x) := by
  unfold writeAt
  rw [if_pos ⟨h0, h⟩]

theorem readAt_vertex {α : Type} {g : Graph} (s : List α) (d : α) (hl : s.length = g.n + 1)
    {v : Int} (hv : g.IsVertex v) : readAt s v = some (s.getD v.toNat d) :=
  readAt_eq s v d (by unfold Graph.IsVertex at hv; omega) (toNat_lt_length hl hv)

theorem writeAt_vertex {α : Type} {g : Graph} (s : List α) (x : α) (hl : s.length = g.n + 1)
    {v : Int} (hv : g.IsVertex v) : writeAt s v x = some (s.set v.toNat x) :=
  writeAt_eq s v x (by unfold Graph.IsVertex at hv; omega) (toNat_lt_length hl hv)

theorem pqLessChecked_eq (pq : List Item) (i j : Nat) (hi : i < pq.length)
    (hj : j < pq.length) : pqLessChecked pq i j = some (pqLess pq i j) := by
  unfold pqLessChecked pqLess
  rw [getElem?_eq_getD pq i default hi, getElem?_eq_getD pq j default hj]
  rfl

theorem pqSwapChecked_eq (pq : List Item) (i j : Nat) (hi : i < pq.length)
    (hj : j < pq.length) : pqSwapChecked pq i j = some (pqSwap pq i j) := by
  unfold pqSwapChecked pqSwap
  rw [getElem?_eq_getD pq i default hi, getElem?_eq_getD pq j default hj]
  rfl

theorem heapUpChecked_eq (fuel : Nat) (pq : List Item) (j : Nat) (hj : j < pq.length) :
    heapUpChecked fuel pq j = some (heapUp fuel pq j) := by
  induction fuel generalizing pq j with
  | zero => rfl
  | succ fuel ih =>
    unfold heapUpChecked heapUp
    simp only
    have hi : (j - 1) / 2 < pq.length := by omega
    by_cases h1 : (j - 1) / 2 = j
    · rw [if_pos h1, if_pos (Or.inl h1)]
    · rw [if_neg h1, pqLessChecked_eq pq j _ hj hi]
      simp only [Option.some_bind]
      by_cases h2 : pqLess pq j ((j - 1) / 2) = false
      · rw [if_pos h2, if_pos (Or.inr h2)]
      · rw [if_neg h2, if_neg (by simp [h1, h2]), pqSwapChecked_eq pq _ j hi hj]
        simp only [Option.some_bind]
        exact ih _ _ (by rw [length_pqSwap]; exact hi)

theorem heapDownChecked_eq (fuel : Nat) (pq : List Item) (i n : Nat) (hi : i < pq.length)
    (hn : n ≤ pq.length) : heapDownChecked fuel pq i n = some (heapDown fuel pq i n) := by
  induction fuel generalizing pq i with
  | zero => rfl
  | succ fuel ih =>
    unfold heapDownChecked heapDown
    simp only
    by_cases h1 : 2 * i + 1 ≥ n
    · rw [if_pos h1, if_pos h1]
    · rw [if_neg h1, if_neg h1]
      have hj1 : 2 * i + 1 < pq.length := by omega
      have hsel : (if 2 * i + 1 + 1 < n then
            (pqLessChecked pq (2 * i + 1 + 1) (2 * i + 1)).bind fun lt =>
              some (if lt = true then 2 * i + 1 + 1 else 2 * i + 1)
          else some (2 * i + 1)) =
          some (if 2 * i + 1 + 1 < n ∧ pqLess pq (2 * i + 1 + 1) (2 * i + 1) = true
            then 2 * i + 1 + 1 else 2 * i + 1) := by
        by_cases h2 : 2 * i + 1 + 1 < n
        · rw [if_pos h2, pqLessChecked_eq pq _ _ (by omega) hj1]
          simp only [Option.some_bind, h2, true_and]
        · rw [if_neg h2]
          simp only [h2, false_and, if_false]
      rw [hsel]
      simp only [Option.some_bind]
      have hj : (if 2 * i + 1 + 1 < n ∧ pqLess pq (2 * i + 1 + 1) (2 * i + 1) = true
          then 2 * i + 1 + 1 else 2 * i + 1) < pq.length := by
        split
        · rename_i h; omega
        · exact hj1
      generalize (if 2 * i + 1 + 1 < n ∧ pqLess pq (2 * i + 1 + 1) (2 * i + 1) = true
          then 2 * i + 1 + 1 else 2 * i + 1) = j at hj ⊢
      rw [pqLessChecked_eq pq _ i hj hi]
      simp only [Option.some_bind]
      by_cases h3 : pqLess pq j i = false
      · rw [if_pos h3, if_pos h3]
      · rw [if_neg h3, if_neg h3, pqSwapChecked_eq pq i _ hi hj]
        simp only [Option.some_bind]
        exact ih _ _ (by rw [length_pqSwap]; exact hj) (by rw [length_pqSwap]; exact hn)

theorem heapInitChecked_nil : heapInitChecked [] = some (heapInit []) := by
  rw [heapInit_nil]
  rfl

theorem heapPushChecked_eq (pq : List Item) (x : Item) :
    heapPushChecked pq x = some (heapPush pq x) := by
  unfold heapPushChecked heapPush
  simp only
  exact heapUpChecked_eq _ _ _ (by simp)

theorem getLast_eq_getLastD {α : Type} (l : List α) (d : α) (hne : l ≠ []) :
    l[l.length - 1]? = some (l.getLastD d) := by
  rw [← List.getLast?_eq_getElem?, List.getLastD_eq_getLast?]
  cases h : l.getLast? with
  | none => exact absurd (List.getLast?_eq_none_iff.1 h) hne
  | some x => rfl

theorem heapPopChecked_eq (pq : List Item) (hne : pq ≠ []) :
    heapPopChecked pq = some (heapPop pq) := by
  have hlen : 0 < pq.length := List.length_pos.2 hne
  unfold heapPopChecked heapPop
  rw [if_neg (by omega)]
  simp only
  rw [pqSwapChecked_eq pq 0 _ hlen (by omega)]
  simp only [Option.some_bind]
  rw [heapDownChecked_eq _ _ 0 _ (by rw [length_pqSwap]; exact hlen)
    (by rw [length_pqSwap]; omega)]
  simp only [Option.some_bind]
  have hp : (heapDown (pq.length - 1) (pqSwap pq 0 (pq.length - 1)) 0 (pq.length - 1)).length =
      pq.length := by
    rw [(heapDown_perm _ _ _ _ (by rw [length_pqSwap]; omega)).length_eq, length_pqSwap]
  have hne1 : heapDown (pq.length - 1) (pqSwap pq 0 (pq.length - 1)) 0 (pq.length - 1) ≠ [] := by
    intro h
    rw [h] at hp
    simp at hp
    omega
  rw [getLast_eq_getLastD _ default hne1]
  rfl

theorem readAt_append_cons {α : Type} (p : List α) (x : α) (q : List α) :
    readAt (p ++ x :: q) (p.length : Int) = some x := by
  unfold readAt
  rw [if_pos (by omega), Int.toNat_ofNat, List.getElem?_append_right (le_refl _)]
  simp

theorem writeAt_append_cons {α : Type} (p : List α) (x y : α) (q : List α) :
    writeAt (p ++ x :: q) (p.length : Int) y = some (p ++ y :: q) := by
  unfold writeAt
  rw [if_pos ⟨by omega, by simp⟩]
  simp

theorem reverseLoopChecked_eq : ∀ (fuel : Nat) (m a b : List Int), m.length ≤ fuel →
    reverseLoopChecked fuel (a ++ m ++ b) (a.length : Int)
      ((a.length : Int) + (m.length : Int) - 1) = some (a ++ m.reverse ++ b) := by
  intro fuel
  induction fuel with
  | zero =>
    intro m a b hm
    have : m = [] := List.length_eq_zero.1 (by omega)
    subst this
    rfl
  | succ fuel ih =>
    intro m a b hm
    unfold reverseLoopChecked
    cases m with
    | nil =>
      rw [if_neg (by simp)]
      rfl
    | cons x m1 =>
      rcases List.eq_nil_or_concat m1 with h | ⟨m2, y, h⟩
      · subst h
        rw [if_neg (by simp)]
        rfl
      · rw [List.concat_eq_append] at h
        subst h
        have hlen : ((x :: (m2 ++ [y])).length : Int) = (m2.length : Int) + 2 := by
          simp only [List.length_cons, List.length_append, List.length_singleton, List.length_nil]
          push_cast
          omega
        have hm2 : m2.length ≤ fuel := by
          simp only [List.length_cons, List.length_append, List.length_singleton,
            List.length_nil] at hm
          omega
        have hjv : (a.length : Int) + ((x :: (m2 ++ [y])).length : Int) - 1 =
            ((a ++ x :: m2).length : Int) := by
          rw [hlen]
          simp only [List.length_cons, List.length_append]
          push_cast
          omega
        have hjv2 : (a.length : Int) + ((x :: (m2 ++ [y])).length : Int) - 1 =
            ((a ++ y :: m2).length : Int) := by
          rw [hjv]
          simp
        have e0 : a ++ (x :: (m2 ++ [y])) ++ b = a ++ x :: (m2 ++ y :: b) := by simp
        have e1 : a ++ (x :: (m2 ++ [y])) ++ b = (a ++ x :: m2) ++ y :: b := by simp
        have e2 : a ++ y :: (m2 ++ y :: b) = (a ++ y :: m2) ++ y :: b := by simp
        have hrj : readAt (a ++ (x :: (m2 ++ [y])) ++ b)
            ((a.length : Int) + ((x :: (m2 ++ [y])).length : Int) - 1) = some y := by
          rw [hjv, e1]
          exact readAt_append_cons _ _ _
        have hri : readAt (a ++ (x :: (m2 ++ [y])) ++ b) (a.length : Int) = some x := by
          rw [e0]
          exact readAt_append_cons _ _ _
        have hwi : writeAt (a ++ (x :: (m2 ++ [y])) ++ b) (a.length : Int) y =
            some (a ++ y :: (m2 ++ y :: b)) := by
          rw [e0]
          exact writeAt_append_cons _ _ _ _
        have hwj : writeAt (a ++ y :: (m2 ++ y :: b))
            ((a.length : Int) + ((x :: (m2 ++ [y])).length : Int) - 1) x =
            some ((a ++ [y]) ++ m2 ++ ([x] ++ b)) := by
          rw [hjv2, e2, writeAt_append_cons]
          simp
        have hi1 : (a.length : Int) + 1 = ((a ++ [y]).length : Int) := by simp
        have hj1 : (a.length : Int) + ((x :: (m2 ++ [y])).length : Int) - 1 - 1 =
            ((a ++ [y]).length : Int) + (m2.length : Int) - 1 := by
          rw [hlen]
          simp only [List.length_append, List.length_singleton]
          push_cast
          omega
        rw [if_pos (by rw [hlen]; omega), hrj, Option.some_bind, hri, Option.some_bind, hwi,
          Option.some_bind, hwj, Option.some_bind, hi1, hj1, ih m2 (a ++ [y]) ([x] ++ b) hm2]
        simp

theorem reverseChecked_eq (path : List Int) : reverseChecked path = some path.reverse := by
  unfold reverseChecked
  have := reverseLoopChecked_eq path.length path [] [] (le_refl _)
  simpa using this

/-! ## The checked SPFA stays in range -/

theorem hasNegativeEdgeRows_eq (g : Graph) : ∀ (is : List Nat), (∀ i ∈ is, i < g.adj.length) →
    hasNegativeEdgeRows g is =
      some (is.any fun i => (g.adj.getD i []).any fun e => decide (e.Weight < 0)) := by
  intro is
  induction is with
  | nil => intro _; rfl
  | cons i is ih =>
    intro h
    unfold hasNegativeEdgeRows
    rw [readAt_eq g.adj (i : Nat) [] (by omega) (by simpa using h i (List.mem_cons_self _ _))]
    simp only [Option.some_bind, Int.toNat_ofNat, List.any_cons]
    by_cases h1 : ((g.adj.getD i []).any fun e => decide (e.Weight < 0)) = true
    · rw [if_pos h1, h1]
      rfl
    · rw [if_neg h1, ih (fun x hx => h x (List.mem_cons_of_mem _ hx))]
      simp only [Bool.not_eq_true] at h1
      rw [h1]
      rfl

theorem hasNegativeEdgeChecked_eq (g : Graph) (hlen : g.adj.length = g.n + 1) :
    HasNegativeEdgeChecked g = some (HasNegativeEdge g) := by
  unfold HasNegativeEdgeChecked HasNegativeEdge
  exact hasNegativeEdgeRows_eq g _ (fun i hi => by rw [List.mem_range'_1] at hi; omega)

theorem spfaRelaxChecked_eq {g : Graph} (u : Int) (st : SPFAState) (e : Edge)
    (hu : g.IsVertex u) (he : g.IsVertex e.To) (hb : SBase g st) :
    spfaRelaxChecked g.n u st e = some (spfaRelax g.n u st e) := by
  obtain ⟨b1, b2, b3, b4, _⟩ := hb
  unfold spfaRelaxChecked spfaRelax
  have hpc : ∀ x : Nat, readAt (st.pushCount.set e.To.toNat x) e.To =
      some ((st.pushCount.set e.To.toNat x).getD e.To.toNat 0) :=
    fun x => readAt_vertex (g := g) _ 0 (by rw [List.length_set]; exact b4) he
  simp only [readAt_vertex st.dist 0 b1 hu, readAt_vertex st.dist 0 b1 he,
    writeAt_vertex st.dist _ b1 he, writeAt_vertex st.parent _ b2 he,
    readAt_vertex st.inQueue false b3 he, writeAt_vertex st.inQueue _ b3 he,
    readAt_vertex st.pushCount 0 b4 he, writeAt_vertex st.pushCount _ b4 he, hpc,
    Option.some_bind]
  split_ifs <;> first | rfl | (exfalso; tauto)

theorem spfaEdgesChecked_eq {g : Graph} (u : Int) (hu : g.IsVertex u) :
    ∀ (es : List Edge) (st : SPFAState), (∀ e ∈ es, g.IsVertex e.To) → SBase g st →
      spfaEdgesChecked g.n u st es = some (spfaEdges g.n u st es) := by
  intro es
  induction es with
  | nil => intro st _ _; rfl
  | cons e es ih =>
    intro st hes hb
    have he := hes e (List.mem_cons_self _ _)
    unfold spfaEdgesChecked spfaEdges
    rw [spfaRelaxChecked_eq u st e hu he hb]
    have hbase := spfaRelax_base u st e he hb
    cases hr : spfaRelax g.n u st e with
    | none => rfl
    | some st1 =>
      rw [hr] at hbase
      simp only
      exact ih st1 (fun x hx => hes x (List.mem_cons_of_mem _ hx)) hbase.1

theorem spfaLoopChecked_eq {g : Graph} (hwf : g.WF) (fuel : Nat) (st : SPFAState)
    (hb : SBase g st) : spfaLoopChecked g fuel st = Run.ofFuel (spfaLoop g fuel st) := by
  induction fuel generalizing st with
  | zero =>
    unfold spfaLoopChecked spfaLoop
    cases hq : st.queue with
    | nil => rfl
    | cons u rest => rfl
  | succ fuel ih =>
    unfold spfaLoopChecked spfaLoop
    cases hq : st.queue with
    | nil => rfl
    | cons u rest =>
      simp only
      obtain ⟨hb1, _, hu⟩ := spfaDequeue_base st u rest hq hb
      have hrd : readAt g.adj u = some (g.adjAt u) := readAt_vertex g.adj [] hwf.1 hu
      rw [writeAt_vertex st.inQueue false hb.2.2.1 hu, hrd]
      simp only
      have hes : ∀ e ∈ g.adjAt u, g.IsVertex e.To := fun e he => adjAt_isVertex hwf he
      have heq := spfaEdgesChecked_eq u hu (g.adjAt u) _ hes hb1
      have hbase := spfaEdges_base u (g.adjAt u) _ hes hb1
      rw [heq]
      cases hr : spfaEdges g.n u
          { st with queue := rest, inQueue := st.inQueue.set u.toNat false }
          (g.adjAt u) with
      | none => rfl
      | some st1 =>
        rw [hr] at hbase
        simp only
        exact ih st1 hbase.1

theorem spfaInitChecked_eq {g : Graph} {start : Int} (hs : g.IsVertex start) :
    spfaInitChecked g start = some (spfaInit g start) := by
  unfold spfaInitChecked spfaInit
  rw [writeAt_vertex (g := g) _ _ (by simp) hs, writeAt_vertex (g := g) _ _ (by simp) hs,
    writeAt_vertex (g := g) _ _ (by simp) hs]
  rfl

theorem buildPathChecked_eq {g : Graph} {parent : List Int} (hp : ParentOK g parent)
    (start : Int) : ∀ (fuel : Nat) (at_ : Int) (path : List Int), at_ = -1 ∨ g.IsVertex at_ →
      buildPathChecked parent start fuel at_ path =
        Run.ofFuel (buildPath parent start fuel at_ path) := by
  intro fuel
  induction fuel with
  | zero => intro at_ path _; rfl
  | succ fuel ih =>
    intro at_ path hat
    unfold buildPathChecked buildPath
    by_cases h1 : at_ = -1
    · rw [if_pos h1, if_pos h1]; rfl
    · rw [if_neg h1, if_neg h1]
      by_cases h2 : at_ = start
      · rw [if_pos h2, if_pos h2]; rfl
      · rw [if_neg h2, if_neg h2]
        have hv : g.IsVertex at_ := by
          rcases hat with h | h
          · exact absurd h h1
          · exact h
        rw [readAt_vertex parent (-1) hp.1 hv]
        simp only
        exact ih _ _ (hp.2 _ (getD_mem parent _ (-1) (toNat_lt_length hp.1 hv)))

theorem parentOK_set {g : Graph} {parent : List Int} (hp : ParentOK g parent) (i : Nat)
    {u : Int} (hu : g.IsVertex u) : ParentOK g (parent.set i u) := by
  refine ⟨by rw [List.length_set]; exact hp.1, fun x hx => ?_⟩
  rcases mem_set_imp _ _ _ _ hx with h | h
  · rw [h]; exact Or.inr hu
  · exact hp.2 x h

theorem parentOK_replicate (g : Graph) : ParentOK g (List.replicate (g.n + 1) (-1)) :=
  ⟨by simp, fun x hx => Or.inl (List.eq_of_mem_replicate hx)⟩

/-- Every state the loop of SPFA returns has parent pointers that are `-1` or vertices. -/
theorem spfaLoop_parentOK {g : Graph} {start : Int} (hwf : g.WF) (hs : g.IsVertex start)
    {fuel : Nat} {st : SPFAState} (hrun : spfaLoop g fuel (spfaInit g start) = some (some st)) :
    SBase g st ∧ ParentOK g st.parent := by
  obtain ⟨r, hloop, hpost⟩ := spfaLoop_total g hwf
    (fun s => ParentOK g s.parent)
    (fun s => SBase g s ∧ ParentOK g s.parent)
    True
    (fun s hbs his _ => ⟨hbs, his⟩)
    (fun s u rest hbs his hq => by
      obtain ⟨hb1, _, hu⟩ := spfaDequeue_base s u rest hq hbs
      exact spfaEdges_rule g u (g.adjAt u)
        (fun _ s1 => ParentOK g s1.parent) True
        (fun e he => adjAt_isVertex hwf he)
        (fun done e rest1 s1 hsplit hbs1 hin => by
          have hto : g.IsVertex e.To := adjAt_isVertex hwf (u := u) (by rw [hsplit]; simp)
          rcases spfaRelax_cases u s1 e hto hbs1 with ⟨h1, _⟩ | ⟨st1, h1, _, _, hup, _⟩ |
              ⟨h1, _⟩
          · rw [h1]; trivial
          · rw [h1]
            simp only
            rw [hup.2.1]
            exact parentOK_set hin _ hu
          · rw [h1]; exact hin)
        (g.adjAt u) [] _ rfl hb1 his)
    (max fuel (sMeasure g.n (spfaInit g start))) _ (spfaInit_base hs)
    (parentOK_replicate g) (le_max_right _ _)
  have := spfaLoop_mono _ _ _ _ hrun (max fuel (sMeasure g.n (spfaInit g start)))
    (le_max_left _ _)
  rw [this] at hloop
  simp only [Option.some.injEq] at hloop
  subst hloop
  exact hpost

/-- Under the graph invariant, for `start` and `end` in `[1, n]`, the checked
`SPFA` never leaves the range of a slice and computes what `SPFA` computes. -/
theorem spfaChecked_eq {g : Graph} (hwf : g.WF) {start end_ : Int} (hs : g.IsVertex start)
    (he : g.IsVertex end_) (fuel : Nat) :
    SPFAChecked fuel g start end_ = Run.ofFuel (SPFA fuel g start end_) := by
  unfold SPFAChecked SPFA
  rw [spfaInitChecked_eq hs]
  simp only
  rw [spfaLoopChecked_eq hwf fuel _ (spfaInit_base hs)]
  cases hrun : spfaLoop g fuel (spfaInit g start) with
  | none => rfl
  | some r =>
    cases r with
    | none => rfl
    | some st =>
      obtain ⟨hb, hp⟩ := spfaLoop_parentOK hwf hs hrun
      simp only [Run.ofFuel]
      rw [readAt_vertex st.dist 0 hb.1 he]
      simp only
      by_cases hinf : st.dist.getD end_.toNat 0 = INF
      · rw [if_pos hinf, if_pos hinf]
      · rw [if_neg hinf, if_neg hinf, buildPathChecked_eq hp start fuel end_ [] (Or.inr he)]
        cases buildPath st.parent start fuel end_ [] with
        | none => rfl
        | some path =>
          simp only [Run.ofFuel]
          rw [reverseChecked_eq]

/-! ## The checked Dijkstra stays in range -/

theorem dijkstraRelaxChecked_eq {g : Graph} (u : Int) (st : DState) (e : Edge)
    (hu : g.IsVertex u) (he : g.IsVertex e.To) (hb : DBase g st) :
    dijkstraRelaxChecked u st e = some (dijkstraRelax u st e) := by
  obtain ⟨b1, b2, _⟩ := hb
  unfold dijkstraRelaxChecked dijkstraRelax
  simp only [readAt_vertex st.dist 0 b1 hu, readAt_vertex st.dist 0 b1 he,
    writeAt_vertex st.dist _ b1 he, writeAt_vertex st.parent _ b2 he, heapPushChecked_eq,
    Option.some_bind]
  split_ifs <;> rfl

theorem dijkstraEdgesChecked_eq {g : Graph} (u : Int) (hu : g.IsVertex u) :
    ∀ (es : List Edge) (st : DState), (∀ e ∈ es, g.IsVertex e.To) → DBase g st →
      dijkstraEdgesChecked u st es = some (es.foldl (dijkstraRelax u) st) := by
  intro es
  induction es with
  | nil => intro st _ _; rfl
  | cons e es ih =>
    intro st hes hb
    have he := hes e (List.mem_cons_self _ _)
    unfold dijkstraEdgesChecked
    rw [dijkstraRelaxChecked_eq u st e hu he hb]
    simp only [Option.some_bind, List.foldl_cons]
    exact ih _ (fun x hx => hes x (List.mem_cons_of_mem _ hx)) (dijkstraRelax_base u st e he hb).1

theorem dijkstraLoopChecked_eq {g : Graph} (hwf : g.WF) (end_ : Int) (fuel : Nat) (st : DState)
    (hb : DBase g st) :
    dijkstraLoopChecked g end_ fuel st = Run.ofFuel (dijkstraLoop g end_ fuel st) := by
  induction fuel generalizing st with
  | zero =>
    unfold dijkstraLoopChecked dijkstraLoop
    split <;> rfl
  | succ fuel ih =>
    unfold dijkstraLoopChecked dijkstraLoop
    by_cases hlen : st.pq.length = 0
    · rw [if_pos hlen, if_pos hlen]; rfl
    · rw [if_neg hlen, if_neg hlen]
      have hne : st.pq ≠ [] := fun h => hlen (by rw [h]; rfl)
      obtain ⟨hb1, _, hv⟩ := heapPop_base st hne hb
      simp only
      rw [heapPopChecked_eq st.pq hne]
      rcases hpop : heapPop st.pq with ⟨item, pq1⟩
      rw [hpop] at hb1 hv
      simp only at hb1 hv ⊢
      by_cases hend : item.vertex = end_
      · rw [if_pos hend, if_pos hend]; rfl
      · rw [if_neg hend, if_neg hend, readAt_vertex st.dist 0 hb.1 hv]
        simp only
        by_cases hst : item.distance > st.dist.getD item.vertex.toNat 0
        · rw [if_pos hst, if_pos hst]
          exact ih _ hb1
        · rw [if_neg hst, if_neg hst]
          have hrd : readAt g.adj item.vertex = some (g.adjAt item.vertex) :=
            readAt_vertex g.adj [] hwf.1 hv
          rw [hrd]
          simp only
          have hes : ∀ e ∈ g.adjAt item.vertex, g.IsVertex e.To :=
            fun e he => adjAt_isVertex hwf he
          rw [dijkstraEdgesChecked_eq item.vertex hv _ _ hes hb1]
          simp only
          exact ih _ (dijkstraRelax_foldl_base item.vertex _ _ hes hb1).1

theorem dijkstraInitChecked_eq {g : Graph} {start : Int} (hs : g.IsVertex start) :
    dijkstraInitChecked g start = some (dijkstraInit g start) := by
  unfold dijkstraInitChecked dijkstraInit
  rw [writeAt_vertex (g := g) _ _ (by simp) hs, heapInitChecked_nil]
  simp only [Option.some_bind, heapPushChecked_eq]

theorem dijkstraRelax_parentOK {g : Graph} (u : Int) (hu : g.IsVertex u) (st : DState)
    (e : Edge) (hp : ParentOK g st.parent) : ParentOK g (dijkstraRelax u st e).parent := by
  unfold dijkstraRelax
  simp only
  split
  · exact parentOK_set hp _ hu
  · exact hp

theorem dijkstraRelax_foldl_parentOK {g : Graph} (u : Int) (hu : g.IsVertex u) :
    ∀ (es : List Edge) (st : DState), ParentOK g st.parent →
      ParentOK g (es.foldl (dijkstraRelax u) st).parent := by
  intro es
  induction es with
  | nil => intro st hp; exact hp
  | cons e es ih =>
    intro st hp
    simp only [List.foldl_cons]
    exact ih _ (dijkstraRelax_parentOK u hu st e hp)

/-- Every state the loop of Dijkstra returns has parent pointers that are `-1` or vertices. -/
theorem dijkstraLoop_parentOK {g : Graph} {start : Int} (hwf : g.WF) (hs : g.IsVertex start)
    (end_ : Int) {fuel : Nat} {st : DState}
    (hrun : dijkstraLoop g end_ fuel (dijkstraInit g start) = some st) :
    DBase g st ∧ ParentOK g st.parent := by
  have hinf : (0 : Int) < INF := INF_pos
  obtain ⟨hb0, _⟩ := dinv_init (g := g) hs hinf INF_le (List.replicate (g.n + 1) (-1))
    (by simp)
  rw [← dijkstraInit_eq] at hb0
  obtain ⟨st1, hloop, hpost⟩ := dijkstraLoop_total g hwf end_
    (fun s => ParentOK g s.parent)
    (fun s => DBase g s ∧ ParentOK g s.parent)
    (fun s hbs his _ => ⟨hbs, his⟩)
    (fun s hbs his hne _ => ⟨(heapPop_base s hne hbs).1, his⟩)
    (fun s _ his _ _ _ => his)
    (fun s hbs his hne _ _ =>
      dijkstraRelax_foldl_parentOK _ (heapPop_base s hne hbs).2.2 _ _ his)
    (max fuel (dMeasure (dijkstraInit g start))) _ hb0 (parentOK_replicate g)
    (le_max_right _ _)
  have := dijkstraLoop_mono _ _ _ _ _ hrun (max fuel (dMeasure (dijkstraInit g start)))
    (le_max_left _ _)
  rw [this] at hloop
  simp only [Option.some.injEq] at hloop
  subst hloop
  exact hpost

/-- Under the graph invariant, for `start` and `end` in `[1, n]`, the checked
`Dijkstra` never leaves the range of a slice and computes what `Dijkstra` computes. -/
theorem dijkstraChecked_eq {g : Graph} (hwf : g.WF) {start end_ : Int} (hs : g.IsVertex start)
    (he : g.IsVertex end_) (fuel : Nat) :
    DijkstraChecked fuel g start end_ = Run.ofFuel (Dijkstra fuel g start end_) := by
  have hb0 : DBase g (dijkstraInit g start) := by
    rw [dijkstraInit_eq]
    exact (dinv_init (g := g) hs INF_pos INF_le (List.replicate (g.n + 1) (-1)) (by simp)).1
  unfold DijkstraChecked Dijkstra
  rw [dijkstraInitChecked_eq hs]
  simp only
  rw [dijkstraLoopChecked_eq hwf end_ fuel _ hb0]
  cases hrun : dijkstraLoop g end_ fuel (dijkstraInit g start) with
  | none => rfl
  | some st =>
    obtain ⟨hb, hp⟩ := dijkstraLoop_parentOK hwf hs end_ hrun
    simp only [Run.ofFuel]
    rw [readAt_vertex st.dist 0 hb.1 he]
    simp only
    by_cases hinf : st.dist.getD end_.toNat 0 = INF
    · rw [if_pos hinf, if_pos hinf]
    · rw [if_neg hinf, if_neg hinf, buildPathChecked_eq hp start fuel end_ [] (Or.inr he)]
      cases buildPath st.parent start fuel end_ [] with
      | none => rfl
      | some path =>
        simp only [Run.ofFuel]
        rw [reverseChecked_eq]

/-- On a graph that satisfies the graph invariant the checked `FindShortestPath`
never leaves the range of a slice, for all integers `start` and `end`. -/
theorem findShortestPathChecked_eq {g : Graph} (hwf : g.WF) (start end_ : Int) (fuel : Nat) :
    FindShortestPathChecked fuel g start end_ =
      Run.ofFuel (FindShortestPath fuel g start end_) := by
  unfold FindShortestPathChecked
  by_cases hr : start ≤ 0 ∨ start > (g.n : Int) ∨ end_ ≤ 0 ∨ end_ > (g.n : Int)
  · rw [if_pos hr]
    have hv : ¬ (g.IsVertex start ∧ g.IsVertex end_) := by
      unfold Graph.IsVertex; omega
    rw [findShortestPath_invalid fuel g start end_ hv]
    rfl
  · rw [if_neg hr]
    have hs : g.IsVertex start := by unfold Graph.IsVertex; omega
    have he : g.IsVertex end_ := by unfold Graph.IsVertex; omega
    rw [hasNegativeEdgeChecked_eq g hwf.1, findShortestPath_eq fuel g start end_ hs he]
    cases hneg : HasNegativeEdge g with
    | true =>
      simp only [if_true]
      exact spfaChecked_eq hwf hs he fuel
    | false =>
      simp only [Bool.false_eq_true, if_false]
      exact dijkstraChecked_eq hwf hs he fuel

/-! ## The number of enqueues of SPFA -/

theorem spfaRelaxEnq_spec {g : Graph} (u : Int) (st : SPFAState) (e : Edge)
    (he : g.IsVertex e.To) (hb : SBase g st) (h0 : st.pushCount.getD 0 0 = 0) :
    (spfaRelaxEnq g.n u st st.pushCount.sum e).1 = spfaRelax g.n u st e ∧
    ((spfaRelaxEnq g.n u st st.pushCount.sum e).1 = none →
      (spfaRelaxEnq g.n u st st.pushCount.sum e).2 = st.pushCount.sum + 1) ∧
    (∀ st1, (spfaRelaxEnq g.n u st st.pushCount.sum e).1 = some st1 →
      (spfaRelaxEnq g.n u st st.pushCount.sum e).2 = st1.pushCount.sum ∧
      st1.pushCount.getD 0 0 = 0) := by
  have hlt : e.To.toNat < st.pushCount.length := toNat_lt_length hb.2.2.2.1 he
  have hne : e.To.toNat ≠ 0 := by unfold Graph.IsVertex at he; omega
  unfold spfaRelaxEnq spfaRelax
  simp only
  split_ifs with h1 h2 h3
  · exact ⟨rfl, fun _ => rfl, fun st1 h => by simp at h⟩
  · refine ⟨rfl, fun h => by simp at h, fun st1 h => ?_⟩
    simp only [Option.some.injEq] at h
    subst h
    simp only
    rw [sum_set_succ _ _ hlt, getD_set_other _ _ _ _ _ hne]
    exact ⟨rfl, h0⟩
  · refine ⟨rfl, fun h => by simp at h, fun st1 h => ?_⟩
    simp only [Option.some.injEq] at h
    subst h
    exact ⟨rfl, h0⟩
  · refine ⟨rfl, fun h => by simp at h, fun st1 h => ?_⟩
    simp only [Option.some.injEq] at h
    subst h
    exact ⟨rfl, h0⟩

theorem spfaEdgesEnq_spec {g : Graph} (u : Int) (es : List Edge) (st : SPFAState)
    (he : ∀ e ∈ es, g.IsVertex e.To) (hb : SBase g st) (h0 : st.pushCount.getD 0 0 = 0) :
    (spfaEdgesEnq g.n u st st.pushCount.sum es).1 = spfaEdges g.n u st es ∧
    ((spfaEdgesEnq g.n u st st.pushCount.sum es).1 = none →
      (spfaEdgesEnq g.n u st st.pushCount.sum es).2 ≤ g.n * g.n + 1) ∧
    (∀ st1, (spfaEdgesEnq g.n u st st.pushCount.sum es).1 = some st1 →
      (spfaEdgesEnq g.n u st st.pushCount.sum es).2 = st1.pushCount.sum ∧
      st1.pushCount.getD 0 0 = 0) := by
  induction es generalizing st with
  | nil =>
    unfold spfaEdgesEnq
    refine ⟨rfl, fun h => by simp at h, fun st1 h => ?_⟩
    simp only [Option.some.injEq] at h
    subst h
    exact ⟨rfl, h0⟩
  | cons e es ih =>
    have hto : g.IsVertex e.To := he e (List.mem_cons_self _ _)
    obtain ⟨r1, r2, r3⟩ := spfaRelaxEnq_spec u st e hto hb h0
    have hbase := spfaRelax_base u st e hto hb
    unfold spfaEdgesEnq spfaEdges
    rw [← r1] at hbase ⊢
    rcases hp : spfaRelaxEnq g.n u st st.pushCount.sum e with ⟨o, c1⟩
    rw [hp] at r2 r3 hbase
    cases o with
    | none =>
      simp only at r2 ⊢
      refine ⟨trivial, fun _ => ?_, fun st1 h => by cases h⟩
      rw [r2 trivial]
      have := sum_le_sq _ _ hb.2.2.2.1 h0 hb.2.2.2.2.2.2.2
      omega
    | some st1 =>
      simp only at r3 hbase ⊢
      obtain ⟨hc, h01⟩ := r3 st1 rfl
      rw [hc]
      exact ih st1 (fun e1 he1 => he e1 (List.mem_cons_of_mem _ he1)) hbase.1 h01

theorem spfaLoopEnq_spec {g : Graph} (hwf : g.WF) :
    ∀ fuel st, SBase g st → st.pushCount.getD 0 0 = 0 → sMeasure g.n st ≤ fuel →
      ∃ r c, spfaLoopEnq g fuel st st.pushCount.sum = some (r, c) ∧
        spfaLoop g fuel st = some r ∧ c ≤ g.n * g.n + 1 ∧
        ∀ st1, r = some st1 → c = st1.pushCount.sum ∧ c ≤ g.n * g.n := by
  intro fuel
  induction fuel with
  | zero =>
    intro st hb h0 hm
    have hq : st.queue = [] := by
      unfold sMeasure at hm
      exact List.length_eq_zero.1 (by omega)
    have hsum := sum_le_sq _ _ hb.2.2.2.1 h0 hb.2.2.2.2.2.2.2
    unfold spfaLoopEnq spfaLoop
    rw [hq]
    refine ⟨some st, _, rfl, rfl, by omega, fun st1 h => ?_⟩
    simp only [Option.some.injEq] at h
    subst h
    exact ⟨rfl, hsum⟩
  | succ fuel ih =>
    intro st hb h0 hm
    have hsum := sum_le_sq _ _ hb.2.2.2.1 h0 hb.2.2.2.2.2.2.2
    unfold spfaLoopEnq spfaLoop
    cases hq : st.queue with
    | nil =>
      refine ⟨some st, _, rfl, rfl, by omega, fun st1 h => ?_⟩
      simp only [Option.some.injEq] at h
      subst h
      exact ⟨rfl, hsum⟩
    | cons u rest =>
      simp only
      obtain ⟨hb1, hm1, hu⟩ := spfaDequeue_base st u rest hq hb
      have h1 := spfaEdges_base u (g.adjAt u) _ (fun e he => adjAt_isVertex hwf he) hb1
      obtain ⟨e1, e2, e3⟩ := spfaEdgesEnq_spec u (g.adjAt u)
        (SPFAState.mk st.dist st.parent (st.inQueue.set u.toNat false) rest st.pushCount)
        (fun e he => adjAt_isVertex hwf he) hb1 h0
      simp only at e1 e2 e3
      rw [← e1] at h1 ⊢
      rcases hp : spfaEdgesEnq g.n u
        (SPFAState.mk st.dist st.parent (st.inQueue.set u.toNat false) rest st.pushCount)
        st.pushCount.sum (g.adjAt u) with ⟨o, c1⟩
      rw [hp] at e2 e3 h1
      cases o with
      | none =>
        simp only at e2 ⊢
        exact ⟨none, c1, rfl, rfl, e2 trivial, fun st1 h => by cases h⟩
      | some st1 =>
        simp only at e3 h1 ⊢
        obtain ⟨hc, h01⟩ := e3 st1 rfl
        rw [hc]
        exact ih st1 h1.1 h01 (by omega)

theorem spfaLoopEnq_mono (g : Graph) (fuel : Nat) (st : SPFAState) (c : Nat)
    (r : Option SPFAState × Nat) (h : spfaLoopEnq g fuel st c = some r) (fuel2 : Nat)
    (hle : fuel ≤ fuel2) : spfaLoopEnq g fuel2 st c = some r := by
  induction fuel generalizing st c fuel2 with
  | zero =>
    unfold spfaLoopEnq at h ⊢
    cases hq : st.queue with
    | nil => rw [hq] at h; exact h
    | cons u rest => rw [hq] at h; simp at h
  | succ fuel ih =>
    unfold spfaLoopEnq at h ⊢
    cases hq : st.queue with
    | nil => rw [hq] at h; exact h
    | cons u rest =>
      rw [hq] at h
      obtain ⟨f2, rfl⟩ : ∃ f2, fuel2 = f2 + 1 := ⟨fuel2 - 1, by omega⟩
      simp only at h ⊢
      rcases hp : spfaEdgesEnq g.n u
        (SPFAState.mk st.dist st.parent (st.inQueue.set u.toNat false) rest st.pushCount)
        c (g.adjAt u) with ⟨o, c1⟩
      rw [hp] at h
      cases o with
      | none => exact h
      | some st1 => exact ih st1 c1 h f2 (by omega)

/-- Whatever the weights, the relaxation loop of SPFA stops after at most
`n * n + 1` enqueues, the initial one included, on either exit. -/
theorem spfaEnqueues_bound {g : Graph} {start : Int} (hwf : g.WF) (hs : g.IsVertex start) :
    ∃ r c, Returns (fun fuel => spfaEnqueues fuel g start) (r, c) ∧
      Returns (fun fuel => spfaLoop g fuel (spfaInit g start)) r ∧
      c ≤ g.n * g.n + 1 ∧
      ∀ st, r = some st → c = st.pushCount.sum ∧ c ≤ g.n * g.n := by
  have hs1 := hs
  unfold Graph.IsVertex at hs1
  have hlen : start.toNat < (List.replicate (g.n + 1) 0).length := by
    simp only [List.length_replicate]
    omega
  have h0 : (spfaInit g start).pushCount.getD 0 0 = 0 := by
    unfold spfaInit
    simp only
    rw [getD_set_other _ _ _ _ _ (by omega), List.getD_eq_getElem _ _ (by simp)]
    simp
  have hsum : (spfaInit g start).pushCount.sum = 1 := by
    have h := sum_set_succ (List.replicate (g.n + 1) 0) start.toNat hlen
    rw [List.getD_eq_getElem _ _ hlen] at h
    simp only [List.getElem_replicate, List.sum_replicate, smul_eq_mul, mul_zero,
      zero_add] at h
    unfold spfaInit
    exact h
  obtain ⟨r, c, h1, h2, h3, h4⟩ := spfaLoopEnq_spec hwf (sMeasure g.n (spfaInit g start))
    (spfaInit g start) (spfaInit_base hs) h0 (le_refl _)
  rw [hsum] at h1
  exact ⟨r, c, ⟨sMeasure g.n (spfaInit g start), fun fuel hfuel =>
      spfaLoopEnq_mono _ _ _ _ _ h1 fuel hfuel⟩,
    ⟨sMeasure g.n (spfaInit g start), fun fuel hfuel => spfaLoop_mono _ _ _ _ h2 fuel hfuel⟩,
    h3, h4⟩

/-! ## C1 -/

/-- C1: on a well-formed graph whose edges out of `[1, n]` all have weight `≥ 0`
and whose walks from `start` with at most `n` edges weigh less than the `10^18`
sentinel, for `start`, `end` in `[1, n]` with `end` reachable, `Dijkstra`
returns (with enough fuel) `ok = true` and a distance that is the minimum total
weight over all walks from `start` to `end`. -/
theorem dijkstra_shortest_distance (g : Graph) (start end_ : Int) (hwf : g.WF)
    (hnn : g.NonNeg) (hs : g.IsVertex start) (he : g.IsVertex end_)
    (hreach : Reachable g start end_) (hsmall : BelowINF g start) :
    ∃ path d, Returns (fun fuel => Dijkstra fuel g start end_) (path, d, true) ∧
      IsShortestDist g start end_ d := by
  obtain ⟨vs, d, hret, hwalk, hmin⟩ :=
    dijkstra_returns_reachable hwf hnn hs he hsmall hreach
  obtain ⟨k, hk, _⟩ := walk_of_walkV hwalk
  exact ⟨vs.reverse, d, hret, ⟨k, hk⟩, hmin⟩

theorem dijkstra_shortest_distance_witness :
    ∃ path d, Returns (fun fuel => Dijkstra fuel mainGraph1 1 5) (path, d, true) ∧
      IsShortestDist mainGraph1 1 5 d :=
  dijkstra_shortest_distance mainGraph1 1 5 (by decide)
    ((hasNegativeEdge_false_iff mainGraph1).1 (by decide)) (by decide) (by decide)
    ⟨5, 2, Walk.snoc (v := 3) (w := 3) ⟨5, 2⟩
      (Walk.snoc (v := 1) (w := 0) ⟨3, 3⟩ Walk.nil (by decide)) (by decide)⟩
    (belowINF_of_weightsWithin (W := 10) (by decide) (by decide) 1)

/-! ## C5 -/

/-- C5: on a well-formed graph, for `start`, `end` in `[1, n]` with no walk
from `start` to `end`, `FindShortestPath` returns (with enough fuel)
`(nil, -1, false)`, on the Dijkstra route and on the SPFA route alike; no
assumption on the weights or on negative cycles is needed. -/
theorem findShortestPath_unreachable (g : Graph) (start end_ : Int) (hwf : g.WF)
    (hs : g.IsVertex start) (he : g.IsVertex end_) (hnp : ¬ Reachable g start end_) :
    Returns (fun fuel => FindShortestPath fuel g start end_) ([], -1, false) ∧
    Returns (fun fuel => SPFA fuel g start end_) ([], -1, false) ∧
    Returns (fun fuel => Dijkstra fuel g start end_) ([], -1, false) := by
  refine ⟨?_, spfa_unreachable hwf hs he hnp, dijkstra_unreachable hwf hs he hnp⟩
  by_cases hneg : HasNegativeEdge g = true
  · obtain ⟨f0, hf0⟩ := spfa_unreachable hwf hs he hnp
    refine ⟨f0, fun fuel hfuel => ?_⟩
    show FindShortestPath fuel g start end_ = _
    rw [findShortestPath_eq fuel g start end_ hs he, if_pos hneg]
    exact hf0 fuel hfuel
  · obtain ⟨f0, hf0⟩ := dijkstra_unreachable hwf hs he hnp
    refine ⟨f0, fun fuel hfuel => ?_⟩
    show FindShortestPath fuel g start end_ = _
    rw [findShortestPath_eq fuel g start end_ hs he, if_neg hneg]
    exact hf0 fuel hfuel

theorem findShortestPath_unreachable_witness :
    Returns (fun fuel => FindShortestPath fuel mainGraph1 5 1) ([], -1, false) ∧
    Returns (fun fuel => SPFA fuel mainGraph1 5 1) ([], -1, false) ∧
    Returns (fun fuel => Dijkstra fuel mainGraph1 5 1) ([], -1, false) :=
  findShortestPath_unreachable mainGraph1 5 1 (by decide) (by decide) (by decide)
    (fun h => by
      obtain ⟨w, k, hk⟩ := h
      have := walk_eq_of_no_edges (g := mainGraph1) (s := 5) (by decide) hk
      omega)

/-! ## C2 -/

/-- C2 (as stated, refuted): on the graph with the single edge `1 → 2` of weight
`10^18` there is no negative cycle and `2` is reachable from `1`, yet `SPFA(1, 2)`
returns `(nil, -1, false)`, because a distance equal to the sentinel counts as
"not reached". -/
theorem spfa_sentinel_counterexample :
    sentinelGraph.WF ∧ sentinelGraph.IsVertex 1 ∧ sentinelGraph.IsVertex 2 ∧
    ¬ NegCycleFrom sentinelGraph 1 ∧ Reachable sentinelGraph 1 2 ∧
    Returns (fun fuel => SPFA fuel sentinelGraph 1 2) ([], -1, false) :=
  ⟨by decide, by decide, by decide,
    not_negCycleFrom_of_nonNeg (by decide)
      ((hasNegativeEdge_false_iff sentinelGraph).1 (by decide)) (by decide),
    ⟨1000000000000000000, 1,
      Walk.snoc (v := 1) (w := 0) ⟨2, 1000000000000000000⟩ Walk.nil (by decide)⟩,
    returns_of_mono _ (SPFA_mono sentinelGraph 1 2) 5 _ (by decide)⟩

/-- C2 (amended): on a well-formed graph without negative cycle reachable from
`start`, whose walks from `start` with at most `n` edges all weigh strictly
between `-10^18` and `10^18`, for `start`, `end` in `[1, n]` with `end`
reachable, `SPFA` returns `ok = true` and the minimum total weight over all
walks from `start` to `end`; its loop runs until the queue is empty (the
negative-cycle exit is not taken) and ends with every push count at most `n`. -/
theorem spfa_shortest_distance (g : Graph) (start end_ : Int) (hwf : g.WF)
    (hs : g.IsVertex start) (he : g.IsVertex end_) (hnc : ¬ NegCycleFrom g start)
    (hreach : Reachable g start end_) (hbelow : BelowINF g start)
    (habove : AboveNegINF g start) :
    ∃ path d, Returns (fun fuel => SPFA fuel g start end_) (path, d, true) ∧
      IsShortestDist g start end_ d ∧
      ∃ st, Returns (fun fuel => spfaLoop g fuel (spfaInit g start)) (some st) ∧
        ∀ c ∈ st.pushCount, c ≤ g.n := by
  obtain ⟨vs, d, hret, hwalk, hmin, hst⟩ :=
    spfa_returns_reachable hwf hs he hnc hbelow habove hreach
  obtain ⟨k, hk, _⟩ := walk_of_walkV hwalk
  exact ⟨vs.reverse, d, hret, ⟨⟨k, hk⟩, hmin⟩, hst⟩

theorem spfa_shortest_distance_witness :
    ∃ path d, Returns (fun fuel => SPFA fuel mainGraph2 1 4) (path, d, true) ∧
      IsShortestDist mainGraph2 1 4 d ∧
      ∃ st, Returns (fun fuel => spfaLoop mainGraph2 fuel (spfaInit mainGraph2 1)) (some st) ∧
        ∀ c ∈ st.pushCount, c ≤ mainGraph2.n :=
  spfa_shortest_distance mainGraph2 1 4 (by decide) (by decide) (by decide)
    (not_negCycleFrom_of_feasible (h := [0, 0, 3, -5, -3]) (by decide) (by decide) (by decide))
    ⟨-3, 3, Walk.snoc (v := 3) (w := -5) ⟨4, 2⟩
      (Walk.snoc (v := 2) (w := 3) ⟨3, -8⟩
        (Walk.snoc (v := 1) (w := 0) ⟨2, 3⟩ Walk.nil (by decide)) (by decide)) (by decide)⟩
    (belowINF_of_weightsWithin (W := 8) (by decide) (by decide) 1)
    (aboveNegINF_of_weightsWithin (W := 8) (by decide) (by decide) 1)

/-! ## C3 -/

/-- C3 (as stated, refuted): in the graph with edges `1 → 2` of weight `10^18`
and `2 → 2` of weight `-1` a negative cycle is reachable from `1`, yet
`SPFA(1, 1)` returns the path `[1]` with distance `0` and `ok = true`: vertex
`2` is never entered because `0 + 10^18` is not below the sentinel. -/
theorem spfa_hidden_cycle_counterexample :
    hiddenCycleGraph.WF ∧ hiddenCycleGraph.IsVertex 1 ∧ NegCycleFrom hiddenCycleGraph 1 ∧
    Returns (fun fuel => SPFA fuel hiddenCycleGraph 1 1) ([1], 0, true) :=
  ⟨by decide, by decide,
    ⟨2, 1000000000000000000, 1, -1, 1,
      Walk.snoc (v := 1) (w := 0) ⟨2, 1000000000000000000⟩ Walk.nil (by decide),
      Walk.snoc (v := 2) (w := 0) ⟨2, -1⟩ Walk.nil (by decide), by decide⟩,
    returns_of_mono _ (SPFA_mono hiddenCycleGraph 1 1) 5 _ (by decide)⟩

/-- C3 (amended): on a well-formed graph whose weights all lie in `[-W, W]` with
`n * W < 10^18` and `((n+1) * n * E + 1) * W < 2^63 - 10^18` (`E` the number of
stored edges), for every `start` in `[1, n]` and every `end`, if a cycle of
negative total weight is reachable from `start` then the loop of `SPFA` leaves
through its negative-cycle exit and `SPFA(start, end)` returns `(nil, -1, false)`. -/
theorem spfa_detects_negative_cycle (g : Graph) (W : Int) (start end_ : Int) (hwf : g.WF)
    (hs : g.IsVertex start) (hW : g.WeightsWithin W) (hnW : g.n * W < INF)
    (hbig : ((((g.n + 1) * g.n * g.numEdges + 1 : Nat) : Int)) * W < 2 ^ 63 - INF)
    (hcyc : NegCycleFrom g start) :
    Returns (fun fuel => SPFA fuel g start end_) ([], -1, false) ∧
    Returns (fun fuel => spfaLoop g fuel (spfaInit g start)) none :=
  ⟨spfa_detects end_ hwf hs hW hnW hbig hcyc, spfaLoop_detects hwf hs hW hnW hbig hcyc⟩

theorem spfa_detects_negative_cycle_witness :
    Returns (fun fuel => SPFA fuel mainGraph3 1 3) ([], -1, false) ∧
    Returns (fun fuel => spfaLoop mainGraph3 fuel (spfaInit mainGraph3 1)) none :=
  spfa_detects_negative_cycle mainGraph3 6 1 3 (by decide) (by decide) (by decide) (by decide)
    (by decide)
    ⟨1, 0, 0, -1, 3, Walk.nil,
      Walk.snoc (v := 3) (w := 5) ⟨1, -6⟩
        (Walk.snoc (v := 2) (w := 2) ⟨3, 3⟩
          (Walk.snoc (v := 1) (w := 0) ⟨2, 2⟩ Walk.nil (by decide)) (by decide)) (by decide),
      by decide⟩

/-! ## C4 -/

/-- C4 (as stated, refuted): on the graph with edges `1 → 2` (1),
`2 → 1` (`math.MaxInt64`), `1 → 3` (5), whose weights are all non-negative,
`FindShortestPath(1, 3)` returns the path `[1, 3]` with distance
`-9223372036854775803` and `ok = true`, while the only edge from `1` to `3`
weighs `5`: the sum `1 + math.MaxInt64` wraps around and lowers `dist[1]`. -/
theorem findShortestPath_overflow_counterexample :
    overflowGraph.WF ∧ overflowGraph.IsVertex 1 ∧ overflowGraph.IsVertex 3 ∧
    Returns (fun fuel => FindShortestPath fuel overflowGraph 1 3)
      ([1, 3], -9223372036854775803, true) ∧
    ¬ IsPathWithWeight overflowGraph [1, 3] (-9223372036854775803) :=
  ⟨by decide, by decide, by decide,
    returns_of_mono _ (FindShortestPath_mono overflowGraph 1 3) 10 _ (by decide),
    by decide⟩

/-- C4 (amended): on a well-formed graph whose weights all lie in `[-W, W]` with
`n * W < 10^18` and `((n+1) * n * E + 1) * W < 2^63 - 10^18`, whenever
`FindShortestPath(start, end)` returns `(path, d, true)`, `path` is a
non-empty vertex sequence that starts with `start`, ends with `end`, joins
consecutive vertices by stored edges of the first vertex's adjacency list, and
these edges can be chosen with weights adding up to exactly `d`. -/
theorem findShortestPath_path_valid (g : Graph) (W : Int) (start end_ : Int) (hwf : g.WF)
    (hW : g.WeightsWithin W) (hnW : g.n * W < INF)
    (hbig : ((((g.n + 1) * g.n * g.numEdges + 1 : Nat) : Int)) * W < 2 ^ 63 - INF)
    (fuel : Nat) (path : List Int) (d : Int)
    (hret : FindShortestPath fuel g start end_ = some (path, d, true)) :
    path ≠ [] ∧ path.head? = some start ∧ path.getLast? = some end_ ∧
      IsPathWithWeight g path d := by
  by_cases hv : g.IsVertex start ∧ g.IsVertex end_
  · have hr := returns_of_mono _ (FindShortestPath_mono g start end_) fuel _ hret
    rcases findShortestPath_classify hwf hv.1 hv.2 hW hnW hbig with ⟨h, _⟩ |
        ⟨vs, d1, h, hwalk, _, _⟩
    · have := returns_unique _ _ _ hr h
      simp at this
    · have heq := returns_unique _ _ _ hr h
      simp only [Prod.mk.injEq, and_true] at heq
      obtain ⟨h1, h2⟩ := heq
      subst h1 h2
      obtain ⟨p1, p2, p3⟩ := walkV_path hwalk
      refine ⟨?_, p1, p2, p3⟩
      intro hnil
      rw [hnil] at p1
      simp at p1
  · rw [findShortestPath_invalid fuel g start end_ hv] at hret
    simp at hret

theorem findShortestPath_path_valid_witness :
    FindShortestPath 20 mainGraph1 1 5 = some ([1, 3, 5], 5, true) ∧
    ([1, 3, 5] : List Int) ≠ [] ∧ ([1, 3, 5] : List Int).head? = some 1 ∧
      ([1, 3, 5] : List Int).getLast? = some 5 ∧ IsPathWithWeight mainGraph1 [1, 3, 5] 5 :=
  ⟨by decide,
    findShortestPath_path_valid mainGraph1 10 1 5 (by decide) (by decide) (by decide)
      (by decide) 20 [1, 3, 5] 5 (by decide)⟩

/-! ## C8 -/

/-- C8 (as stated, refuted): the graph with edges `1 → 2` (1), `2 → 1`
(`math.MaxInt64`), `1 → 3` (5) has no negative edge, hence no negative cycle,
and the minimum weight of a walk from `1` to `3` is `5`; `Johnson` returns
`ok = true` with entry `[1][3]` equal to `-9223372036854775803`, because the sum
`1 + math.MaxInt64` wraps around inside its Dijkstra loop. -/
theorem johnson_overflow_counterexample :
    overflowGraph.WF ∧ (∀ s, overflowGraph.IsVertex s → ¬ NegCycleFrom overflowGraph s) ∧
    IsShortestDist overflowGraph 1 3 5 ∧
    ∃ m, Returns (fun fuel => Johnson fuel overflowGraph) (m, true) ∧
      matAt m 1 3 = -9223372036854775803 :=
  ⟨by decide,
    fun _ hs => not_negCycleFrom_of_nonNeg (by decide)
      ((hasNegativeEdge_false_iff overflowGraph).1 (by decide)) hs,
    ⟨⟨1, Walk.snoc (v := 1) (w := 0) ⟨3, 5⟩ Walk.nil (by decide)⟩,
      fun w k hw => by
        have := walk_potential (g := overflowGraph) (h := [0, 0, 0, 5]) (by decide) (by decide)
          (by decide) hw
        simpa using this⟩,
    ⟨_, returns_of_mono _ (Johnson_mono overflowGraph) 20
      ([[9223372036854775807, 9223372036854775807, 9223372036854775807, 9223372036854775807],
        [9223372036854775807, -9223372036854775808, -9223372036854775807, -9223372036854775803],
        [9223372036854775807, 9223372036854775807, 0, 9223372036854775807],
        [9223372036854775807, 9223372036854775807, 9223372036854775807, 0]], true) (by decide),
      by decide⟩⟩

/-- C8 (amended): on a well-formed graph without negative cycle whose weights
all lie in `[-W, W]` with `(n+1)^2 * (E+n+1) * W < 10^18` (`E` the number of
stored edges), `Johnson` returns `ok = true` and a matrix whose entry `[u][v]`,
for all `u`, `v` in `[1, n]`, is the minimum total weight of a walk from `u` to
`v` in the original graph when `v` is reachable from `u`, and is
`math.MaxInt64` exactly when `v` is not reachable from `u`. -/
theorem johnson_all_pairs (g : Graph) (W : Int) (hwf : g.WF) (hsm : JSmall g W)
    (hnc : ∀ s, g.IsVertex s → ¬ NegCycleFrom g s) :
    ∃ m, Returns (fun fuel => Johnson fuel g) (m, true) ∧
      ∀ u v, g.IsVertex u → g.IsVertex v →
        (Reachable g u v → IsShortestDist g u v (matAt m u v)) ∧
        (matAt m u v = MaxInt64 ↔ ¬ Reachable g u v) :=
  johnson_correct hwf hsm hnc

theorem johnson_all_pairs_witness :
    ∃ m, Returns (fun fuel => Johnson fuel mainGraph2) (m, true) ∧
      ∀ u v, mainGraph2.IsVertex u → mainGraph2.IsVertex v →
        (Reachable mainGraph2 u v → IsShortestDist mainGraph2 u v (matAt m u v)) ∧
        (matAt m u v = MaxInt64 ↔ ¬ Reachable mainGraph2 u v) :=
  johnson_all_pairs mainGraph2 8 (by decide) (by decide)
    (fun _ hs => not_negCycleFrom_of_feasible (h := [0, 0, 3, -5, -3]) (by decide) (by decide) hs)

/-! ## C9 -/

/-- C9 (as stated, refuted): in the graph with edges `1 → 2` of weight `-1` and
`2 → 1` of weight `math.MinInt64` the cycle `1 → 2 → 1` has negative total
weight, yet `Johnson` returns a matrix with `ok = true`: the sum
`-1 + math.MinInt64` wraps around to `math.MaxInt64`, so no edge relaxes in the
last round. -/
theorem johnson_wrap_cycle_counterexample :
    wrapCycleGraph.WF ∧ wrapCycleGraph.IsVertex 1 ∧ NegCycleFrom wrapCycleGraph 1 ∧
    Returns (fun fuel => Johnson fuel wrapCycleGraph)
      ([[9223372036854775807, 9223372036854775807, 9223372036854775807],
        [9223372036854775807, 0, -1],
        [9223372036854775807, 9223372036854775807, 0]], true) :=
  ⟨by decide, by decide,
    ⟨1, 0, 0, -9223372036854775809, 2, Walk.nil,
      Walk.snoc (v := 2) (w := -1) ⟨1, -9223372036854775808⟩
        (Walk.snoc (v := 1) (w := 0) ⟨2, -1⟩ Walk.nil (by decide)) (by decide),
      by decide⟩,
    returns_of_mono _ (Johnson_mono wrapCycleGraph) 20 _ (by decide)⟩

/-- C9 (amended): on a well-formed graph whose weights all lie in `[-W, W]`
with `(n+1)^2 * (E+n+1) * W < 10^18`, `Johnson` returns `(nil, false)` if and
only if some vertex of `[1, n]` reaches a cycle of negative total weight; it
does so exactly when, after the rounds `1..n`, some edge of the augmented graph
still relaxes in round `n+1`; and every round scans the vertices `1..n` first
and the virtual source `n+1` last. -/
theorem johnson_negative_cycle_exact (g : Graph) (W : Int) (hwf : g.WF) (hsm : JSmall g W) :
    (Returns (fun fuel => Johnson fuel g) ([], false) ↔
      ∃ s, g.IsVertex s ∧ NegCycleFrom g s) ∧
    (Returns (fun fuel => Johnson fuel g) ([], false) ↔
      ∃ hn, johnsonRounds (johnsonTemp g) g.n (List.range' 1 g.n)
          ((List.replicate (g.n + 2) MaxInt64).set (g.n + 1) 0) = some hn ∧
        ∃ u ∈ List.range' 1 (g.n + 1), ∃ e ∈ (johnsonTemp g).adjAt (u : Nat),
          hn.getD u 0 ≠ MaxInt64 ∧ wrap64 (hn.getD u 0 + e.Weight) < hn.getD e.To.toNat 0) ∧
    (∀ (last : Bool) (h : List Int),
      johnsonRound (johnsonTemp g) last (List.range' 1 (g.n + 1)) h =
        match johnsonRound (johnsonTemp g) last (List.range' 1 g.n) h with
        | none => none
        | some h1 => johnsonEdges last ((g.n + 1 : Nat) : Int) h1
            ((johnsonTemp g).adjAt ((g.n + 1 : Nat) : Int))) := by
  refine ⟨?_, ?_, fun last h => johnsonRound_order (johnsonTemp g) last g.n h⟩
  · rw [johnson_fails_iff]
    exact johnsonPotentials_none_iff hwf hsm
  · rw [johnson_fails_iff]
    obtain ⟨hn, hrun, heq⟩ := johnsonPotentials_last g
    rw [heq, johnsonRound_true_none_iff]
    constructor
    · intro hex
      exact ⟨hn, hrun, hex⟩
    · rintro ⟨hn1, hrun1, hex⟩
      rw [hrun] at hrun1
      simp only [Option.some.injEq] at hrun1
      subst hrun1
      exact hex

theorem johnson_negative_cycle_exact_witness :
    Returns (fun fuel => Johnson fuel mainGraph3) ([], false) :=
  (johnson_negative_cycle_exact mainGraph3 6 (by decide) (by decide)).1.2
    ⟨1, by decide, 1, 0, 0, -1, 3, Walk.nil,
      Walk.snoc (v := 3) (w := 5) ⟨1, -6⟩
        (Walk.snoc (v := 2) (w := 2) ⟨3, 3⟩
          (Walk.snoc (v := 1) (w := 0) ⟨2, 2⟩ Walk.nil (by decide)) (by decide)) (by decide),
      by decide⟩

/-! ## C10 -/

/-- C10 (as stated, refuted): the second graph of `main` has no negative cycle
and vertex `1` is not reachable from vertex `4`; entry `[4][1]` of the matrix
returned by `Johnson` is `math.MaxInt64`, while `FindShortestPath(4, 1)`
returns the distance `-1`. -/
theorem johnson_unreachable_counterexample :
    mainGraph2.WF ∧ (∀ s, mainGraph2.IsVertex s → ¬ NegCycleFrom mainGraph2 s) ∧
    mainGraph2.IsVertex 4 ∧ mainGraph2.IsVertex 1 ∧
    (∃ m, Returns (fun fuel => Johnson fuel mainGraph2) (m, true) ∧
      matAt m 4 1 = 9223372036854775807) ∧
    Returns (fun fuel => FindShortestPath fuel mainGraph2 4 1) ([], -1, false) :=
  ⟨by decide,
    fun _ hs => not_negCycleFrom_of_feasible (h := [0, 0, 3, -5, -3]) (by decide) (by decide) hs,
    by decide, by decide,
    ⟨_, returns_of_mono _ (Johnson_mono mainGraph2) 20
      ([[9223372036854775807, 9223372036854775807, 9223372036854775807, 9223372036854775807,
          9223372036854775807],
        [9223372036854775807, 0, 3, -5, -3],
        [9223372036854775807, 9223372036854775807, 0, -8, -6],
        [9223372036854775807, 9223372036854775807, 9223372036854775807, 0, 2],
        [9223372036854775807, 9223372036854775807, 9223372036854775807, 9223372036854775807, 0]],
        true) (by decide),
      by decide⟩,
    returns_of_mono _ (FindShortestPath_mono mainGraph2 4 1) 20 _ (by decide)⟩

/-- C10 (amended): on a well-formed graph without negative cycle whose weights
all lie in `[-W, W]` with `(n+1)^2 * (E+n+1) * W < 10^18`, `Johnson` returns a
matrix with `ok = true` such that for all `u`, `v` in `[1, n]`: if `v` is
reachable from `u`, `FindShortestPath(u, v)` returns `ok = true` with distance
equal to entry `[u][v]`; if `v` is not reachable from `u`, entry `[u][v]` is
`math.MaxInt64` and `FindShortestPath(u, v)` returns `(nil, -1, false)`. -/
theorem johnson_agrees_findShortestPath (g : Graph) (W : Int) (hwf : g.WF)
    (hsm : JSmall g W) (hnc : ∀ s, g.IsVertex s → ¬ NegCycleFrom g s) :
    ∃ m, Returns (fun fuel => Johnson fuel g) (m, true) ∧
      ∀ u v, g.IsVertex u → g.IsVertex v →
        (Reachable g u v →
          ∃ path, Returns (fun fuel => FindShortestPath fuel g u v) (path, matAt m u v, true)) ∧
        (¬ Reachable g u v → matAt m u v = MaxInt64 ∧
          Returns (fun fuel => FindShortestPath fuel g u v) ([], -1, false)) :=
  johnson_agrees hwf hsm hnc

theorem johnson_agrees_findShortestPath_witness :
    ∃ m, Returns (fun fuel => Johnson fuel mainGraph1) (m, true) ∧
      ∀ u v, mainGraph1.IsVertex u → mainGraph1.IsVertex v →
        (Reachable mainGraph1 u v →
          ∃ path, Returns (fun fuel => FindShortestPath fuel mainGraph1 u v)
            (path, matAt m u v, true)) ∧
        (¬ Reachable mainGraph1 u v → matAt m u v = MaxInt64 ∧
          Returns (fun fuel => FindShortestPath fuel mainGraph1 u v) ([], -1, false)) :=
  johnson_agrees_findShortestPath mainGraph1 10 (by decide) (by decide)
    (fun _ hs => not_negCycleFrom_of_nonNeg (by decide)
      ((hasNegativeEdge_false_iff mainGraph1).1 (by decide)) hs)

/-! ## C11 -/

/-- C11 (as stated, refuted): on the graph with edges `1 → 3` (5), `1 → 2` (6),
`2 → 1` (`math.MaxInt64`), whose weights are all non-negative, `Dijkstra(1, 3)`
returns distance `5` and `SPFA(1, 3)` returns distance `-9223372036854775798`:
Dijkstra leaves at its early exit, SPFA goes on to the wrapped sum
`6 + math.MaxInt64`. -/
theorem dijkstra_spfa_differ_counterexample :
    earlyExitGraph.WF ∧ earlyExitGraph.NonNeg ∧
    earlyExitGraph.IsVertex 1 ∧ earlyExitGraph.IsVertex 3 ∧
    Returns (fun fuel => Dijkstra fuel earlyExitGraph 1 3) ([1, 3], 5, true) ∧
    Returns (fun fuel => SPFA fuel earlyExitGraph 1 3) ([1, 3], -9223372036854775798, true) :=
  ⟨by decide, (hasNegativeEdge_false_iff earlyExitGraph).1 (by decide), by decide, by decide,
    returns_of_mono _ (Dijkstra_mono earlyExitGraph 1 3) 20 _ (by decide),
    returns_of_mono _ (SPFA_mono earlyExitGraph 1 3) 20 _ (by decide)⟩

/-- C11 (amended): on a well-formed graph whose weights are all `≥ 0` and in
which every walk from `start` with at most `n` edges weighs less than `10^18`,
for `start`, `end` in `[1, n]`, `Dijkstra(start, end)` and `SPFA(start, end)`
return the same success flag and the same distance; the distance is the
minimum walk weight when `end` is reachable, and both return `(nil, -1, false)`
when it is not. -/
theorem dijkstra_spfa_agree (g : Graph) (start end_ : Int) (hwf : g.WF) (hnn : g.NonNeg)
    (hs : g.IsVertex start) (he : g.IsVertex end_) (hsmall : BelowINF g start) :
    ∃ p1 p2 d ok, Returns (fun fuel => Dijkstra fuel g start end_) (p1, d, ok) ∧
      Returns (fun fuel => SPFA fuel g start end_) (p2, d, ok) ∧
      (Reachable g start end_ → ok = true ∧ IsShortestDist g start end_ d) ∧
      (¬ Reachable g start end_ → (p1, d, ok) = ([], -1, false) ∧ p2 = []) := by
  by_cases hreach : Reachable g start end_
  · obtain ⟨vs1, d1, hret1, hwalk1, hmin1⟩ :=
      dijkstra_returns_reachable hwf hnn hs he hsmall hreach
    have habove : AboveNegINF g start := by
      intro v w k _ hw
      have := walk_nonneg hwf hnn hs hw
      have := INF_pos
      omega
    obtain ⟨vs2, d2, hret2, hwalk2, hmin2, _⟩ :=
      spfa_returns_reachable hwf hs he (not_negCycleFrom_of_nonNeg hwf hnn hs) hsmall habove
        hreach
    obtain ⟨k1, hk1, _⟩ := walk_of_walkV hwalk1
    obtain ⟨k2, hk2, _⟩ := walk_of_walkV hwalk2
    have heq : d2 = d1 := by
      have := hmin1 _ _ hk2
      have := hmin2 _ _ hk1
      omega
    subst heq
    exact ⟨vs1.reverse, vs2.reverse, d2, true, hret1, hret2,
      fun _ => ⟨rfl, ⟨k1, hk1⟩, hmin1⟩, fun h => absurd hreach h⟩
  · exact ⟨[], [], -1, false, dijkstra_unreachable hwf hs he hreach,
      spfa_unreachable hwf hs he hreach, fun h => absurd h hreach, fun _ => ⟨rfl, rfl⟩⟩

theorem dijkstra_spfa_agree_witness :
    ∃ p1 p2 d ok, Returns (fun fuel => Dijkstra fuel mainGraph1 1 5) (p1, d, ok) ∧
      Returns (fun fuel => SPFA fuel mainGraph1 1 5) (p2, d, ok) ∧
      (Reachable mainGraph1 1 5 → ok = true ∧ IsShortestDist mainGraph1 1 5 d) ∧
      (¬ Reachable mainGraph1 1 5 → (p1, d, ok) = ([], -1, false) ∧ p2 = []) :=
  dijkstra_spfa_agree mainGraph1 1 5 (by decide)
    ((hasNegativeEdge_false_iff mainGraph1).1 (by decide)) (by decide) (by decide)
    (belowINF_of_weightsWithin (W := 10) (by decide) (by decide) 1)

/-! ## C12 -/

/-- C12: `HasNegativeEdge` returns true if and only if some edge stored in the
adjacency list of a vertex of `[1, n]` has a strictly negative weight; on a
graph whose row `0` (which belongs to no vertex) is empty this is the same as:
some edge stored in any adjacency list is negative, and every graph built by
`NewGraph(n, directed)` and `AddEdge` calls with `from` and `to` in `[1, n]` is
such a graph.  It is false on a freshly
constructed graph and on every graph all of whose stored edges have weight
`≥ 0`; an edge of weight `0` does not make it true. -/
theorem hasNegativeEdge_exact (g : Graph) (n : Nat) (directed : Bool) (a b : Int) :
    (HasNegativeEdge g = true ↔ ∃ u, g.IsVertex u ∧ ∃ e ∈ g.adjAt u, e.Weight < 0) ∧
    (g.adj.length = g.n + 1 ∧ g.adj.getD 0 [] = [] →
      (HasNegativeEdge g = true ↔ ∃ l ∈ g.adj, ∃ e ∈ l, e.Weight < 0)) ∧
    (Built n directed g →
      (HasNegativeEdge g = true ↔ ∃ l ∈ g.adj, ∃ e ∈ l, e.Weight < 0)) ∧
    HasNegativeEdge (NewGraph n directed) = false ∧
    ((∀ l ∈ g.adj, ∀ e ∈ l, 0 ≤ e.Weight) → HasNegativeEdge g = false) ∧
    HasNegativeEdge (AddEdge (NewGraph n directed) a b 0) = false := by
  have hall : ∀ g1 : Graph, (∀ l ∈ g1.adj, ∀ e ∈ l, 0 ≤ e.Weight) →
      HasNegativeEdge g1 = false := by
    intro g1 h
    rw [hasNegativeEdge_false_iff]
    intro u _ e he
    obtain ⟨l, hl, hel⟩ := adjAt_mem_adj he
    exact h l hl e hel
  have hnew : ∀ l ∈ (NewGraph n directed).adj, ∀ e ∈ l, (0 : Int) ≤ e.Weight := by
    intro l hl e he
    unfold NewGraph at hl
    rw [List.eq_of_mem_replicate hl] at he
    simp at he
  have hrows : g.adj.length = g.n + 1 ∧ g.adj.getD 0 [] = [] →
      (HasNegativeEdge g = true ↔ ∃ l ∈ g.adj, ∃ e ∈ l, e.Weight < 0) := by
    rintro ⟨hlen, h0⟩
    rw [hasNegativeEdge_true_iff]
    constructor
    · rintro ⟨u, _, e, he, hlt⟩
      obtain ⟨l, hl, hel⟩ := adjAt_mem_adj he
      exact ⟨l, hl, e, hel, hlt⟩
    · rintro ⟨l, hl, e, he, hlt⟩
      obtain ⟨u, hu, hmem⟩ := mem_adj_row0 h0 hlen hl he
      exact ⟨u, hu, e, hmem, hlt⟩
  refine ⟨hasNegativeEdge_true_iff g, hrows, ?_, hall _ hnew, hall g, ?_⟩
  · intro hb
    obtain ⟨_, _, hwf, h0⟩ := built_wf hb
    exact hrows ⟨hwf.1, h0⟩
  · apply hall
    intro l hl e he
    unfold AddEdge at hl
    simp only at hl
    split at hl
    · exact mem_set_append (P := fun e => (0 : Int) ≤ e.Weight) _ _ _
        (mem_set_append (P := fun e => (0 : Int) ≤ e.Weight) _ _ _ hnew (le_refl _))
        (le_refl _) l hl e he
    · exact mem_set_append (P := fun e => (0 : Int) ≤ e.Weight) _ _ _ hnew (le_refl _) l hl e he

/-! ## C13 -/

/-- C13: on a graph with rows `0..n`, for `from`, `to` in `[1, n]`,
`AddEdge(from, to, w)` leaves `n`, `directed` and the number of rows unchanged
and changes no row other than those of `from` and `to`.  On a directed graph
the row of `from` is its old row with `Edge{to, w}` appended at the end and no
other row changes.  On an undirected graph with `from ≠ to` the row of `from`
gets `Edge{to, w}` and the row of `to` gets `Edge{from, w}` appended at the
end; with `from = to` the row gets both entries appended, in this order.  Old
entries keep their places in every case. -/
theorem addEdge_appends (g : Graph) (from_ to_ w : Int) (hlen : g.adj.length = g.n + 1)
    (hf : g.IsVertex from_) (ht : g.IsVertex to_) :
    (AddEdge g from_ to_ w).n = g.n ∧ (AddEdge g from_ to_ w).directed = g.directed ∧
    (AddEdge g from_ to_ w).adj.length = g.adj.length ∧
    (∀ i : Nat, i ≠ from_.toNat → i ≠ to_.toNat →
      (AddEdge g from_ to_ w).adj.getD i [] = g.adj.getD i []) ∧
    (g.directed = true →
      (AddEdge g from_ to_ w).adjAt from_ = g.adjAt from_ ++ [Edge.mk to_ w] ∧
      ∀ i : Nat, i ≠ from_.toNat → (AddEdge g from_ to_ w).adj.getD i [] = g.adj.getD i []) ∧
    (g.directed = false → from_ ≠ to_ →
      (AddEdge g from_ to_ w).adjAt from_ = g.adjAt from_ ++ [Edge.mk to_ w] ∧
      (AddEdge g from_ to_ w).adjAt to_ = g.adjAt to_ ++ [Edge.mk from_ w]) ∧
    (g.directed = false → from_ = to_ →
      (AddEdge g from_ to_ w).adjAt from_ = g.adjAt from_ ++ [Edge.mk to_ w, Edge.mk from_ w]) := by
  have hfl : from_.toNat < g.adj.length := by unfold Graph.IsVertex at hf; omega
  have htl : to_.toNat < g.adj.length := by unfold Graph.IsVertex at ht; omega
  refine ⟨addEdge_n g _ _ _, addEdge_isDirected g _ _ _, addEdge_length g _ _ _, ?_, ?_, ?_, ?_⟩
  · intro i hif hit
    cases hd : g.directed with
    | true =>
      rw [addEdge_directed g hd]
      simp only
      rw [getD_set_other _ _ _ _ _ (Ne.symm hif)]
    | false =>
      rw [addEdge_undirected g hd]
      simp only
      rw [getD_set_other _ _ _ _ _ (Ne.symm hit), getD_set_other _ _ _ _ _ (Ne.symm hif)]
  · intro hd
    rw [addEdge_directed g hd]
    unfold Graph.adjAt
    simp only
    refine ⟨getD_set_self _ _ _ _ hfl, fun i hif => ?_⟩
    rw [getD_set_other _ _ _ _ _ (Ne.symm hif)]
  · intro hd hne
    have hne1 : from_.toNat ≠ to_.toNat := fun h => hne ((isVertex_toNat_inj hf ht).1 h)
    rw [addEdge_undirected g hd]
    unfold Graph.adjAt
    simp only
    constructor
    · rw [getD_set_other _ _ _ _ _ (Ne.symm hne1), getD_set_self _ _ _ _ hfl]
    · rw [getD_set_self _ _ _ _ (by rw [List.length_set]; exact htl),
        getD_set_other _ _ _ _ _ hne1]
  · intro hd heq
    subst heq
    rw [addEdge_undirected g hd]
    unfold Graph.adjAt
    simp only
    rw [getD_set_self _ _ _ _ (by rw [List.length_set]; exact hfl),
      getD_set_self _ _ _ _ hfl]
    simp

theorem addEdge_appends_witness :
    (AddEdge (NewGraph 2 false) 1 2 7).adjAt 1 = [Edge.mk 2 7] ∧
    (AddEdge (NewGraph 2 false) 1 2 7).adjAt 2 = [Edge.mk 1 7] :=
  (addEdge_appends (NewGraph 2 false) 1 2 7 (by decide) (by decide) (by decide)).2.2.2.2.2.1
    rfl (by decide)

/-! ## C14 -/

/-- C14 (as stated, refuted): three calls of `FindShortestPath` that fail for
three different reasons return the same value `(nil, -1, false)`: on the first
graph of `main`, `start = 0` is no vertex and `1` is not reachable from `5`; on
the third graph of `main` a negative cycle is reachable from `1`. -/
theorem findShortestPath_failure_kinds_counterexample :
    (¬ mainGraph1.IsVertex 0 ∧
      Returns (fun fuel => FindShortestPath fuel mainGraph1 0 1) ([], -1, false)) ∧
    (mainGraph1.IsVertex 5 ∧ mainGraph1.IsVertex 1 ∧ ¬ Reachable mainGraph1 5 1 ∧
      Returns (fun fuel => FindShortestPath fuel mainGraph1 5 1) ([], -1, false)) ∧
    (mainGraph3.IsVertex 1 ∧ mainGraph3.IsVertex 3 ∧ NegCycleFrom mainGraph3 1 ∧
      Returns (fun fuel => FindShortestPath fuel mainGraph3 1 3) ([], -1, false)) :=
  ⟨⟨by decide, returns_of_mono _ (FindShortestPath_mono mainGraph1 0 1) 20 _ (by decide)⟩,
    ⟨by decide, by decide,
      fun h => by
        obtain ⟨w, k, hk⟩ := h
        have := walk_eq_of_no_edges (g := mainGraph1) (s := 5) (by decide) hk
        omega,
      returns_of_mono _ (FindShortestPath_mono mainGraph1 5 1) 20 _ (by decide)⟩,
    ⟨by decide, by decide,
      ⟨1, 0, 0, -1, 3, Walk.nil,
        Walk.snoc (v := 3) (w := 5) ⟨1, -6⟩
          (Walk.snoc (v := 2) (w := 2) ⟨3, 3⟩
            (Walk.snoc (v := 1) (w := 0) ⟨2, 2⟩ Walk.nil (by decide)) (by decide)) (by decide),
        by decide⟩,
      returns_of_mono _ (FindShortestPath_mono mainGraph3 1 3) 20 _ (by decide)⟩⟩

/-- C14 (amended): every failing result of `FindShortestPath`, of `SPFA` and of
`Dijkstra` is the same value `(nil, -1, false)`, so the returned value tells
success from failure but not one kind of failure from another; for `start`,
`end` in `[1, n]` the dispatcher returns the result of the sub-algorithm it
invoked unchanged. -/
theorem findShortestPath_failure_value (fuel : Nat) (g : Graph) (start end_ : Int)
    (r : List Int × Int × Bool) (hret : FindShortestPath fuel g start end_ = some r)
    (hfail : r.2.2 = false) :
    r = ([], -1, false) ∧
    (∀ r1, SPFA fuel g start end_ = some r1 → r1.2.2 = false → r1 = ([], -1, false)) ∧
    (∀ r1, Dijkstra fuel g start end_ = some r1 → r1.2.2 = false → r1 = ([], -1, false)) ∧
    (g.IsVertex start ∧ g.IsVertex end_ →
      FindShortestPath fuel g start end_ =
        if HasNegativeEdge g = true then SPFA fuel g start end_
        else Dijkstra fuel g start end_) := by
  have hspfa : ∀ r1, SPFA fuel g start end_ = some r1 → r1.2.2 = false →
      r1 = ([], -1, false) := by
    intro r1 h hf
    unfold SPFA at h
    split at h
    · simp at h
    · simpa using h.symm
    · split at h
      · simpa using h.symm
      · split at h
        · simp at h
        · simp only [Option.some.injEq] at h
          rw [← h] at hf
          simp at hf
  have hdij : ∀ r1, Dijkstra fuel g start end_ = some r1 → r1.2.2 = false →
      r1 = ([], -1, false) := by
    intro r1 h hf
    unfold Dijkstra at h
    split at h
    · simp at h
    · split at h
      · simpa using h.symm
      · split at h
        · simp at h
        · simp only [Option.some.injEq] at h
          rw [← h] at hf
          simp at hf
  refine ⟨?_, hspfa, hdij, fun hv => findShortestPath_eq fuel g start end_ hv.1 hv.2⟩
  by_cases hv : g.IsVertex start ∧ g.IsVertex end_
  · rw [findShortestPath_eq fuel g start end_ hv.1 hv.2] at hret
    split at hret
    · exact hspfa r hret hfail
    · exact hdij r hret hfail
  · rw [findShortestPath_invalid fuel g start end_ hv] at hret
    simpa using hret.symm

theorem findShortestPath_failure_value_witness :
    FindShortestPath 20 mainGraph3 1 3 = some ([], -1, false) ∧
    (∀ r1, SPFA 20 mainGraph3 1 3 = some r1 → r1.2.2 = false → r1 = ([], -1, false)) :=
  ⟨by decide,
    (findShortestPath_failure_value 20 mainGraph3 1 3 ([], -1, false) (by decide) rfl).2.1⟩

/-! ## C15 -/

/-- C15: on the first graph of `main`, `NewGraph(5, true)` with the edges
`1→2` (10), `1→3` (3), `2→3` (1), `2→4` (2), `3→2` (4), `3→4` (8), `3→5` (2),
`4→5` (7) added in this order, `FindShortestPath(1, 5)` returns exactly
`([1, 3, 5], 5, true)`; the graph has no negative edge, so the call is
answered by `Dijkstra`. -/
theorem findShortestPath_main_scenario :
    mainGraph1 = AddEdge (AddEdge (AddEdge (AddEdge (AddEdge (AddEdge (AddEdge (AddEdge
      (NewGraph 5 true) 1 2 10) 1 3 3) 2 3 1) 2 4 2) 3 2 4) 3 4 8) 3 5 2) 4 5 7 ∧
    HasNegativeEdge mainGraph1 = false ∧
    Returns (fun fuel => Dijkstra fuel mainGraph1 1 5) ([1, 3, 5], 5, true) ∧
    Returns (fun fuel => FindShortestPath fuel mainGraph1 1 5) ([1, 3, 5], 5, true) :=
  ⟨rfl, by decide, returns_of_mono _ (Dijkstra_mono mainGraph1 1 5) 20 _ (by decide),
    returns_of_mono _ (FindShortestPath_mono mainGraph1 1 5) 20 _ (by decide)⟩

/-! ## C16 -/

/-- C16: on the second graph of `main`, `NewGraph(4, true)` with the edges
`1→2` (3), `2→3` (-8), `1→3` (5), `3→4` (2) added in this order,
`FindShortestPath(1, 4)` returns exactly `([1, 2, 3, 4], -3, true)`; the graph
has a negative edge, so the call is answered by `SPFA`. -/
theorem findShortestPath_negative_scenario :
    mainGraph2 = AddEdge (AddEdge (AddEdge (AddEdge (NewGraph 4 true) 1 2 3) 2 3 (-8)) 1 3 5)
      3 4 2 ∧
    HasNegativeEdge mainGraph2 = true ∧
    Returns (fun fuel => SPFA fuel mainGraph2 1 4) ([1, 2, 3, 4], -3, true) ∧
    Returns (fun fuel => FindShortestPath fuel mainGraph2 1 4) ([1, 2, 3, 4], -3, true) :=
  ⟨rfl, by decide, returns_of_mono _ (SPFA_mono mainGraph2 1 4) 20 _ (by decide),
    returns_of_mono _ (FindShortestPath_mono mainGraph2 1 4) 20 _ (by decide)⟩

/-! ## C17 -/

/-- C17 (as stated, refuted): on the graph with edges `4 → 1` (0), `1 → 2` (1),
`2 → 1` (`math.MaxInt64`), `1 → 3` (5) the relaxation loop of `SPFA(4, 3)`
stops with an empty queue, but the wrapped sum `1 + math.MaxInt64` has left
`parent[1] = 2` and `parent[2] = 1`; the walk over the parent pointers from `3`
goes `3, 1, 2, 1, 2, ...` and never meets the start vertex `4` or `-1`, so
`SPFA(4, 3)` does not return, whatever the fuel. -/
theorem spfa_path_loop_counterexample :
    pathLoopGraph.WF ∧ pathLoopGraph.IsVertex 4 ∧ pathLoopGraph.IsVertex 3 ∧
    Returns (fun fuel => spfaLoop pathLoopGraph fuel (spfaInit pathLoopGraph 4))
      (some (SPFAState.mk
        [1000000000000000000, -9223372036854775808, -9223372036854775807,
          -9223372036854775803, 0]
        [-1, 2, 1, 1, -1] [false, false, false, false, false] [] [0, 2, 2, 2, 1])) ∧
    ∀ fuel, SPFA fuel pathLoopGraph 4 3 = none := by
  have h7 : spfaLoop pathLoopGraph 7 (spfaInit pathLoopGraph 4) =
      some (some (SPFAState.mk
        [1000000000000000000, -9223372036854775808, -9223372036854775807,
          -9223372036854775803, 0]
        [-1, 2, 1, 1, -1] [false, false, false, false, false] [] [0, 2, 2, 2, 1])) := by
    decide
  refine ⟨by decide, by decide, by decide,
    ⟨7, fun fuel hfuel => spfaLoop_mono _ _ _ _ h7 fuel hfuel⟩, fun fuel => ?_⟩
  unfold SPFA
  cases hl : spfaLoop pathLoopGraph fuel (spfaInit pathLoopGraph 4) with
  | none => rfl
  | some r =>
    have hr : some r = some (some (SPFAState.mk
        [1000000000000000000, -9223372036854775808, -9223372036854775807,
          -9223372036854775803, 0]
        [-1, 2, 1, 1, -1] [false, false, false, false, false] [] [0, 2, 2, 2, 1])) := by
      rcases Nat.le_total fuel 7 with hle | hle
      · rw [← spfaLoop_mono _ _ _ _ hl 7 hle, h7]
      · rw [← hl, spfaLoop_mono _ _ _ _ h7 fuel hle]
    simp only [Option.some.injEq] at hr
    subst hr
    simp only
    rw [if_neg (by decide)]
    have hbp : buildPath [-1, 2, 1, 1, -1] 4 fuel 3 [] = none := by
      cases fuel with
      | zero => rfl
      | succ f =>
        unfold buildPath
        rw [if_neg (by decide), if_neg (by decide)]
        exact (buildPath_loops [-1, 2, 1, 1, -1] rfl rfl f _).1
    rw [hbp]

/-- C17 (amended): on a well-formed graph, for `start` and `end` in `[1, n]` and
whatever the weights, the relaxation loop of `SPFA(start, end)` stops, either
through the negative-cycle exit or with an empty queue; in the second case no
push count exceeds `n` and the push counts add up to at most `n * n`.  On
either exit the number of enqueues made, the initial enqueue of `start` and the
one before the negative-cycle return included, is at most `n * n + 1`; with an
empty queue it is the sum of the push counts.  Every
enqueue increments the push count of the enqueued vertex, and the exit is
taken exactly when that increment leads above `n`.  If moreover all weights lie
in `[-W, W]` with `n * W < 10^18` and `((n+1) * n * E + 1) * W < 2^63 - 10^18`,
the walk over the parent pointers ends as well and `SPFA(start, end)` returns. -/
theorem spfa_terminates (g : Graph) (W : Int) (start end_ : Int) (hwf : g.WF)
    (hs : g.IsVertex start) (he : g.IsVertex end_) :
    (∃ r, Returns (fun fuel => spfaLoop g fuel (spfaInit g start)) r ∧
      ∀ st, r = some st → st.queue = [] ∧ (∀ c ∈ st.pushCount, c ≤ g.n) ∧
        st.pushCount.sum ≤ g.n * g.n) ∧
    (∃ r c, Returns (fun fuel => spfaEnqueues fuel g start) (r, c) ∧
      Returns (fun fuel => spfaLoop g fuel (spfaInit g start)) r ∧
      c ≤ g.n * g.n + 1 ∧
      ∀ st, r = some st → c = st.pushCount.sum ∧ c ≤ g.n * g.n) ∧
    (∀ (u : Int) (st : SPFAState) (e : Edge), SBase g st → g.IsVertex e.To →
      (spfaRelax g.n u st e = none ∧ st.pushCount.getD e.To.toNat 0 + 1 > g.n) ∨
      (∃ st1, spfaRelax g.n u st e = some st1 ∧
        ((st1.queue = st.queue ++ [e.To] ∧
            st1.pushCount =
              st.pushCount.set e.To.toNat (st.pushCount.getD e.To.toNat 0 + 1) ∧
            st.pushCount.getD e.To.toNat 0 + 1 ≤ g.n) ∨
          (st1.queue = st.queue ∧ st1.pushCount = st.pushCount)))) ∧
    (g.WeightsWithin W ∧ g.n * W < INF ∧
        ((((g.n + 1) * g.n * g.numEdges + 1 : Nat) : Int)) * W < 2 ^ 63 - INF →
      ∃ r, Returns (fun fuel => SPFA fuel g start end_) r) :=
  ⟨spfaLoop_terminates hwf hs, spfaEnqueues_bound hwf hs,
    fun u st e hb hto => spfaRelax_enqueue u st e hto hb,
    fun h => spfa_returns hwf hs he h.1 h.2.1 h.2.2⟩

theorem spfa_terminates_witness :
    (∃ r, Returns (fun fuel => SPFA fuel mainGraph3 1 3) r) ∧
    (∃ r c, Returns (fun fuel => spfaEnqueues fuel mainGraph3 1) (r, c) ∧
      Returns (fun fuel => spfaLoop mainGraph3 fuel (spfaInit mainGraph3 1)) r ∧
      c ≤ mainGraph3.n * mainGraph3.n + 1 ∧
      ∀ st, r = some st → c = st.pushCount.sum ∧ c ≤ mainGraph3.n * mainGraph3.n) ∧
    spfaEnqueues 20 mainGraph3 1 = some (none, 10) :=
  ⟨(spfa_terminates mainGraph3 6 1 3 (by decide) (by decide) (by decide)).2.2.2
      ⟨by decide, by decide, by decide⟩,
    (spfa_terminates mainGraph3 6 1 3 (by decide) (by decide) (by decide)).2.1,
    by decide⟩

/-! ## C18 -/

/-- C18 (as stated, refuted): the graph with edges `1 → 3` (`math.MinInt64`)
and `2 → 3` (5) has no cycle at all; the potential loop of `Johnson` finishes
with `h[1] = h[2] = 0` and `h[3] = math.MinInt64`, and the reweighted edge
`2 → 3` gets the `int64` weight `5 + 0 - math.MinInt64`, which wraps around to
`-9223372036854775803`. -/
theorem johnson_reweight_counterexample :
    reweightWrapGraph.WF ∧
    (∀ s, reweightWrapGraph.IsVertex s → ¬ NegCycleFrom reweightWrapGraph s) ∧
    johnsonPotentials reweightWrapGraph =
      some [9223372036854775807, 0, 0, -9223372036854775808, 0] ∧
    Edge.mk 3 (-9223372036854775803) ∈
      (johnsonReweighted reweightWrapGraph
        [9223372036854775807, 0, 0, -9223372036854775808, 0]).adjAt 2 :=
  ⟨by decide,
    fun _ hs => not_negCycleFrom_of_feasible (h := [0, 0, 0, -9223372036854775808])
      (by decide) (by decide) hs,
    by decide, by decide⟩

/-- C18 (amended): on a well-formed graph without negative cycle whose weights
all lie in `[-W, W]` with `(n+1)^2 * (E+n+1) * W < 10^18`, the potential loop
of `Johnson` finishes without reporting a cycle, every potential `h[v]` for
`v` in `[1, n]` differs from `math.MaxInt64` and is at most `0`, every stored
edge `(u, v, w)` satisfies `w + h[u] - h[v] ≥ 0`, and every edge of
`reweightedGraph` has weight `≥ 0`. -/
theorem johnson_reweight_nonneg (g : Graph) (W : Int) (hwf : g.WF) (hsm : JSmall g W)
    (hnc : ∀ s, g.IsVertex s → ¬ NegCycleFrom g s) :
    ∃ h, johnsonPotentials g = some h ∧
      (∀ v, g.IsVertex v → h.getD v.toNat 0 ≠ MaxInt64 ∧ h.getD v.toNat 0 ≤ 0) ∧
      (∀ u, g.IsVertex u → ∀ e ∈ g.adjAt u,
        0 ≤ e.Weight + h.getD u.toNat 0 - h.getD e.To.toNat 0) ∧
      (∀ l ∈ (johnsonReweighted g h).adj, ∀ e ∈ l, 0 ≤ e.Weight) := by
  obtain ⟨h, hp⟩ := johnsonPotentials_total hwf hsm hnc
  obtain ⟨_, hf, hhb⟩ := johnsonPotentials_some hwf hsm hp
  have hM := MaxInt64_val
  refine ⟨h, hp, fun v hv => ⟨by have := (hhb v hv).2; omega, (hhb v hv).2⟩, ?_, ?_⟩
  · intro u hu e he
    have := feasible_edge hf hu he
    omega
  · intro l hl e he
    obtain ⟨h1, h2, _, h4⟩ := johnsonReweighted_spec g h
    obtain ⟨u, hu, hmem⟩ := mem_adj_row0 h4 (by rw [h2, h1]) hl he
    exact johnsonReweighted_nonNeg hwf hsm hf hhb u hu e hmem

theorem johnson_reweight_nonneg_witness :
    ∃ h, johnsonPotentials mainGraph2 = some h ∧
      (∀ v, mainGraph2.IsVertex v → h.getD v.toNat 0 ≠ MaxInt64 ∧ h.getD v.toNat 0 ≤ 0) ∧
      (∀ u, mainGraph2.IsVertex u → ∀ e ∈ mainGraph2.adjAt u,
        0 ≤ e.Weight + h.getD u.toNat 0 - h.getD e.To.toNat 0) ∧
      (∀ l ∈ (johnsonReweighted mainGraph2 h).adj, ∀ e ∈ l, 0 ≤ e.Weight) :=
  johnson_reweight_nonneg mainGraph2 8 (by decide) (by decide)
    (fun _ hs => not_negCycleFrom_of_feasible (h := [0, 0, 3, -5, -3]) (by decide) (by decide) hs)

/-! ## C19 -/

/-- C19 (as stated, refuted): the undirected graph built by `NewGraph(3, false)`,
`AddEdge(1, 2, 10^18)`, `AddEdge(2, 3, -1)` has the negative edge `{2, 3}` and
`2` is reachable from `1`, yet `FindShortestPath(1, 1)` returns `([1], 0, true)`:
`0 + 10^18` is not below the sentinel, so SPFA never enters vertex `2`. -/
theorem undirected_negative_edge_counterexample :
    Built 3 false undirectedSentinelGraph ∧
    Edge.mk 3 (-1) ∈ undirectedSentinelGraph.adjAt 2 ∧
    Reachable undirectedSentinelGraph 1 2 ∧
    undirectedSentinelGraph.IsVertex 1 ∧
    Returns (fun fuel => FindShortestPath fuel undirectedSentinelGraph 1 1) ([1], 0, true) :=
  ⟨Built.add 2 3 (-1)
      (Built.add 1 2 1000000000000000000 Built.new (by decide) (by decide) (by decide)
        (by decide))
      (by decide) (by decide) (by decide) (by decide),
    by decide,
    ⟨1000000000000000000, 1,
      Walk.snoc (v := 1) (w := 0) ⟨2, 1000000000000000000⟩ Walk.nil (by decide)⟩,
    by decide,
    returns_of_mono _ (FindShortestPath_mono undirectedSentinelGraph 1 1) 20 _ (by decide)⟩

/-- C19 (amended): let `g` be an undirected graph built by `NewGraph(n, false)`
and `AddEdge` calls with endpoints in `[1, n]`, with all weights in `[-W, W]`,
`n * W < 10^18` and `((n+1) * n * E + 1) * W < 2^63 - 10^18`.  If a stored edge
`a → b` has weight `< 0` and `a` is reachable from `start`, then the mirror
edge `b → a` is stored too, the two form a negative cycle reachable from
`start`, the loop of SPFA leaves through its negative-cycle exit, and
`FindShortestPath(start, end)` returns `(nil, -1, false)` for every `end` in
`[1, n]`. -/
theorem undirected_negative_edge_fails (n : Nat) (g : Graph) (W : Int) (start end_ a : Int)
    (e : Edge) (hb : Built n false g) (hW : g.WeightsWithin W) (hnW : g.n * W < INF)
    (hbig : ((((g.n + 1) * g.n * g.numEdges + 1 : Nat) : Int)) * W < 2 ^ 63 - INF)
    (hs : g.IsVertex start) (he : g.IsVertex end_) (hedge : e ∈ g.adjAt a)
    (hneg : e.Weight < 0) (hreach : Reachable g start a) :
    Returns (fun fuel => FindShortestPath fuel g start end_) ([], -1, false) ∧
    Edge.mk a e.Weight ∈ g.adjAt e.To ∧ NegCycleFrom g start ∧
    Returns (fun fuel => spfaLoop g fuel (spfaInit g start)) none := by
  obtain ⟨_, _, hwf, _⟩ := built_wf hb
  obtain ⟨w, k, hw⟩ := hreach
  have ha : g.IsVertex a := walk_isVertex hwf hs hw
  have hcyc := built_negative_edge_cycle hb hs hedge hneg ⟨w, k, hw⟩
  have hhas : HasNegativeEdge g = true :=
    (hasNegativeEdge_true_iff g).2 ⟨a, ha, e, hedge, hneg⟩
  refine ⟨?_, built_symmetric hb a ha e hedge, hcyc, spfaLoop_detects hwf hs hW hnW hbig hcyc⟩
  have heq : ∀ fuel, FindShortestPath fuel g start end_ = SPFA fuel g start end_ := by
    intro fuel
    rw [findShortestPath_eq fuel g start end_ hs he, if_pos hhas]
  exact returns_congr heq (spfa_detects end_ hwf hs hW hnW hbig hcyc)

theorem undirected_negative_edge_fails_witness :
    Returns (fun fuel => FindShortestPath fuel (AddEdge (NewGraph 2 false) 1 2 (-1)) 1 2)
      ([], -1, false) ∧
    Edge.mk 1 (-1) ∈ (AddEdge (NewGraph 2 false) 1 2 (-1)).adjAt 2 ∧
    NegCycleFrom (AddEdge (NewGraph 2 false) 1 2 (-1)) 1 ∧
    Returns (fun fuel => spfaLoop (AddEdge (NewGraph 2 false) 1 2 (-1)) fuel
      (spfaInit (AddEdge (NewGraph 2 false) 1 2 (-1)) 1)) none :=
  undirected_negative_edge_fails 2 (AddEdge (NewGraph 2 false) 1 2 (-1)) 1 1 2 1 (Edge.mk 2 (-1))
    (Built.add 1 2 (-1) Built.new (by decide) (by decide) (by decide) (by decide))
    (by decide) (by decide) (by decide) (by decide) (by decide) (by decide) (by decide)
    ⟨0, 0, Walk.nil⟩

/-! ## C20 -/

/-- C20: on every graph built by `NewGraph(n, directed)` and `AddEdge` calls
whose `from` and `to` are in `[1, n]`, for all integers `start` and `end`, the
run of `FindShortestPath` in which every index into `adj`, `dist`, `parent`,
`inQueue`, `pushCount`, the priority queue and the path being reversed is
checked (and in which the heap is popped and the FIFO head is read on
non-empty queues only) never meets
an index out of range: it is out of fuel exactly when the unchecked run is, and
otherwise returns the same result; the same holds for `SPFA` and `Dijkstra`
called with `start` and `end` in `[1, n]`. -/
theorem findShortestPath_index_safe (n : Nat) (directed : Bool) (g : Graph)
    (hb : Built n directed g) (start end_ : Int) (fuel : Nat) :
    FindShortestPathChecked fuel g start end_ ≠ Run.outOfRange ∧
    FindShortestPathChecked fuel g start end_ =
      Run.ofFuel (FindShortestPath fuel g start end_) ∧
    (g.IsVertex start ∧ g.IsVertex end_ →
      SPFAChecked fuel g start end_ = Run.ofFuel (SPFA fuel g start end_) ∧
      DijkstraChecked fuel g start end_ = Run.ofFuel (Dijkstra fuel g start end_)) ∧
    HasNegativeEdgeChecked g = some (HasNegativeEdge g) := by
  obtain ⟨_, _, hwf, _⟩ := built_wf hb
  have heq := findShortestPathChecked_eq hwf start end_ fuel
  refine ⟨?_, heq, fun hv => ⟨spfaChecked_eq hwf hv.1 hv.2 fuel,
    dijkstraChecked_eq hwf hv.1 hv.2 fuel⟩, hasNegativeEdgeChecked_eq g hwf.1⟩
  rw [heq]
  cases FindShortestPath fuel g start end_ with
  | none => intro h; cases h
  | some r => intro h; cases h

theorem findShortestPath_index_safe_witness :
    FindShortestPathChecked 20 mainGraph2 1 4 ≠ Run.outOfRange ∧
    FindShortestPathChecked 20 mainGraph2 1 4 =
      Run.ofFuel (FindShortestPath 20 mainGraph2 1 4) :=
  ⟨(findShortestPath_index_safe 4 true mainGraph2
      (Built.add 3 4 2 (Built.add 1 3 5 (Built.add 2 3 (-8) (Built.add 1 2 3 Built.new
        (by decide) (by decide) (by decide) (by decide))
        (by decide) (by decide) (by decide) (by decide))
        (by decide) (by decide) (by decide) (by decide))
        (by decide) (by decide) (by decide) (by decide)) 1 4 20).1,
    (findShortestPath_index_safe 4 true mainGraph2
      (Built.add 3 4 2 (Built.add 1 3 5 (Built.add 2 3 (-8) (Built.add 1 2 3 Built.new
        (by decide) (by decide) (by decide) (by decide))
        (by decide) (by decide) (by decide) (by decide))
        (by decide) (by decide) (by decide) (by decide))
        (by decide) (by decide) (by decide) (by decide)) 1 4 20).2.1⟩

end ShortestPath
